import Mathlib

/-!
# BalaGray: balanced Gray code search engine

A shallow embedding of `CBalaGray` (BalaGray.cpp) and a verification of the
properties its specification states.

Conventions of the embedding:

* `PLACE` (`uint8_t`) and `SET_CODE` (`uint32_t`) values are natural numbers;
  every store into a `PLACE` reduces modulo 256.
* `int` values are integers; arithmetic that can leave the 32-bit range is
  wrapped by `wrapInt`.
* `NUMERAL` (a union of `PLACE b[MAX_PLACES]` and one 64-bit word) is the list
  of its `MAX_PLACES` bytes; `num.dw = 0` is `zeroNumeral`.
* `std::vector` members are lists; a read is `List.getD` and a write is
  `List.set`.
* Member data lives in the structure `CBalaGray`, which every member function
  takes (and returns when it writes to it).
* The `double` standard deviation `sqrt(fDevSum / nPerms)` is represented by
  the integer `fDevSum` it is computed from (see `StdDev`).
-/

namespace BalaGray

/-! ## Constants and types -/

/-- The constant `MAX_PLACES` (with `MORE_PLACES` non-zero). -/
def MAX_PLACES : Nat := 8

/-- The constant `ULONGLONG_BITS`: number of bits in a 64-bit word. -/
def ULONGLONG_BITS : Nat := 64

/-- The constant `INT_MAX` of a 32-bit `int`. -/
def INT_MAX : Int := 2147483647

/-- The constant `PRUNE_MAXTRANS`. -/
def PRUNE_MAXTRANS : Int := INT_MAX

/-- The constant `PRUNE_IMBALANCE`. -/
def PRUNE_IMBALANCE : Int := 3

/-- The type `NUMERAL`: the array `b[MAX_PLACES]` of places (each a `PLACE`,
that is a `uint8_t`, held as a natural number). -/
abbrev NUMERAL := List Nat

/-- Conversion of an `int` to a `PLACE` (`uint8_t`): reduction modulo 256. -/
def toPLACE (x : Int) : Nat := (x % 256).toNat

/-- Result of 32-bit signed arithmetic: the value wrapped into
`[-2^31, 2^31)`. -/
def wrapInt (x : Int) : Int := (x + 2147483648) % 4294967296 - 2147483648

/-- The numeral with `dw = 0`: all places zero. -/
def zeroNumeral : NUMERAL := List.replicate MAX_PLACES 0

/-- Reading `num.b[iPlace]`. -/
def NUMERAL.b (num : NUMERAL) (iPlace : Nat) : Nat := num.getD iPlace 0

/-- Writing `num.b[iPlace] = v`; the value is converted to a `PLACE`. -/
def NUMERAL.setB (num : NUMERAL) (iPlace : Nat) (v : Nat) : NUMERAL :=
  num.set iPlace (v % 256)

/-- The double `sqrt(fDevSum / nPerms)` computed by `ComputeStdDev` is
represented by the integer `fDevSum`; `none` stands for `DBL_MAX`. Within one
`Calc` the divisor `nPerms` is fixed and `fDevSum < 2^24`, so two such doubles
compare exactly like their sums of squared deviations. -/
abbrev StdDev := Option Nat

/-- The comparison `a >= b` of two standard deviations. -/
def StdDev.ge (a b : StdDev) : Bool :=
  match a, b with
  | none, _ => true
  | some _, none => false
  | some x, some y => decide (y ≤ x)

/-- The struct `STATE`: crawler stack element. -/
structure STATE where
  /-- index into numeral array -/
  iNum : Nat
  /-- index into Gray successor array -/
  iGray : Nat
  /-- transition counts, one per place -/
  nTrans : NUMERAL
  deriving DecidableEq, Repr

/-- A value-initialised `STATE` (what `resize` appends). -/
def STATE.zero : STATE := ⟨0, 0, zeroNumeral⟩

instance : Inhabited STATE := ⟨STATE.zero⟩

/-- The class `CWinner`: info about winning permutation. -/
structure CWinner where
  m_nSetCode : Nat
  m_nPlaces : Int
  m_nBaseSum : Int
  m_nImbalance : Int
  m_nMaxTrans : Int
  m_nMaxSpan : Int
  m_fStdDev : StdDev
  m_bIsProven : Bool
  m_arrNum : List NUMERAL
  deriving DecidableEq, Repr

/-- The constructor `CWinner::CWinner()`. -/
def CWinner.new : CWinner :=
  { m_nSetCode := 0, m_nPlaces := 0, m_nBaseSum := 0, m_nImbalance := 0,
    m_nMaxTrans := 0, m_nMaxSpan := 0, m_fStdDev := some 0, m_bIsProven := false,
    m_arrNum := [] }

/-- Member data of `CBalaGray`. `fOutGood` is `m_fOut.good()`. -/
structure CBalaGray where
  m_nPlaces : Nat
  m_nGraySuccessors : Nat
  m_nGrayStrideShift : Nat
  m_nPruneMaxTrans : Int
  m_nPruneImbalance : Int
  m_arrBase : List Nat
  m_arrNum : List NUMERAL
  m_arrGraySuccessor : List Nat
  m_arrState : List STATE
  fOutGood : Bool
  m_bCancel : Bool
  deriving DecidableEq, Repr

/-- `std::vector::resize` with value-initialised new elements. -/
def resize {α : Type} (l : List α) (n : Nat) (zero : α) : List α :=
  l.take n ++ List.replicate (n - l.length) zero

/-! ## Numeral model -/

/-- `CBalaGray::Reset`. -/
def CBalaGray.Reset (bg : CBalaGray) : CBalaGray :=
  { bg with m_nPlaces := 0, m_arrBase := [], m_arrState := [], m_bCancel := false }

/-- The constructor `CBalaGray::CBalaGray`; `fOutGood` tells whether the
output file could be opened. Vectors start empty. -/
def CBalaGray.new (fOutGood : Bool) : CBalaGray :=
  { m_nPlaces := 0, m_nGraySuccessors := 0, m_nGrayStrideShift := 0,
    m_nPruneMaxTrans := PRUNE_MAXTRANS, m_nPruneImbalance := PRUNE_IMBALANCE,
    m_arrBase := [], m_arrNum := [], m_arrGraySuccessor := [], m_arrState := [],
    fOutGood := fOutGood, m_bCancel := false }

/-- `CBalaGray::SetPruneMaxTrans`. -/
def CBalaGray.SetPruneMaxTrans (bg : CBalaGray) (nThreshold : Int) : CBalaGray :=
  { bg with m_nPruneMaxTrans := nThreshold }

/-- `CBalaGray::SetPruneImbalance`. -/
def CBalaGray.SetPruneImbalance (bg : CBalaGray) (nThreshold : Int) : CBalaGray :=
  { bg with m_nPruneImbalance := nThreshold }

/-- The loop of `Pack`: `n` is `iPlace + 1`, the places `n-1, ..., 0` remain. -/
def packLoop (m_arrBase : List Nat) (num : NUMERAL) : Nat → Int → Int
  | 0, iNumeral => iNumeral
  | iPlace + 1, iNumeral =>
    packLoop m_arrBase num iPlace
      (wrapInt (wrapInt (iNumeral * (m_arrBase.getD iPlace 0 : Nat)) + (num.b iPlace : Nat)))

/-- `CBalaGray::Pack`: numeral to numeral index. -/
def CBalaGray.Pack (bg : CBalaGray) (num : NUMERAL) : Int :=
  packLoop bg.m_arrBase num (bg.m_nPlaces - 1) (num.b (bg.m_nPlaces - 1) : Nat)

/-- The loop of `Unpack`: `n` places remain, starting at `iPlace`. -/
def unpackLoop (m_arrBase : List Nat) : Nat → Nat → Int → NUMERAL → NUMERAL
  | 0, _, _, num => num
  | n + 1, iPlace, iNumeral, num =>
    let nBase : Int := (m_arrBase.getD iPlace 0 : Nat)
    unpackLoop m_arrBase n (iPlace + 1) (Int.tdiv iNumeral nBase)
      (num.set iPlace (toPLACE (Int.tmod iNumeral nBase)))

/-- `CBalaGray::Unpack`: numeral index to numeral. -/
def CBalaGray.Unpack (bg : CBalaGray) (iNumeral : Int) : NUMERAL :=
  unpackLoop bg.m_arrBase bg.m_nPlaces 0 iNumeral zeroNumeral

/-- The `while` loop of `GetBases`. The result's first component tells whether
the loop left through `return 0` (too many places). At most `MAX_PLACES + 1`
iterations run, which is the fuel `GetBases` passes. -/
def getBasesScan : Nat → Nat → Nat → NUMERAL → Bool × Nat × NUMERAL
  | 0, _, nPlaces, arrBase => (true, nPlaces, arrBase)
  | fuel + 1, nSetCode, nPlaces, arrBase =>
    if nSetCode = 0 then (false, nPlaces, arrBase)
    else if nPlaces ≥ MAX_PLACES then (true, nPlaces, arrBase)
    else getBasesScan fuel (nSetCode >>> 4) (nPlaces + 1)
      (arrBase.setB nPlaces (nSetCode &&& 0xf))

/-- The reversing `for` loop of `GetBases`: `n` iterations remain, starting at
`iPlace`. -/
def getBasesReverse (nPlaces : Nat) : Nat → Nat → NUMERAL → NUMERAL
  | 0, _, arrBase => arrBase
  | n + 1, iPlace, arrBase =>
    let tmp := arrBase.b iPlace
    let arrBase := arrBase.setB iPlace (arrBase.b (nPlaces - 1 - iPlace))
    let arrBase := arrBase.setB (nPlaces - 1 - iPlace) tmp
    getBasesReverse nPlaces n (iPlace + 1) arrBase

/-- `CBalaGray::GetBases`: returns the place count (zero on error) and the
base array. -/
def GetBases (nSetCode : Nat) : Nat × NUMERAL :=
  match getBasesScan (MAX_PLACES + 1) nSetCode 0 zeroNumeral with
  | (true, _, arrBase) => (0, arrBase)
  | (false, nPlaces, arrBase) =>
    (nPlaces, getBasesReverse nPlaces (nPlaces / 2) 0 arrBase)

/-- The first loop of `MakeNumerals` (store bases, accumulate the numeral
count in an `int`): `n` places remain, starting at `iPlace`. The first
component is false when the loop left through "radix too small". -/
def makeNumeralsLoop (parrBase : List Nat) :
    Nat → Nat → List Nat → Int → Bool × List Nat × Int
  | 0, _, arrBase, nNums => (true, arrBase, nNums)
  | n + 1, iPlace, arrBase, nNums =>
    if parrBase.getD iPlace 0 < 2 then (false, arrBase, nNums)
    else makeNumeralsLoop parrBase n (iPlace + 1)
      (arrBase.set iPlace (parrBase.getD iPlace 0))
      (wrapInt (nNums * (parrBase.getD iPlace 0 : Nat)))

/-- `CBalaGray::MakeNumerals`. The result is `none` when `m_arrNum.resize`
is asked for a negative count (the conversion to `size_t` exceeds the vector's
maximum size, so `resize` throws); otherwise the returned flag and the
updated object. -/
def CBalaGray.MakeNumerals (bg : CBalaGray) (nPlaces : Nat) (parrBase : List Nat) :
    Option (Bool × CBalaGray) :=
  let bg := { bg with m_nPlaces := nPlaces, m_arrBase := resize bg.m_arrBase nPlaces 0 }
  match makeNumeralsLoop parrBase nPlaces 0 bg.m_arrBase 1 with
  | (false, arrBase, _) => some (false, { bg with m_arrBase := arrBase })
  | (true, arrBase, nNums) =>
    let bg := { bg with m_arrBase := arrBase }
    if nNums > (ULONGLONG_BITS * 2 - 1 : Nat) then some (false, bg)
    else if nNums < 0 then none
    else
      let arrNum := (List.range nNums.toNat).foldl
        (fun arr iNum => arr.set iNum (bg.Unpack iNum))
        (resize bg.m_arrNum nNums.toNat zeroNumeral)
      some (true, { bg with m_arrNum := arrNum })

/-- `CBalaGray::GetNumeralCount`. -/
def CBalaGray.GetNumeralCount (bg : CBalaGray) : Nat := bg.m_arrNum.length

/-- Body of the innermost loop of `MakeGraySuccessorTable` (one value `iVal`
of place `iPlace`); the state is the table and the column `iCol`. -/
def graySuccValStep (bg : CBalaGray) (nStrideShift iNum : Nat) (rowNum : NUMERAL)
    (iPlace : Nat) (st : List Nat × Nat) (iVal : Nat) : List Nat × Nat :=
  if iVal ≠ rowNum.b iPlace then
    let colNum := rowNum.setB iPlace iVal
    (st.1.set ((iNum <<< nStrideShift) + st.2) (toPLACE (bg.Pack colNum)), st.2 + 1)
  else st

/-- Body of the loop over places of `MakeGraySuccessorTable`. -/
def graySuccPlaceStep (bg : CBalaGray) (nStrideShift iNum : Nat) (rowNum : NUMERAL)
    (st : List Nat × Nat) (iPlace : Nat) : List Nat × Nat :=
  (List.range (bg.m_arrBase.getD iPlace 0)).foldl
    (graySuccValStep bg nStrideShift iNum rowNum iPlace) st

/-- Body of the loop over numerals of `MakeGraySuccessorTable`: fills row
`iNum`. -/
def graySuccRowStep (bg : CBalaGray) (nStrideShift : Nat) (table : List Nat)
    (iNum : Nat) : List Nat :=
  ((List.range bg.m_nPlaces).foldl
    (graySuccPlaceStep bg nStrideShift iNum (bg.m_arrNum.getD iNum zeroNumeral))
    (table, 0)).1

/-- The successor count computed by `MakeGraySuccessorTable`. -/
def graySuccessorCount (bg : CBalaGray) : Nat :=
  (List.range bg.m_nPlaces).foldl (fun n iPlace => n + (bg.m_arrBase.getD iPlace 0 - 1)) 0

/-- The search of `_BitScanReverse` for the highest set bit: `fuel` is the
number of bit positions still to examine. -/
def bitScanLoop : Nat → Nat → Nat
  | 0, _ => 0
  | fuel + 1, mask => if 2 ≤ mask then bitScanLoop fuel (mask / 2) + 1 else 0

/-- The intrinsic `_BitScanReverse` on a 32-bit mask: the position of its
highest set bit (the position is unspecified for a zero mask; here 0). -/
def bitScanReverse (mask : Nat) : Nat := bitScanLoop 32 mask

/-- The value `nStrideShift` computed by `MakeGraySuccessorTable`:
`_BitScanReverse` gives the position of the highest set bit of
`nGraySuccessors - 1`, and the shift is `1 << iFirstBitPos`. -/
def grayStrideShift (nGraySuccessors : Nat) : Nat :=
  1 <<< bitScanReverse (nGraySuccessors - 1)

/-- `CBalaGray::MakeGraySuccessorTable`. The shifts are those of unbounded
integers and the allocation of the table succeeds; this is what the code
does as long as the shift count is below 32 (`K <= 32`). With a larger shift
count the allocation fails in the code: see `CBalaGray.tableAllocFails` and
`CBalaGray.CalcAlloc`. -/
def CBalaGray.MakeGraySuccessorTable (bg : CBalaGray) : CBalaGray :=
  let nGraySuccessors := graySuccessorCount bg
  let nStrideShift := grayStrideShift nGraySuccessors
  let table := resize bg.m_arrGraySuccessor (bg.m_arrNum.length <<< nStrideShift) 0
  let nNums := bg.GetNumeralCount
  let table := (List.range nNums).foldl (graySuccRowStep bg nStrideShift) table
  { bg with m_arrGraySuccessor := table, m_nGraySuccessors := nGraySuccessors,
            m_nGrayStrideShift := nStrideShift }

/-- The loop of `IsGray`: `n` places remain, starting at `iPlace`. -/
def isGrayLoop (num1 num2 : NUMERAL) : Nat → Nat → Bool → Bool
  | 0, _, bDiff => bDiff
  | n + 1, iPlace, bDiff =>
    if num1.b iPlace ≠ num2.b iPlace then
      if !bDiff then isGrayLoop num1 num2 n (iPlace + 1) true
      else false
    else isGrayLoop num1 num2 n (iPlace + 1) bDiff

/-- `CBalaGray::IsGray`: true if the numerals differ by exactly one place. -/
def CBalaGray.IsGray (bg : CBalaGray) (num1 num2 : NUMERAL) : Bool :=
  isGrayLoop num1 num2 bg.m_nPlaces 0 false

/-- Reading `m_arrState[i]`. -/
def CBalaGray.state (bg : CBalaGray) (i : Nat) : STATE := bg.m_arrState.getD i STATE.zero

/-- Reading `m_arrNum[i]`. -/
def CBalaGray.num (bg : CBalaGray) (i : Nat) : NUMERAL := bg.m_arrNum.getD i zeroNumeral

/-- Reading `m_arrNum[m_arrState[i].iNum]`. -/
def CBalaGray.stateNum (bg : CBalaGray) (i : Nat) : NUMERAL := bg.num (bg.state i).iNum

/-- Loop body shared by the two counting loops of `ComputeBalance`:
increment the place's transition count if `bTrans`. -/
def incTrans (nTrans : NUMERAL) (iPlace : Nat) (bTrans : Bool) : NUMERAL :=
  if bTrans then nTrans.setB iPlace (nTrans.b iPlace + 1) else nTrans

/-- `CBalaGray::ComputeBalance`: returns the imbalance, `nMaxTrans` and
`nTransCounts`. -/
def CBalaGray.ComputeBalance (bg : CBalaGray) (iDepth : Nat) : Int × Int × NUMERAL :=
  let nPlaces := bg.m_nPlaces
  let nTrans := (bg.state (iDepth - 1)).nTrans
  let sPrev := bg.stateNum (iDepth - 1)
  let sCur := bg.stateNum iDepth
  let nTrans := (List.range nPlaces).foldl
    (fun nTrans iPlace => incTrans nTrans iPlace (sCur.b iPlace != sPrev.b iPlace)) nTrans
  let nTransCounts := nTrans
  let nTrans := (List.range nPlaces).foldl
    (fun nTrans iPlace => incTrans nTrans iPlace (sCur.b iPlace != 0)) nTrans
  let mm := (List.range' 1 (nPlaces - 1)).foldl
    (fun (mm : Nat × Nat) iPlace =>
      let n := nTrans.b iPlace
      (if n < mm.1 then n else mm.1, if n > mm.2 then n else mm.2))
    (nTrans.b 0, nTrans.b 0)
  ((mm.2 : Int) - (mm.1 : Int), (mm.2 : Int), nTransCounts)

/-- Local arrays of the span scans: `arrSpan`, `arrFirstSpan`, and the
accumulators `nMaxSpan` (used by `ComputeMaxSpan`) and `fDevSum` (used by
`ComputeStdDev`). Only the first `m_nPlaces` entries of the arrays are ever
initialised or accessed, and only those are represented. -/
structure SpanScan where
  arrSpan : List Int
  arrFirstSpan : List Int
  nMaxSpan : Int
  fDevSum : Int
  deriving DecidableEq, Repr

/-- State of both span scans after their initialisation loop. -/
def SpanScan.init (nPlaces : Nat) : SpanScan :=
  { arrSpan := List.replicate nPlaces 1, arrFirstSpan := List.replicate nPlaces 0,
    nMaxSpan := 1, fDevSum := 0 }

/-- Body of the loop over places in the forward scan of `ComputeMaxSpan`. -/
def maxSpanPlaceStep (s sPrev : NUMERAL) (sc : SpanScan) (iPlace : Nat) : SpanScan :=
  if s.b iPlace ≠ sPrev.b iPlace then
    let sc := if sc.arrSpan.getD iPlace 0 > sc.nMaxSpan
      then { sc with nMaxSpan := sc.arrSpan.getD iPlace 0 } else sc
    let sc := if sc.arrFirstSpan.getD iPlace 0 = 0
      then { sc with arrFirstSpan := sc.arrFirstSpan.set iPlace (sc.arrSpan.getD iPlace 0) }
      else sc
    { sc with arrSpan := sc.arrSpan.set iPlace 1 }
  else
    { sc with arrSpan := sc.arrSpan.set iPlace (sc.arrSpan.getD iPlace 0 + 1) }

/-- Body of the wrap-around loop of `ComputeMaxSpan`. -/
def maxSpanWrapStep (sFirst sPrev : NUMERAL) (sc : SpanScan) (iPlace : Nat) : SpanScan :=
  if sFirst.b iPlace ≠ sPrev.b iPlace then
    if sc.arrSpan.getD iPlace 0 > sc.nMaxSpan
      then { sc with nMaxSpan := sc.arrSpan.getD iPlace 0 } else sc
  else
    let nWrapped := sc.arrSpan.getD iPlace 0 + sc.arrFirstSpan.getD iPlace 0
    let sc := { sc with arrSpan := sc.arrSpan.set iPlace nWrapped }
    if sc.arrSpan.getD iPlace 0 > sc.nMaxSpan
    then { sc with nMaxSpan := sc.arrSpan.getD iPlace 0 } else sc

/-- `CBalaGray::ComputeMaxSpan`. The forward loop visits the states
`1, ..., iDepth`; its state carries `sPrev`. -/
def CBalaGray.ComputeMaxSpan (bg : CBalaGray) (iDepth : Nat) : Int :=
  let nPlaces := bg.m_nPlaces
  let sFirst := bg.stateNum 0
  let fwd := (List.range' 1 iDepth).foldl
    (fun (acc : SpanScan × NUMERAL) iState =>
      let s := bg.stateNum iState
      ((List.range nPlaces).foldl (maxSpanPlaceStep s acc.2) acc.1, s))
    (SpanScan.init nPlaces, sFirst)
  ((List.range nPlaces).foldl (maxSpanWrapStep sFirst fwd.2) fwd.1).nMaxSpan

/-- `CBalaGray::CalcDeviance`: squared deviation from the mean. -/
def CBalaGray.CalcDeviance (bg : CBalaGray) (nSamp : Int) : Int :=
  let nDev := nSamp - (bg.m_nPlaces : Int)
  nDev * nDev

/-- Body of the loop over places in the forward scan of `ComputeStdDev`. -/
def stdDevPlaceStep (bg : CBalaGray) (s sPrev : NUMERAL) (sc : SpanScan) (iPlace : Nat) :
    SpanScan :=
  if s.b iPlace ≠ sPrev.b iPlace then
    let sc := if sc.arrFirstSpan.getD iPlace 0 = 0
      then { sc with arrFirstSpan := sc.arrFirstSpan.set iPlace (sc.arrSpan.getD iPlace 0) }
      else { sc with fDevSum := sc.fDevSum + bg.CalcDeviance (sc.arrSpan.getD iPlace 0) }
    { sc with arrSpan := sc.arrSpan.set iPlace 1 }
  else
    { sc with arrSpan := sc.arrSpan.set iPlace (sc.arrSpan.getD iPlace 0 + 1) }

/-- Body of the wrap-around loop of `ComputeStdDev`. -/
def stdDevWrapStep (bg : CBalaGray) (sFirst sPrev : NUMERAL) (sc : SpanScan) (iPlace : Nat) :
    SpanScan :=
  let nWrapped := sc.arrFirstSpan.getD iPlace 0 + sc.arrSpan.getD iPlace 0
  let sc := if sFirst.b iPlace ≠ sPrev.b iPlace
    then { sc with fDevSum := sc.fDevSum + bg.CalcDeviance (sc.arrSpan.getD iPlace 0) }
    else { sc with arrFirstSpan := sc.arrFirstSpan.set iPlace nWrapped }
  { sc with fDevSum := sc.fDevSum + bg.CalcDeviance (sc.arrFirstSpan.getD iPlace 0) }

/-- The sum `fDevSum` of squared deviations that `ComputeStdDev` has
accumulated when it divides by `nPerms` and takes the square root. -/
def CBalaGray.stdDevSum (bg : CBalaGray) : Int :=
  let nPlaces := bg.m_nPlaces
  let sFirst := bg.stateNum 0
  let nPerms := bg.m_arrState.length
  let fwd := (List.range' 1 (nPerms - 1)).foldl
    (fun (acc : SpanScan × NUMERAL) iPerm =>
      let s := bg.stateNum iPerm
      ((List.range nPlaces).foldl (stdDevPlaceStep bg s acc.2) acc.1, s))
    (SpanScan.init nPlaces, sFirst)
  ((List.range nPlaces).foldl (stdDevWrapStep bg sFirst fwd.2) fwd.1).fDevSum

/-- `CBalaGray::ComputeStdDev`, as the sum it is the square root of the mean
of (see `StdDev`). -/
def CBalaGray.ComputeStdDev (bg : CBalaGray) : StdDev := some bg.stdDevSum.toNat

/-! ## Crawler -/

/-- Locals of `Calc` that stay fixed during the crawl loop. -/
structure CalcConsts where
  nGraySuccessors : Nat
  nGrayStrideShift : Nat
  nNumerals : Nat
  nStartDepth : Nat
  nGrayWrapMask : Nat
  deriving DecidableEq, Repr

/-- Locals of `Calc` that change during the crawl loop. The two words of
`nNumeralUsedMask` are `nNumeralUsedMask0` and `nNumeralUsedMask1`. -/
structure CalcLocals where
  iDepth : Nat
  nNumeralUsedMask0 : Nat
  nNumeralUsedMask1 : Nat
  nBestImbalance : Int
  nBestMaxTrans : Int
  nBestMaxSpan : Int
  fBestStdDev : StdDev
  m_arrBestPerm : List Nat
  deriving DecidableEq, Repr

/-- Reading `nNumeralUsedMask[iUsedMask]`. -/
def CalcLocals.usedMask (loc : CalcLocals) (iUsedMask : Nat) : Nat :=
  if iUsedMask = 0 then loc.nNumeralUsedMask0 else loc.nNumeralUsedMask1

/-- Writing `nNumeralUsedMask[iUsedMask]`. -/
def CalcLocals.setUsedMask (loc : CalcLocals) (iUsedMask : Nat) (v : Nat) : CalcLocals :=
  if iUsedMask = 0 then { loc with nNumeralUsedMask0 := v }
  else { loc with nNumeralUsedMask1 := v }

/-- Writing `m_arrState[i]`. -/
def CBalaGray.setState (bg : CBalaGray) (i : Nat) (st : STATE) : CBalaGray :=
  { bg with m_arrState := bg.m_arrState.set i st }

/-- The word index `iNum >= ULONGLONG_BITS` of a numeral in the used mask. -/
def usedMaskIndex (iNum : Nat) : Nat := if iNum ≥ ULONGLONG_BITS then 1 else 0

/-- The bit `1ull << (iNum & (ULONGLONG_BITS - 1))` of a numeral in its word
of the used mask. -/
def numeralMask (iNum : Nat) : Nat := 1 <<< (iNum &&& (ULONGLONG_BITS - 1))

/-- The code at `lblPrune`, entered at depth `iDepth`: leave the main loop if
the start depth is reached, else back up one level, free its numeral, advance
its column and continue backing up while no successors remain. The last
component tells whether the main loop is left (`break`). -/
def lblPrune (c : CalcConsts) : Nat → CBalaGray → CalcLocals → CBalaGray × CalcLocals × Bool
  | 0, bg, loc => (bg, { loc with iDepth := 0 }, true)
  | d + 1, bg, loc =>
    if d + 1 ≤ c.nStartDepth then (bg, { loc with iDepth := d + 1 }, true)
    else
      let iNum := (bg.state d).iNum
      let iUsedMask := usedMaskIndex iNum
      let nNumeralMask := numeralMask iNum
      let loc := loc.setUsedMask iUsedMask
        (loc.usedMask iUsedMask &&& (0xFFFFFFFFFFFFFFFF ^^^ nNumeralMask))
      let iGray := ((bg.state d).iGray + 1) % 256
      let bg := bg.setState d { bg.state d with iGray := iGray }
      if iGray ≥ c.nGraySuccessors then lblPrune c d bg loc
      else (bg, { loc with iDepth := d }, false)

/-- The end of the loop body: increment the column of the current depth and
go to `lblPrune` if no Gray successors remain. -/
def crawlAdvance (c : CalcConsts) (bg : CBalaGray) (loc : CalcLocals) :
    CBalaGray × CalcLocals × Bool :=
  let iDepth := loc.iDepth
  let iGray := ((bg.state iDepth).iGray + 1) % 256
  let bg := bg.setState iDepth { bg.state iDepth with iGray := iGray }
  if iGray ≥ c.nGraySuccessors then lblPrune c iDepth bg loc
  else (bg, loc, false)

/-- The objective tests made at a leaf (`OPT_STD_DEV == 1`): true when none of
the three tests jumps to `lblPrune`, so that the candidate is recorded as the
new best. -/
def leafRecords (nBestMaxTrans nBestImbalance nBestMaxSpan : Int) (fBestStdDev : StdDev)
    (nMaxTrans nImbalance nMaxSpan : Int) (fStdDev : StdDev) : Bool :=
  if nMaxTrans > nBestMaxTrans ∨ nImbalance > nBestImbalance then false
  else if (nMaxTrans = nBestMaxTrans ∧ nImbalance = nBestImbalance)
      ∧ nMaxSpan > nBestMaxSpan then false
  else if (nMaxTrans = nBestMaxTrans ∧ nImbalance = nBestImbalance
      ∧ nMaxSpan = nBestMaxSpan) ∧ fStdDev.ge fBestStdDev = true then false
  else true

/-- One iteration of the crawl loop of `Calc` (the body of
`while (!m_bCancel)`). The last component tells whether the loop is left. -/
def crawlStep (c : CalcConsts) (bg : CBalaGray) (loc : CalcLocals) :
    CBalaGray × CalcLocals × Bool :=
  let iDepth := loc.iDepth
  let iPrevNum := (bg.state (iDepth - 1)).iNum
  let iGray := (bg.state iDepth).iGray
  let iNum := bg.m_arrGraySuccessor.getD ((iPrevNum <<< c.nGrayStrideShift) + iGray) 0
  let iUsedMask := usedMaskIndex iNum
  let nNumeralMask := numeralMask iNum
  if loc.usedMask iUsedMask &&& nNumeralMask = 0
      ∧ loc.usedMask 0 &&& c.nGrayWrapMask ≠ c.nGrayWrapMask then
    let bg := bg.setState iDepth { bg.state iDepth with iNum := iNum }
    let bal := bg.ComputeBalance iDepth
    let nImbalance := bal.1
    let nMaxTrans := bal.2.1
    let nTransCounts := bal.2.2
    if (iDepth : Int) < (c.nNumerals : Int) - 1 then
      if nMaxTrans > bg.m_nPruneMaxTrans ∨ nImbalance > bg.m_nPruneImbalance then
        lblPrune c iDepth bg loc
      else
        let loc := loc.setUsedMask iUsedMask (loc.usedMask iUsedMask ||| nNumeralMask)
        let bg := bg.setState iDepth { bg.state iDepth with nTrans := nTransCounts }
        let iDepth := iDepth + 1
        let bg := bg.setState iDepth { bg.state iDepth with iGray := 0, iNum := 0 }
        (bg, { loc with iDepth := iDepth }, false)
    else
      let nMaxSpan := bg.ComputeMaxSpan iDepth
      let fStdDev := bg.ComputeStdDev
      if leafRecords loc.nBestMaxTrans loc.nBestImbalance loc.nBestMaxSpan loc.fBestStdDev
          nMaxTrans nImbalance nMaxSpan fStdDev then
        let arrBestPerm := (List.range c.nNumerals).foldl
          (fun arr iNum => arr.set iNum (bg.state iNum).iNum) loc.m_arrBestPerm
        let loc := { loc with nBestMaxTrans := nMaxTrans, nBestImbalance := nImbalance,
                              nBestMaxSpan := nMaxSpan, fBestStdDev := fStdDev,
                              m_arrBestPerm := arrBestPerm }
        crawlAdvance c bg loc
      else lblPrune c iDepth bg loc
  else crawlAdvance c bg loc

/-- The cancel flag as the crawl sees it: `Cancel()` is called from another
thread at some moment, after which every read of `m_bCancel` gives true.
`cancelAt = some n` means that the first `n` reads made by `Calc` after its
`Reset` find the flag clear and all later reads find it set; `none` means
that `Cancel()` is not called while `Calc` runs. -/
def cancelRequested (cancelAt : Option Nat) (nReads : Nat) : Bool :=
  match cancelAt with
  | none => false
  | some n => decide (n ≤ nReads)

/-- The crawl loop `while (!m_bCancel) ...` of `Calc`, run for at most `fuel`
iterations; `nReads` counts the reads of the cancel flag made so far. The
result is `none` when the loop is still running after `fuel` iterations, else
the state in which the loop is left and the number of reads made. -/
def crawlLoop (c : CalcConsts) (cancelAt : Option Nat) :
    Nat → Nat → CBalaGray → CalcLocals → Option (CBalaGray × CalcLocals × Nat)
  | 0, _, _, _ => none
  | fuel + 1, nReads, bg, loc =>
    if cancelRequested cancelAt nReads then some (bg, loc, nReads + 1)
    else
      match crawlStep c bg loc with
      | (bg, loc, true) => some (bg, loc, nReads + 1)
      | (bg, loc, false) => crawlLoop c cancelAt fuel (nReads + 1) bg loc

/-- The wrap mask loop of `Calc`: `n` successors of the origin remain,
starting at `iOrgSucc`; `none` when a shift is too big (`return false`). -/
def wrapMaskLoop (table : List Nat) : Nat → Nat → Nat → Option Nat
  | 0, _, nGrayWrapMask => some nGrayWrapMask
  | n + 1, iOrgSucc, nGrayWrapMask =>
    let nShift := table.getD iOrgSucc 0
    if nShift ≥ ULONGLONG_BITS then none
    else wrapMaskLoop table n (iOrgSucc + 1) (nGrayWrapMask ||| (1 <<< nShift))

/-- How a call of `Calc` ends. -/
inductive CalcResult where
  /-- `Calc` returned `ok`, leaving the object and the winner as given -/
  | returned (ok : Bool) (bg : CBalaGray) (seqWinner : CWinner)
  /-- an exception thrown by `std::vector::resize` left `Calc` -/
  | threw
  /-- the crawl loop was still running when the fuel ran out -/
  | running
  deriving DecidableEq, Repr

/-- `CBalaGray::Calc`. `fuel` bounds the number of crawl iterations modelled
and `cancelAt` tells when another thread calls `Cancel()` (see
`cancelRequested`). The successor table is built by `MakeGraySuccessorTable`
as modelled there, without a failure of its allocation;
`CBalaGray.CalcAlloc` is the call with that failure. -/
def CBalaGray.Calc (bg : CBalaGray) (fuel : Nat) (cancelAt : Option Nat)
    (nPlaces : Int) (parrBase : List Nat) (seqWinner : CWinner) : CalcResult :=
  if nPlaces < 2 ∨ nPlaces > (MAX_PLACES : Nat) then .returned false bg seqWinner
  else if !bg.fOutGood then .returned false bg seqWinner
  else
    let bg := bg.Reset
    match bg.MakeNumerals nPlaces.toNat parrBase with
    | none => .threw
    | some (false, bg) => .returned false bg seqWinner
    | some (true, bg) =>
      let bg := bg.MakeGraySuccessorTable
      let nGraySuccessors := bg.m_nGraySuccessors
      let nGrayStrideShift := bg.m_nGrayStrideShift
      let nNumerals := bg.GetNumeralCount
      let arrBestPerm : List Nat := resize [] nNumerals 0
      let bg := { bg with m_arrState := resize bg.m_arrState nNumerals STATE.zero }
      match wrapMaskLoop bg.m_arrGraySuccessor bg.m_nGraySuccessors 0 0 with
      | none => .returned false bg seqWinner
      | some nGrayWrapMask =>
        let iDepth := 2
        let bg := bg.setState 1 { bg.state 1 with iNum := 1 }
        let bg := bg.setState 1 { bg.state 1 with nTrans := (bg.state 1).nTrans.setB 0 1 }
        let c : CalcConsts :=
          { nGraySuccessors := nGraySuccessors, nGrayStrideShift := nGrayStrideShift,
            nNumerals := nNumerals, nStartDepth := iDepth, nGrayWrapMask := nGrayWrapMask }
        let loc : CalcLocals :=
          { iDepth := iDepth, nNumeralUsedMask0 := 0x3, nNumeralUsedMask1 := 0,
            nBestImbalance := INT_MAX, nBestMaxTrans := INT_MAX, nBestMaxSpan := INT_MAX,
            fBestStdDev := none, m_arrBestPerm := arrBestPerm }
        match crawlLoop c cancelAt fuel 0 bg loc with
        | none => .running
        | some (bg, loc, nReads) =>
          let nBaseSum : Int := (List.range nPlaces.toNat).foldl
            (fun n iPlace => n + (parrBase.getD iPlace 0 : Nat)) 0
          let bCancel := cancelRequested cancelAt nReads
          let arrNum := (List.range nNumerals).foldl
            (fun arr iNum => arr.set iNum (bg.num (loc.m_arrBestPerm.getD iNum 0)))
            (resize seqWinner.m_arrNum nNumerals zeroNumeral)
          .returned true { bg with m_bCancel := bCancel }
            { seqWinner with
              m_nPlaces := nPlaces, m_nBaseSum := nBaseSum,
              m_nImbalance := loc.nBestImbalance, m_nMaxTrans := loc.nBestMaxTrans,
              m_nMaxSpan := loc.nBestMaxSpan, m_fStdDev := loc.fBestStdDev,
              m_bIsProven := !bCancel, m_arrNum := arrNum }

/-- `CBalaGray::CalcFromCode`. -/
def CBalaGray.CalcFromCode (bg : CBalaGray) (fuel : Nat) (cancelAt : Option Nat)
    (nSetCode : Nat) (seqWinner : CWinner) : CalcResult :=
  let seqWinner := { seqWinner with m_nSetCode := nSetCode }
  let gb := GetBases nSetCode
  bg.Calc fuel cancelAt gb.1 gb.2 seqWinner

/-! ## Specification-side definitions -/

/-- The weight of place `k` in the packed representation: `b_0 * ... * b_{k-1}`. -/
def placeWeight (B : List Nat) (k : Nat) : Nat := ∏ j in Finset.range k, B.getD j 0

/-- The mixed-radix value `d_0 + d_1*b_0 + d_2*b_0*b_1 + ...` of the first `P`
places of a numeral (least significant place first). -/
def mixedRadixValue (B : List Nat) (d : NUMERAL) (P : Nat) : Nat :=
  ∑ k in Finset.range P, d.b k * placeWeight B k

/-- The number `N` of numerals of an object's radix vector: the product of
its bases. -/
def CBalaGray.radixProduct (bg : CBalaGray) : Nat := placeWeight bg.m_arrBase bg.m_nPlaces

/-- The object holds a radix vector: between one and `MAX_PLACES` places, every
base at least two (and a `PLACE`, so at most 255), and a numeral count that an
`int` can hold. -/
def CBalaGray.RadixOK (bg : CBalaGray) : Prop :=
  1 ≤ bg.m_nPlaces ∧ bg.m_nPlaces ≤ MAX_PLACES ∧
  (∀ p < bg.m_nPlaces, 2 ≤ bg.m_arrBase.getD p 0 ∧ bg.m_arrBase.getD p 0 ≤ 255) ∧
  (bg.radixProduct : Int) ≤ INT_MAX

instance (bg : CBalaGray) : Decidable bg.RadixOK := by
  unfold CBalaGray.RadixOK; infer_instance

/-- A numeral is in range for the object's radix vector: it has `MAX_PLACES`
places, each used place is below its base and the unused places are zero. -/
def CBalaGray.InRange (bg : CBalaGray) (d : NUMERAL) : Prop :=
  d.length = MAX_PLACES ∧ (∀ p < bg.m_nPlaces, d.b p < bg.m_arrBase.getD p 0) ∧
  (∀ p < MAX_PLACES, bg.m_nPlaces ≤ p → d.b p = 0)

instance (bg : CBalaGray) (d : NUMERAL) : Decidable (bg.InRange d) := by
  unfold CBalaGray.InRange; infer_instance

/-- The input of `Calc` passes the checks of `Calc` and `MakeNumerals`:
between two and `MAX_PLACES` places, every base at least two (and a `PLACE`,
so at most 255) and at most 127 numerals. -/
def ValidRadix (nPlaces : Nat) (parrBase : List Nat) : Prop :=
  2 ≤ nPlaces ∧ nPlaces ≤ MAX_PLACES ∧
  (∀ p < nPlaces, 2 ≤ parrBase.getD p 0 ∧ parrBase.getD p 0 ≤ 255) ∧
  placeWeight parrBase nPlaces ≤ 127

instance (nPlaces : Nat) (parrBase : List Nat) : Decidable (ValidRadix nPlaces parrBase) := by
  unfold ValidRadix; infer_instance

/-- The first `nPlaces` bases of the array passed to `Calc`. -/
def firstBases (nPlaces : Nat) (parrBase : List Nat) : List Nat :=
  (List.range nPlaces).map (fun p => parrBase.getD p 0)

/-- The object as `MakeNumerals` leaves it on a valid radix vector. -/
def CBalaGray.withNumerals (bg : CBalaGray) (nPlaces : Nat) (parrBase : List Nat) : CBalaGray :=
  { bg with
    m_nPlaces := nPlaces, m_arrBase := firstBases nPlaces parrBase,
    m_arrNum := (List.range (placeWeight parrBase nPlaces)).map
      (fun (i : Nat) => unpackLoop (firstBases nPlaces parrBase) nPlaces 0 (i : Int) zeroNumeral) }

/-- An object holding the radix vector (2, 3, 4) of set code 0x234. -/
def exampleObject234 : CBalaGray :=
  { CBalaGray.new true with m_nPlaces := 3, m_arrBase := [2, 3, 4] }

/-- The first `m_nGraySuccessors` entries of row `i` of the successor table,
read the way the crawler addresses it: `(i << stride shift) + column`. -/
def CBalaGray.tableRow (bg : CBalaGray) (i : Nat) : List Nat :=
  (List.range bg.m_nGraySuccessors).map
    (fun c => bg.m_arrGraySuccessor.getD ((i <<< bg.m_nGrayStrideShift) + c) 0)

/-- The row order policy of the successor table: for each place `p` in
ascending order and each value `v` below the base of `p` in ascending order
with `v ≠ d_p`, the index `Pack (d[p := v])`. -/
def CBalaGray.policyRow (bg : CBalaGray) (d : NUMERAL) : List Int :=
  (List.range bg.m_nPlaces).flatMap (fun p =>
    ((List.range (bg.m_arrBase.getD p 0)).filter (fun v => v ≠ d.b p)).map
      (fun v => bg.Pack (d.setB p v)))

/-- Two numerals differ in exactly one of the first `nPlaces` places. -/
def differInOnePlace (nPlaces : Nat) (d₁ d₂ : NUMERAL) : Prop :=
  ((List.range nPlaces).filter (fun p => d₁.b p ≠ d₂.b p)).length = 1

instance (nPlaces : Nat) (d₁ d₂ : NUMERAL) : Decidable (differInOnePlace nPlaces d₁ d₂) := by
  unfold differInOnePlace; infer_instance

/-- Writing the entries of a list into consecutive elements of an array,
starting at offset `k`. -/
def writeList (t : List Nat) : Nat → List Nat → List Nat
  | _, [] => t
  | k, x :: xs => writeList (t.set k x) (k + 1) xs

/-- The bytes stored into one row by `MakeGraySuccessorTable` for the values
`0, ..., n-1` of place `p`. -/
def rowValues (bg : CBalaGray) (rowNum : NUMERAL) (p n : Nat) : List Nat :=
  ((List.range n).filter (fun v => v ≠ rowNum.b p)).map
    (fun v => toPLACE (bg.Pack (rowNum.setB p v)))

/-- The bytes stored into one row by `MakeGraySuccessorTable` for the places
`0, ..., m-1`. -/
def rowBytes (bg : CBalaGray) (rowNum : NUMERAL) (m : Nat) : List Nat :=
  (List.range m).flatMap (fun p => rowValues bg rowNum p (bg.m_arrBase.getD p 0))

/-- The object holds a valid radix vector and the numeral array that
`MakeNumerals` builds for it: at least two places, `RadixOK`, at most 127
numerals, and entry `i` of the numeral array is `Unpack i`. -/
def CBalaGray.NumeralsOK (bg : CBalaGray) : Prop :=
  2 ≤ bg.m_nPlaces ∧ bg.RadixOK ∧ bg.radixProduct ≤ 127 ∧
  bg.m_arrNum = (List.range bg.radixProduct).map (fun (i : Nat) => bg.Unpack (i : Int))

/-- The Gray neighbours of a numeral `d` in the order of the row policy, as
numerals: `d[p := v]` for the places `p < m` and the values `v ≠ d_p` below the
base of `p`. -/
def succNumerals (bg : CBalaGray) (d : NUMERAL) (m : Nat) : List NUMERAL :=
  (List.range m).flatMap (fun p =>
    ((List.range (bg.m_arrBase.getD p 0)).filter (fun v => v ≠ d.b p)).map
      (fun v => d.setB p v))

/-- A standard deviation is smaller than another one (the negation of the
comparison `>=` the code makes). -/
def StdDev.lt (a b : StdDev) : Prop := a.ge b = false

instance (a b : StdDev) : Decidable (a.lt b) := by unfold StdDev.lt; infer_instance

/-- The candidate `(mt, imb, ms, sd)` is strictly smaller than the best
`(bmt, bimb, bms, bsd)` in lexicographic order: `mt` compared first, then
`imb`, then `ms`, then `sd`. -/
def lexLess (mt imb ms : Int) (sd : StdDev) (bmt bimb bms : Int) (bsd : StdDev) : Prop :=
  mt < bmt ∨ (mt = bmt ∧ (imb < bimb ∨ (imb = bimb ∧ (ms < bms ∨ (ms = bms ∧ sd.lt bsd)))))

instance (mt imb ms : Int) (sd : StdDev) (bmt bimb bms : Int) (bsd : StdDev) :
    Decidable (lexLess mt imb ms sd bmt bimb bms bsd) := by unfold lexLess; infer_instance

/-- Lengths of the maximal runs of equal consecutive values of a sequence, in
order (the run-length encoding without the values). -/
def runLengths : List Nat → List Nat
  | [] => []
  | [_] => [1]
  | x :: y :: rest =>
    if x = y then
      match runLengths (y :: rest) with
      | [] => [1]
      | r :: rs => (r + 1) :: rs
    else 1 :: runLengths (y :: rest)

/-- Lengths of the maximal cyclic runs of a sequence read as a cycle (the last
element is followed by the first): when the first and last values agree and
the sequence has more than one run, the tail run is joined with the head run;
a sequence that never changes has the single run of its full length. -/
def cyclicRunLengths (v : List Nat) : List Nat :=
  let r := runLengths v
  if v.head? = v.getLast? ∧ 2 ≤ r.length then
    (r.headD 0 + r.getLastD 0) :: r.tail.dropLast
  else r

/-- The value of place `p` in the numeral on the crawler stack at depth `t`. -/
def CBalaGray.placeValue (bg : CBalaGray) (p t : Nat) : Nat := (bg.stateNum t).b p

/-- The values that place `p` takes along the whole crawler stack. -/
def CBalaGray.placeSeq (bg : CBalaGray) (p : Nat) : List Nat :=
  (List.range bg.m_arrState.length).map (fun t => bg.placeValue p t)

/-- State of the span scan restricted to one place: the previous value, the
current span, the first span (0 when not set), the largest completed span and
the sum of squared deviations of the completed spans other than the first. -/
structure PlaceScan where
  prev : Nat
  span : Int
  first : Int
  maxc : Int
  dev : Int

/-- One step of the span scan restricted to one place, on the next value. -/
def placeStep (nPlaces : Int) (st : PlaceScan) (x : Nat) : PlaceScan :=
  if x ≠ st.prev then
    { prev := x, span := 1,
      first := if st.first = 0 then st.span else st.first,
      maxc := max st.maxc st.span,
      dev := st.dev + (if st.first = 0 then 0
        else (st.span - nPlaces) * (st.span - nPlaces)) }
  else { st with span := st.span + 1 }

/-- The runs of a sequence as the span scan sees them when it starts with a
current span `span` on the first value: the first run is longer by
`span - 1`. -/
def seenRuns (span : Int) : List Nat → List Int
  | [] => []
  | r :: rs => (span - 1 + (r : Int)) :: rs.map (fun (x : Nat) => (x : Int))

/-- The largest entry of a list of spans (0 for the empty list). -/
def maxOf (l : List Int) : Int := l.foldr max 0

/-- The sum of the squared deviations of a list of spans from the mean
`nPlaces`. -/
def sumDev (nPlaces : Int) (l : List Int) : Int :=
  (l.map (fun x => (x - nPlaces) * (x - nPlaces))).sum

/-- The span scan restricted to place `p`, after the states `1, ..., k` of the
crawler stack. -/
def CBalaGray.placeScanAt (bg : CBalaGray) (p k : Nat) : PlaceScan :=
  (List.range' 1 k).foldl (fun st t => placeStep bg.m_nPlaces st (bg.placeValue p t))
    { prev := bg.placeValue p 0, span := 1, first := 0, maxc := 0, dev := 0 }

/-- The accumulator `M` of a maximum is the largest of 1 and the per-place
contributions `g p`, `p < nPlaces`. -/
def IsMaxAcc (nPlaces : Nat) (g : Nat → Int) (M : Int) : Prop :=
  1 ≤ M ∧ (∀ p < nPlaces, g p ≤ M) ∧ (M = 1 ∨ ∃ p, p < nPlaces ∧ M = g p)

/-- The arrays `arrSpan` and `arrFirstSpan` of a span scan agree, at the places
for which `live` holds, with the scans restricted to one place after `lenf p`
states. -/
def ArraysAt (bg : CBalaGray) (live : Nat → Prop) (lenf : Nat → Nat) (sc : SpanScan) : Prop :=
  sc.arrSpan.length = bg.m_nPlaces ∧ sc.arrFirstSpan.length = bg.m_nPlaces ∧
  ∀ p < bg.m_nPlaces, live p →
    sc.arrSpan.getD p 0 = (bg.placeScanAt p (lenf p)).span ∧
    sc.arrFirstSpan.getD p 0 = (bg.placeScanAt p (lenf p)).first

/-- The per-place progress `lenf` advanced by one state at place `q`. -/
def bump (lenf : Nat → Nat) (q : Nat) : Nat → Nat :=
  fun p => if p = q then lenf p + 1 else lenf p

/-- State of the forward loop of `ComputeMaxSpan` after the states
`1, ..., n`. -/
def CBalaGray.maxSpanFwd (bg : CBalaGray) (n : Nat) : SpanScan × NUMERAL :=
  (List.range' 1 n).foldl
    (fun (acc : SpanScan × NUMERAL) iState =>
      let s := bg.stateNum iState
      ((List.range bg.m_nPlaces).foldl (maxSpanPlaceStep s acc.2) acc.1, s))
    (SpanScan.init bg.m_nPlaces, bg.stateNum 0)

/-- State of the forward loop of `ComputeStdDev` after the states
`1, ..., n`. -/
def CBalaGray.stdDevFwd (bg : CBalaGray) (n : Nat) : SpanScan × NUMERAL :=
  (List.range' 1 n).foldl
    (fun (acc : SpanScan × NUMERAL) iPerm =>
      let s := bg.stateNum iPerm
      ((List.range bg.m_nPlaces).foldl (stdDevPlaceStep bg s acc.2) acc.1, s))
    (SpanScan.init bg.m_nPlaces, bg.stateNum 0)

/-- Contribution of place `p` to the result of `ComputeMaxSpan n`: the largest
completed span of the forward scan and the span closed by the wrap step. -/
def CBalaGray.wrapMaxAt (bg : CBalaGray) (n p : Nat) : Int :=
  max (bg.placeScanAt p n).maxc
    (if (bg.stateNum 0).b p ≠ (bg.stateNum n).b p then (bg.placeScanAt p n).span
      else (bg.placeScanAt p n).span + (bg.placeScanAt p n).first)

/-- Contribution of place `p` to the sum of squared deviations of
`ComputeStdDev` when the stack holds the states `0, ..., n`. -/
def CBalaGray.wrapDevAt (bg : CBalaGray) (n p : Nat) : Int :=
  (bg.placeScanAt p n).dev +
    (if (bg.stateNum 0).b p ≠ (bg.stateNum n).b p
      then bg.CalcDeviance (bg.placeScanAt p n).span + bg.CalcDeviance (bg.placeScanAt p n).first
      else bg.CalcDeviance ((bg.placeScanAt p n).first + (bg.placeScanAt p n).span))

/-- An object whose crawler stack holds the cycle 0, 1, 3, 2 of the radix
vector (2, 2). -/
def exampleStack22 : CBalaGray :=
  { CBalaGray.new true with
    m_nPlaces := 2, m_arrBase := [2, 2],
    m_arrNum := [[0, 0, 0, 0, 0, 0, 0, 0], [1, 0, 0, 0, 0, 0, 0, 0],
                 [0, 1, 0, 0, 0, 0, 0, 0], [1, 1, 0, 0, 0, 0, 0, 0]],
    m_arrState := [⟨0, 0, zeroNumeral⟩, ⟨1, 0, zeroNumeral⟩, ⟨3, 0, zeroNumeral⟩,
                   ⟨2, 0, zeroNumeral⟩] }

/-- Bit `k` of the 128-bit used mask: the bit that `numeralMask k` selects in
the word `usedMaskIndex k`. -/
def CalcLocals.usedBit (loc : CalcLocals) (k : Nat) : Bool :=
  (loc.usedMask (usedMaskIndex k)).testBit (k % 64)

/-- The number of positions `t` of the cyclic sequence `s` at which place `p`
changes between `s[t]` and `s[(t + 1) mod n]`, `n` being the length of `s`. -/
def transCount (s : List NUMERAL) (p : Nat) : Nat :=
  ((List.range s.length).filter
    (fun t => (s.getD t zeroNumeral).b p ≠ (s.getD ((t + 1) % s.length) zeroNumeral).b p)).length

/-- The pair `nImbalance`, `nMaxTrans` is the balance of the cyclic sequence
`s`: `nMaxTrans` is the greatest transition count of a place, and
`nImbalance` is `nMaxTrans` minus the least transition count of a place. -/
def IsBalanceOf (nPlaces : Nat) (s : List NUMERAL) (nImbalance nMaxTrans : Int) : Prop :=
  (∀ p < nPlaces, (transCount s p : Int) ≤ nMaxTrans) ∧
  (∃ p < nPlaces, (transCount s p : Int) = nMaxTrans) ∧
  ∃ mn : Nat, (∀ p < nPlaces, mn ≤ transCount s p) ∧ (∃ p < nPlaces, transCount s p = mn) ∧
    nImbalance = nMaxTrans - (mn : Int)

/-- Every numeral of the cyclic sequence `s` differs from its successor, the
last from the first, in exactly one place. -/
def IsGrayCycle (nPlaces : Nat) (s : List NUMERAL) : Prop :=
  ∀ t < s.length,
    differInOnePlace nPlaces (s.getD t zeroNumeral) (s.getD ((t + 1) % s.length) zeroNumeral)

/-- The object without its state stack: what the crawl loop never changes. -/
def CBalaGray.frame (bg : CBalaGray) : CBalaGray := { bg with m_arrState := [] }

/-- The numeral indices stored in the first `d` levels of the state stack. -/
def CBalaGray.pathNums (bg : CBalaGray) (d : Nat) : List Nat :=
  (List.range d).map (fun t => (bg.state t).iNum)

/-- The number of changes of place `p` along the levels `0, ..., t` of the
state stack. -/
def CBalaGray.pathCount (bg : CBalaGray) (t p : Nat) : Nat :=
  ((List.range t).filter (fun s => (bg.stateNum (s + 1)).b p ≠ (bg.stateNum s).b p)).length

/-- What the crawl loop relies on in the object and the constants of `Calc`:
the size of the problem, the rows of the successor table and the bits of the
wrap mask. -/
structure CrawlCtx (c : CalcConsts) (bg : CBalaGray) : Prop where
  hN4 : 4 ≤ c.nNumerals
  hN127 : c.nNumerals ≤ 127
  hK : 0 < c.nGraySuccessors
  hStart : c.nStartDepth = 2
  hP1 : 1 ≤ bg.m_nPlaces
  hP8 : bg.m_nPlaces ≤ 8
  hzero : ∀ p, (bg.num 0).b p = 0
  hone : differInOnePlace bg.m_nPlaces (bg.num 0) (bg.num 1)
  hrow : ∀ i < c.nNumerals, ∀ col < c.nGraySuccessors,
    bg.m_arrGraySuccessor.getD ((i <<< c.nGrayStrideShift) + col) 0 < c.nNumerals ∧
    differInOnePlace bg.m_nPlaces (bg.num i)
      (bg.num (bg.m_arrGraySuccessor.getD ((i <<< c.nGrayStrideShift) + col) 0))
  hwrap : ∀ j, c.nGrayWrapMask.testBit j = true →
    j < 64 ∧ j < c.nNumerals ∧ differInOnePlace bg.m_nPlaces (bg.num 0) (bg.num j)

/-- The state stack below depth `d` holds a path: level 0 holds numeral 0,
level 1 numeral 1, the numerals are below `N` and pairwise distinct, each
differs from the one before in exactly one place, the used mask (read
through `used`) holds exactly the numerals of the path, and each level holds the transition counts of the
path up to it. -/
structure PathInv (c : CalcConsts) (bg : CBalaGray) (used : Nat → Bool) (d : Nat) : Prop where
  hlen : bg.m_arrState.length = c.nNumerals
  hd2 : 2 ≤ d
  hdN : d < c.nNumerals
  h0 : (bg.state 0).iNum = 0
  h1 : (bg.state 1).iNum = 1
  hlt : ∀ t < d, (bg.state t).iNum < c.nNumerals
  hnodup : (bg.pathNums d).Nodup
  hgray : ∀ t, t + 1 < d → differInOnePlace bg.m_nPlaces (bg.stateNum t) (bg.stateNum (t + 1))
  hmask : ∀ k < 128, (used k = true ↔ k ∈ bg.pathNums d)
  htrans : ∀ t < d, (bg.state t).nTrans.length = 8 ∧
    ∀ p < bg.m_nPlaces, (bg.state t).nTrans.b p = bg.pathCount t p

/-- The best sequence recorded so far: none as long as the best imbalance is
`INT_MAX`, else a permutation of the numeral indices that is a Gray cycle and
has the recorded balance. -/
def BestOK (c : CalcConsts) (bg : CBalaGray) (loc : CalcLocals) : Prop :=
  loc.m_arrBestPerm.length = c.nNumerals ∧
  (loc.nBestImbalance = INT_MAX → loc.m_arrBestPerm = List.replicate c.nNumerals 0) ∧
  (loc.nBestImbalance ≠ INT_MAX →
    loc.m_arrBestPerm.Nodup ∧ (∀ x ∈ loc.m_arrBestPerm, x < c.nNumerals) ∧
    IsGrayCycle bg.m_nPlaces (loc.m_arrBestPerm.map bg.num) ∧
    IsBalanceOf bg.m_nPlaces (loc.m_arrBestPerm.map bg.num) loc.nBestImbalance loc.nBestMaxTrans)

/-- The transition count of place `p` that `ComputeBalance` works with at
depth `d`: the count stored one level up, plus one if the place changes at
depth `d`, plus one if the place changes again on the wrap to numeral 0. -/
def CBalaGray.wrapCount (bg : CBalaGray) (d p : Nat) : Nat :=
  (bg.state (d - 1)).nTrans.b p
    + (if (bg.stateNum d).b p ≠ (bg.stateNum (d - 1)).b p then 1 else 0)
    + (if (bg.stateNum d).b p ≠ 0 then 1 else 0)

/-- The object `bg1` differs from `bg` at most in its state stack, and there
at most in the columns `iGray` of the levels below `d` and in the levels
from `d` on. -/
def StatesAgree (bg bg1 : CBalaGray) (d : Nat) : Prop :=
  bg1.frame = bg.frame ∧ bg1.m_arrState.length = bg.m_arrState.length ∧
  ∀ t < d, (bg1.state t).iNum = (bg.state t).iNum ∧ (bg1.state t).nTrans = (bg.state t).nTrans

/-- The invariant of the crawl loop at the top of an iteration. -/
def LoopTop (c : CalcConsts) (bg : CBalaGray) (loc : CalcLocals) : Prop :=
  PathInv c bg loc.usedBit loc.iDepth ∧ (bg.state loc.iDepth).iGray < c.nGraySuccessors

/-- What one iteration of the crawl loop, started on the object `bg`,
guarantees of its result `r`. -/
def StepPost (c : CalcConsts) (bg : CBalaGray) (r : CBalaGray × CalcLocals × Bool) : Prop :=
  r.1.frame = bg.frame ∧ BestOK c r.1 r.2.1 ∧ (r.2.2 = false → LoopTop c r.1 r.2.1)

/-- The object as `Calc` leaves it before the crawl on a valid radix vector:
reset, with the numerals and the successor table built. -/
def CBalaGray.prepared (bg : CBalaGray) (nPlaces : Nat) (parrBase : List Nat) : CBalaGray :=
  (bg.Reset.withNumerals nPlaces parrBase).MakeGraySuccessorTable

/-- The object at the first iteration of the crawl loop of `Calc`: the state
stack is allocated and level 1 holds numeral 1 with one transition of
place 0. -/
def crawlStart (bgT : CBalaGray) : CBalaGray :=
  let bg := { bgT with m_arrState := resize bgT.m_arrState bgT.GetNumeralCount STATE.zero }
  let bg := bg.setState 1 { bg.state 1 with iNum := 1 }
  bg.setState 1 { bg.state 1 with nTrans := (bg.state 1).nTrans.setB 0 1 }

/-- The constants of the crawl loop of `Calc`. -/
def crawlConsts (bgT : CBalaGray) (nGrayWrapMask : Nat) : CalcConsts :=
  { nGraySuccessors := bgT.m_nGraySuccessors, nGrayStrideShift := bgT.m_nGrayStrideShift,
    nNumerals := bgT.GetNumeralCount, nStartDepth := 2, nGrayWrapMask := nGrayWrapMask }

/-- The locals of `Calc` at the first iteration of the crawl loop. -/
def crawlLocals (bgT : CBalaGray) : CalcLocals :=
  { iDepth := 2, nNumeralUsedMask0 := 0x3, nNumeralUsedMask1 := 0,
    nBestImbalance := INT_MAX, nBestMaxTrans := INT_MAX, nBestMaxSpan := INT_MAX,
    fBestStdDev := none, m_arrBestPerm := resize [] bgT.GetNumeralCount 0 }

instance (nPlaces : Nat) (s : List NUMERAL) : Decidable (IsGrayCycle nPlaces s) := by
  unfold IsGrayCycle; infer_instance

/-- The object that a finished call of `Calc` leaves. -/
def CalcResult.object : CalcResult → CBalaGray
  | .returned _ bg _ => bg
  | _ => CBalaGray.new false

/-- The winner that a finished call of `Calc` hands back. -/
def CalcResult.winner : CalcResult → CWinner
  | .returned _ _ seqWinner => seqWinner
  | _ => CWinner.new

/-- The call `Calc(2, (2, 2), seqWinner)` on a new object, not cancelled. -/
def exampleRun22 : CalcResult :=
  (CBalaGray.new true).Calc 64 none 2 [2, 2] CWinner.new

/-- The call `Calc(2, (2, 2), seqWinner)` after `SetPruneMaxTrans(0)`, not
cancelled. -/
def exampleRunPruned22 : CalcResult :=
  ((CBalaGray.new true).SetPruneMaxTrans 0).Calc 64 none 2 [2, 2] CWinner.new

/-- The winner that `Calc` hands back after the crawl: the bests held by the
locals `loc` of the crawl, the numerals of the object `bg` and the cancel flag
`bCancel` read at that moment, written into the caller's record `seqWinner`. -/
def handBack (nPlaces : Nat) (parrBase : List Nat) (nNumerals : Nat) (bg : CBalaGray)
    (loc : CalcLocals) (bCancel : Bool) (seqWinner : CWinner) : CWinner :=
  { seqWinner with
    m_nPlaces := (nPlaces : Int),
    m_nBaseSum := (List.range nPlaces).foldl
      (fun (n : Int) iPlace => n + (parrBase.getD iPlace 0 : Nat)) 0,
    m_nImbalance := loc.nBestImbalance, m_nMaxTrans := loc.nBestMaxTrans,
    m_nMaxSpan := loc.nBestMaxSpan, m_fStdDev := loc.fBestStdDev,
    m_bIsProven := !bCancel,
    m_arrNum := (List.range nNumerals).foldl
      (fun arr iNum => arr.set iNum (bg.num (loc.m_arrBestPerm.getD iNum 0)))
      (resize seqWinner.m_arrNum nNumerals zeroNumeral) }

/-- The crawl as it runs while the cancel flag stays clear: the object and the
locals at the top of iteration `n` (counted from 0), or `none` when the loop
is left by `break` before that. -/
def crawlIter (c : CalcConsts) : Nat → CBalaGray → CalcLocals → Option (CBalaGray × CalcLocals)
  | 0, bg, loc => some (bg, loc)
  | n + 1, bg, loc =>
    match crawlStep c bg loc with
    | (_, _, true) => none
    | (bg, loc, false) => crawlIter c n bg loc

/-- The object and the locals at the top of iteration 3 of the crawl on the
radix vector (2, 2): the first leaf has just been recorded. -/
def exampleIter22 : CBalaGray × CalcLocals :=
  (crawlIter (crawlConsts ((CBalaGray.new true).prepared 2 [2, 2]) 6) 3
    (crawlStart ((CBalaGray.new true).prepared 2 [2, 2]))
    (crawlLocals ((CBalaGray.new true).prepared 2 [2, 2]))).getD
    (CBalaGray.new true, crawlLocals (CBalaGray.new true))

/-- The object holding the path `π` in its state stack and nothing else in
its states: the stack on which the span metrics of a path are computed. -/
def pathStack (bg : CBalaGray) (π : List Nat) : CBalaGray :=
  { bg with m_arrState := π.map (fun x => (⟨x, 0, zeroNumeral⟩ : STATE)) }

/-- A leaf of the search tree of the crawl: a list of the `N` numeral indices
that starts with 0, 1, holds every index once, and is a Gray cycle. -/
def IsLeaf (c : CalcConsts) (bg : CBalaGray) (π : List Nat) : Prop :=
  π.length = c.nNumerals ∧ π.getD 0 0 = 0 ∧ π.getD 1 0 = 1 ∧ π.Nodup ∧
  (∀ x ∈ π, x < c.nNumerals) ∧ IsGrayCycle bg.m_nPlaces (π.map bg.num)

/-- The leaf `π` would not replace the best held by the locals `loc`: the
leaf tests reject its metrics. -/
def Dominated (bg : CBalaGray) (loc : CalcLocals) (π : List Nat) : Prop :=
  ∀ imb mt, IsBalanceOf bg.m_nPlaces (π.map bg.num) imb mt →
    leafRecords loc.nBestMaxTrans loc.nBestImbalance loc.nBestMaxSpan loc.fBestStdDev
      mt imb ((pathStack bg π).ComputeMaxSpan (π.length - 1)) (pathStack bg π).ComputeStdDev
      = false

/-- The locals `loc1` hold the same best as the locals `loc`. -/
def BestEq (loc loc1 : CalcLocals) : Prop :=
  loc1.nBestImbalance = loc.nBestImbalance ∧ loc1.nBestMaxTrans = loc.nBestMaxTrans ∧
  loc1.nBestMaxSpan = loc.nBestMaxSpan ∧ loc1.fBestStdDev = loc.fBestStdDev ∧
  loc1.m_arrBestPerm = loc.m_arrBestPerm

/-- The leaf `π` is still ahead of the crawl, which stands at depth `d` with
the columns below `lim` of that depth done: at some depth `t` between 2 and
`d` the leaf leaves the path held by the stack through a column of the
successor table that the crawl has not tried yet. -/
def Ahead (c : CalcConsts) (bg : CBalaGray) (d lim : Nat) (π : List Nat) : Prop :=
  ∃ t, 2 ≤ t ∧ t ≤ d ∧ (∀ s < t, π.getD s 0 = (bg.state s).iNum) ∧
    ∃ col, col < c.nGraySuccessors ∧
      bg.m_arrGraySuccessor.getD (((bg.state (t - 1)).iNum <<< c.nGrayStrideShift) + col) 0
        = π.getD t 0 ∧
      (if t = d then lim ≤ col else (bg.state t).iGray < col)

/-- Every leaf is rejected by the best held or still ahead of the crawl. -/
def Complete (c : CalcConsts) (bg : CBalaGray) (loc : CalcLocals) (d lim : Nat) : Prop :=
  ∀ π, IsLeaf c bg π → Dominated bg loc π ∨ Ahead c bg d lim π

/-- Every leaf is rejected by the best held. -/
def Exhausted (c : CalcConsts) (bg : CBalaGray) (loc : CalcLocals) : Prop :=
  ∀ π, IsLeaf c bg π → Dominated bg loc π

/-- What one iteration of an unpruned crawl guarantees of its result `r`:
when the loop is left no leaf is ahead, else every leaf not rejected by the
best is ahead of the new position. -/
def ExhPost (c : CalcConsts) (r : CBalaGray × CalcLocals × Bool) : Prop :=
  (r.2.2 = true → Exhausted c r.1 r.2.1) ∧
  (r.2.2 = false → Complete c r.1 r.2.1 r.2.1.iDepth (r.1.state r.2.1.iDepth).iGray)

/-- What an unpruned crawl relies on beyond `CrawlCtx`: every Gray neighbour
of a numeral stands in its row of the successor table, every Gray neighbour
of numeral 0 has its bit in the wrap mask, and both thresholds are at their
maximum. -/
structure SearchCtx (c : CalcConsts) (bg : CBalaGray) : Prop where
  hnbr : ∀ i < c.nNumerals, ∀ j < c.nNumerals,
    differInOnePlace bg.m_nPlaces (bg.num i) (bg.num j) →
    ∃ col, col < c.nGraySuccessors ∧
      bg.m_arrGraySuccessor.getD ((i <<< c.nGrayStrideShift) + col) 0 = j
  hwrapc : ∀ j < c.nNumerals, differInOnePlace bg.m_nPlaces (bg.num 0) (bg.num j) →
    j < 64 ∧ c.nGrayWrapMask.testBit j = true
  hmt : bg.m_nPruneMaxTrans = INT_MAX
  himb : bg.m_nPruneImbalance = INT_MAX

/-- The span metrics of the best recorded so far: none as long as the best
imbalance is `INT_MAX`, else those of the recorded permutation, which starts
with the numerals 0 and 1. -/
def BestSpan (bg : CBalaGray) (loc : CalcLocals) : Prop :=
  (loc.nBestImbalance = INT_MAX →
    loc.nBestMaxTrans = INT_MAX ∧ loc.nBestMaxSpan = INT_MAX ∧ loc.fBestStdDev = none) ∧
  (loc.nBestImbalance ≠ INT_MAX →
    loc.m_arrBestPerm.getD 0 0 = 0 ∧ loc.m_arrBestPerm.getD 1 0 = 1 ∧
    loc.nBestMaxSpan
      = (pathStack bg loc.m_arrBestPerm).ComputeMaxSpan (loc.m_arrBestPerm.length - 1) ∧
    loc.fBestStdDev = (pathStack bg loc.m_arrBestPerm).ComputeStdDev)

/-- The call `Calc(2, (2, 2), seqWinner)` with pruning disabled
(`SetPruneImbalance(INT_MAX)`, the max-transition threshold being `INT_MAX`
from the start), not cancelled. -/
def exampleUnpruned22 : CalcResult :=
  ((CBalaGray.new true).SetPruneImbalance INT_MAX).Calc 64 none 2 [2, 2] CWinner.new

/-- The sequence that the specification gives as a winner for the radix
vector (2, 3): (0,0), (1,0), (1,1), (0,1), (0,2), (1,2), each numeral listed
place 0 first. -/
def referenceSeq23 : List NUMERAL :=
  [[0, 0, 0, 0, 0, 0, 0, 0], [1, 0, 0, 0, 0, 0, 0, 0], [1, 1, 0, 0, 0, 0, 0, 0],
   [0, 1, 0, 0, 0, 0, 0, 0], [0, 2, 0, 0, 0, 0, 0, 0], [1, 2, 0, 0, 0, 0, 0, 0]]

/-- The sequence that `CalcFromCode(0x23)` returns: (0,0), (1,0), (1,1),
(1,2), (0,2), (0,1), each numeral listed place 0 first. -/
def winnerSeq23 : List NUMERAL :=
  [[0, 0, 0, 0, 0, 0, 0, 0], [1, 0, 0, 0, 0, 0, 0, 0], [1, 1, 0, 0, 0, 0, 0, 0],
   [1, 2, 0, 0, 0, 0, 0, 0], [0, 2, 0, 0, 0, 0, 0, 0], [0, 1, 0, 0, 0, 0, 0, 0]]

/-- The object as `Calc` prepares it for the radix vector (2, 3). -/
def exampleObject23 : CBalaGray := (CBalaGray.new true).prepared 2 [2, 3]

/-- The sequence that `CalcFromCode(0x33)` returns: (0,0), (1,0), (2,0),
(2,1), (1,1), (1,2), (2,2), (0,2), (0,1), each numeral listed place 0
first. -/
def winnerSeq33 : List NUMERAL :=
  [[0, 0, 0, 0, 0, 0, 0, 0], [1, 0, 0, 0, 0, 0, 0, 0], [2, 0, 0, 0, 0, 0, 0, 0],
   [2, 1, 0, 0, 0, 0, 0, 0], [1, 1, 0, 0, 0, 0, 0, 0], [1, 2, 0, 0, 0, 0, 0, 0],
   [2, 2, 0, 0, 0, 0, 0, 0], [0, 2, 0, 0, 0, 0, 0, 0], [0, 1, 0, 0, 0, 0, 0, 0]]

/-- The crawl of `Calc(nPlaces, parrBase, ...)` on the object `bg` at the top
of iteration `n` (counted from 0), as long as the cancel flag stays clear:
the constants, the object and the locals; `none` when `Calc` does not reach
the crawl loop (the wrap mask cannot be built) or the loop is left by `break`
before that iteration. -/
def CBalaGray.crawlTop (bg : CBalaGray) (nPlaces : Nat) (parrBase : List Nat) (n : Nat) :
    Option (CalcConsts × CBalaGray × CalcLocals) :=
  match wrapMaskLoop (bg.prepared nPlaces parrBase).m_arrGraySuccessor
      (bg.prepared nPlaces parrBase).m_nGraySuccessors 0 0 with
  | none => none
  | some nGrayWrapMask =>
    match crawlIter (crawlConsts (bg.prepared nPlaces parrBase) nGrayWrapMask) n
        (crawlStart (bg.prepared nPlaces parrBase))
        (crawlLocals (bg.prepared nPlaces parrBase)) with
    | none => none
    | some (bgn, locn) => some (crawlConsts (bg.prepared nPlaces parrBase) nGrayWrapMask, bgn, locn)

/-- The candidate numeral that the iteration starting at the given state
reads from the successor table: the successor in column `iGray` of the
current depth of the numeral one level up. -/
def candidateNum (c : CalcConsts) (bg : CBalaGray) (loc : CalcLocals) : Nat :=
  bg.m_arrGraySuccessor.getD
    (((bg.state (loc.iDepth - 1)).iNum <<< c.nGrayStrideShift) + (bg.state loc.iDepth).iGray) 0

/-- The object and the locals at the top of iteration 2 of the crawl on the
radix vector (2, 2): the crawl stands at the leaf depth 3 with the path 0, 1,
3 and the candidate numeral 2. -/
def exampleLeaf22 : CBalaGray × CalcLocals :=
  (crawlIter (crawlConsts ((CBalaGray.new true).prepared 2 [2, 2]) 6) 2
    (crawlStart ((CBalaGray.new true).prepared 2 [2, 2]))
    (crawlLocals ((CBalaGray.new true).prepared 2 [2, 2]))).getD
    (CBalaGray.new true, crawlLocals (CBalaGray.new true))

/-- The crawl at the top of iteration `n` as `crawlTop` gives it, for use
where that iteration is known to be reached. -/
def CBalaGray.crawlTopAt (bg : CBalaGray) (nPlaces : Nat) (parrBase : List Nat) (n : Nat) :
    CalcConsts × CBalaGray × CalcLocals :=
  (bg.crawlTop nPlaces parrBase n).getD (crawlConsts bg 0, bg, crawlLocals bg)

/-- The updated transition count of place `p` for the candidate numeral `x`
at depth `t`, the wrap excluded: the count stored at depth `t - 1`, plus one
if `x` differs from the numeral of depth `t - 1` in place `p`. -/
def stepCount (bg : CBalaGray) (t x p : Nat) : Nat :=
  (bg.state (t - 1)).nTrans.b p
    + (if (bg.num x).b p ≠ (bg.stateNum (t - 1)).b p then 1 else 0)

/-- The updated transition count of place `p` for the candidate numeral `x`
at depth `t` with the wrap adjustment: `stepCount`, plus one if place `p` of
`x` is not zero. -/
def stepWrapCount (bg : CBalaGray) (t x p : Nat) : Nat :=
  stepCount bg t x p + (if (bg.num x).b p ≠ 0 then 1 else 0)

/-- The object after `m_arrState[iDepth].iNum = iNum`: the candidate of the
iteration is stored at the current depth. -/
def storeCandidate (c : CalcConsts) (bg : CBalaGray) (loc : CalcLocals) : CBalaGray :=
  bg.setState loc.iDepth { bg.state loc.iDepth with iNum := candidateNum c bg loc }

/-- The object after `m_arrState[d].iGray++` (the column is a byte). -/
def advanceColumn (bg : CBalaGray) (d : Nat) : CBalaGray :=
  bg.setState d { bg.state d with iGray := ((bg.state d).iGray + 1) % 256 }

/-- The locals after `nNumeralUsedMask[iUsedMask] &= ~nNumeralMask` for the
numeral `iNum`. -/
def clearUsed (loc : CalcLocals) (iNum : Nat) : CalcLocals :=
  loc.setUsedMask (usedMaskIndex iNum)
    (loc.usedMask (usedMaskIndex iNum) &&& (0xFFFFFFFFFFFFFFFF ^^^ numeralMask iNum))

/-- The test that opens the loop body: the candidate is unused and at least
one successor of the origin remains unused (wrap prediction). -/
def candidateTest (c : CalcConsts) (bg : CBalaGray) (loc : CalcLocals) : Prop :=
  loc.usedMask (usedMaskIndex (candidateNum c bg loc)) &&& numeralMask (candidateNum c bg loc) = 0
    ∧ loc.usedMask 0 &&& c.nGrayWrapMask ≠ c.nGrayWrapMask

instance (c : CalcConsts) (bg : CBalaGray) (loc : CalcLocals) :
    Decidable (candidateTest c bg loc) := by
  unfold candidateTest; infer_instance

/-- The threshold test of an interior node on the stored candidate. -/
def thresholdPruned (c : CalcConsts) (bg : CBalaGray) (loc : CalcLocals) : Prop :=
  ((storeCandidate c bg loc).ComputeBalance loc.iDepth).2.1 > bg.m_nPruneMaxTrans
    ∨ ((storeCandidate c bg loc).ComputeBalance loc.iDepth).1 > bg.m_nPruneImbalance

instance (c : CalcConsts) (bg : CBalaGray) (loc : CalcLocals) :
    Decidable (thresholdPruned c bg loc) := by
  unfold thresholdPruned; infer_instance

/-- The objective tests of a leaf on the stored candidate. -/
def leafAccepted (c : CalcConsts) (bg : CBalaGray) (loc : CalcLocals) : Bool :=
  leafRecords loc.nBestMaxTrans loc.nBestImbalance loc.nBestMaxSpan loc.fBestStdDev
    ((storeCandidate c bg loc).ComputeBalance loc.iDepth).2.1
    ((storeCandidate c bg loc).ComputeBalance loc.iDepth).1
    ((storeCandidate c bg loc).ComputeMaxSpan loc.iDepth)
    (storeCandidate c bg loc).ComputeStdDev

/-- The locals after the stored candidate path is recorded as the new best. -/
def recordBest (c : CalcConsts) (bg : CBalaGray) (loc : CalcLocals) : CalcLocals :=
  { loc with
    nBestMaxTrans := ((storeCandidate c bg loc).ComputeBalance loc.iDepth).2.1,
    nBestImbalance := ((storeCandidate c bg loc).ComputeBalance loc.iDepth).1,
    nBestMaxSpan := (storeCandidate c bg loc).ComputeMaxSpan loc.iDepth,
    fBestStdDev := (storeCandidate c bg loc).ComputeStdDev,
    m_arrBestPerm := (List.range c.nNumerals).foldl
      (fun arr iNum => arr.set iNum ((storeCandidate c bg loc).state iNum).iNum)
      loc.m_arrBestPerm }

/-- How one iteration of the crawl backtracks, from the state `(bg, loc)` at
the top of the iteration, with `t` the current depth and `K` the number of
successors:
* a candidate that is used or fails the wrap-mask test, and a recorded leaf,
  lead to the end of the loop body (`crawlAdvance`), which advances the column
  of depth `t` and stays at depth `t` if the column is below `K`, else pops;
* a candidate pruned by the thresholds at an interior depth and a leaf
  rejected by the objective go to `lblPrune` at once, with the column of depth
  `t` as it was;
* `lblPrune` entered at the start depth 2 leaves the loop; entered at a depth
  `d > 2` it goes to depth `d - 1`, clears the used bit of the numeral stored
  there and advances the column of depth `d - 1`, and enters `lblPrune` again
  if that column reached `K`. -/
def BacktrackRule (c : CalcConsts) (bg : CBalaGray) (loc : CalcLocals) : Prop :=
  (¬ candidateTest c bg loc → crawlStep c bg loc = crawlAdvance c bg loc) ∧
  (candidateTest c bg loc → loc.iDepth + 1 < c.nNumerals → thresholdPruned c bg loc →
    crawlStep c bg loc = lblPrune c loc.iDepth (storeCandidate c bg loc) loc) ∧
  (candidateTest c bg loc → ¬ loc.iDepth + 1 < c.nNumerals → leafAccepted c bg loc = false →
    crawlStep c bg loc = lblPrune c loc.iDepth (storeCandidate c bg loc) loc) ∧
  (candidateTest c bg loc → ¬ loc.iDepth + 1 < c.nNumerals → leafAccepted c bg loc = true →
    crawlStep c bg loc = crawlAdvance c (storeCandidate c bg loc) (recordBest c bg loc)) ∧
  (∀ (b : CBalaGray) (l : CalcLocals), crawlAdvance c b l =
    if c.nGraySuccessors ≤ ((b.state l.iDepth).iGray + 1) % 256
    then lblPrune c l.iDepth (advanceColumn b l.iDepth) l
    else (advanceColumn b l.iDepth, l, false)) ∧
  (bg.state loc.iDepth).iGray + 1 < 256 ∧
  (∀ (b : CBalaGray) (l : CalcLocals) (d : Nat), d ≤ 2 →
    lblPrune c d b l = (b, { l with iDepth := d }, true)) ∧
  (∀ (b : CBalaGray) (l : CalcLocals) (d : Nat), 2 ≤ d →
    lblPrune c (d + 1) b l =
      if c.nGraySuccessors ≤ ((b.state d).iGray + 1) % 256
      then lblPrune c d (advanceColumn b d) (clearUsed l (b.state d).iNum)
      else (advanceColumn b d, { clearUsed l (b.state d).iNum with iDepth := d }, false)) ∧
  (∀ (l : CalcLocals) (i k : Nat), i < 128 → k < 128 →
    (clearUsed l i).usedBit k = (l.usedBit k && !decide (k = i)))

/-- Every interior node of the path held by the stack below depth `d` passed
the threshold test: for each depth `t` with `2 <= t < d` the values that
`ComputeBalance(t)` gives do not exceed the thresholds. -/
def PathThr (bg : CBalaGray) (d : Nat) : Prop :=
  ∀ t, 2 ≤ t → t < d →
    (bg.ComputeBalance t).2.1 ≤ bg.m_nPruneMaxTrans ∧
    (bg.ComputeBalance t).1 ≤ bg.m_nPruneImbalance

/-- The best recorded so far exceeds the thresholds by at most one. -/
def BestThr (bg : CBalaGray) (loc : CalcLocals) : Prop :=
  loc.nBestImbalance ≠ INT_MAX →
    loc.nBestImbalance ≤ bg.m_nPruneImbalance + 1 ∧ loc.nBestMaxTrans ≤ bg.m_nPruneMaxTrans + 1

/-- Numeral 0 is the only numeral whose places are all zero. -/
def ZeroOnly (c : CalcConsts) (bg : CBalaGray) : Prop :=
  ∀ i < c.nNumerals, (∀ p < bg.m_nPlaces, (bg.num i).b p = 0) → i = 0

/-- The call `Calc(2, (2, 3), seqWinner)` after `SetPruneImbalance(1)`, not
cancelled. -/
def exampleRunImb23 : CalcResult :=
  ((CBalaGray.new true).SetPruneImbalance 1).Calc 64 none 2 [2, 3] CWinner.new

/-- The array `arrSetCode`: the entries `INTERVAL_SET(s)` of
`IntervalSetsList.h` in their order, each read as the hexadecimal literal
`0x##s`. -/
def arrSetCode : List Nat :=
  [
    0x22, 0x23, 0x24, 0x33, 0x25, 0x34, 0x26, 0x35, 0x44, 0x27, 0x36, 0x45, 0x28, 0x37, 0x46,
    0x55, 0x29, 0x38, 0x47, 0x56, 0x2A, 0x39, 0x48, 0x57, 0x66, 0x222, 0x223, 0x224, 0x233,
    0x225, 0x234, 0x333, 0x226, 0x235, 0x244, 0x334, 0x227, 0x236, 0x245, 0x335, 0x344, 0x228,
    0x237, 0x246, 0x255, 0x336, 0x345, 0x444, 0x2222, 0x2223, 0x2224, 0x2233, 0x2225, 0x2234,
    0x2333, 0x2226, 0x2235, 0x2244, 0x2334, 0x3333, 0x22222, 0x22223, 0x22224, 0x22233, 0x222222]

/-- The hexadecimal digits of a set code, leftmost digit first. -/
def setCodeDigits (nSetCode : Nat) : List Nat :=
  (Nat.digits 16 nSetCode).reverse

/-- The constraints that the header comment of `IntervalSetsList.h` puts on a
set code: at least two places, every place range at least two, the sum of the
place ranges at most twelve, and prime form (the digits do not decrease from
left to right). -/
def IsPrimeSetCode (nSetCode : Nat) : Prop :=
  2 ≤ (setCodeDigits nSetCode).length ∧ (∀ d ∈ setCodeDigits nSetCode, 2 ≤ d) ∧
  (setCodeDigits nSetCode).sum ≤ 12 ∧ (setCodeDigits nSetCode).Sorted (fun a b => a ≤ b)

instance (nSetCode : Nat) : Decidable (IsPrimeSetCode nSetCode) := by
  unfold IsPrimeSetCode; infer_instance

/-- The three-level sort key of the header comment: number of places, sum of
place ranges, set code value. -/
def setCodeKey (nSetCode : Nat) : Nat × Nat × Nat :=
  ((setCodeDigits nSetCode).length, (setCodeDigits nSetCode).sum, nSetCode)

/-- The strict three-level order on sort keys. -/
def keyBefore (a b : Nat × Nat × Nat) : Prop :=
  a.1 < b.1 ∨ (a.1 = b.1 ∧ (a.2.1 < b.2.1 ∨ (a.2.1 = b.2.1 ∧ a.2.2 < b.2.2)))

instance (a b : Nat × Nat × Nat) : Decidable (keyBefore a b) := by
  unfold keyBefore; infer_instance

/-- All digit strings of length `k`, leftmost digit first, whose digits are
at least `lo`, do not decrease from left to right and have a sum of at most
`s`. -/
def primeForms : Nat → Nat → Nat → List (List Nat)
  | 0, _, _ => [[]]
  | k + 1, lo, s =>
    ((List.range (s + 1)).filter (fun d => decide (lo ≤ d))).flatMap
      (fun d => (primeForms k d (s - d)).map (fun T => d :: T))

/-- The class `CRandList`: the array `m_arrList` and the count `m_nAvail` of
elements that have not been used. -/
structure CRandList where
  m_arrList : List Int
  m_nAvail : Int
deriving DecidableEq

/-- The default constructor `CRandList::CRandList()`. -/
def CRandList.new : CRandList := { m_arrList := [], m_nAvail := 0 }

/-- `CRandList::GetSize`: the size of the array, cast to `int`. -/
def CRandList.GetSize (rl : CRandList) : Int := wrapInt (rl.m_arrList.length : Nat)

/-- `CRandList::GetAvail`. -/
def CRandList.GetAvail (rl : CRandList) : Int := rl.m_nAvail

/-- `CRandList::Init`. The result is `none` when `resize` is asked for a
negative size (the conversion to `size_t` exceeds the vector's maximum size,
so `resize` throws). -/
def CRandList.Init (_rl : CRandList) (nSize : Int) : Option CRandList :=
  if nSize < 0 then none
  else some { m_arrList := (List.range nSize.toNat).map (fun (iElem : Nat) => (iElem : Int)),
              m_nAvail := 0 }

/-- `CRandList::Rand`. The argument `i` is the value of
`int(rand() / double(RAND_MAX) * nVals)`; `rand()` is never negative, so it
is a natural number. -/
def CRandList.Rand (nVals : Int) (i : Nat) : Int :=
  if nVals ≤ 0 then -1 else min (i : Int) (nVals - 1)

/-- `CRandList::GetNext`, with the value `i` that the random source gives to
`Rand`. The result is `none` when the assertion `m_nAvail > 0` fails or an
index is outside the array; otherwise the returned element and the updated
object. -/
def CRandList.GetNext (rl : CRandList) (i : Nat) : Option (Int × CRandList) :=
  let nAvail := if rl.m_nAvail = 0 then rl.GetSize else rl.m_nAvail
  if ¬ nAvail > 0 then none
  else
    let iNext := CRandList.Rand nAvail i
    let nAvail := nAvail - 1
    if iNext < 0 ∨ (rl.m_arrList.length : Int) ≤ iNext
        ∨ nAvail < 0 ∨ (rl.m_arrList.length : Int) ≤ nAvail then none
    else
      let nTmp := rl.m_arrList.getD iNext.toNat 0
      let arr := rl.m_arrList.set iNext.toNat (rl.m_arrList.getD nAvail.toNat 0)
      let arr := arr.set nAvail.toNat nTmp
      some (nTmp, { m_arrList := arr, m_nAvail := nAvail })

/-- Successive calls of `GetNext`, one for each value of the random source;
the result holds the returned elements in the order of the calls. -/
def CRandList.calls (rl : CRandList) : List Nat → Option (List Int × CRandList)
  | [] => some ([], rl)
  | i :: rest =>
    match rl.GetNext i with
    | none => none
    | some (v, rl1) =>
      match CRandList.calls rl1 rest with
      | none => none
      | some (vs, rl2) => some (v :: vs, rl2)

/-- The values `0, ..., n - 1`. -/
def valuesBelow (n : Nat) : List Int := (List.range n).map (fun (iElem : Nat) => (iElem : Int))

/-- The invariant of a `CRandList` of size `n`. -/
def RandInv (n : Nat) (rl : CRandList) : Prop :=
  rl.m_arrList.length = n ∧ rl.m_arrList.Perm (valuesBelow n) ∧
  0 ≤ rl.m_nAvail ∧ rl.m_nAvail < n

/-- The columns of the levels `0, ..., d` of the state stack are below `K`. -/
def Cols (c : CalcConsts) (bg : CBalaGray) (d : Nat) : Prop :=
  ∀ t ≤ d, (bg.state t).iGray < c.nGraySuccessors

/-- One iteration of the crawl moves forward in the lexicographic order of
the columns: from depth `d` on the object `bg` to depth `e` on `bg1`, the
columns of the levels below `e` are unchanged, and the column of level `e` is
new (`e = d + 1`) or has grown. -/
def Progress (c : CalcConsts) (bg : CBalaGray) (d : Nat) (bg1 : CBalaGray) (e : Nat) : Prop :=
  e ≤ d + 1 ∧ (∀ t < e, (bg1.state t).iGray = (bg.state t).iGray) ∧
  (e ≤ d → (bg.state e).iGray < (bg1.state e).iGray) ∧ Cols c bg1 e

/-- The digit of level `t` in the rank of the crawl at depth `d`: the column
plus one for the levels up to `d`, zero for the levels beyond. -/
def colDigit (bg : CBalaGray) (d t : Nat) : Nat :=
  if t ≤ d then (bg.state t).iGray + 1 else 0

/-- The number with the digits `f 0, ..., f (n - 1)` in base `B`, the first
digit the most significant. -/
def colRank (B : Nat) (f : Nat → Nat) : Nat → Nat
  | 0 => 0
  | n + 1 => B * colRank B f n + f n

/-- The rank of the crawl at depth `d`: its columns read as a number in base
`K + 1`. -/
def crawlRank (c : CalcConsts) (bg : CBalaGray) (d : Nat) : Nat :=
  colRank (c.nGraySuccessors + 1) (colDigit bg d) c.nNumerals

/-- `CBalaGray::Cancel`. -/
def CBalaGray.Cancel (bg : CBalaGray) : CBalaGray := { bg with m_bCancel := true }

/-- The object as a read of its member `m_bCancel` finds it: if the other
thread has called `Cancel()` by then (see `cancelRequested`) the flag is
set, else the object is as the crawl left it. -/
def CBalaGray.atRead (bg : CBalaGray) (cancelAt : Option Nat) (nReads : Nat) : CBalaGray :=
  if cancelRequested cancelAt nReads then bg.Cancel else bg

/-- The crawl loop `while (!m_bCancel) ...` of `Calc` with the flag read from
the member `m_bCancel` of the object; otherwise as `crawlLoop`. -/
def crawlLoopFlag (c : CalcConsts) (cancelAt : Option Nat) :
    Nat → Nat → CBalaGray → CalcLocals → Option (CBalaGray × CalcLocals × Nat)
  | 0, _, _, _ => none
  | fuel + 1, nReads, bg, loc =>
    let bg := bg.atRead cancelAt nReads
    if bg.m_bCancel then some (bg, loc, nReads + 1)
    else
      match crawlStep c bg loc with
      | (bg, loc, true) => some (bg, loc, nReads + 1)
      | (bg, loc, false) => crawlLoopFlag c cancelAt fuel (nReads + 1) bg loc

/-- `CBalaGray::Calc` with every read of the cancel flag made on the member
`m_bCancel` of the object: the loop condition `while (!m_bCancel)` and the
final `seqWinner.m_bIsProven = !m_bCancel`. The flag that the caller's
object holds on entry is therefore visible to the function; `cancelAt` tells
when another thread calls `Cancel()` while `Calc` runs. -/
def CBalaGray.CalcFlag (bg : CBalaGray) (fuel : Nat) (cancelAt : Option Nat)
    (nPlaces : Int) (parrBase : List Nat) (seqWinner : CWinner) : CalcResult :=
  if nPlaces < 2 ∨ nPlaces > (MAX_PLACES : Nat) then .returned false bg seqWinner
  else if !bg.fOutGood then .returned false bg seqWinner
  else
    let bg := bg.Reset
    match bg.MakeNumerals nPlaces.toNat parrBase with
    | none => .threw
    | some (false, bg) => .returned false bg seqWinner
    | some (true, bg) =>
      let bg := bg.MakeGraySuccessorTable
      let nGraySuccessors := bg.m_nGraySuccessors
      let nGrayStrideShift := bg.m_nGrayStrideShift
      let nNumerals := bg.GetNumeralCount
      let arrBestPerm : List Nat := resize [] nNumerals 0
      let bg := { bg with m_arrState := resize bg.m_arrState nNumerals STATE.zero }
      match wrapMaskLoop bg.m_arrGraySuccessor bg.m_nGraySuccessors 0 0 with
      | none => .returned false bg seqWinner
      | some nGrayWrapMask =>
        let iDepth := 2
        let bg := bg.setState 1 { bg.state 1 with iNum := 1 }
        let bg := bg.setState 1 { bg.state 1 with nTrans := (bg.state 1).nTrans.setB 0 1 }
        let c : CalcConsts :=
          { nGraySuccessors := nGraySuccessors, nGrayStrideShift := nGrayStrideShift,
            nNumerals := nNumerals, nStartDepth := iDepth, nGrayWrapMask := nGrayWrapMask }
        let loc : CalcLocals :=
          { iDepth := iDepth, nNumeralUsedMask0 := 0x3, nNumeralUsedMask1 := 0,
            nBestImbalance := INT_MAX, nBestMaxTrans := INT_MAX, nBestMaxSpan := INT_MAX,
            fBestStdDev := none, m_arrBestPerm := arrBestPerm }
        match crawlLoopFlag c cancelAt fuel 0 bg loc with
        | none => .running
        | some (bg, loc, nReads) =>
          let nBaseSum : Int := (List.range nPlaces.toNat).foldl
            (fun n iPlace => n + (parrBase.getD iPlace 0 : Nat)) 0
          let bg := bg.atRead cancelAt nReads
          let arrNum := (List.range nNumerals).foldl
            (fun arr iNum => arr.set iNum (bg.num (loc.m_arrBestPerm.getD iNum 0)))
            (resize seqWinner.m_arrNum nNumerals zeroNumeral)
          .returned true bg
            { seqWinner with
              m_nPlaces := nPlaces, m_nBaseSum := nBaseSum,
              m_nImbalance := loc.nBestImbalance, m_nMaxTrans := loc.nBestMaxTrans,
              m_nMaxSpan := loc.nBestMaxSpan, m_fStdDev := loc.fBestStdDev,
              m_bIsProven := !bg.m_bCancel, m_arrNum := arrNum }

/-- The call `Calc(2, (2, 2), seqWinner)` on an object on which `Cancel()` was
called before, with the flag read from the member and no `Cancel()` while it
runs. -/
def exampleRunCancelled22 : CalcResult :=
  (CBalaGray.new true).Cancel.CalcFlag 81 none 2 [2, 2] CWinner.new

/-- Whether the allocation
`m_arrGraySuccessor.resize(m_arrNum.size() << nStrideShift)` of
`MakeGraySuccessorTable` fails on the object `bg` (which holds the bases and
the numerals): with a shift count of 32 or more the request is for at least
`N * 2 ^ 32` one-byte entries, and `resize` throws `std::bad_alloc`. With a
smaller shift count (it is then at most 16) the table has fewer than
`2 ^ 31` entries and the shifts of the code, made on `int`, are exact. -/
def CBalaGray.tableAllocFails (bg : CBalaGray) : Bool :=
  decide (32 ≤ grayStrideShift (graySuccessorCount bg))

/-- `CBalaGray::Calc` with the allocation of the successor table taken into
account. `Calc` calls `MakeGraySuccessorTable` after its checks and
`MakeNumerals`, before it builds the wrap mask and before the crawl; when
the allocation there fails (see `tableAllocFails`) the exception of `resize`
leaves `Calc`. In every other case the call is the one that `Calc`
describes. -/
def CBalaGray.CalcAlloc (bg : CBalaGray) (fuel : Nat) (cancelAt : Option Nat)
    (nPlaces : Int) (parrBase : List Nat) (seqWinner : CWinner) : CalcResult :=
  if nPlaces < 2 ∨ nPlaces > (MAX_PLACES : Nat) then .returned false bg seqWinner
  else if !bg.fOutGood then .returned false bg seqWinner
  else
    match bg.Reset.MakeNumerals nPlaces.toNat parrBase with
    | none => .threw
    | some (false, bgN) => .returned false bgN seqWinner
    | some (true, bgN) =>
      if bgN.tableAllocFails then .threw
      else bg.Calc fuel cancelAt nPlaces parrBase seqWinner

/-- `CBalaGray::Calc` with every read of the cancel flag made on the member
`m_bCancel` (as `CalcFlag`) and with the allocation of the successor table
taken into account (as `CalcAlloc`). -/
def CBalaGray.CalcFlagAlloc (bg : CBalaGray) (fuel : Nat) (cancelAt : Option Nat)
    (nPlaces : Int) (parrBase : List Nat) (seqWinner : CWinner) : CalcResult :=
  if nPlaces < 2 ∨ nPlaces > (MAX_PLACES : Nat) then .returned false bg seqWinner
  else if !bg.fOutGood then .returned false bg seqWinner
  else
    match bg.Reset.MakeNumerals nPlaces.toNat parrBase with
    | none => .threw
    | some (false, bgN) => .returned false bgN seqWinner
    | some (true, bgN) =>
      if bgN.tableAllocFails then .threw
      else bg.CalcFlag fuel cancelAt nPlaces parrBase seqWinner

/-- The call `Calc(2, (34, 2), seqWinner)` on an object on which `Cancel()`
was called before, with the flag read from the member. -/
def exampleCancelled34x2 : CalcResult :=
  (CBalaGray.new true).Cancel.CalcFlagAlloc 0 none 2 [34, 2] CWinner.new

/-- The call `Calc(2, (2, 2), seqWinner)` on an object on which `Cancel()` was
called before, with the flag read from the member and the allocation of the
table taken into account. -/
def exampleCancelledAlloc22 : CalcResult :=
  (CBalaGray.new true).Cancel.CalcFlagAlloc 81 none 2 [2, 2] CWinner.new

/-! ## Theorems -/

theorem wrapInt_of_lt {x : Int} (h0 : 0 ≤ x) (h1 : x < 2147483648) : wrapInt x = x := by
  unfold wrapInt; omega

theorem placeWeight_succ (B : List Nat) (k : Nat) :
    placeWeight B (k + 1) = placeWeight B k * B.getD k 0 := by
  simp [placeWeight, Finset.prod_range_succ]

theorem placeWeight_zero (B : List Nat) : placeWeight B 0 = 1 := by
  simp [placeWeight]

theorem mixedRadixValue_succ (B : List Nat) (d : NUMERAL) (n : Nat) :
    mixedRadixValue B d (n + 1) = mixedRadixValue B d n + d.b n * placeWeight B n := by
  simp [mixedRadixValue, Finset.sum_range_succ]

theorem mixedRadixValue_zero (B : List Nat) (d : NUMERAL) : mixedRadixValue B d 0 = 0 := by
  simp [mixedRadixValue]

theorem placeWeight_pos (B : List Nat) (n : Nat) (hB : ∀ j < n, 1 ≤ B.getD j 0) :
    1 ≤ placeWeight B n := by
  induction n with
  | zero => simp [placeWeight_zero]
  | succ n ih =>
    rw [placeWeight_succ]
    have h1 := ih (fun j hj => hB j (by omega))
    have h2 := hB n (by omega)
    exact Nat.mul_pos h1 h2

theorem mixedRadixValue_lt (B : List Nat) (d : NUMERAL) (n : Nat)
    (hd : ∀ p < n, d.b p < B.getD p 0) : mixedRadixValue B d n < placeWeight B n := by
  induction n with
  | zero => simp [mixedRadixValue_zero, placeWeight_zero]
  | succ n ih =>
    rw [mixedRadixValue_succ, placeWeight_succ]
    have h1 := ih (fun j hj => hd j (by omega))
    have h2 := hd n (by omega)
    calc mixedRadixValue B d n + d.b n * placeWeight B n
        < placeWeight B n + d.b n * placeWeight B n := by omega
      _ = (d.b n + 1) * placeWeight B n := by ring
      _ ≤ B.getD n 0 * placeWeight B n := Nat.mul_le_mul_right _ h2
      _ = placeWeight B n * B.getD n 0 := by ring

theorem packLoop_eq (B : List Nat) (d : NUMERAL) (n : Nat) :
    ∀ (acc : Nat), (∀ j < n, 1 ≤ B.getD j 0) →
      acc * placeWeight B n + mixedRadixValue B d n < 2147483648 →
      packLoop B d n acc = ((acc * placeWeight B n + mixedRadixValue B d n : Nat) : Int) := by
  induction n with
  | zero => intro acc _ _; simp [packLoop, placeWeight_zero, mixedRadixValue_zero]
  | succ n ih =>
    intro acc hB hlt
    have hW := placeWeight_pos B n (fun j hj => hB j (by omega))
    have hEq : acc * placeWeight B (n + 1) + mixedRadixValue B d (n + 1)
        = (acc * B.getD n 0 + d.b n) * placeWeight B n + mixedRadixValue B d n := by
      rw [placeWeight_succ, mixedRadixValue_succ]; ring
    rw [hEq] at hlt ⊢
    have hle : acc * B.getD n 0 + d.b n ≤ (acc * B.getD n 0 + d.b n) * placeWeight B n :=
      Nat.le_mul_of_pos_right _ hW
    have hb1 : acc * B.getD n 0 + d.b n < 2147483648 := by omega
    have hb2 : acc * B.getD n 0 < 2147483648 := by omega
    unfold packLoop
    rw [wrapInt_of_lt (x := (acc : Int) * (B.getD n 0 : Nat)) (by positivity)
      (by exact_mod_cast hb2)]
    rw [wrapInt_of_lt (x := (acc : Int) * (B.getD n 0 : Nat) + (d.b n : Nat)) (by positivity)
      (by exact_mod_cast hb1)]
    have := ih (acc * B.getD n 0 + d.b n) (fun j hj => hB j (by omega)) hlt
    rw [← this]; push_cast; rfl

theorem Pack_eq_mixedRadixValue (bg : CBalaGray) (d : NUMERAL) (hP : 1 ≤ bg.m_nPlaces)
    (hB : ∀ j < bg.m_nPlaces, 1 ≤ bg.m_arrBase.getD j 0)
    (hlt : mixedRadixValue bg.m_arrBase d bg.m_nPlaces < 2147483648) :
    bg.Pack d = (mixedRadixValue bg.m_arrBase d bg.m_nPlaces : Nat) := by
  obtain ⟨n, hn⟩ : ∃ n, bg.m_nPlaces = n + 1 := ⟨bg.m_nPlaces - 1, by omega⟩
  unfold CBalaGray.Pack
  rw [hn] at hlt hB ⊢
  simp only [Nat.add_sub_cancel]
  have hEq : mixedRadixValue bg.m_arrBase d (n + 1)
      = d.b n * placeWeight bg.m_arrBase n + mixedRadixValue bg.m_arrBase d n := by
    rw [mixedRadixValue_succ]; ring
  rw [hEq] at hlt ⊢
  exact packLoop_eq bg.m_arrBase d n (d.b n) (fun j hj => hB j (by omega)) hlt

theorem toPLACE_natCast (n : Nat) : toPLACE (n : Int) = n % 256 := by
  unfold toPLACE
  rw [show ((n : Int) % 256) = ((n % 256 : Nat) : Int) by push_cast; rfl]
  exact Int.toNat_ofNat _

theorem unpackLoop_length (B : List Nat) (n : Nat) :
    ∀ (p : Nat) (x : Int) (num : NUMERAL), (unpackLoop B n p x num).length = num.length := by
  induction n with
  | zero => intro p x num; rfl
  | succ n ih => intro p x num; simp [unpackLoop, ih]

theorem unpackLoop_getD (B : List Nat) (n : Nat) :
    ∀ (p x : Nat) (num : NUMERAL) (q : Nat),
      (unpackLoop B n p (x : Int) num).getD q 0 =
        if p ≤ q ∧ q < p + n ∧ q < num.length
        then x / (∏ j in Finset.Ico p q, B.getD j 0) % B.getD q 0 % 256
        else num.getD q 0 := by
  induction n with
  | zero => intro p x num q; unfold unpackLoop; rw [if_neg (by omega)]
  | succ n ih =>
    intro p x num q
    unfold unpackLoop
    simp only []
    rw [← Int.ofNat_tdiv, ← Int.ofNat_tmod, toPLACE_natCast, ih]
    by_cases hq : p = q
    · subst hq
      simp
      by_cases hl : p < num.length
      · simp [hl, List.getD_eq_getElem?_getD]
      · simp [hl, List.getD_eq_getElem?_getD]
        rw [List.getElem?_eq_none (by simp; omega)]
        rw [List.getElem?_eq_none (by omega)]
    · by_cases hlt : p < q ∧ q < p + 1 + n ∧ q < num.length
      · have h1 : p + 1 ≤ q ∧ q < p + 1 + n ∧ q < (num.set p (x % B.getD p 0 % 256)).length := by
          simp; omega
        have h2 : p ≤ q ∧ q < p + (n + 1) ∧ q < num.length := by omega
        rw [if_pos h1, if_pos h2, Finset.prod_eq_prod_Ico_succ_bot (by omega : p < q),
          Nat.div_div_eq_div_mul]
      · have h1 : ¬ (p + 1 ≤ q ∧ q < p + 1 + n ∧ q < (num.set p (x % B.getD p 0 % 256)).length) := by
          simp; omega
        have h2 : ¬ (p ≤ q ∧ q < p + (n + 1) ∧ q < num.length) := by omega
        rw [if_neg h1, if_neg h2]
        simp [List.getD_eq_getElem?_getD, List.getElem?_set, hq]

theorem list_ext_getD {l₁ l₂ : List Nat} (hl : l₁.length = l₂.length)
    (h : ∀ q < l₁.length, l₁.getD q 0 = l₂.getD q 0) : l₁ = l₂ := by
  apply List.ext_getElem hl
  intro q h1 h2
  have := h q h1
  rwa [List.getD_eq_getElem _ _ h1, List.getD_eq_getElem _ _ h2] at this

theorem zeroNumeral_length : zeroNumeral.length = MAX_PLACES := by
  simp [zeroNumeral]

theorem zeroNumeral_getD (q : Nat) : zeroNumeral.getD q 0 = 0 := by
  simp [zeroNumeral, List.getD_eq_getElem?_getD, List.getElem?_replicate]
  split <;> rfl

theorem Unpack_length (bg : CBalaGray) (x : Int) : (bg.Unpack x).length = MAX_PLACES := by
  unfold CBalaGray.Unpack; rw [unpackLoop_length, zeroNumeral_length]

theorem Unpack_b (bg : CBalaGray) (i q : Nat) (hP : bg.m_nPlaces ≤ MAX_PLACES)
    (hB : ∀ p < bg.m_nPlaces, 2 ≤ bg.m_arrBase.getD p 0 ∧ bg.m_arrBase.getD p 0 ≤ 255) :
    (bg.Unpack (i : Int)).b q =
      if q < bg.m_nPlaces then i / placeWeight bg.m_arrBase q % bg.m_arrBase.getD q 0 else 0 := by
  unfold CBalaGray.Unpack NUMERAL.b
  rw [unpackLoop_getD, zeroNumeral_length, zeroNumeral_getD]
  by_cases hq : q < bg.m_nPlaces
  · have h1 : 0 ≤ q ∧ q < 0 + bg.m_nPlaces ∧ q < MAX_PLACES := by omega
    rw [if_pos h1, if_pos hq, ← Finset.range_eq_Ico]
    have hb := hB q hq
    have hlt : i / (∏ j in Finset.range q, bg.m_arrBase.getD j 0) % bg.m_arrBase.getD q 0 < 256 :=
      lt_of_lt_of_le (Nat.mod_lt _ (by omega)) (by omega)
    rw [Nat.mod_eq_of_lt hlt]; rfl
  · have h1 : ¬ (0 ≤ q ∧ q < 0 + bg.m_nPlaces ∧ q < MAX_PLACES) := by omega
    rw [if_neg h1, if_neg hq]

theorem digits_sum (B : List Nat) (i P : Nat) :
    ∑ k in Finset.range P, (i / placeWeight B k % B.getD k 0) * placeWeight B k
      = i % placeWeight B P := by
  induction P with
  | zero => simp [placeWeight_zero, Nat.mod_one]
  | succ P ih =>
    rw [Finset.sum_range_succ, ih, placeWeight_succ, Nat.mod_mul]; ring

theorem placeWeight_factor (B : List Nat) (k P : Nat) (hk : k + 1 ≤ P) :
    ∃ M, placeWeight B P = placeWeight B k * (B.getD k 0 * M) := by
  induction P, hk using Nat.le_induction with
  | base => exact ⟨1, by rw [placeWeight_succ]; ring⟩
  | succ P _ ih =>
    obtain ⟨M, hM⟩ := ih
    exact ⟨M * B.getD P 0, by rw [placeWeight_succ, hM]; ring⟩

theorem digit_of_value (B : List Nat) (d : NUMERAL) (k P : Nat) (hk : k + 1 ≤ P)
    (hd : ∀ p < P, d.b p < B.getD p 0) :
    mixedRadixValue B d P / placeWeight B k % B.getD k 0 = d.b k := by
  have hWk : 0 < placeWeight B k :=
    placeWeight_pos B k (fun j hj => by have := hd j (by omega); omega)
  induction P, hk using Nat.le_induction with
  | base =>
    rw [mixedRadixValue_succ, Nat.add_mul_div_right _ _ hWk,
      Nat.div_eq_of_lt (mixedRadixValue_lt B d k (fun p hp => hd p (by omega))), Nat.zero_add]
    exact Nat.mod_eq_of_lt (hd k (by omega))
  | succ P hP ih =>
    obtain ⟨M, hM⟩ := placeWeight_factor B k P hP
    rw [mixedRadixValue_succ, hM,
      show d.b P * (placeWeight B k * (B.getD k 0 * M))
        = placeWeight B k * (B.getD k 0 * (M * d.b P)) by ring,
      Nat.add_mul_div_left _ _ hWk, Nat.add_mul_mod_self_left]
    exact ih (fun p hp => hd p (by omega))

theorem Unpack_inRange (bg : CBalaGray) (h : bg.RadixOK) (i : Nat) : bg.InRange (bg.Unpack i) := by
  obtain ⟨_, hP, hB, _⟩ := h
  refine ⟨Unpack_length bg _, fun p hp => ?_, fun p _ hp => ?_⟩
  · rw [Unpack_b bg i p hP hB, if_pos hp]
    exact Nat.mod_lt _ (by have := hB p hp; omega)
  · rw [Unpack_b bg i p hP hB, if_neg (by omega)]

theorem Pack_of_inRange (bg : CBalaGray) (h : bg.RadixOK) (d : NUMERAL) (hd : bg.InRange d) :
    bg.Pack d = (mixedRadixValue bg.m_arrBase d bg.m_nPlaces : Nat)
      ∧ mixedRadixValue bg.m_arrBase d bg.m_nPlaces < bg.radixProduct := by
  obtain ⟨hP1, hP, hB, hN⟩ := h
  have hlt := mixedRadixValue_lt bg.m_arrBase d bg.m_nPlaces hd.2.1
  refine ⟨Pack_eq_mixedRadixValue bg d hP1 (fun j hj => by have := hB j hj; omega) ?_, hlt⟩
  unfold CBalaGray.radixProduct INT_MAX at *
  omega

theorem mixedRadixValue_Unpack (bg : CBalaGray) (h : bg.RadixOK) (i : Nat) :
    mixedRadixValue bg.m_arrBase (bg.Unpack i) bg.m_nPlaces = i % bg.radixProduct := by
  obtain ⟨_, hP, hB, _⟩ := h
  unfold mixedRadixValue CBalaGray.radixProduct
  rw [← digits_sum]
  apply Finset.sum_congr rfl
  intro k hk
  rw [Unpack_b bg i k hP hB, if_pos (Finset.mem_range.mp hk)]

theorem Pack_Unpack (bg : CBalaGray) (h : bg.RadixOK) (i : Nat) (hi : i < bg.radixProduct) :
    bg.Pack (bg.Unpack i) = i := by
  rw [(Pack_of_inRange bg h _ (Unpack_inRange bg h i)).1, mixedRadixValue_Unpack bg h,
    Nat.mod_eq_of_lt hi]

theorem Unpack_Pack (bg : CBalaGray) (h : bg.RadixOK) (d : NUMERAL) (hd : bg.InRange d) :
    bg.Unpack (bg.Pack d) = d := by
  rw [(Pack_of_inRange bg h d hd).1]
  obtain ⟨_, hP, hB, _⟩ := h
  apply list_ext_getD (by rw [Unpack_length, hd.1])
  intro q hq
  rw [Unpack_length] at hq
  have := Unpack_b bg (mixedRadixValue bg.m_arrBase d bg.m_nPlaces) q hP hB
  unfold NUMERAL.b at this
  rw [this]
  by_cases hq' : q < bg.m_nPlaces
  · rw [if_pos hq']; exact digit_of_value bg.m_arrBase d q bg.m_nPlaces hq' hd.2.1
  · rw [if_neg hq']; exact (hd.2.2 q hq (by omega)).symm

theorem foldl_set_range_aux {α : Type} (f : Nat → α) (l : List α) (m : Nat) (hm : m ≤ l.length) :
    (List.range m).foldl (fun arr i => arr.set i (f i)) l
      = (List.range m).map f ++ l.drop m := by
  induction m with
  | zero => simp
  | succ m ih =>
    rw [List.range_succ, List.foldl_append, ih (by omega)]
    simp only [List.foldl_cons, List.foldl_nil, List.map_append, List.map_cons, List.map_nil]
    rw [List.set_append_right _ _ (by simp)]
    simp only [List.length_map, List.length_range, Nat.sub_self]
    rw [List.drop_eq_getElem_cons (by omega : m < l.length)]
    simp only [List.set_cons_zero, List.append_assoc, List.singleton_append]

theorem foldl_set_range {α : Type} (f : Nat → α) (l : List α) (n : Nat) (hl : l.length = n) :
    (List.range n).foldl (fun arr i => arr.set i (f i)) l = (List.range n).map f := by
  rw [foldl_set_range_aux f l n (by omega), List.drop_of_length_le (by omega)]
  simp

theorem resize_length {α : Type} (l : List α) (n : Nat) (z : α) : (resize l n z).length = n := by
  unfold resize
  simp
  omega

theorem makeNumeralsLoop_ok (parrBase : List Nat) (n : Nat) :
    ∀ (p : Nat) (arrBase : List Nat) (acc : Nat),
      (∀ j, p ≤ j → j < p + n → 2 ≤ parrBase.getD j 0) →
      acc * (∏ j in Finset.Ico p (p + n), parrBase.getD j 0) < 2147483648 →
      1 ≤ acc →
      ∃ arrBase', makeNumeralsLoop parrBase n p arrBase (acc : Int)
          = (true, arrBase',
              ((acc * (∏ j in Finset.Ico p (p + n), parrBase.getD j 0) : Nat) : Int))
        ∧ arrBase'.length = arrBase.length
        ∧ ∀ q, arrBase'.getD q 0 =
            if p ≤ q ∧ q < p + n ∧ q < arrBase.length then parrBase.getD q 0
            else arrBase.getD q 0 := by
  induction n with
  | zero =>
    intro p arrBase acc _ _ _
    refine ⟨arrBase, by simp [makeNumeralsLoop], rfl, fun q => ?_⟩
    rw [if_neg (by omega)]
  | succ n ih =>
    intro p arrBase acc hB hlt hacc
    have hbp := hB p (by omega) (by omega)
    have hprod : ∏ j in Finset.Ico p (p + (n + 1)), parrBase.getD j 0
        = parrBase.getD p 0 * ∏ j in Finset.Ico (p + 1) (p + 1 + n), parrBase.getD j 0 := by
      have e : p + (n + 1) = p + 1 + n := by omega
      rw [e, Finset.prod_eq_prod_Ico_succ_bot (by omega)]
    have hpos : 1 ≤ ∏ j in Finset.Ico (p + 1) (p + 1 + n), parrBase.getD j 0 := by
      apply Nat.succ_le_of_lt
      apply Finset.prod_pos
      intro j hj
      have := Finset.mem_Ico.mp hj
      have := hB j (by omega) (by omega)
      omega
    rw [hprod] at hlt ⊢
    have hlt' : acc * parrBase.getD p 0 * ∏ j in Finset.Ico (p + 1) (p + 1 + n), parrBase.getD j 0
        < 2147483648 := by rw [Nat.mul_assoc]; exact hlt
    have hle : acc * parrBase.getD p 0 ≤
        acc * parrBase.getD p 0 * ∏ j in Finset.Ico (p + 1) (p + 1 + n), parrBase.getD j 0 :=
      Nat.le_mul_of_pos_right _ hpos
    obtain ⟨arrBase', h1, h2, h3⟩ := ih (p + 1) (arrBase.set p (parrBase.getD p 0))
      (acc * parrBase.getD p 0) (fun j hj1 hj2 => hB j (by omega) (by omega)) hlt'
      (Nat.mul_pos hacc (by omega))
    refine ⟨arrBase', ?_, by rw [h2, List.length_set], fun q => ?_⟩
    · unfold makeNumeralsLoop
      rw [if_neg (by omega), wrapInt_of_lt (by positivity) (by exact_mod_cast (by omega : acc * parrBase.getD p 0 < 2147483648))]
      rw [← Nat.mul_assoc]
      exact_mod_cast h1
    · rw [h3, List.length_set]
      by_cases hq : p = q
      · subst hq
        rw [if_neg (by omega)]
        by_cases hl : p < arrBase.length
        · rw [if_pos (by omega)]
          simp [List.getD_eq_getElem?_getD, hl]
        · rw [if_neg (by omega)]
          simp [List.getD_eq_getElem?_getD]
          rw [List.getElem?_eq_none (by simp; omega), List.getElem?_eq_none (by omega)]
      · by_cases hlt : p < q ∧ q < p + 1 + n ∧ q < arrBase.length
        · rw [if_pos (by omega), if_pos (by omega)]
        · rw [if_neg (by omega), if_neg (by omega)]
          simp [List.getD_eq_getElem?_getD, List.getElem?_set, hq]

theorem firstBases_getD (nPlaces : Nat) (parrBase : List Nat) (p : Nat) (hp : p < nPlaces) :
    (firstBases nPlaces parrBase).getD p 0 = parrBase.getD p 0 := by
  unfold firstBases
  rw [List.getD_eq_getElem _ _ (by simp; exact hp)]
  simp

theorem placeWeight_congr (B B' : List Nat) (n : Nat) (h : ∀ p < n, B.getD p 0 = B'.getD p 0) :
    placeWeight B n = placeWeight B' n := by
  unfold placeWeight
  exact Finset.prod_congr rfl (fun j hj => h j (Finset.mem_range.mp hj))

theorem MakeNumerals_valid (bg : CBalaGray) (nPlaces : Nat) (parrBase : List Nat)
    (h : ValidRadix nPlaces parrBase) :
    bg.MakeNumerals nPlaces parrBase = some (true, bg.withNumerals nPlaces parrBase) := by
  obtain ⟨hP2, hP8, hB, hN⟩ := h
  have hN' : 1 * (∏ j in Finset.Ico 0 (0 + nPlaces), parrBase.getD j 0) < 2147483648 := by
    rw [Nat.zero_add, ← Finset.range_eq_Ico, Nat.one_mul]
    unfold placeWeight at hN; omega
  obtain ⟨arrBase', h1, h2, h3⟩ := makeNumeralsLoop_ok parrBase nPlaces 0
    (resize bg.m_arrBase nPlaces 0) 1 (fun j _ hj => (hB j (by omega)).1) hN' (le_refl 1)
  have hArr : arrBase' = firstBases nPlaces parrBase := by
    apply list_ext_getD
    · rw [h2, resize_length]; simp [firstBases]
    · intro q hq
      rw [h2, resize_length] at hq
      rw [h3, resize_length, if_pos (by omega), firstBases_getD _ _ _ hq]
  rw [Nat.zero_add, ← Finset.range_eq_Ico, Nat.one_mul] at h1
  unfold CBalaGray.MakeNumerals
  simp only [Nat.cast_one] at h1
  simp only [h1, hArr]
  have e1 : ¬ ((∏ j in Finset.range nPlaces, parrBase.getD j 0 : Nat) : Int)
      > ((ULONGLONG_BITS * 2 - 1 : Nat) : Int) := by
    rw [gt_iff_lt, not_lt]
    exact_mod_cast (by unfold ULONGLONG_BITS; unfold placeWeight at hN; omega :
      (∏ j in Finset.range nPlaces, parrBase.getD j 0) ≤ ULONGLONG_BITS * 2 - 1)
  have e2 : ¬ ((∏ j in Finset.range nPlaces, parrBase.getD j 0 : Nat) : Int) < 0 := by
    exact not_lt.mpr (Int.ofNat_zero_le _)
  rw [if_neg e1, if_neg e2, Int.toNat_ofNat]
  rw [foldl_set_range _ _ _ (resize_length _ _ _)]
  unfold CBalaGray.withNumerals CBalaGray.Unpack placeWeight
  rfl

theorem and_0xf (n : Nat) : n &&& 0xf = n % 16 := by
  simpa using Nat.and_pow_two_sub_one_eq_mod n 4

theorem shr_4 (n : Nat) : n >>> 4 = n / 16 := by
  simpa using Nat.shiftRight_eq_div_pow n 4

theorem getBasesScan_digits (fuel : Nat) :
    ∀ (n : Nat) (pre : List Nat),
      pre.length + (Nat.digits 16 n).length ≤ MAX_PLACES →
      (Nat.digits 16 n).length + 1 ≤ fuel →
      getBasesScan fuel n pre.length (pre ++ List.replicate (MAX_PLACES - pre.length) 0)
        = (false, pre.length + (Nat.digits 16 n).length,
            pre ++ Nat.digits 16 n
              ++ List.replicate (MAX_PLACES - pre.length - (Nat.digits 16 n).length) 0) := by
  induction fuel with
  | zero => intro n pre _ h; omega
  | succ fuel ih =>
    intro n pre hlen hfuel
    unfold getBasesScan
    by_cases hn : n = 0
    · subst hn; simp
    · have hd : Nat.digits 16 n = n % 16 :: Nat.digits 16 (n / 16) :=
        Nat.digits_def' (by norm_num) (Nat.pos_of_ne_zero hn)
      rw [hd] at hlen hfuel ⊢
      simp only [List.length_cons] at hlen hfuel ⊢
      rw [if_neg hn, if_neg (by omega), and_0xf, shr_4]
      have hset : NUMERAL.setB (pre ++ List.replicate (MAX_PLACES - pre.length) 0) pre.length (n % 16)
          = (pre ++ [n % 16]) ++ List.replicate (MAX_PLACES - (pre ++ [n % 16]).length) 0 := by
        unfold NUMERAL.setB
        rw [List.set_append_right _ _ (le_refl _), Nat.sub_self]
        obtain ⟨k, hk⟩ : ∃ k, MAX_PLACES - pre.length = k + 1 :=
          ⟨MAX_PLACES - pre.length - 1, by omega⟩
        have hk' : MAX_PLACES - (pre ++ [n % 16]).length = k := by
          simp only [List.length_append, List.length_singleton]; omega
        rw [hk, hk', List.replicate_succ, List.set_cons_zero,
          Nat.mod_eq_of_lt (by omega : n % 16 < 256)]
        simp
      have := ih (n / 16) (pre ++ [n % 16])
        (by simp only [List.length_append, List.length_singleton]; omega) (by omega)
      rw [hset]
      simp only [List.length_append, List.length_singleton] at this ⊢
      rw [this]
      simp only [List.append_assoc, List.singleton_append, Prod.mk.injEq, true_and]
      refine ⟨by omega, ?_⟩
      congr 3; omega

theorem getBasesReverse_eq (ds : List Nat) (h1 : ds.length ≤ MAX_PLACES) (hd : ∀ x ∈ ds, x < 16) :
    getBasesReverse ds.length (ds.length / 2) 0 (ds ++ List.replicate (MAX_PLACES - ds.length) 0)
      = ds.reverse ++ List.replicate (MAX_PLACES - ds.length) 0 := by
  have hm : ∀ x ∈ ds, x % 256 = x := fun x hx => Nat.mod_eq_of_lt (by have := hd x hx; omega)
  unfold MAX_PLACES at *
  rcases ds with _ | ⟨a, _ | ⟨b, _ | ⟨c, _ | ⟨d, _ | ⟨e, _ | ⟨f, _ | ⟨g, _ | ⟨h, _ | ⟨i, r⟩⟩⟩⟩⟩⟩⟩⟩⟩
  all_goals first
    | (simp only [List.length_cons] at h1; omega)
    | (simp [getBasesReverse, NUMERAL.setB, NUMERAL.b] at hm ⊢; try simp [hm])

/-- C8: for a radix vector with every base at least two (held in an object
with at most `MAX_PLACES` places and a numeral count `N` that fits an `int`),
`Pack (Unpack i) = i` for every `i < N`, `Unpack (Pack d) = d` for every
in-range numeral `d` (unused places zero), and every digit of `Unpack i` is
smaller than its radix. -/
theorem Pack_Unpack_inverse (bg : CBalaGray) (h : bg.RadixOK) :
    (∀ i : Nat, i < bg.radixProduct → bg.Pack (bg.Unpack i) = i) ∧
    (∀ d : NUMERAL, bg.InRange d → bg.Unpack (bg.Pack d) = d) ∧
    (∀ i : Nat, i < bg.radixProduct →
      ∀ p < bg.m_nPlaces, (bg.Unpack i).b p < bg.m_arrBase.getD p 0) :=
  ⟨fun i hi => Pack_Unpack bg h i hi, fun d hd => Unpack_Pack bg h d hd,
    fun i _ p hp => (Unpack_inRange bg h i).2.1 p hp⟩

/-- Witness of C8 on the radix vector (2, 3, 4). -/
theorem Pack_Unpack_inverse_witness :
    exampleObject234.RadixOK ∧
    ((∀ i : Nat, i < exampleObject234.radixProduct →
        exampleObject234.Pack (exampleObject234.Unpack i) = i) ∧
     (∀ d : NUMERAL, exampleObject234.InRange d →
        exampleObject234.Unpack (exampleObject234.Pack d) = d) ∧
     (∀ i : Nat, i < exampleObject234.radixProduct →
        ∀ p < exampleObject234.m_nPlaces,
          (exampleObject234.Unpack i).b p < exampleObject234.m_arrBase.getD p 0)) :=
  ⟨by decide, Pack_Unpack_inverse exampleObject234 (by decide)⟩

/-- C9: for every in-range numeral `d`, `Pack d` is the mixed-radix value
`d_0 + d_1*b_0 + d_2*b_0*b_1 + ... + d_{P-1}*b_0*...*b_{P-2}` (least
significant place first), and on a valid radix vector `MakeNumerals` returns
true and fills the numeral array with `N` entries, entry `i` being
`Unpack i`. -/
theorem Pack_value_MakeNumerals_fill (bg : CBalaGray) (d : NUMERAL) (hbg : bg.RadixOK)
    (hd : bg.InRange d) (bg0 : CBalaGray) (nPlaces : Nat) (parrBase : List Nat)
    (hv : ValidRadix nPlaces parrBase) :
    bg.Pack d = ((∑ k in Finset.range bg.m_nPlaces,
        d.b k * ∏ j in Finset.range k, bg.m_arrBase.getD j 0 : Nat) : Int) ∧
    (bg0.MakeNumerals nPlaces parrBase = some (true, bg0.withNumerals nPlaces parrBase) ∧
     (bg0.withNumerals nPlaces parrBase).m_arrNum.length
        = ∏ j in Finset.range nPlaces, parrBase.getD j 0 ∧
     ∀ i : Nat, i < ∏ j in Finset.range nPlaces, parrBase.getD j 0 →
        (bg0.withNumerals nPlaces parrBase).m_arrNum.getD i zeroNumeral
          = (bg0.withNumerals nPlaces parrBase).Unpack i) := by
  refine ⟨(Pack_of_inRange bg hbg d hd).1, MakeNumerals_valid bg0 nPlaces parrBase hv, ?_, ?_⟩
  · simp [CBalaGray.withNumerals, placeWeight]
  · intro i hi
    rw [List.getD_eq_getElem _ _ (by simpa [CBalaGray.withNumerals, placeWeight] using hi)]
    simp [CBalaGray.withNumerals, CBalaGray.Unpack]

/-- Witness of C9 on the numeral (1, 2, 3) of the radix vector (2, 3, 4). -/
theorem Pack_value_MakeNumerals_fill_witness :
    (exampleObject234.RadixOK ∧ exampleObject234.InRange [1, 2, 3, 0, 0, 0, 0, 0]
      ∧ ValidRadix 3 [2, 3, 4]) ∧
    exampleObject234.Pack [1, 2, 3, 0, 0, 0, 0, 0] = 23 ∧
    ((CBalaGray.new true).MakeNumerals 3 [2, 3, 4]
        = some (true, (CBalaGray.new true).withNumerals 3 [2, 3, 4])) := by
  have h := Pack_value_MakeNumerals_fill exampleObject234 [1, 2, 3, 0, 0, 0, 0, 0]
    (by decide) (by decide) (CBalaGray.new true) 3 [2, 3, 4] (by decide)
  exact ⟨by decide, by decide, h.2.1⟩

/-- C10: for every nonzero 32-bit set code with `P` hexadecimal digits,
`GetBases` returns `P` and the base array whose place `k` is the `k`-th hex
digit counted from the left (the reversed little-endian digit list), all places
from `P` on being zero; set code 0x234 yields the bases 2, 3, 4; and
`GetBases 0` returns 0. -/
theorem GetBases_hex_digits (nSetCode : Nat) (h0 : nSetCode ≠ 0) (h32 : nSetCode < 4294967296) :
    GetBases nSetCode = ((Nat.digits 16 nSetCode).length,
      (Nat.digits 16 nSetCode).reverse
        ++ List.replicate (MAX_PLACES - (Nat.digits 16 nSetCode).length) 0) ∧
    GetBases 0x234 = (3, [2, 3, 4, 0, 0, 0, 0, 0]) ∧
    (GetBases 0).1 = 0 := by
  refine ⟨?_, by decide, by decide⟩
  have hlen : (Nat.digits 16 nSetCode).length ≤ MAX_PLACES := by
    rw [Nat.digits_len 16 nSetCode (by norm_num) h0]
    have := Nat.log_lt_of_lt_pow (b := 16) (x := 8) (y := nSetCode) h0 (by norm_num; omega)
    unfold MAX_PLACES; omega
  have hscan := getBasesScan_digits (MAX_PLACES + 1) nSetCode [] (by simpa using hlen)
    (by omega)
  simp only [List.length_nil, Nat.sub_zero, List.nil_append, Nat.zero_add] at hscan
  unfold GetBases
  rw [show List.replicate MAX_PLACES 0 = zeroNumeral from rfl] at hscan
  rw [hscan]
  simp only []
  rw [getBasesReverse_eq _ hlen (fun x hx => Nat.digits_lt_base (by norm_num) hx)]

/-- Witness of C10 on set code 0x234. -/
theorem GetBases_hex_digits_witness :
    ((0x234 : Nat) ≠ 0 ∧ (0x234 : Nat) < 4294967296) ∧
    GetBases 0x234 = ((Nat.digits 16 0x234).length,
      (Nat.digits 16 0x234).reverse
        ++ List.replicate (MAX_PLACES - (Nat.digits 16 0x234).length) 0) :=
  ⟨by decide, (GetBases_hex_digits 0x234 (by decide) (by decide)).1⟩

theorem writeList_length (l : List Nat) : ∀ (t : List Nat) (k : Nat),
    (writeList t k l).length = t.length := by
  induction l with
  | nil => intro t k; rfl
  | cons x xs ih => intro t k; simp [writeList, ih]

theorem writeList_append (l₁ l₂ : List Nat) : ∀ (t : List Nat) (k : Nat),
    writeList t k (l₁ ++ l₂) = writeList (writeList t k l₁) (k + l₁.length) l₂ := by
  induction l₁ with
  | nil => intro t k; simp [writeList]
  | cons x xs ih =>
    intro t k
    show writeList (t.set k x) (k + 1) (xs ++ l₂)
      = writeList (writeList (t.set k x) (k + 1) xs) (k + (xs.length + 1)) l₂
    rw [ih, show k + 1 + xs.length = k + (xs.length + 1) by omega]

theorem getD_set_nat (t : List Nat) (k j x : Nat) :
    (t.set k x).getD j 0 = if k = j ∧ j < t.length then x else t.getD j 0 := by
  simp only [List.getD_eq_getElem?_getD, List.getElem?_set]
  by_cases h : k = j
  · subst h
    by_cases hl : k < t.length
    · simp [hl]
    · simp [hl]
      rw [List.getElem?_eq_none (by omega)]; rfl
  · simp [h]

theorem writeList_getD (l : List Nat) : ∀ (t : List Nat) (k j : Nat),
    (writeList t k l).getD j 0 =
      if k ≤ j ∧ j < k + l.length ∧ j < t.length then l.getD (j - k) 0 else t.getD j 0 := by
  induction l with
  | nil => intro t k j; simp only [writeList, List.length_nil]; rw [if_neg (by omega)]
  | cons x xs ih =>
    intro t k j
    simp only [writeList, List.length_cons]
    rw [ih, List.length_set, getD_set_nat]
    by_cases h1 : k = j
    · subst h1
      rw [if_neg (by omega)]
      by_cases h2 : k < t.length
      · rw [if_pos ⟨rfl, h2⟩, if_pos (by omega)]; simp
      · rw [if_neg (by omega), if_neg (by omega)]
    · by_cases h2 : k + 1 ≤ j ∧ j < k + 1 + xs.length ∧ j < t.length
      · rw [if_pos h2, if_pos (by omega)]
        obtain ⟨m, hm⟩ : ∃ m, j - k = m + 1 := ⟨j - k - 1, by omega⟩
        rw [hm, show j - (k + 1) = m by omega]
        simp
      · rw [if_neg h2, if_neg (by omega), if_neg (by omega)]

theorem rowValues_succ (bg : CBalaGray) (rowNum : NUMERAL) (p n : Nat) :
    rowValues bg rowNum p (n + 1) =
      rowValues bg rowNum p n ++
        (if n ≠ rowNum.b p then [toPLACE (bg.Pack (rowNum.setB p n))] else []) := by
  unfold rowValues
  rw [List.range_succ, List.filter_append, List.map_append]
  by_cases h : n ≠ rowNum.b p
  · simp [h]
  · simp [h]

theorem valFold_eq (bg : CBalaGray) (shift iNum : Nat) (rowNum : NUMERAL) (p n : Nat)
    (t : List Nat) (c : Nat) :
    (List.range n).foldl (graySuccValStep bg shift iNum rowNum p) (t, c)
      = (writeList t ((iNum <<< shift) + c) (rowValues bg rowNum p n),
          c + (rowValues bg rowNum p n).length) := by
  induction n with
  | zero => simp [rowValues, writeList]
  | succ n ih =>
    rw [List.range_succ, List.foldl_append, ih, rowValues_succ, writeList_append]
    simp only [List.foldl_cons, List.foldl_nil, graySuccValStep]
    by_cases h : n ≠ rowNum.b p
    · simp only [h, if_true, ne_eq, not_false_eq_true, writeList, List.length_append,
        List.length_singleton]
      rw [Nat.add_assoc, Nat.add_assoc]
    · simp only [h, if_false, writeList, List.append_nil, List.length_append, List.length_nil,
        Nat.add_zero]

theorem rowBytes_succ (bg : CBalaGray) (rowNum : NUMERAL) (m : Nat) :
    rowBytes bg rowNum (m + 1) =
      rowBytes bg rowNum m ++ rowValues bg rowNum m (bg.m_arrBase.getD m 0) := by
  unfold rowBytes
  rw [List.range_succ, List.flatMap_append]
  simp

theorem placeFold_eq (bg : CBalaGray) (shift iNum : Nat) (rowNum : NUMERAL) (m : Nat)
    (t : List Nat) (c : Nat) :
    (List.range m).foldl (graySuccPlaceStep bg shift iNum rowNum) (t, c)
      = (writeList t ((iNum <<< shift) + c) (rowBytes bg rowNum m),
          c + (rowBytes bg rowNum m).length) := by
  induction m with
  | zero => simp [rowBytes, writeList]
  | succ m ih =>
    rw [List.range_succ, List.foldl_append, ih, rowBytes_succ, writeList_append]
    simp only [List.foldl_cons, List.foldl_nil, graySuccPlaceStep]
    rw [valFold_eq, List.length_append, Nat.add_assoc, Nat.add_assoc]

theorem graySuccRowStep_eq (bg : CBalaGray) (shift : Nat) (t : List Nat) (iNum : Nat) :
    graySuccRowStep bg shift t iNum
      = writeList t (iNum <<< shift) (rowBytes bg (bg.num iNum) bg.m_nPlaces) := by
  unfold graySuccRowStep
  rw [show bg.m_arrNum.getD iNum zeroNumeral = bg.num iNum from rfl, placeFold_eq]
  simp

theorem filter_ne_length (n x : Nat) :
    ((List.range n).filter (fun v => v ≠ x)).length = if x < n then n - 1 else n := by
  induction n with
  | zero => simp
  | succ n ih =>
    rw [List.range_succ, List.filter_append, List.length_append, ih]
    by_cases h1 : n = x
    · subst h1; simp
    · have : decide (n ≠ x) = true := by simpa using h1
      simp only [List.filter_cons, List.filter_nil, this, if_true, List.length_singleton]
      by_cases h2 : x < n
      · rw [if_pos h2, if_pos (by omega)]; omega
      · rw [if_neg h2, if_neg (by omega)]

theorem rowValues_length (bg : CBalaGray) (d : NUMERAL) (p n : Nat) (h : d.b p < n) :
    (rowValues bg d p n).length = n - 1 := by
  unfold rowValues
  rw [List.length_map, filter_ne_length, if_pos h]

theorem rowBytes_length (bg : CBalaGray) (d : NUMERAL) (m : Nat)
    (h : ∀ p < m, d.b p < bg.m_arrBase.getD p 0) :
    (rowBytes bg d m).length
      = (List.range m).foldl (fun n iPlace => n + (bg.m_arrBase.getD iPlace 0 - 1)) 0 := by
  induction m with
  | zero => simp [rowBytes]
  | succ m ih =>
    rw [rowBytes_succ, List.length_append, ih (fun p hp => h p (by omega)),
      rowValues_length _ _ _ _ (h m (by omega)), List.range_succ, List.foldl_append]
    simp

theorem rowFold_getD (bg : CBalaGray) (shift K : Nat) (t₀ : List Nat)
    (hK : K ≤ 2 ^ shift)
    (hrow : ∀ i < bg.m_arrNum.length, (rowBytes bg (bg.num i) bg.m_nPlaces).length = K)
    (hlen : t₀.length = bg.m_arrNum.length <<< shift) (m : Nat) (hm : m ≤ bg.m_arrNum.length) :
    ((List.range m).foldl (graySuccRowStep bg shift) t₀).length = t₀.length ∧
    ∀ i < m, ∀ c < K,
      ((List.range m).foldl (graySuccRowStep bg shift) t₀).getD ((i <<< shift) + c) 0
        = (rowBytes bg (bg.num i) bg.m_nPlaces).getD c 0 := by
  induction m with
  | zero => exact ⟨rfl, fun i hi => by omega⟩
  | succ m ih =>
    obtain ⟨ih1, ih2⟩ := ih (by omega)
    rw [List.range_succ, List.foldl_append]
    simp only [List.foldl_cons, List.foldl_nil]
    rw [graySuccRowStep_eq]
    refine ⟨by rw [writeList_length, ih1], fun i hi c hc => ?_⟩
    rw [writeList_getD, hrow m (by omega), ih1, hlen]
    simp only [Nat.shiftLeft_eq]
    have hpos : 0 < 2 ^ shift := Nat.two_pow_pos shift
    by_cases him : i = m
    · subst him
      have hb : i * 2 ^ shift + c < bg.m_arrNum.length * 2 ^ shift := by
        calc i * 2 ^ shift + c < i * 2 ^ shift + 2 ^ shift := by omega
          _ = (i + 1) * 2 ^ shift := by ring
          _ ≤ bg.m_arrNum.length * 2 ^ shift := Nat.mul_le_mul_right _ (by omega)
      rw [if_pos ⟨by omega, by omega, hb⟩, Nat.add_sub_cancel_left]
    · have hb : i * 2 ^ shift + c < m * 2 ^ shift := by
        calc i * 2 ^ shift + c < i * 2 ^ shift + 2 ^ shift := by omega
          _ = (i + 1) * 2 ^ shift := by ring
          _ ≤ m * 2 ^ shift := Nat.mul_le_mul_right _ (by omega)
      rw [if_neg (by omega)]
      have := ih2 i (by omega) c hc
      simp only [Nat.shiftLeft_eq] at this
      exact this

theorem withNumerals_NumeralsOK (bg : CBalaGray) (nPlaces : Nat) (parrBase : List Nat)
    (h : ValidRadix nPlaces parrBase) : (bg.withNumerals nPlaces parrBase).NumeralsOK := by
  obtain ⟨hP2, hP8, hB, hN⟩ := h
  have hw : (bg.withNumerals nPlaces parrBase).radixProduct = placeWeight parrBase nPlaces := by
    unfold CBalaGray.radixProduct
    exact placeWeight_congr _ _ _ (fun p hp => firstBases_getD _ _ _ hp)
  refine ⟨hP2, ⟨by show 1 ≤ nPlaces; omega, hP8, fun p hp => ?_, ?_⟩, ?_, ?_⟩
  · show 2 ≤ (firstBases nPlaces parrBase).getD p 0 ∧ (firstBases nPlaces parrBase).getD p 0 ≤ 255
    have hp' : p < nPlaces := hp
    rw [firstBases_getD _ _ _ hp']; exact hB p hp'
  · rw [hw]; unfold INT_MAX; omega
  · rw [hw]; exact hN
  · rw [hw]; rfl

theorem NumeralsOK_length {bg : CBalaGray} (h : bg.NumeralsOK) :
    bg.m_arrNum.length = bg.radixProduct := by
  rw [h.2.2.2]; simp

theorem NumeralsOK_num {bg : CBalaGray} (h : bg.NumeralsOK) (i : Nat) (hi : i < bg.radixProduct) :
    bg.num i = bg.Unpack (i : Int) := by
  unfold CBalaGray.num
  rw [List.getD_eq_getElem _ _ (by rw [NumeralsOK_length h]; exact hi)]
  simp [h.2.2.2]

theorem NumeralsOK_num_inRange {bg : CBalaGray} (h : bg.NumeralsOK) (i : Nat)
    (hi : i < bg.radixProduct) : bg.InRange (bg.num i) := by
  rw [NumeralsOK_num h i hi]; exact Unpack_inRange bg h.2.1 i

theorem setB_b (d : NUMERAL) (p v q : Nat) :
    (d.setB p v).b q = if p = q ∧ q < d.length then v % 256 else d.b q := by
  unfold NUMERAL.setB NUMERAL.b
  exact getD_set_nat d p q (v % 256)

theorem setB_inRange (bg : CBalaGray) (h : bg.RadixOK) (d : NUMERAL) (hd : bg.InRange d)
    (p v : Nat) (hp : p < bg.m_nPlaces) (hv : v < bg.m_arrBase.getD p 0) :
    bg.InRange (d.setB p v) := by
  obtain ⟨_, hP, hB, _⟩ := h
  obtain ⟨hl, h1, h2⟩ := hd
  have hv' : v % 256 = v := Nat.mod_eq_of_lt (by have := hB p hp; omega)
  refine ⟨by unfold NUMERAL.setB; rw [List.length_set, hl], fun q hq => ?_, fun q hq hq' => ?_⟩
  · rw [setB_b]
    by_cases hpq : p = q
    · subst hpq; rw [if_pos ⟨rfl, by omega⟩, hv']; exact hv
    · rw [if_neg (by tauto)]; exact h1 q hq
  · rw [setB_b, if_neg (by omega)]; exact h2 q hq hq'

theorem Pack_lt (bg : CBalaGray) (h : bg.RadixOK) (d : NUMERAL) (hd : bg.InRange d) :
    ∃ j : Nat, bg.Pack d = (j : Int) ∧ j < bg.radixProduct ∧ bg.Unpack (j : Int) = d := by
  refine ⟨mixedRadixValue bg.m_arrBase d bg.m_nPlaces, (Pack_of_inRange bg h d hd).1,
    (Pack_of_inRange bg h d hd).2, ?_⟩
  rw [← (Pack_of_inRange bg h d hd).1]; exact Unpack_Pack bg h d hd

theorem toPLACE_Pack (bg : CBalaGray) (h : bg.NumeralsOK) (d : NUMERAL) (hd : bg.InRange d) :
    ((toPLACE (bg.Pack d) : Nat) : Int) = bg.Pack d := by
  obtain ⟨j, hj, hlt, _⟩ := Pack_lt bg h.2.1 d hd
  have := h.2.2.1
  rw [hj, toPLACE_natCast, Nat.mod_eq_of_lt (by omega)]

theorem rowValues_cast (bg : CBalaGray) (h : bg.NumeralsOK) (d : NUMERAL) (hd : bg.InRange d)
    (p : Nat) (hp : p < bg.m_nPlaces) :
    (rowValues bg d p (bg.m_arrBase.getD p 0)).map (fun (x : Nat) => (x : Int))
      = ((List.range (bg.m_arrBase.getD p 0)).filter (fun v => v ≠ d.b p)).map
          (fun v => bg.Pack (d.setB p v)) := by
  unfold rowValues
  rw [List.map_map]
  apply List.map_congr_left
  intro v hv
  have hv' : v < bg.m_arrBase.getD p 0 := List.mem_range.mp (List.mem_filter.mp hv).1
  exact toPLACE_Pack bg h _ (setB_inRange bg h.2.1 d hd p v hp hv')

theorem rowBytes_cast (bg : CBalaGray) (h : bg.NumeralsOK) (d : NUMERAL) (hd : bg.InRange d)
    (m : Nat) (hm : m ≤ bg.m_nPlaces) :
    (rowBytes bg d m).map (fun (x : Nat) => (x : Int))
      = (List.range m).flatMap (fun p =>
          ((List.range (bg.m_arrBase.getD p 0)).filter (fun v => v ≠ d.b p)).map
            (fun v => bg.Pack (d.setB p v))) := by
  induction m with
  | zero => simp [rowBytes]
  | succ m ih =>
    rw [rowBytes_succ, List.map_append, ih (by omega), rowValues_cast bg h d hd m (by omega),
      List.range_succ, List.flatMap_append]
    simp

theorem map_getD_range (L : List Nat) : (List.range L.length).map (fun c => L.getD c 0) = L := by
  apply List.ext_getElem (by simp)
  intro n h1 h2
  simp [List.getD_eq_getElem?_getD, List.getElem?_eq_getElem h2]

theorem MakeGraySuccessorTable_fields (bg : CBalaGray) :
    bg.MakeGraySuccessorTable.m_nPlaces = bg.m_nPlaces ∧
    bg.MakeGraySuccessorTable.m_arrBase = bg.m_arrBase ∧
    bg.MakeGraySuccessorTable.m_arrNum = bg.m_arrNum ∧
    bg.MakeGraySuccessorTable.m_nGraySuccessors = graySuccessorCount bg ∧
    bg.MakeGraySuccessorTable.m_nGrayStrideShift = grayStrideShift (graySuccessorCount bg) ∧
    bg.MakeGraySuccessorTable.m_arrState = bg.m_arrState ∧
    bg.MakeGraySuccessorTable.m_nPruneMaxTrans = bg.m_nPruneMaxTrans ∧
    bg.MakeGraySuccessorTable.m_nPruneImbalance = bg.m_nPruneImbalance :=
  ⟨rfl, rfl, rfl, rfl, rfl, rfl, rfl, rfl⟩

theorem MakeGraySuccessorTable_Pack (bg : CBalaGray) (d : NUMERAL) :
    bg.MakeGraySuccessorTable.Pack d = bg.Pack d := rfl

theorem MakeGraySuccessorTable_Unpack (bg : CBalaGray) (x : Int) :
    bg.MakeGraySuccessorTable.Unpack x = bg.Unpack x := rfl

theorem MakeGraySuccessorTable_num (bg : CBalaGray) (i : Nat) :
    bg.MakeGraySuccessorTable.num i = bg.num i := rfl

theorem lt_two_pow_bitScanLoop (fuel : Nat) : ∀ n, n < 2 ^ fuel →
    n < 2 ^ (bitScanLoop fuel n + 1) := by
  induction fuel with
  | zero => intro n hn; simp at hn; subst hn; simp [bitScanLoop]
  | succ fuel ih =>
    intro n hn
    unfold bitScanLoop
    by_cases h2 : 2 ≤ n
    · rw [if_pos h2]
      have := ih (n / 2) (by rw [pow_succ] at hn; omega)
      rw [pow_succ]; omega
    · rw [if_neg h2]; simp; omega

theorem le_two_pow_grayStrideShift (K : Nat) (hK : K - 1 < 2 ^ 32) :
    K ≤ 2 ^ grayStrideShift K := by
  unfold grayStrideShift bitScanReverse
  rw [Nat.one_shiftLeft]
  have h1 := lt_two_pow_bitScanLoop 32 (K - 1) hK
  have h2 : bitScanLoop 32 (K - 1) + 1 ≤ 2 ^ bitScanLoop 32 (K - 1) := Nat.lt_two_pow _
  have h3 : 2 ^ (bitScanLoop 32 (K - 1) + 1) ≤ 2 ^ 2 ^ bitScanLoop 32 (K - 1) :=
    Nat.pow_le_pow_right (by norm_num) h2
  omega

theorem succCount_lt_placeWeight (B : List Nat) (m : Nat) (hB : ∀ j < m, 2 ≤ B.getD j 0) :
    (List.range m).foldl (fun n iPlace => n + (B.getD iPlace 0 - 1)) 0 + 1 ≤ placeWeight B m := by
  induction m with
  | zero => simp [placeWeight_zero]
  | succ m ih =>
    rw [List.range_succ, List.foldl_append, placeWeight_succ]
    simp only [List.foldl_cons, List.foldl_nil]
    have h1 := ih (fun j hj => hB j (by omega))
    have h2 := hB m (by omega)
    obtain ⟨b, hb⟩ : ∃ b, B.getD m 0 = b + 1 := ⟨B.getD m 0 - 1, by omega⟩
    rw [hb, Nat.add_sub_cancel, Nat.mul_succ]
    have h3 : b ≤ placeWeight B m * b := Nat.le_mul_of_pos_left _ (by omega)
    omega

theorem NumeralsOK_succCount_lt {bg : CBalaGray} (h : bg.NumeralsOK) :
    graySuccessorCount bg + 1 ≤ bg.radixProduct :=
  succCount_lt_placeWeight bg.m_arrBase bg.m_nPlaces (fun j hj => (h.2.1.2.2.1 j hj).1)

theorem NumeralsOK_rowBytes_length {bg : CBalaGray} (h : bg.NumeralsOK) (i : Nat)
    (hi : i < bg.radixProduct) :
    (rowBytes bg (bg.num i) bg.m_nPlaces).length = graySuccessorCount bg :=
  rowBytes_length bg _ _ (NumeralsOK_num_inRange h i hi).2.1

theorem MakeGraySuccessorTable_getD (bg : CBalaGray) (h : bg.NumeralsOK) (i : Nat)
    (hi : i < bg.radixProduct) (c : Nat) (hc : c < graySuccessorCount bg) :
    bg.MakeGraySuccessorTable.m_arrGraySuccessor.getD
        ((i <<< bg.MakeGraySuccessorTable.m_nGrayStrideShift) + c) 0
      = (rowBytes bg (bg.num i) bg.m_nPlaces).getD c 0 := by
  have hlen := NumeralsOK_length h
  have := (rowFold_getD bg (grayStrideShift (graySuccessorCount bg)) (graySuccessorCount bg)
    (resize bg.m_arrGraySuccessor
      (bg.m_arrNum.length <<< grayStrideShift (graySuccessorCount bg)) 0)
    (le_two_pow_grayStrideShift _ (by
      have := NumeralsOK_succCount_lt h; have := h.2.2.1; omega))
    (fun j hj => NumeralsOK_rowBytes_length h j (by omega))
    (resize_length _ _ _) bg.m_arrNum.length (le_refl _)).2 i (by omega) c hc
  exact this

theorem MakeGraySuccessorTable_tableRow (bg : CBalaGray) (h : bg.NumeralsOK) (i : Nat)
    (hi : i < bg.radixProduct) :
    bg.MakeGraySuccessorTable.tableRow i = rowBytes bg (bg.num i) bg.m_nPlaces := by
  unfold CBalaGray.tableRow
  rw [(MakeGraySuccessorTable_fields bg).2.2.2.1]
  conv_rhs => rw [← map_getD_range (rowBytes bg (bg.num i) bg.m_nPlaces)]
  rw [NumeralsOK_rowBytes_length h i hi]
  apply List.map_congr_left
  intro c hc
  exact MakeGraySuccessorTable_getD bg h i hi c (List.mem_range.mp hc)

theorem tableRow_policy (bg : CBalaGray) (h : bg.NumeralsOK) (d : NUMERAL) (hd : bg.InRange d) :
    (bg.MakeGraySuccessorTable.tableRow (bg.Pack d).toNat).map (fun (x : Nat) => (x : Int))
      = bg.MakeGraySuccessorTable.policyRow d := by
  obtain ⟨j, hj, hlt, hu⟩ := Pack_lt bg h.2.1 d hd
  rw [hj, Int.toNat_ofNat, MakeGraySuccessorTable_tableRow bg h j hlt, NumeralsOK_num h j hlt, hu,
    rowBytes_cast bg h d hd _ (le_refl _)]
  rfl

theorem succNumerals_succ (bg : CBalaGray) (d : NUMERAL) (m : Nat) :
    succNumerals bg d (m + 1) = succNumerals bg d m ++
      ((List.range (bg.m_arrBase.getD m 0)).filter (fun v => v ≠ d.b m)).map
        (fun v => d.setB m v) := by
  unfold succNumerals
  rw [List.range_succ, List.flatMap_append]
  simp

theorem rowBytes_eq_map (bg : CBalaGray) (d : NUMERAL) (m : Nat) :
    rowBytes bg d m = (succNumerals bg d m).map (fun x => toPLACE (bg.Pack x)) := by
  induction m with
  | zero => simp [rowBytes, succNumerals]
  | succ m ih =>
    rw [rowBytes_succ, succNumerals_succ, List.map_append, ih, List.map_map]
    rfl

theorem mem_succNumerals (bg : CBalaGray) (d x : NUMERAL) (m : Nat) :
    x ∈ succNumerals bg d m ↔
      ∃ p, p < m ∧ ∃ v, v < bg.m_arrBase.getD p 0 ∧ v ≠ d.b p ∧ x = d.setB p v := by
  unfold succNumerals
  simp only [List.mem_flatMap, List.mem_range, List.mem_map, List.mem_filter, decide_eq_true_eq]
  constructor
  · rintro ⟨p, hp, v, ⟨hv, hne⟩, rfl⟩; exact ⟨p, hp, v, hv, hne, rfl⟩
  · rintro ⟨p, hp, v, hv, hne, rfl⟩; exact ⟨p, hp, v, ⟨hv, hne⟩, rfl⟩

theorem succNumerals_nodup (bg : CBalaGray) (h : bg.RadixOK) (d : NUMERAL) (hd : bg.InRange d)
    (m : Nat) (hm : m ≤ bg.m_nPlaces) : (succNumerals bg d m).Nodup := by
  obtain ⟨_, hP, hB, _⟩ := h
  have hl : d.length = MAX_PLACES := hd.1
  induction m with
  | zero => simp [succNumerals]
  | succ m ih =>
    rw [succNumerals_succ, List.nodup_append]
    refine ⟨ih (by omega), ?_, ?_⟩
    · apply List.Nodup.map_on
      · intro v hv w hw hvw
        have hv' : v < bg.m_arrBase.getD m 0 := List.mem_range.mp (List.mem_filter.mp hv).1
        have hw' : w < bg.m_arrBase.getD m 0 := List.mem_range.mp (List.mem_filter.mp hw).1
        have hb := hB m (by omega)
        have e : (d.setB m v).b m = (d.setB m w).b m := congrArg (fun x => NUMERAL.b x m) hvw
        rw [setB_b, setB_b, if_pos ⟨rfl, by omega⟩, if_pos ⟨rfl, by omega⟩,
          Nat.mod_eq_of_lt (by omega), Nat.mod_eq_of_lt (by omega)] at e
        exact e
      · exact (List.nodup_range _).filter _
    · intro x hx1 hx2
      obtain ⟨p, hp, v, _, _, rfl⟩ := (mem_succNumerals bg d x m).mp hx1
      obtain ⟨w, hw, hxw⟩ := List.mem_map.mp hx2
      have hw' : w < bg.m_arrBase.getD m 0 := List.mem_range.mp (List.mem_filter.mp hw).1
      have hne : w ≠ d.b m := by simpa using (List.mem_filter.mp hw).2
      have hb := hB m (by omega)
      have e : (d.setB m w).b m = (d.setB p v).b m := congrArg (fun x => NUMERAL.b x m) hxw
      rw [setB_b, setB_b, if_pos ⟨rfl, by omega⟩, if_neg (by omega),
        Nat.mod_eq_of_lt (by omega)] at e
      exact hne e

theorem filter_eq_length (n p : Nat) :
    ((List.range n).filter (fun q => decide (q = p))).length = if p < n then 1 else 0 := by
  induction n with
  | zero => simp
  | succ n ih =>
    rw [List.range_succ, List.filter_append, List.length_append, ih]
    by_cases h1 : n = p
    · subst h1; simp
    · simp only [List.filter_cons, List.filter_nil, h1, decide_False, Bool.false_eq_true,
        if_false, List.length_nil, Nat.add_zero]
      by_cases h2 : p < n
      · rw [if_pos h2, if_pos (show p < n + 1 by omega)]
      · rw [if_neg h2, if_neg (show ¬ p < n + 1 by omega)]

theorem differInOnePlace_setB (bg : CBalaGray) (h : bg.RadixOK) (d : NUMERAL) (hd : bg.InRange d)
    (p v : Nat) (hp : p < bg.m_nPlaces) (hv : v < bg.m_arrBase.getD p 0) (hne : v ≠ d.b p) :
    differInOnePlace bg.m_nPlaces d (d.setB p v) := by
  obtain ⟨_, hP, hB, _⟩ := h
  unfold differInOnePlace
  have hb := hB p hp
  have : (List.range bg.m_nPlaces).filter (fun q => decide (d.b q ≠ (d.setB p v).b q))
      = (List.range bg.m_nPlaces).filter (fun q => decide (q = p)) := by
    apply List.filter_congr
    intro q hq
    rw [setB_b]
    by_cases hpq : p = q
    · subst hpq
      rw [if_pos ⟨rfl, by rw [hd.1]; omega⟩, Nat.mod_eq_of_lt (by omega)]
      simp; exact fun e => hne e.symm
    · rw [if_neg (by tauto)]
      simp; exact fun e => hpq e.symm
  rw [this, filter_eq_length, if_pos hp]

theorem mem_succNumerals_of_differ (bg : CBalaGray) (h : bg.RadixOK) (d x : NUMERAL)
    (hd : bg.InRange d) (hx : bg.InRange x) (hdiff : differInOnePlace bg.m_nPlaces d x) :
    x ∈ succNumerals bg d bg.m_nPlaces := by
  obtain ⟨_, hP, hB, _⟩ := h
  unfold differInOnePlace at hdiff
  obtain ⟨p, hp⟩ := List.length_eq_one.mp hdiff
  have hmem : ∀ q, q ∈ (List.range bg.m_nPlaces).filter (fun q => decide (d.b q ≠ x.b q))
      ↔ q = p := by
    intro q; rw [hp]; simp
  have hp1 := (hmem p).mpr rfl
  rw [List.mem_filter, List.mem_range] at hp1
  have hpne : d.b p ≠ x.b p := by simpa using hp1.2
  have hother : ∀ q, q < bg.m_nPlaces → q ≠ p → d.b q = x.b q := by
    intro q hq hqp
    by_contra hne
    exact hqp ((hmem q).mp (List.mem_filter.mpr ⟨List.mem_range.mpr hq, by simpa using hne⟩))
  have hb := hB p hp1.1
  have hxp := hx.2.1 p hp1.1
  rw [mem_succNumerals]
  refine ⟨p, hp1.1, x.b p, hxp, fun e => hpne e.symm, ?_⟩
  apply list_ext_getD
  · unfold NUMERAL.setB; rw [List.length_set, hx.1, hd.1]
  · intro q hq
    have := setB_b d p (x.b p) q
    unfold NUMERAL.b at this ⊢
    rw [this]
    rw [hx.1] at hq
    by_cases hpq : p = q
    · subst hpq
      rw [if_pos ⟨rfl, by rw [hd.1]; exact hq⟩, Nat.mod_eq_of_lt (by unfold NUMERAL.b at hxp; omega)]
    · rw [if_neg (by tauto)]
      by_cases hqP : q < bg.m_nPlaces
      · exact (hother q hqP (fun e => hpq e.symm)).symm
      · have h1 := hd.2.2 q hq (by omega)
        have h2 := hx.2.2 q hq (by omega)
        unfold NUMERAL.b at h1 h2
        rw [h1, h2]

theorem packIndex (bg : CBalaGray) (h : bg.NumeralsOK) (x : NUMERAL) (hx : bg.InRange x) :
    toPLACE (bg.Pack x) < bg.radixProduct ∧ bg.num (toPLACE (bg.Pack x)) = x ∧
    bg.Pack x = ((toPLACE (bg.Pack x) : Nat) : Int) := by
  obtain ⟨j, hj, hlt, hu⟩ := Pack_lt bg h.2.1 x hx
  have := h.2.2.1
  rw [hj, toPLACE_natCast, Nat.mod_eq_of_lt (by omega)]
  exact ⟨hlt, by rw [NumeralsOK_num h j hlt, hu], rfl⟩

theorem succNumerals_inRange (bg : CBalaGray) (h : bg.RadixOK) (d x : NUMERAL)
    (hd : bg.InRange d) (hx : x ∈ succNumerals bg d bg.m_nPlaces) :
    bg.InRange x ∧ differInOnePlace bg.m_nPlaces d x := by
  obtain ⟨p, hp, v, hv, hne, rfl⟩ := (mem_succNumerals bg d x _).mp hx
  exact ⟨setB_inRange bg h d hd p v hp hv, differInOnePlace_setB bg h d hd p v hp hv hne⟩

theorem tableRow_correct (bg : CBalaGray) (h : bg.NumeralsOK) (i : Nat)
    (hi : i < bg.radixProduct) :
    (bg.MakeGraySuccessorTable.tableRow i).length = graySuccessorCount bg ∧
    (bg.MakeGraySuccessorTable.tableRow i).Nodup ∧
    (∀ j ∈ bg.MakeGraySuccessorTable.tableRow i, j < bg.radixProduct) ∧
    (∀ j, j < bg.radixProduct →
      (j ∈ bg.MakeGraySuccessorTable.tableRow i
        ↔ differInOnePlace bg.m_nPlaces (bg.num i) (bg.num j))) := by
  have hd := NumeralsOK_num_inRange h i hi
  rw [MakeGraySuccessorTable_tableRow bg h i hi]
  refine ⟨NumeralsOK_rowBytes_length h i hi, ?_, ?_, ?_⟩
  · rw [rowBytes_eq_map]
    apply List.Nodup.map_on _ (succNumerals_nodup bg h.2.1 _ hd _ (le_refl _))
    intro x hx y hy hxy
    have h1 := packIndex bg h x (succNumerals_inRange bg h.2.1 _ x hd hx).1
    have h2 := packIndex bg h y (succNumerals_inRange bg h.2.1 _ y hd hy).1
    rw [← h1.2.1, ← h2.2.1, hxy]
  · intro j hj
    rw [rowBytes_eq_map] at hj
    obtain ⟨x, hx, rfl⟩ := List.mem_map.mp hj
    exact (packIndex bg h x (succNumerals_inRange bg h.2.1 _ x hd hx).1).1
  · intro j hj
    rw [rowBytes_eq_map]
    constructor
    · intro hmem
      obtain ⟨x, hx, rfl⟩ := List.mem_map.mp hmem
      have hx' := succNumerals_inRange bg h.2.1 _ x hd hx
      rw [(packIndex bg h x hx'.1).2.1]
      exact hx'.2
    · intro hdiff
      have hxj := NumeralsOK_num_inRange h j hj
      have hmem := mem_succNumerals_of_differ bg h.2.1 _ _ hd hxj hdiff
      refine List.mem_map.mpr ⟨bg.num j, hmem, ?_⟩
      rw [NumeralsOK_num h j hj, Pack_Unpack bg h.2.1 j hj, toPLACE_natCast]
      have := h.2.2.1
      exact Nat.mod_eq_of_lt (by omega)

theorem two_pow_le_placeWeight (B : List Nat) (n : Nat) (hB : ∀ j < n, 2 ≤ B.getD j 0) :
    2 ^ n ≤ placeWeight B n := by
  induction n with
  | zero => simp [placeWeight_zero]
  | succ n ih =>
    rw [placeWeight_succ, pow_succ]
    exact Nat.mul_le_mul (ih (fun j hj => hB j (by omega))) (hB n (by omega))

theorem NumeralsOK_four_le {bg : CBalaGray} (h : bg.NumeralsOK) : 4 ≤ bg.radixProduct := by
  have h1 := two_pow_le_placeWeight bg.m_arrBase bg.m_nPlaces (fun j hj => (h.2.1.2.2.1 j hj).1)
  have h2 : 2 ^ 2 ≤ 2 ^ bg.m_nPlaces := Nat.pow_le_pow_right (by norm_num) h.1
  unfold CBalaGray.radixProduct
  omega

theorem le_succCount (B : List Nat) (m : Nat) (hB : ∀ j < m, 2 ≤ B.getD j 0) :
    m ≤ (List.range m).foldl (fun n iPlace => n + (B.getD iPlace 0 - 1)) 0 := by
  induction m with
  | zero => simp
  | succ m ih =>
    rw [List.range_succ, List.foldl_append]
    simp only [List.foldl_cons, List.foldl_nil]
    have := ih (fun j hj => hB j (by omega))
    have := hB m (by omega)
    omega

theorem NumeralsOK_two_le_succCount {bg : CBalaGray} (h : bg.NumeralsOK) :
    2 ≤ graySuccessorCount bg := by
  have := le_succCount bg.m_arrBase bg.m_nPlaces (fun j hj => (h.2.1.2.2.1 j hj).1)
  have := h.1
  unfold graySuccessorCount
  omega

theorem Unpack_zero (bg : CBalaGray) (h : bg.RadixOK) : bg.Unpack (0 : Nat) = zeroNumeral := by
  apply list_ext_getD (by rw [Unpack_length, zeroNumeral_length])
  intro q _
  have := Unpack_b bg 0 q h.2.1 h.2.2.1
  unfold NUMERAL.b at this
  rw [this, zeroNumeral_getD]
  split <;> simp

theorem NumeralsOK_num_zero {bg : CBalaGray} (h : bg.NumeralsOK) : bg.num 0 = zeroNumeral := by
  rw [NumeralsOK_num h 0 (by have := NumeralsOK_four_le h; omega)]
  exact Unpack_zero bg h.2.1

theorem zeroNumeral_b (q : Nat) : zeroNumeral.b q = 0 := zeroNumeral_getD q

theorem zeroNumeral_inRange (bg : CBalaGray) (h : bg.RadixOK) : bg.InRange zeroNumeral :=
  ⟨zeroNumeral_length, fun p hp => by rw [zeroNumeral_b]; have := (h.2.2.1 p hp).1; omega,
    fun p _ _ => zeroNumeral_b p⟩

theorem Pack_one (bg : CBalaGray) (h : bg.RadixOK) : bg.Pack (zeroNumeral.setB 0 1) = 1 := by
  have hb0 := h.2.2.1 0 (by have := h.1; omega)
  have hin := setB_inRange bg h zeroNumeral (zeroNumeral_inRange bg h) 0 1
    (by have := h.1; omega) (by omega)
  rw [(Pack_of_inRange bg h _ hin).1]
  unfold mixedRadixValue
  rw [Finset.sum_eq_single 0]
  · rw [setB_b, if_pos ⟨rfl, by rw [zeroNumeral_length]; unfold MAX_PLACES; omega⟩, placeWeight_zero]
    rfl
  · intro k _ hk
    rw [setB_b, if_neg (by omega), zeroNumeral_b, Nat.zero_mul]
  · intro h0
    exact absurd (Finset.mem_range.mpr (by have := h.1; omega)) h0

theorem rowValues_head (bg : CBalaGray) (d : NUMERAL) (n : Nat) (hd : d.b 0 = 0) (hn : 2 ≤ n) :
    ∃ rest, rowValues bg d 0 n = toPLACE (bg.Pack (d.setB 0 1)) :: rest := by
  obtain ⟨k, rfl⟩ : ∃ k, n = k + 2 := ⟨n - 2, by omega⟩
  unfold rowValues
  rw [List.range_succ_eq_map, List.range_succ_eq_map]
  simp [hd]

theorem rowBytes_head (bg : CBalaGray) (d : NUMERAL) (m : Nat) (hd : d.b 0 = 0)
    (hb : 2 ≤ bg.m_arrBase.getD 0 0) (hm : 1 ≤ m) :
    ∃ rest, rowBytes bg d m = toPLACE (bg.Pack (d.setB 0 1)) :: rest := by
  induction m with
  | zero => omega
  | succ m ih =>
    rw [rowBytes_succ]
    rcases Nat.eq_zero_or_pos m with h0 | h0
    · subst h0
      obtain ⟨rest, hr⟩ := rowValues_head bg d _ hd hb
      exact ⟨rest, by rw [hr]; simp [rowBytes]⟩
    · obtain ⟨rest, hr⟩ := ih h0
      exact ⟨rest ++ rowValues bg d m (bg.m_arrBase.getD m 0), by rw [hr]; rfl⟩

theorem table_origin_first (bg : CBalaGray) (h : bg.NumeralsOK) :
    bg.MakeGraySuccessorTable.m_arrGraySuccessor.getD 0 0 = 1 := by
  have h1 := MakeGraySuccessorTable_getD bg h 0 (by have := NumeralsOK_four_le h; omega) 0
    (by have := NumeralsOK_two_le_succCount h; omega)
  simp only [Nat.zero_shiftLeft, Nat.add_zero] at h1
  rw [h1, NumeralsOK_num_zero h]
  obtain ⟨rest, hr⟩ := rowBytes_head bg zeroNumeral bg.m_nPlaces (zeroNumeral_b 0)
    (h.2.1.2.2.1 0 (by have := h.1; omega)).1 (by have := h.1; omega)
  rw [hr, Pack_one bg h.2.1]
  rfl

theorem succCount_eq_sum (B : List Nat) (m : Nat) :
    (List.range m).foldl (fun n iPlace => n + (B.getD iPlace 0 - 1)) 0
      = ∑ p in Finset.range m, (B.getD p 0 - 1) := by
  induction m with
  | zero => simp
  | succ m ih =>
    rw [List.range_succ, List.foldl_append, ih, Finset.sum_range_succ]
    simp

theorem withNumerals_succCount (bg : CBalaGray) (nPlaces : Nat) (parrBase : List Nat) :
    graySuccessorCount (bg.withNumerals nPlaces parrBase)
      = ∑ p in Finset.range nPlaces, (parrBase.getD p 0 - 1) := by
  unfold graySuccessorCount
  rw [succCount_eq_sum]
  apply Finset.sum_congr rfl
  intro p hp
  show (firstBases nPlaces parrBase).getD p 0 - 1 = _
  have hp' : p < nPlaces := Finset.mem_range.mp hp
  rw [firstBases_getD _ _ _ hp']

theorem MakeNumerals_eq (bg0 bgN : CBalaGray) (nPlaces : Nat) (parrBase : List Nat)
    (hv : ValidRadix nPlaces parrBase)
    (hm : bg0.MakeNumerals nPlaces parrBase = some (true, bgN)) :
    bgN = bg0.withNumerals nPlaces parrBase := by
  rw [MakeNumerals_valid bg0 nPlaces parrBase hv] at hm
  simp only [Option.some.injEq, Prod.mk.injEq, true_and] at hm
  exact hm.symm

/-- C6: for a valid radix vector and every numeral index `i < N`, the first
`K = sum (b_p - 1)` entries of row `i` of the successor table built by
`MakeGraySuccessorTable` are pairwise distinct, are indices below `N`, and
are exactly the indices `j` whose numeral differs from numeral `i` in exactly
one place. -/
theorem successor_row_correct (bg0 bgN : CBalaGray) (nPlaces : Nat) (parrBase : List Nat)
    (hv : ValidRadix nPlaces parrBase)
    (hm : bg0.MakeNumerals nPlaces parrBase = some (true, bgN))
    (i : Nat) (hi : i < bgN.GetNumeralCount) :
    bgN.MakeGraySuccessorTable.m_nGraySuccessors
      = ∑ p in Finset.range nPlaces, (parrBase.getD p 0 - 1) ∧
    (bgN.MakeGraySuccessorTable.tableRow i).length
      = ∑ p in Finset.range nPlaces, (parrBase.getD p 0 - 1) ∧
    (bgN.MakeGraySuccessorTable.tableRow i).Nodup ∧
    (∀ j ∈ bgN.MakeGraySuccessorTable.tableRow i, j < bgN.GetNumeralCount) ∧
    (∀ j, j < bgN.GetNumeralCount →
      (j ∈ bgN.MakeGraySuccessorTable.tableRow i
        ↔ differInOnePlace nPlaces (bgN.num i) (bgN.num j))) := by
  have e := MakeNumerals_eq bg0 bgN nPlaces parrBase hv hm
  subst e
  have h := withNumerals_NumeralsOK bg0 nPlaces parrBase hv
  have hN : (bg0.withNumerals nPlaces parrBase).GetNumeralCount
      = (bg0.withNumerals nPlaces parrBase).radixProduct := NumeralsOK_length h
  rw [hN] at hi ⊢
  obtain ⟨h1, h2, h3, h4⟩ := tableRow_correct _ h i hi
  rw [withNumerals_succCount] at h1
  exact ⟨withNumerals_succCount bg0 nPlaces parrBase, h1, h2, h3, h4⟩

/-- Witness of C6 on the radix vector (2, 3), row 0. -/
theorem successor_row_correct_witness :
    (ValidRadix 2 [2, 3] ∧
      (CBalaGray.new true).MakeNumerals 2 [2, 3]
        = some (true, (CBalaGray.new true).withNumerals 2 [2, 3]) ∧
      0 < ((CBalaGray.new true).withNumerals 2 [2, 3]).GetNumeralCount) ∧
    ((CBalaGray.new true).withNumerals 2 [2, 3]).MakeGraySuccessorTable.tableRow 0 = [1, 2, 4] ∧
    (((CBalaGray.new true).withNumerals 2 [2, 3]).MakeGraySuccessorTable.tableRow 0).Nodup :=
  ⟨⟨by decide, by decide, by decide⟩, by decide,
    (successor_row_correct (CBalaGray.new true) ((CBalaGray.new true).withNumerals 2 [2, 3])
      2 [2, 3] (by decide) (by decide) 0 (by decide)).2.2.1⟩

/-- C7: for a valid radix vector and every in-range numeral `d`, the first `K`
entries of row `Pack d` of the successor table are, in this column order, the
indices `Pack (d[p := v])` for each place `p` in ascending order and, within a
place, each value `v < b_p` in ascending order with `v ≠ d_p`; column 0 of
row 0 is numeral 1. -/
theorem successor_row_order (bg0 bgN : CBalaGray) (nPlaces : Nat) (parrBase : List Nat)
    (hv : ValidRadix nPlaces parrBase)
    (hm : bg0.MakeNumerals nPlaces parrBase = some (true, bgN))
    (d : NUMERAL) (hd : bgN.InRange d) :
    (bgN.MakeGraySuccessorTable.tableRow (bgN.MakeGraySuccessorTable.Pack d).toNat).map
        (fun (x : Nat) => (x : Int))
      = bgN.MakeGraySuccessorTable.policyRow d ∧
    bgN.MakeGraySuccessorTable.m_arrGraySuccessor.getD 0 0 = 1 := by
  have e := MakeNumerals_eq bg0 bgN nPlaces parrBase hv hm
  subst e
  have h := withNumerals_NumeralsOK bg0 nPlaces parrBase hv
  exact ⟨tableRow_policy _ h d hd, table_origin_first _ h⟩

/-- Witness of C7 on the numeral (1, 2) of the radix vector (2, 3). -/
theorem successor_row_order_witness :
    (ValidRadix 2 [2, 3] ∧
      (CBalaGray.new true).MakeNumerals 2 [2, 3]
        = some (true, (CBalaGray.new true).withNumerals 2 [2, 3]) ∧
      ((CBalaGray.new true).withNumerals 2 [2, 3]).InRange [1, 2, 0, 0, 0, 0, 0, 0]) ∧
    ((CBalaGray.new true).withNumerals 2 [2, 3]).MakeGraySuccessorTable.policyRow
        [1, 2, 0, 0, 0, 0, 0, 0] = [4, 1, 3] ∧
    (((CBalaGray.new true).withNumerals 2 [2, 3]).MakeGraySuccessorTable.tableRow
        (((CBalaGray.new true).withNumerals 2 [2, 3]).MakeGraySuccessorTable.Pack
          [1, 2, 0, 0, 0, 0, 0, 0]).toNat).map (fun (x : Nat) => (x : Int))
      = ((CBalaGray.new true).withNumerals 2 [2, 3]).MakeGraySuccessorTable.policyRow
          [1, 2, 0, 0, 0, 0, 0, 0] :=
  ⟨⟨by decide, by decide, by decide⟩, by decide,
    (successor_row_order (CBalaGray.new true) ((CBalaGray.new true).withNumerals 2 [2, 3])
      2 [2, 3] (by decide) (by decide) [1, 2, 0, 0, 0, 0, 0, 0] (by decide)).1⟩

/-- C3, counterexample to the claim as stated: with best
`(mt, imb, ms, sd) = (5, 1, 3, 10)` the candidate `(4, 2, 3, 10)` is strictly
smaller in lexicographic order, yet the leaf tests reject it (its imbalance
is larger than the best imbalance). -/
theorem leafRecords_not_lexicographic :
    ¬ (leafRecords 5 1 3 (some 10) 4 2 3 (some 10) = true
        ↔ lexLess 4 2 3 (some 10) 5 1 3 (some 10)) := by
  decide

/-- C3, amended: at a leaf the candidate `(mt, imb, ms, sd)` is recorded as
the new best if and only if it is strictly smaller than the current best in
lexicographic order `(mt, imb, ms, sd)` and its imbalance does not exceed the
best imbalance; in particular a candidate that compares equal is rejected. -/
theorem leafRecords_iff (bmt bimb bms : Int) (bsd : StdDev) (mt imb ms : Int) (sd : StdDev) :
    (leafRecords bmt bimb bms bsd mt imb ms sd = true
      ↔ lexLess mt imb ms sd bmt bimb bms bsd ∧ imb ≤ bimb) ∧
    leafRecords mt imb ms sd mt imb ms sd = false := by
  constructor
  · unfold leafRecords lexLess StdDev.lt
    by_cases h1 : mt > bmt ∨ imb > bimb
    · rw [if_pos h1]
      simp only [Bool.false_eq_true, false_iff, not_and, not_le]
      rcases h1 with h1 | h1
      · intro h; omega
      · intro _; omega
    · rw [if_neg h1]
      by_cases h2 : (mt = bmt ∧ imb = bimb) ∧ ms > bms
      · rw [if_pos h2]
        simp only [Bool.false_eq_true, false_iff, not_and, not_le]
        intro h; omega
      · rw [if_neg h2]
        by_cases h3 : (mt = bmt ∧ imb = bimb ∧ ms = bms) ∧ sd.ge bsd = true
        · rw [if_pos h3]
          simp only [Bool.false_eq_true, false_iff, not_and, not_le]
          intro h
          obtain ⟨⟨e1, e2, e3⟩, e4⟩ := h3
          rw [e4] at h
          rcases h with h | ⟨_, h | ⟨_, h | ⟨_, h⟩⟩⟩
          · omega
          · omega
          · omega
          · exact absurd h (by decide)
        · rw [if_neg h3]
          simp only [true_iff]
          refine ⟨?_, by omega⟩
          by_cases e1 : mt = bmt
          · by_cases e2 : imb = bimb
            · by_cases e3 : ms = bms
              · have : sd.ge bsd = false := by
                  cases hge : sd.ge bsd
                  · rfl
                  · exact absurd ⟨⟨e1, e2, e3⟩, hge⟩ h3
                exact Or.inr ⟨e1, Or.inr ⟨e2, Or.inr ⟨e3, this⟩⟩⟩
              · exact Or.inr ⟨e1, Or.inr ⟨e2, Or.inl (by omega)⟩⟩
            · exact Or.inr ⟨e1, Or.inl (by omega)⟩
          · exact Or.inl (by omega)
  · unfold leafRecords
    have hge : sd.ge sd = true := by
      cases sd with
      | none => rfl
      | some x => simp [StdDev.ge]
    simp [hge]

theorem runLengths_cons_ne_nil (x : Nat) (l : List Nat) : runLengths (x :: l) ≠ [] := by
  cases l with
  | nil => simp [runLengths]
  | cons y rest =>
    unfold runLengths
    split
    · split <;> simp
    · simp

theorem runLengths_pos (l : List Nat) : ∀ r ∈ runLengths l, 1 ≤ r := by
  induction l with
  | nil => simp [runLengths]
  | cons x l ih =>
    cases l with
    | nil => simp [runLengths]
    | cons y rest =>
      intro r hr
      unfold runLengths at hr
      split at hr
      · split at hr
        · simp at hr; omega
        · rename_i r' rs heq
          rw [heq] at ih
          rcases List.mem_cons.mp hr with h | h
          · omega
          · exact ih r (List.mem_cons_of_mem _ h)
      · rcases List.mem_cons.mp hr with h | h
        · omega
        · exact ih r h

theorem seenRuns_ne_nil (span : Int) (x : Nat) (l : List Nat) :
    seenRuns span (runLengths (x :: l)) ≠ [] := by
  have := runLengths_cons_ne_nil x l
  cases h : runLengths (x :: l) with
  | nil => exact absurd h this
  | cons r rs => simp [seenRuns]

theorem seenRuns_eq (span : Int) (x y : Nat) (rest : List Nat) (h : x = y) :
    seenRuns span (runLengths (x :: y :: rest)) = seenRuns (span + 1) (runLengths (y :: rest)) := by
  have hne := runLengths_cons_ne_nil y rest
  rw [runLengths, if_pos h]
  cases hr : runLengths (y :: rest) with
  | nil => exact absurd hr hne
  | cons r rs => simp only [seenRuns]; congr 1; push_cast; ring

theorem seenRuns_ne (span : Int) (x y : Nat) (rest : List Nat) (h : x ≠ y) :
    seenRuns span (runLengths (x :: y :: rest)) = span :: seenRuns 1 (runLengths (y :: rest)) := by
  have hne := runLengths_cons_ne_nil y rest
  rw [runLengths, if_neg h]
  cases hr : runLengths (y :: rest) with
  | nil => exact absurd hr hne
  | cons r rs => simp [seenRuns]

theorem foldl_placeStep (P : Int) (rest : List Nat) :
    ∀ (st : PlaceScan), 1 ≤ st.span → 0 ≤ st.maxc →
      ((rest.foldl (placeStep P) st).span
          = (seenRuns st.span (runLengths (st.prev :: rest))).getLastD 0) ∧
      ((rest.foldl (placeStep P) st).first
          = if st.first = 0
            then (seenRuns st.span (runLengths (st.prev :: rest))).dropLast.headD 0
            else st.first) ∧
      ((rest.foldl (placeStep P) st).maxc
          = max st.maxc (maxOf (seenRuns st.span (runLengths (st.prev :: rest))).dropLast)) ∧
      ((rest.foldl (placeStep P) st).dev
          = st.dev + sumDev P (if st.first = 0
              then (seenRuns st.span (runLengths (st.prev :: rest))).dropLast.tail
              else (seenRuns st.span (runLengths (st.prev :: rest))).dropLast)) ∧
      ((rest.foldl (placeStep P) st).prev = (st.prev :: rest).getLastD 0) := by
  induction rest with
  | nil =>
    intro st hs hm
    have : st.first = if st.first = 0 then 0 else st.first := by split <;> simp_all
    simpa [runLengths, seenRuns, maxOf, sumDev, hm] using this
  | cons y rest ih =>
    intro st hs hm
    rw [List.foldl_cons]
    by_cases hy : y = st.prev
    · subst hy
      have hstep : placeStep P st st.prev = { st with span := st.span + 1 } := by
        unfold placeStep; rw [if_neg (by simp)]
      rw [hstep, seenRuns_eq st.span st.prev st.prev rest rfl]
      have := ih { st with span := st.span + 1 } (by simp; omega) hm
      obtain ⟨h1, h2, h3, h4, h5⟩ := this
      refine ⟨h1, h2, h3, h4, ?_⟩
      rw [h5]; simp [List.getLastD]
    · have e1 : (placeStep P st y).prev = y := by unfold placeStep; rw [if_pos hy]
      have e2 : (placeStep P st y).span = 1 := by unfold placeStep; rw [if_pos hy]
      have e3 : (placeStep P st y).first = if st.first = 0 then st.span else st.first := by
        unfold placeStep; rw [if_pos hy]
      have e4 : (placeStep P st y).maxc = max st.maxc st.span := by
        unfold placeStep; rw [if_pos hy]
      have e5 : (placeStep P st y).dev = st.dev + (if st.first = 0 then 0
          else (st.span - P) * (st.span - P)) := by
        unfold placeStep; rw [if_pos hy]
      rw [seenRuns_ne st.span st.prev y rest (fun e => hy e.symm)]
      have hne := seenRuns_ne_nil 1 y rest
      obtain ⟨a, as, has⟩ := List.exists_cons_of_ne_nil hne
      have := ih (placeStep P st y) (by rw [e2]) (by rw [e4]; exact le_max_of_le_left hm)
      have hf : (if st.first = 0 then st.span else st.first) ≠ 0 := by
        split
        · omega
        · assumption
      rw [e1, e2, e3, e4, e5, if_neg hf, if_neg hf, has] at this
      obtain ⟨h1, h2, h3, h4, h5⟩ := this
      rw [has]
      refine ⟨?_, ?_, ?_, ?_, ?_⟩
      · rw [h1]; simp [List.getLastD]
      · rw [h2]; simp [List.dropLast]
      · rw [h3]; simp [List.dropLast, maxOf, max_assoc]
      · rw [h4]
        by_cases hf0 : st.first = 0
        · simp [hf0, List.dropLast]
        · simp [hf0, List.dropLast, sumDev]; ring
      · rw [h5]; simp [List.getLastD]

theorem getD_set_gen {α : Type} (t : List α) (k j : Nat) (x d : α) :
    (t.set k x).getD j d = if k = j ∧ j < t.length then x else t.getD j d := by
  simp only [List.getD_eq_getElem?_getD, List.getElem?_set]
  by_cases h : k = j
  · subst h
    by_cases hl : k < t.length
    · simp [hl]
    · simp [hl]
      rw [List.getElem?_eq_none (by omega)]; rfl
  · simp [h]

theorem placeScanAt_succ (bg : CBalaGray) (p k : Nat) :
    bg.placeScanAt p (k + 1)
      = placeStep bg.m_nPlaces (bg.placeScanAt p k) (bg.placeValue p (k + 1)) := by
  unfold CBalaGray.placeScanAt
  rw [List.range'_concat, List.foldl_append]
  simp only [List.foldl_cons, List.foldl_nil, Nat.one_mul]
  rw [Nat.add_comm 1 k]

theorem placeStep_fields (P : Int) (st : PlaceScan) (x : Nat) :
    (placeStep P st x).prev = x ∧
    (placeStep P st x).span = (if x ≠ st.prev then 1 else st.span + 1) ∧
    (placeStep P st x).first
      = (if x ≠ st.prev ∧ st.first = 0 then st.span else st.first) ∧
    (placeStep P st x).maxc = (if x ≠ st.prev then max st.maxc st.span else st.maxc) ∧
    (placeStep P st x).dev
      = st.dev + (if x ≠ st.prev ∧ st.first ≠ 0 then (st.span - P) * (st.span - P) else 0) := by
  unfold placeStep
  by_cases h : x ≠ st.prev
  · by_cases hf : st.first = 0
    · simp [h, hf]
    · simp [h, hf]
  · have : x = st.prev := by simpa using h
    simp [this]

theorem placeScanAt_prev (bg : CBalaGray) (p k : Nat) :
    (bg.placeScanAt p k).prev = bg.placeValue p k := by
  cases k with
  | zero => rfl
  | succ k => rw [placeScanAt_succ]; exact (placeStep_fields _ _ _).1

theorem placeScanAt_pos (bg : CBalaGray) (p k : Nat) :
    1 ≤ (bg.placeScanAt p k).span ∧ 0 ≤ (bg.placeScanAt p k).maxc
      ∧ 0 ≤ (bg.placeScanAt p k).first := by
  induction k with
  | zero => exact ⟨le_refl _, le_refl _, le_refl _⟩
  | succ k ih =>
    obtain ⟨h1, h2, h3⟩ := ih
    obtain ⟨_, e2, e3, e4, _⟩ := placeStep_fields bg.m_nPlaces (bg.placeScanAt p k)
      (bg.placeValue p (k + 1))
    rw [placeScanAt_succ, e2, e3, e4]
    refine ⟨?_, ?_, ?_⟩
    · split <;> omega
    · split
      · exact le_max_of_le_left h2
      · exact h2
    · split <;> omega

theorem IsMaxAcc_update (P : Nat) (g g' : Nat → Int) (M x : Int) (q : Nat) (hq : q < P)
    (h : IsMaxAcc P g M) (hg : ∀ p, p ≠ q → g' p = g p) (hq' : g' q = max (g q) x) :
    IsMaxAcc P g' (if x > M then x else M) := by
  obtain ⟨h1, h2, h3⟩ := h
  refine ⟨by split <;> omega, fun p hp => ?_, ?_⟩
  · by_cases hpq : p = q
    · subst hpq
      rw [hq']
      have := h2 p hp
      split <;> simp <;> omega
    · rw [hg p hpq]
      have := h2 p hp
      split <;> omega
  · by_cases hx : x > M
    · rw [if_pos hx]
      refine Or.inr ⟨q, hq, ?_⟩
      rw [hq']
      have := h2 q hq
      rw [max_eq_right (by omega)]
    · rw [if_neg hx]
      rcases h3 with h3 | ⟨p, hp, h3⟩
      · exact Or.inl h3
      · refine Or.inr ⟨p, hp, ?_⟩
        by_cases hpq : p = q
        · subst hpq
          rw [hq', ← h3, max_eq_left (by omega)]
        · rw [hg p hpq]; exact h3

theorem IsMaxAcc_congr (P : Nat) (g g' : Nat → Int) (M : Int) (h : IsMaxAcc P g M)
    (hg : ∀ p < P, g' p = g p) : IsMaxAcc P g' M := by
  obtain ⟨h1, h2, h3⟩ := h
  refine ⟨h1, fun p hp => by rw [hg p hp]; exact h2 p hp, ?_⟩
  rcases h3 with h3 | ⟨p, hp, h3⟩
  · exact Or.inl h3
  · exact Or.inr ⟨p, hp, by rw [hg p hp]; exact h3⟩

theorem sum_update (P : Nat) (g g' : Nat → Int) (δ : Int) (q : Nat) (hq : q < P)
    (hg : ∀ p, p ≠ q → g' p = g p) (hq' : g' q = g q + δ) :
    ∑ p in Finset.range P, g' p = (∑ p in Finset.range P, g p) + δ := by
  have hmem : q ∈ Finset.range P := Finset.mem_range.mpr hq
  rw [← Finset.add_sum_erase _ g' hmem, ← Finset.add_sum_erase _ g hmem, hq']
  have : ∑ p in (Finset.range P).erase q, g' p = ∑ p in (Finset.range P).erase q, g p :=
    Finset.sum_congr rfl (fun p hp => hg p (Finset.ne_of_mem_erase hp))
  rw [this]; ring

theorem maxSpanPlaceStep_fields (s sPrev : NUMERAL) (sc : SpanScan) (q : Nat) :
    (maxSpanPlaceStep s sPrev sc q).arrSpan
      = sc.arrSpan.set q (if s.b q ≠ sPrev.b q then 1 else sc.arrSpan.getD q 0 + 1) ∧
    (maxSpanPlaceStep s sPrev sc q).arrFirstSpan
      = (if s.b q ≠ sPrev.b q ∧ sc.arrFirstSpan.getD q 0 = 0
          then sc.arrFirstSpan.set q (sc.arrSpan.getD q 0) else sc.arrFirstSpan) ∧
    (maxSpanPlaceStep s sPrev sc q).nMaxSpan
      = (if s.b q ≠ sPrev.b q ∧ sc.arrSpan.getD q 0 > sc.nMaxSpan
          then sc.arrSpan.getD q 0 else sc.nMaxSpan) ∧
    (maxSpanPlaceStep s sPrev sc q).fDevSum = sc.fDevSum := by
  unfold maxSpanPlaceStep
  by_cases h : s.b q ≠ sPrev.b q
  · by_cases h1 : sc.arrSpan.getD q 0 > sc.nMaxSpan
    · by_cases h2 : sc.arrFirstSpan.getD q 0 = 0
      · simp [h, h1, h2, -List.getD_eq_getElem?_getD]
      · simp [h, h1, h2, -List.getD_eq_getElem?_getD]
    · by_cases h2 : sc.arrFirstSpan.getD q 0 = 0
      · simp [h, h1, h2, -List.getD_eq_getElem?_getD]
      · simp [h, h1, h2, -List.getD_eq_getElem?_getD]
  · have : s.b q = sPrev.b q := by simpa using h
    simp [this, -List.getD_eq_getElem?_getD]

theorem stdDevPlaceStep_fields (bg : CBalaGray) (s sPrev : NUMERAL) (sc : SpanScan) (q : Nat) :
    (stdDevPlaceStep bg s sPrev sc q).arrSpan
      = sc.arrSpan.set q (if s.b q ≠ sPrev.b q then 1 else sc.arrSpan.getD q 0 + 1) ∧
    (stdDevPlaceStep bg s sPrev sc q).arrFirstSpan
      = (if s.b q ≠ sPrev.b q ∧ sc.arrFirstSpan.getD q 0 = 0
          then sc.arrFirstSpan.set q (sc.arrSpan.getD q 0) else sc.arrFirstSpan) ∧
    (stdDevPlaceStep bg s sPrev sc q).nMaxSpan = sc.nMaxSpan ∧
    (stdDevPlaceStep bg s sPrev sc q).fDevSum
      = sc.fDevSum + (if s.b q ≠ sPrev.b q ∧ sc.arrFirstSpan.getD q 0 ≠ 0
          then (sc.arrSpan.getD q 0 - (bg.m_nPlaces : Int))
            * (sc.arrSpan.getD q 0 - (bg.m_nPlaces : Int)) else 0) := by
  unfold stdDevPlaceStep CBalaGray.CalcDeviance
  by_cases h : s.b q ≠ sPrev.b q
  · by_cases h2 : sc.arrFirstSpan.getD q 0 = 0
    · simp [h, h2, -List.getD_eq_getElem?_getD]
    · simp [h, h2, -List.getD_eq_getElem?_getD]
  · have : s.b q = sPrev.b q := by simpa using h
    simp [this, -List.getD_eq_getElem?_getD]

theorem placeValue_eq (bg : CBalaGray) (p t : Nat) :
    bg.placeValue p t = (bg.stateNum t).b p := rfl

theorem placeScanAt_succ' (bg : CBalaGray) (p k : Nat) :
    bg.placeScanAt p (k + 1)
      = placeStep bg.m_nPlaces (bg.placeScanAt p k) ((bg.stateNum (k + 1)).b p) :=
  placeScanAt_succ bg p k

theorem ArraysAt_step (bg : CBalaGray) (live : Nat → Prop) (lenf : Nat → Nat)
    (sc sc' : SpanScan) (q : Nat) (hq : q < bg.m_nPlaces) (hlq : live q)
    (hA : ArraysAt bg live lenf sc)
    (h1 : sc'.arrSpan = sc.arrSpan.set q
      (if (bg.stateNum (lenf q + 1)).b q ≠ (bg.stateNum (lenf q)).b q then 1
        else sc.arrSpan.getD q 0 + 1))
    (h2 : sc'.arrFirstSpan =
      (if (bg.stateNum (lenf q + 1)).b q ≠ (bg.stateNum (lenf q)).b q
          ∧ sc.arrFirstSpan.getD q 0 = 0
        then sc.arrFirstSpan.set q (sc.arrSpan.getD q 0) else sc.arrFirstSpan)) :
    ArraysAt bg live (bump lenf q) sc' := by
  obtain ⟨hl1, hl2, hA3⟩ := hA
  obtain ⟨hs, hf⟩ := hA3 q hq hlq
  have hprev : (bg.placeScanAt q (lenf q)).prev = (bg.stateNum (lenf q)).b q :=
    placeScanAt_prev bg q (lenf q)
  obtain ⟨_, e2, e3, _, _⟩ := placeStep_fields bg.m_nPlaces (bg.placeScanAt q (lenf q))
    (bg.placeValue q (lenf q + 1))
  rw [hprev] at e2 e3
  refine ⟨by rw [h1, List.length_set]; exact hl1, ?_, fun p hp hlp => ?_⟩
  · rw [h2]; split
    · rw [List.length_set]; exact hl2
    · exact hl2
  · by_cases hpq : p = q
    · subst hpq
      have hb : bump lenf p p = lenf p + 1 := by simp [bump]
      rw [hb, placeScanAt_succ, e2, e3, h1, h2, getD_set_gen, if_pos ⟨rfl, by omega⟩]
      refine ⟨by rw [hs]; rfl, ?_⟩
      by_cases hc : (bg.stateNum (lenf p + 1)).b p ≠ (bg.stateNum (lenf p)).b p ∧
          sc.arrFirstSpan.getD p 0 = 0
      · rw [if_pos hc, getD_set_gen, if_pos ⟨rfl, by omega⟩, hs]
        have hc' : bg.placeValue p (lenf p + 1) ≠ (bg.stateNum (lenf p)).b p ∧
            (bg.placeScanAt p (lenf p)).first = 0 := ⟨hc.1, by rw [← hf]; exact hc.2⟩
        rw [if_pos hc']
      · rw [if_neg hc, hf]
        have hc' : ¬ (bg.placeValue p (lenf p + 1) ≠ (bg.stateNum (lenf p)).b p ∧
            (bg.placeScanAt p (lenf p)).first = 0) := by
          rw [← hf]; exact hc
        rw [if_neg hc']
    · have hb : bump lenf q p = lenf p := by simp [bump, hpq]
      obtain ⟨hs', hf'⟩ := hA3 p hp hlp
      rw [hb, h1, h2, getD_set_gen, if_neg (by omega)]
      refine ⟨hs', ?_⟩
      split
      · rw [getD_set_gen, if_neg (by omega)]; exact hf'
      · exact hf'

theorem maxAcc_step (bg : CBalaGray) (lenf : Nat → Nat) (q : Nat) (hq : q < bg.m_nPlaces)
    (M M' span : Int) (hs : span = (bg.placeScanAt q (lenf q)).span)
    (hM : IsMaxAcc bg.m_nPlaces (fun p => (bg.placeScanAt p (lenf p)).maxc) M)
    (hM' : M' = (if (bg.stateNum (lenf q + 1)).b q ≠ (bg.stateNum (lenf q)).b q ∧ span > M
      then span else M)) :
    IsMaxAcc bg.m_nPlaces (fun p => (bg.placeScanAt p (bump lenf q p)).maxc) M' := by
  have hprev : (bg.placeScanAt q (lenf q)).prev = (bg.stateNum (lenf q)).b q :=
    placeScanAt_prev bg q (lenf q)
  obtain ⟨_, _, _, e4, _⟩ := placeStep_fields bg.m_nPlaces (bg.placeScanAt q (lenf q))
    ((bg.stateNum (lenf q + 1)).b q)
  rw [hprev] at e4
  have hother : ∀ p, p ≠ q → (bg.placeScanAt p (bump lenf q p)).maxc
      = (bg.placeScanAt p (lenf p)).maxc := by
    intro p hp; simp [bump, hp]
  have hbq : bump lenf q q = lenf q + 1 := by simp [bump]
  by_cases hc : (bg.stateNum (lenf q + 1)).b q ≠ (bg.stateNum (lenf q)).b q
  · have := IsMaxAcc_update bg.m_nPlaces _
      (fun p => (bg.placeScanAt p (bump lenf q p)).maxc) M span q hq hM hother
      (by show (bg.placeScanAt q (bump lenf q q)).maxc = _
          rw [hbq, placeScanAt_succ', e4, hs, if_pos hc])
    rw [hM']
    by_cases hgt : span > M
    · rw [if_pos ⟨hc, hgt⟩]; rwa [if_pos hgt] at this
    · rw [if_neg (by tauto)]; rwa [if_neg hgt] at this
  · rw [hM', if_neg (by tauto)]
    apply IsMaxAcc_congr _ _ _ _ hM
    intro p _
    by_cases hpq : p = q
    · subst hpq
      show (bg.placeScanAt p (bump lenf p p)).maxc = _
      rw [hbq, placeScanAt_succ', e4, if_neg hc]
    · exact hother p hpq

theorem devAcc_step (bg : CBalaGray) (lenf : Nat → Nat) (q : Nat) (hq : q < bg.m_nPlaces)
    (D D' span first : Int) (hs : span = (bg.placeScanAt q (lenf q)).span)
    (hf : first = (bg.placeScanAt q (lenf q)).first)
    (hD : D = ∑ p in Finset.range bg.m_nPlaces, (bg.placeScanAt p (lenf p)).dev)
    (hD' : D' = D + (if (bg.stateNum (lenf q + 1)).b q ≠ (bg.stateNum (lenf q)).b q ∧ first ≠ 0
      then (span - (bg.m_nPlaces : Int)) * (span - (bg.m_nPlaces : Int)) else 0)) :
    D' = ∑ p in Finset.range bg.m_nPlaces, (bg.placeScanAt p (bump lenf q p)).dev := by
  have hprev : (bg.placeScanAt q (lenf q)).prev = (bg.stateNum (lenf q)).b q :=
    placeScanAt_prev bg q (lenf q)
  obtain ⟨_, _, _, _, e5⟩ := placeStep_fields bg.m_nPlaces (bg.placeScanAt q (lenf q))
    ((bg.stateNum (lenf q + 1)).b q)
  rw [hprev] at e5
  have hbq : bump lenf q q = lenf q + 1 := by simp [bump]
  rw [hD', hD]
  symm
  apply sum_update bg.m_nPlaces _ _ _ q hq
  · intro p hp; simp [bump, hp]
  · show (bg.placeScanAt q (bump lenf q q)).dev = _
    rw [hbq, placeScanAt_succ', e5, hs, hf]

theorem inner_fold (Rel : (Nat → Nat) → SpanScan → Prop) (step : SpanScan → Nat → SpanScan)
    (m P : Nat)
    (hstep : ∀ lenf sc q, q < P → lenf q = m → Rel lenf sc → Rel (bump lenf q) (step sc q)) :
    ∀ q, q ≤ P → ∀ sc, Rel (fun _ => m) sc →
      Rel (fun p => if p < q then m + 1 else m) ((List.range q).foldl step sc) := by
  intro q
  induction q with
  | zero => intro _ sc h; simpa using h
  | succ q ih =>
    intro hq sc h
    rw [List.range_succ, List.foldl_append]
    simp only [List.foldl_cons, List.foldl_nil]
    have h1 := ih (by omega) sc h
    have h2 := hstep _ _ q (by omega) (by simp) h1
    have e : bump (fun p => if p < q then m + 1 else m) q
        = (fun p => if p < q + 1 then m + 1 else m) := by
      funext p
      unfold bump
      show (if p = q then (if p < q then m + 1 else m) + 1 else if p < q then m + 1 else m)
        = if p < q + 1 then m + 1 else m
      split_ifs <;> omega
    rwa [e] at h2

theorem ArraysAt_congr (bg : CBalaGray) (live : Nat → Prop) (lenf lenf' : Nat → Nat)
    (sc : SpanScan) (h : ArraysAt bg live lenf sc) (hl : ∀ p < bg.m_nPlaces, lenf' p = lenf p) :
    ArraysAt bg live lenf' sc := by
  obtain ⟨h1, h2, h3⟩ := h
  exact ⟨h1, h2, fun p hp hlp => by rw [hl p hp]; exact h3 p hp hlp⟩

theorem SpanScan_init_arrays (bg : CBalaGray) :
    ArraysAt bg (fun _ => True) (fun _ => 0) (SpanScan.init bg.m_nPlaces) := by
  refine ⟨by simp [SpanScan.init], by simp [SpanScan.init], fun p hp _ => ?_⟩
  simp [SpanScan.init, List.getD_eq_getElem?_getD, List.getElem?_replicate, hp,
    CBalaGray.placeScanAt]

theorem maxSpanFwd_rel (bg : CBalaGray) (n : Nat) :
    (bg.maxSpanFwd n).2 = bg.stateNum n ∧
    ArraysAt bg (fun _ => True) (fun _ => n) (bg.maxSpanFwd n).1 ∧
    IsMaxAcc bg.m_nPlaces (fun p => (bg.placeScanAt p n).maxc) (bg.maxSpanFwd n).1.nMaxSpan := by
  induction n with
  | zero =>
    refine ⟨rfl, SpanScan_init_arrays bg, le_refl _, fun p _ => ?_, Or.inl rfl⟩
    show (0 : Int) ≤ 1
    omega
  | succ n ih =>
    obtain ⟨ih1, ih2, ih3⟩ := ih
    have hfold : bg.maxSpanFwd (n + 1) =
        ((List.range bg.m_nPlaces).foldl
          (maxSpanPlaceStep (bg.stateNum (n + 1)) (bg.maxSpanFwd n).2) (bg.maxSpanFwd n).1,
          bg.stateNum (n + 1)) := by
      unfold CBalaGray.maxSpanFwd
      rw [List.range'_concat, List.foldl_append]
      simp only [List.foldl_cons, List.foldl_nil, Nat.one_mul]
      rw [Nat.add_comm 1 n]
    rw [hfold, ih1]
    have := inner_fold
      (fun lenf sc => ArraysAt bg (fun _ => True) lenf sc ∧
        IsMaxAcc bg.m_nPlaces (fun p => (bg.placeScanAt p (lenf p)).maxc) sc.nMaxSpan)
      (maxSpanPlaceStep (bg.stateNum (n + 1)) (bg.stateNum n)) n bg.m_nPlaces
      (by
        intro lenf sc q hq hlq ⟨hA, hM⟩
        rw [← hlq]
        obtain ⟨f1, f2, f3, _⟩ := maxSpanPlaceStep_fields (bg.stateNum (lenf q + 1))
          (bg.stateNum (lenf q)) sc q
        exact ⟨ArraysAt_step bg _ lenf sc _ q hq trivial hA f1 f2,
          maxAcc_step bg lenf q hq sc.nMaxSpan _ _ (hA.2.2 q hq trivial).1 hM f3⟩)
      bg.m_nPlaces (le_refl _) (bg.maxSpanFwd n).1 ⟨ih2, ih3⟩
    refine ⟨rfl, ArraysAt_congr bg _ _ _ _ this.1 (fun p hp => by simp [hp]), ?_⟩
    exact IsMaxAcc_congr _ _ _ _ this.2 (fun p hp => by simp [hp])

theorem stdDevFwd_rel (bg : CBalaGray) (n : Nat) :
    (bg.stdDevFwd n).2 = bg.stateNum n ∧
    ArraysAt bg (fun _ => True) (fun _ => n) (bg.stdDevFwd n).1 ∧
    (bg.stdDevFwd n).1.fDevSum = ∑ p in Finset.range bg.m_nPlaces, (bg.placeScanAt p n).dev := by
  induction n with
  | zero =>
    refine ⟨rfl, SpanScan_init_arrays bg, ?_⟩
    show (0 : Int) = _
    rw [Finset.sum_eq_zero]
    intro p _; rfl
  | succ n ih =>
    obtain ⟨ih1, ih2, ih3⟩ := ih
    have hfold : bg.stdDevFwd (n + 1) =
        ((List.range bg.m_nPlaces).foldl
          (stdDevPlaceStep bg (bg.stateNum (n + 1)) (bg.stdDevFwd n).2) (bg.stdDevFwd n).1,
          bg.stateNum (n + 1)) := by
      unfold CBalaGray.stdDevFwd
      rw [List.range'_concat, List.foldl_append]
      simp only [List.foldl_cons, List.foldl_nil, Nat.one_mul]
      rw [Nat.add_comm 1 n]
    rw [hfold, ih1]
    have := inner_fold
      (fun lenf sc => ArraysAt bg (fun _ => True) lenf sc ∧
        sc.fDevSum = ∑ p in Finset.range bg.m_nPlaces, (bg.placeScanAt p (lenf p)).dev)
      (stdDevPlaceStep bg (bg.stateNum (n + 1)) (bg.stateNum n)) n bg.m_nPlaces
      (by
        intro lenf sc q hq hlq ⟨hA, hD⟩
        rw [← hlq]
        obtain ⟨f1, f2, _, f4⟩ := stdDevPlaceStep_fields bg (bg.stateNum (lenf q + 1))
          (bg.stateNum (lenf q)) sc q
        exact ⟨ArraysAt_step bg _ lenf sc _ q hq trivial hA f1 f2,
          devAcc_step bg lenf q hq sc.fDevSum _ _ _ (hA.2.2 q hq trivial).1
            (hA.2.2 q hq trivial).2 hD f4⟩)
      bg.m_nPlaces (le_refl _) (bg.stdDevFwd n).1 ⟨ih2, ih3⟩
    refine ⟨rfl, ArraysAt_congr bg _ _ _ _ this.1 (fun p hp => by simp [hp]), ?_⟩
    rw [this.2]
    exact Finset.sum_congr rfl (fun p hp => by simp [Finset.mem_range.mp hp])

theorem maxSpanWrapStep_fields (sFirst sPrev : NUMERAL) (sc : SpanScan) (q : Nat)
    (hq : q < sc.arrSpan.length) :
    (maxSpanWrapStep sFirst sPrev sc q).arrSpan.length = sc.arrSpan.length ∧
    (∀ p, p ≠ q → (maxSpanWrapStep sFirst sPrev sc q).arrSpan.getD p 0 = sc.arrSpan.getD p 0) ∧
    (maxSpanWrapStep sFirst sPrev sc q).arrFirstSpan = sc.arrFirstSpan ∧
    (maxSpanWrapStep sFirst sPrev sc q).nMaxSpan
      = (if (if sFirst.b q ≠ sPrev.b q then sc.arrSpan.getD q 0
              else sc.arrSpan.getD q 0 + sc.arrFirstSpan.getD q 0) > sc.nMaxSpan
          then (if sFirst.b q ≠ sPrev.b q then sc.arrSpan.getD q 0
              else sc.arrSpan.getD q 0 + sc.arrFirstSpan.getD q 0)
          else sc.nMaxSpan) := by
  have e := getD_set_gen sc.arrSpan q q (sc.arrSpan.getD q 0 + sc.arrFirstSpan.getD q 0) 0
  rw [if_pos ⟨rfl, hq⟩] at e
  by_cases h : sFirst.b q ≠ sPrev.b q
  · by_cases h1 : sc.arrSpan.getD q 0 > sc.nMaxSpan
    · have : maxSpanWrapStep sFirst sPrev sc q
          = { sc with nMaxSpan := sc.arrSpan.getD q 0 } := by
        unfold maxSpanWrapStep; rw [if_pos h, if_pos h1]
      rw [this, if_pos h, if_pos h1]
      exact ⟨rfl, fun _ _ => rfl, rfl, rfl⟩
    · have : maxSpanWrapStep sFirst sPrev sc q = sc := by
        unfold maxSpanWrapStep; rw [if_pos h, if_neg h1]
      rw [this, if_pos h, if_neg h1]
      exact ⟨rfl, fun _ _ => rfl, rfl, rfl⟩
  · by_cases h1 : sc.arrSpan.getD q 0 + sc.arrFirstSpan.getD q 0 > sc.nMaxSpan
    · have : maxSpanWrapStep sFirst sPrev sc q
          = ⟨sc.arrSpan.set q (sc.arrSpan.getD q 0 + sc.arrFirstSpan.getD q 0),
              sc.arrFirstSpan, sc.arrSpan.getD q 0 + sc.arrFirstSpan.getD q 0, sc.fDevSum⟩ := by
        unfold maxSpanWrapStep; rw [if_neg h]
        simp only []
        rw [e, if_pos h1]
      rw [this, if_neg h, if_pos h1]
      refine ⟨List.length_set _ _ _, fun p hp => ?_, rfl, rfl⟩
      show (sc.arrSpan.set q _).getD p 0 = _
      rw [getD_set_gen, if_neg (fun hc => hp hc.1.symm)]
    · have : maxSpanWrapStep sFirst sPrev sc q
          = ⟨sc.arrSpan.set q (sc.arrSpan.getD q 0 + sc.arrFirstSpan.getD q 0),
              sc.arrFirstSpan, sc.nMaxSpan, sc.fDevSum⟩ := by
        unfold maxSpanWrapStep; rw [if_neg h]
        simp only []
        rw [e, if_neg h1]
      rw [this, if_neg h, if_neg h1]
      refine ⟨List.length_set _ _ _, fun p hp => ?_, rfl, rfl⟩
      show (sc.arrSpan.set q _).getD p 0 = _
      rw [getD_set_gen, if_neg (fun hc => hp hc.1.symm)]

theorem stdDevWrapStep_fields (bg : CBalaGray) (sFirst sPrev : NUMERAL) (sc : SpanScan) (q : Nat)
    (hq : q < sc.arrFirstSpan.length) :
    (stdDevWrapStep bg sFirst sPrev sc q).arrFirstSpan.length = sc.arrFirstSpan.length ∧
    (∀ p, p ≠ q →
      (stdDevWrapStep bg sFirst sPrev sc q).arrFirstSpan.getD p 0 = sc.arrFirstSpan.getD p 0) ∧
    (stdDevWrapStep bg sFirst sPrev sc q).arrSpan = sc.arrSpan ∧
    (stdDevWrapStep bg sFirst sPrev sc q).fDevSum
      = sc.fDevSum + (if sFirst.b q ≠ sPrev.b q
          then bg.CalcDeviance (sc.arrSpan.getD q 0) + bg.CalcDeviance (sc.arrFirstSpan.getD q 0)
          else bg.CalcDeviance (sc.arrFirstSpan.getD q 0 + sc.arrSpan.getD q 0)) := by
  have e := getD_set_gen sc.arrFirstSpan q q (sc.arrFirstSpan.getD q 0 + sc.arrSpan.getD q 0) 0
  rw [if_pos ⟨rfl, hq⟩] at e
  by_cases h : sFirst.b q ≠ sPrev.b q
  · have : stdDevWrapStep bg sFirst sPrev sc q
        = ⟨sc.arrSpan, sc.arrFirstSpan, sc.nMaxSpan,
            sc.fDevSum + bg.CalcDeviance (sc.arrSpan.getD q 0)
              + bg.CalcDeviance (sc.arrFirstSpan.getD q 0)⟩ := by
      unfold stdDevWrapStep; simp only [if_pos h]
    rw [this, if_pos h]
    exact ⟨rfl, fun _ _ => rfl, rfl, by show _ + _ + _ = _ + (_ + _); ring⟩
  · have : stdDevWrapStep bg sFirst sPrev sc q
        = ⟨sc.arrSpan, sc.arrFirstSpan.set q (sc.arrFirstSpan.getD q 0 + sc.arrSpan.getD q 0),
            sc.nMaxSpan,
            sc.fDevSum + bg.CalcDeviance (sc.arrFirstSpan.getD q 0 + sc.arrSpan.getD q 0)⟩ := by
      unfold stdDevWrapStep; simp only [if_neg h]
      rw [e]
    rw [this, if_neg h]
    refine ⟨List.length_set _ _ _, fun p hp => ?_, rfl, rfl⟩
    show (sc.arrFirstSpan.set q _).getD p 0 = _
    rw [getD_set_gen, if_neg (fun hc => hp hc.1.symm)]

theorem maxSpanWrap_rel (bg : CBalaGray) (n : Nat) (sc : SpanScan)
    (hA : ArraysAt bg (fun _ => True) (fun _ => n) sc)
    (hM : IsMaxAcc bg.m_nPlaces (fun p => (bg.placeScanAt p n).maxc) sc.nMaxSpan) :
    ∀ q, q ≤ bg.m_nPlaces →
      ArraysAt bg (fun p => q ≤ p) (fun _ => n)
        ((List.range q).foldl (maxSpanWrapStep (bg.stateNum 0) (bg.stateNum n)) sc) ∧
      IsMaxAcc bg.m_nPlaces
        (fun p => if p < q then bg.wrapMaxAt n p else (bg.placeScanAt p n).maxc)
        ((List.range q).foldl (maxSpanWrapStep (bg.stateNum 0) (bg.stateNum n)) sc).nMaxSpan := by
  intro q
  induction q with
  | zero =>
    intro _
    exact ⟨⟨hA.1, hA.2.1, fun p hp _ => hA.2.2 p hp trivial⟩,
      IsMaxAcc_congr _ _ _ _ hM (fun p _ => by simp)⟩
  | succ q ih =>
    intro hq
    obtain ⟨⟨l1, l2, a3⟩, m1⟩ := ih (by omega)
    rw [List.range_succ, List.foldl_append]
    simp only [List.foldl_cons, List.foldl_nil]
    obtain ⟨f1, f2, f3, f4⟩ := maxSpanWrapStep_fields (bg.stateNum 0) (bg.stateNum n)
      ((List.range q).foldl (maxSpanWrapStep (bg.stateNum 0) (bg.stateNum n)) sc) q
      (by rw [l1]; omega)
    obtain ⟨aq1, aq2⟩ := a3 q (by omega) (le_refl _)
    refine ⟨⟨by rw [f1, l1], by rw [f3, l2], fun p hp hqp => ?_⟩, ?_⟩
    · rw [f2 p (by omega), f3]; exact a3 p hp (by omega)
    · rw [f4, aq1, aq2]
      apply IsMaxAcc_update bg.m_nPlaces _ _ _ _ q (by omega) m1
      · intro p hp
        show (if p < q + 1 then _ else _) = (if p < q then _ else _)
        by_cases hlt : p < q
        · rw [if_pos hlt, if_pos (by omega)]
        · rw [if_neg hlt, if_neg (by omega)]
      · show (if q < q + 1 then _ else _) = max (if q < q then _ else _) _
        rw [if_pos (by omega), if_neg (by omega)]
        rfl

theorem stdDevWrap_rel (bg : CBalaGray) (n : Nat) (sc : SpanScan)
    (hA : ArraysAt bg (fun _ => True) (fun _ => n) sc)
    (hD : sc.fDevSum = ∑ p in Finset.range bg.m_nPlaces, (bg.placeScanAt p n).dev) :
    ∀ q, q ≤ bg.m_nPlaces →
      ArraysAt bg (fun p => q ≤ p) (fun _ => n)
        ((List.range q).foldl (stdDevWrapStep bg (bg.stateNum 0) (bg.stateNum n)) sc) ∧
      ((List.range q).foldl (stdDevWrapStep bg (bg.stateNum 0) (bg.stateNum n)) sc).fDevSum
        = ∑ p in Finset.range bg.m_nPlaces,
            (if p < q then bg.wrapDevAt n p else (bg.placeScanAt p n).dev) := by
  intro q
  induction q with
  | zero =>
    intro _
    refine ⟨⟨hA.1, hA.2.1, fun p hp _ => hA.2.2 p hp trivial⟩, ?_⟩
    rw [List.range_zero, List.foldl_nil, hD]
    exact Finset.sum_congr rfl (fun p _ => by simp)
  | succ q ih =>
    intro hq
    obtain ⟨⟨l1, l2, a3⟩, d1⟩ := ih (by omega)
    rw [List.range_succ, List.foldl_append]
    simp only [List.foldl_cons, List.foldl_nil]
    obtain ⟨f1, f2, f3, f4⟩ := stdDevWrapStep_fields bg (bg.stateNum 0) (bg.stateNum n)
      ((List.range q).foldl (stdDevWrapStep bg (bg.stateNum 0) (bg.stateNum n)) sc) q
      (by rw [l2]; omega)
    obtain ⟨aq1, aq2⟩ := a3 q (by omega) (le_refl _)
    refine ⟨⟨by rw [f3, l1], by rw [f1, l2], fun p hp hqp => ?_⟩, ?_⟩
    · rw [f2 p (by omega), f3]; exact a3 p hp (by omega)
    · rw [f4, aq1, aq2, d1]
      symm
      apply sum_update bg.m_nPlaces _ _ _ q (by omega)
      · intro p hp
        show (if p < q + 1 then _ else _) = (if p < q then _ else _)
        by_cases hlt : p < q
        · rw [if_pos hlt, if_pos (by omega)]
        · rw [if_neg hlt, if_neg (by omega)]
      · show (if q < q + 1 then _ else _) = (if q < q then _ else _) + _
        rw [if_pos (by omega), if_neg (by omega)]
        rfl

theorem ComputeMaxSpan_acc (bg : CBalaGray) (n : Nat) :
    IsMaxAcc bg.m_nPlaces (fun p => bg.wrapMaxAt n p) (bg.ComputeMaxSpan n) := by
  obtain ⟨h1, h2, h3⟩ := maxSpanFwd_rel bg n
  have := (maxSpanWrap_rel bg n (bg.maxSpanFwd n).1 h2 h3 bg.m_nPlaces (le_refl _)).2
  have e : bg.ComputeMaxSpan n = ((List.range bg.m_nPlaces).foldl
      (maxSpanWrapStep (bg.stateNum 0) (bg.stateNum n)) (bg.maxSpanFwd n).1).nMaxSpan := by
    unfold CBalaGray.ComputeMaxSpan
    simp only []
    rw [← h1]; rfl
  rw [e]
  exact IsMaxAcc_congr _ _ _ _ this (fun p hp => by simp [hp])

theorem stdDevSum_eq (bg : CBalaGray) :
    bg.stdDevSum = ∑ p in Finset.range bg.m_nPlaces, bg.wrapDevAt (bg.m_arrState.length - 1) p := by
  obtain ⟨h1, h2, h3⟩ := stdDevFwd_rel bg (bg.m_arrState.length - 1)
  have := (stdDevWrap_rel bg _ (bg.stdDevFwd (bg.m_arrState.length - 1)).1 h2 h3
    bg.m_nPlaces (le_refl _)).2
  have e : bg.stdDevSum = ((List.range bg.m_nPlaces).foldl
      (stdDevWrapStep bg (bg.stateNum 0) (bg.stateNum (bg.m_arrState.length - 1)))
      (bg.stdDevFwd (bg.m_arrState.length - 1)).1).fDevSum := by
    unfold CBalaGray.stdDevSum
    simp only []
    rw [← h1]; rfl
  rw [e, this]
  exact Finset.sum_congr rfl (fun p hp => by simp [Finset.mem_range.mp hp])

theorem maxOf_cons (a : Int) (l : List Int) : maxOf (a :: l) = max a (maxOf l) := rfl

theorem maxOf_nonneg (l : List Int) : 0 ≤ maxOf l := by
  induction l with
  | nil => exact le_refl _
  | cons a l ih => rw [maxOf_cons]; exact le_max_of_le_right ih

theorem maxOf_append (l l' : List Int) : maxOf (l ++ l') = max (maxOf l) (maxOf l') := by
  induction l with
  | nil =>
    show maxOf l' = max 0 (maxOf l')
    exact (max_eq_right (maxOf_nonneg l')).symm
  | cons a l ih => rw [List.cons_append, maxOf_cons, maxOf_cons, ih, max_assoc]

theorem maxOf_le (l : List Int) : ∀ x ∈ l, x ≤ maxOf l := by
  induction l with
  | nil => simp
  | cons a l ih =>
    intro x hx
    rw [maxOf_cons]
    rcases List.mem_cons.mp hx with h | h
    · rw [h]; exact le_max_left _ _
    · exact le_max_of_le_right (ih x h)

theorem maxOf_mem (l : List Int) (hne : l ≠ []) (hpos : ∀ x ∈ l, 0 ≤ x) : maxOf l ∈ l := by
  induction l with
  | nil => exact absurd rfl hne
  | cons a l ih =>
    rw [maxOf_cons]
    by_cases hl : l = []
    · subst hl
      have := hpos a (List.mem_cons_self _ _)
      simp [maxOf, this]
    · have h1 := ih hl (fun x hx => hpos x (List.mem_cons_of_mem _ hx))
      rcases le_total a (maxOf l) with h | h
      · rw [max_eq_right h]; exact List.mem_cons_of_mem _ h1
      · rw [max_eq_left h]; exact List.mem_cons_self _ _

theorem sumDev_cons (P a : Int) (l : List Int) :
    sumDev P (a :: l) = (a - P) * (a - P) + sumDev P l := by
  simp [sumDev]

theorem sumDev_append (P : Int) (l l' : List Int) :
    sumDev P (l ++ l') = sumDev P l + sumDev P l' := by
  simp [sumDev]

theorem seenRuns_one (R : List Nat) : seenRuns 1 R = R.map (fun (x : Nat) => (x : Int)) := by
  cases R with
  | nil => rfl
  | cons r rs => simp [seenRuns]

theorem runLengths_single (rest : List Nat) : ∀ (x r : Nat),
    runLengths (x :: rest) = [r] → rest.getLastD x = x := by
  induction rest with
  | nil => intro x r _; rfl
  | cons y rest ih =>
    intro x r h
    have hne := runLengths_cons_ne_nil y rest
    rw [runLengths] at h
    by_cases hxy : x = y
    · rw [if_pos hxy] at h
      cases hr : runLengths (y :: rest) with
      | nil => exact absurd hr hne
      | cons r' rs =>
        rw [hr] at h
        simp only [List.cons.injEq] at h
        rw [h.2] at hr
        have := ih y r' hr
        rw [List.getLastD_cons, this, hxy]
    · rw [if_neg hxy] at h
      simp only [List.cons.injEq] at h
      exact absurd h.2 hne

theorem runLengths_const (rest : List Nat) : ∀ (x : Nat), (∀ y ∈ rest, y = x) →
    runLengths (x :: rest) = [rest.length + 1] := by
  induction rest with
  | nil => intro x _; rfl
  | cons y rest ih =>
    intro x h
    have hy : y = x := h y (List.mem_cons_self _ _)
    subst hy
    rw [runLengths, if_pos rfl, ih y (fun z hz => h z (List.mem_cons_of_mem _ hz))]
    rfl

theorem cyclic_of_wrap (P : Int) (x : Nat) (rest : List Nat) :
    (max (max 0 (maxOf (seenRuns 1 (runLengths (x :: rest))).dropLast))
        (if x ≠ rest.getLastD x then (seenRuns 1 (runLengths (x :: rest))).getLastD 0
          else (seenRuns 1 (runLengths (x :: rest))).getLastD 0
            + (seenRuns 1 (runLengths (x :: rest))).dropLast.headD 0)
      = maxOf ((cyclicRunLengths (x :: rest)).map (fun (r : Nat) => (r : Int)))) ∧
    (sumDev P (seenRuns 1 (runLengths (x :: rest))).dropLast.tail
        + (if x ≠ rest.getLastD x
          then ((seenRuns 1 (runLengths (x :: rest))).getLastD 0 - P)
              * ((seenRuns 1 (runLengths (x :: rest))).getLastD 0 - P)
            + ((seenRuns 1 (runLengths (x :: rest))).dropLast.headD 0 - P)
              * ((seenRuns 1 (runLengths (x :: rest))).dropLast.headD 0 - P)
          else ((seenRuns 1 (runLengths (x :: rest))).dropLast.headD 0
              + (seenRuns 1 (runLengths (x :: rest))).getLastD 0 - P)
            * ((seenRuns 1 (runLengths (x :: rest))).dropLast.headD 0
              + (seenRuns 1 (runLengths (x :: rest))).getLastD 0 - P))
      = sumDev P ((cyclicRunLengths (x :: rest)).map (fun (r : Nat) => (r : Int)))) := by
  have hne := runLengths_cons_ne_nil x rest
  have hhead : (x :: rest).head? = (x :: rest).getLast? ↔ x = rest.getLastD x := by
    rw [List.getLast?_cons]; simp [eq_comm]
  rw [seenRuns_one]
  unfold cyclicRunLengths
  simp only [hhead]
  cases hR : runLengths (x :: rest) with
  | nil => exact absurd hR hne
  | cons h t =>
    rcases List.eq_nil_or_concat t with ht | ⟨tm, l, ht⟩
    · subst ht
      have hx := runLengths_single rest x h hR
      have hc : ¬ (x ≠ rest.getLastD x) := by rw [hx]; simp
      rw [if_neg hc, if_neg hc, if_neg (by simp)]
      simp [maxOf, sumDev, List.getLastD]
    · subst ht
      simp only [List.concat_eq_append] at hR ⊢
      have hmap : List.map (fun (x : Nat) => (x : Int)) (h :: (tm ++ [l]))
          = ((h : Int) :: tm.map (fun (x : Nat) => (x : Int))) ++ [(l : Int)] := by simp
      rw [hmap, List.dropLast_concat, List.getLastD_concat]
      simp only [List.headD_cons, List.tail_cons]
      by_cases hc : x ≠ rest.getLastD x
      · rw [if_pos hc, if_pos hc, if_neg (by tauto)]
        rw [hmap]
        refine ⟨?_, ?_⟩
        · rw [maxOf_append, max_eq_right (maxOf_nonneg _)]
          simp [maxOf]
        · rw [sumDev_append, sumDev_cons, sumDev_cons]
          simp [sumDev]; ring
      · have hc' : x = rest.getLastD x := by simpa using hc
        rw [if_neg hc, if_neg hc, if_pos ⟨hc', by simp⟩]
        simp only [List.headD_cons, List.getLastD_concat, List.tail_cons,
          List.dropLast_concat, List.map_cons]
        have hl : List.getLastD (h :: (tm ++ [l])) 0 = l := by
          rw [← List.cons_append, List.getLastD_concat]
        rw [hl]
        refine ⟨?_, ?_⟩
        · have h1 : (0 : Int) ≤ h := Int.ofNat_zero_le _
          have h2 : (0 : Int) ≤ l := Int.ofNat_zero_le _
          have := maxOf_nonneg (tm.map (fun (x : Nat) => (x : Int)))
          simp only [maxOf_cons, max_def]
          push_cast
          split_ifs <;> omega
        · rw [sumDev_cons]
          push_cast
          ring

theorem placeSeq_cons (bg : CBalaGray) (p : Nat) (hN : 1 ≤ bg.m_arrState.length) :
    bg.placeSeq p = bg.placeValue p 0 ::
      (List.range' 1 (bg.m_arrState.length - 1)).map (fun t => bg.placeValue p t) := by
  unfold CBalaGray.placeSeq
  obtain ⟨n, hn⟩ : ∃ n, bg.m_arrState.length = n + 1 := ⟨bg.m_arrState.length - 1, by omega⟩
  rw [hn, List.range_eq_range', List.range'_succ]
  simp

theorem placeScanAt_eq_foldl (bg : CBalaGray) (p n : Nat) :
    bg.placeScanAt p n =
      ((List.range' 1 n).map (fun t => bg.placeValue p t)).foldl (placeStep bg.m_nPlaces)
        { prev := bg.placeValue p 0, span := 1, first := 0, maxc := 0, dev := 0 } := by
  unfold CBalaGray.placeScanAt
  rw [List.foldl_map]

theorem wrap_eq_cyclic (bg : CBalaGray) (p : Nat) (hN : 1 ≤ bg.m_arrState.length) :
    bg.wrapMaxAt (bg.m_arrState.length - 1) p
      = maxOf ((cyclicRunLengths (bg.placeSeq p)).map (fun (r : Nat) => (r : Int))) ∧
    bg.wrapDevAt (bg.m_arrState.length - 1) p
      = sumDev bg.m_nPlaces ((cyclicRunLengths (bg.placeSeq p)).map (fun (r : Nat) => (r : Int))) := by
  have hseq := placeSeq_cons bg p hN
  have hprev := placeScanAt_prev bg p (bg.m_arrState.length - 1)
  have hfold := placeScanAt_eq_foldl bg p (bg.m_arrState.length - 1)
  obtain ⟨e1, e2, e3, e4, e5⟩ := foldl_placeStep bg.m_nPlaces
    ((List.range' 1 (bg.m_arrState.length - 1)).map (fun t => bg.placeValue p t))
    { prev := bg.placeValue p 0, span := 1, first := 0, maxc := 0, dev := 0 }
    (le_refl _) (le_refl _)
  rw [← hfold] at e1 e2 e3 e4 e5
  simp only [if_true] at e2 e4
  rw [hprev, List.getLastD_cons] at e5
  obtain ⟨c1, c2⟩ := cyclic_of_wrap bg.m_nPlaces (bg.placeValue p 0)
    ((List.range' 1 (bg.m_arrState.length - 1)).map (fun t => bg.placeValue p t))
  rw [← hseq] at c1 c2
  refine ⟨?_, ?_⟩
  · rw [← c1]
    unfold CBalaGray.wrapMaxAt
    rw [e1, e2, e3, ← placeValue_eq, ← placeValue_eq, e5, hseq]
  · rw [← c2]
    unfold CBalaGray.wrapDevAt CBalaGray.CalcDeviance
    rw [e1, e2, e4, ← placeValue_eq, ← placeValue_eq, e5, hseq]
    simp only [Int.zero_add]

theorem cyclicRunLengths_ne_nil (x : Nat) (rest : List Nat) :
    cyclicRunLengths (x :: rest) ≠ [] := by
  unfold cyclicRunLengths
  simp only []
  split
  · simp
  · exact runLengths_cons_ne_nil x rest

theorem cyclicRunLengths_pos (v : List Nat) : ∀ r ∈ cyclicRunLengths v, 1 ≤ r := by
  intro r hr
  unfold cyclicRunLengths at hr
  simp only [] at hr
  split at hr
  · rename_i hc
    rcases List.mem_cons.mp hr with h | h
    · cases hR : runLengths v with
      | nil => rw [hR] at hc; simp at hc
      | cons a t =>
        rw [hR] at h
        have := runLengths_pos v a (by rw [hR]; exact List.mem_cons_self _ _)
        simp only [List.headD_cons] at h
        omega
    · exact runLengths_pos v r (List.mem_of_mem_tail (List.mem_of_mem_dropLast h))
  · exact runLengths_pos v r hr

/-- C4: for every complete sequence of `N ≥ 1` numerals on the crawler stack
(and at least one place), `ComputeMaxSpan (N - 1)` is the maximum, over all
places, of the lengths of the maximal cyclic runs of the place's values: it
bounds the length of every cyclic run of every place and is the length of one
of them; a place that never changes has the single cyclic run of length `N`. -/
theorem ComputeMaxSpan_is_max_cyclic_run (bg : CBalaGray) (hP : 1 ≤ bg.m_nPlaces)
    (hN : 1 ≤ bg.m_arrState.length) :
    (∀ p < bg.m_nPlaces, ∀ r ∈ cyclicRunLengths (bg.placeSeq p),
      (r : Int) ≤ bg.ComputeMaxSpan (bg.m_arrState.length - 1)) ∧
    (∃ p, p < bg.m_nPlaces ∧ ∃ r ∈ cyclicRunLengths (bg.placeSeq p),
      (r : Int) = bg.ComputeMaxSpan (bg.m_arrState.length - 1)) ∧
    (∀ p < bg.m_nPlaces, (∀ t < bg.m_arrState.length, bg.placeValue p t = bg.placeValue p 0) →
      cyclicRunLengths (bg.placeSeq p) = [bg.m_arrState.length]) := by
  obtain ⟨h1, h2, h3⟩ := ComputeMaxSpan_acc bg (bg.m_arrState.length - 1)
  have hmem : ∀ p, maxOf ((cyclicRunLengths (bg.placeSeq p)).map (fun (r : Nat) => (r : Int)))
      ∈ (cyclicRunLengths (bg.placeSeq p)).map (fun (r : Nat) => (r : Int)) := by
    intro p
    apply maxOf_mem
    · rw [placeSeq_cons bg p hN]
      simpa using cyclicRunLengths_ne_nil _ _
    · intro x hx
      obtain ⟨r, _, rfl⟩ := List.mem_map.mp hx
      exact Int.ofNat_zero_le r
  refine ⟨fun p hp r hr => ?_, ?_, fun p _ hconst => ?_⟩
  · have : bg.wrapMaxAt (bg.m_arrState.length - 1) p ≤ _ := h2 p hp
    rw [(wrap_eq_cyclic bg p hN).1] at this
    exact le_trans (maxOf_le _ _ (List.mem_map.mpr ⟨r, hr, rfl⟩)) this
  · rcases h3 with h3 | ⟨p, hp, h3⟩
    · -- the accumulator kept its initial value 1
      have h0 : bg.wrapMaxAt (bg.m_arrState.length - 1) 0 ≤ _ := h2 0 (by omega)
      rw [(wrap_eq_cyclic bg 0 hN).1] at h0
      obtain ⟨r, hr, hrm⟩ := List.mem_map.mp (hmem 0)
      have hrpos : 1 ≤ r := cyclicRunLengths_pos _ r hr
      refine ⟨0, by omega, r, hr, ?_⟩
      rw [h3]; rw [← hrm] at h0; rw [h3] at h0
      omega
    · have h3' : bg.ComputeMaxSpan (bg.m_arrState.length - 1)
          = bg.wrapMaxAt (bg.m_arrState.length - 1) p := h3
      rw [(wrap_eq_cyclic bg p hN).1] at h3'
      obtain ⟨r, hr, hrm⟩ := List.mem_map.mp (hmem p)
      exact ⟨p, hp, r, hr, by rw [hrm, h3']⟩
  · rw [placeSeq_cons bg p hN]
    unfold cyclicRunLengths
    have hrun : runLengths (bg.placeValue p 0 ::
        (List.range' 1 (bg.m_arrState.length - 1)).map (fun t => bg.placeValue p t))
        = [bg.m_arrState.length] := by
      rw [runLengths_const]
      · simp; omega
      · intro y hy
        obtain ⟨t, ht, rfl⟩ := List.mem_map.mp hy
        rw [List.mem_range'_1] at ht
        exact hconst t (by omega)
    simp only [hrun]
    rw [if_neg (by simp)]

/-- Witness of C4 on the cycle 0, 1, 3, 2 of the radix vector (2, 2), whose
maximum span is 2. -/
theorem ComputeMaxSpan_is_max_cyclic_run_witness :
    (1 ≤ exampleStack22.m_nPlaces ∧ 1 ≤ exampleStack22.m_arrState.length) ∧
    exampleStack22.ComputeMaxSpan 3 = 2 ∧
    (∃ p, p < exampleStack22.m_nPlaces ∧ ∃ r ∈ cyclicRunLengths (exampleStack22.placeSeq p),
      (r : Int) = exampleStack22.ComputeMaxSpan (exampleStack22.m_arrState.length - 1)) :=
  ⟨by decide, by decide,
    (ComputeMaxSpan_is_max_cyclic_run exampleStack22 (by decide) (by decide)).2.1⟩

/-- C5: for every complete sequence of `N ≥ 1` numerals on the crawler stack,
the sum of squared deviations accumulated by `ComputeStdDev` equals the sum,
over every place and every maximal cyclic run of that place, of
`(run length - P)^2`; the forward scan alone accumulates, for each place, the
squared deviations of its runs other than the first and the last one, so the
first span is counted only in the wrap phase. -/
theorem stdDevSum_is_cyclic_run_deviation (bg : CBalaGray) (hN : 1 ≤ bg.m_arrState.length) :
    bg.stdDevSum = ∑ p in Finset.range bg.m_nPlaces,
      ((cyclicRunLengths (bg.placeSeq p)).map
        (fun (r : Nat) => ((r : Int) - bg.m_nPlaces) * ((r : Int) - bg.m_nPlaces))).sum ∧
    bg.ComputeStdDev = some bg.stdDevSum.toNat ∧
    (bg.stdDevFwd (bg.m_arrState.length - 1)).1.fDevSum = ∑ p in Finset.range bg.m_nPlaces,
      (((runLengths (bg.placeSeq p)).dropLast.tail).map
        (fun (r : Nat) => ((r : Int) - bg.m_nPlaces) * ((r : Int) - bg.m_nPlaces))).sum := by
  refine ⟨?_, rfl, ?_⟩
  · rw [stdDevSum_eq]
    apply Finset.sum_congr rfl
    intro p _
    rw [(wrap_eq_cyclic bg p hN).2]
    unfold sumDev
    rw [List.map_map]
    rfl
  · rw [(stdDevFwd_rel bg _).2.2]
    apply Finset.sum_congr rfl
    intro p _
    obtain ⟨_, _, _, e4, _⟩ := foldl_placeStep bg.m_nPlaces
      ((List.range' 1 (bg.m_arrState.length - 1)).map (fun t => bg.placeValue p t))
      { prev := bg.placeValue p 0, span := 1, first := 0, maxc := 0, dev := 0 }
      (le_refl _) (le_refl _)
    rw [← placeScanAt_eq_foldl] at e4
    simp only [if_true, Int.zero_add] at e4
    rw [e4, ← placeSeq_cons bg p hN, seenRuns_one]
    unfold sumDev
    rw [← List.map_dropLast, ← List.map_tail, List.map_map]
    rfl

/-- Witness of C5 on the cycle 0, 1, 3, 2 of the radix vector (2, 2): every
cyclic run has length 2 = P, so the sum is 0. -/
theorem stdDevSum_is_cyclic_run_deviation_witness :
    1 ≤ exampleStack22.m_arrState.length ∧
    exampleStack22.stdDevSum = 0 ∧
    exampleStack22.stdDevSum = ∑ p in Finset.range exampleStack22.m_nPlaces,
      ((cyclicRunLengths (exampleStack22.placeSeq p)).map
        (fun (r : Nat) => ((r : Int) - exampleStack22.m_nPlaces)
          * ((r : Int) - exampleStack22.m_nPlaces))).sum :=
  ⟨by decide, by decide, (stdDevSum_is_cyclic_run_deviation exampleStack22 (by decide)).1⟩

theorem numeralMask_eq (k : Nat) : numeralMask k = 2 ^ (k % 64) := by
  unfold numeralMask ULONGLONG_BITS
  rw [Nat.one_shiftLeft]
  congr 1
  simpa using Nat.and_pow_two_sub_one_eq_mod k 6

theorem and_two_pow_eq_zero (m k : Nat) : m &&& 2 ^ k = 0 ↔ m.testBit k = false := by
  constructor
  · intro h
    have := congrArg (fun x => Nat.testBit x k) h
    simpa [Nat.testBit_and, Nat.testBit_two_pow] using this
  · intro h
    apply Nat.eq_of_testBit_eq
    intro j
    rw [Nat.testBit_and, Nat.testBit_two_pow, Nat.zero_testBit]
    by_cases hkj : k = j
    · subst hkj; simp [h]
    · simp [hkj]

theorem testBit_or_two_pow (m k j : Nat) :
    (m ||| 2 ^ k).testBit j = (m.testBit j || decide (k = j)) := by
  rw [Nat.testBit_or, Nat.testBit_two_pow]

theorem testBit_clear (m k j : Nat) (hj : j < 64) :
    (m &&& (0xFFFFFFFFFFFFFFFF ^^^ 2 ^ k)).testBit j = (m.testBit j && !decide (k = j)) := by
  rw [Nat.testBit_and, Nat.testBit_xor, Nat.testBit_two_pow]
  have : (0xFFFFFFFFFFFFFFFF : Nat).testBit j = true := by
    have := Nat.testBit_two_pow_sub_one 64 j
    simp only [hj, decide_True] at this
    exact this
  rw [this]
  cases decide (k = j) <;> simp

theorem and_ne_self_iff (m W : Nat) :
    m &&& W ≠ W ↔ ∃ j, W.testBit j = true ∧ m.testBit j = false := by
  constructor
  · intro h
    by_contra hcon
    apply h
    apply Nat.eq_of_testBit_eq
    intro j
    rw [Nat.testBit_and]
    by_cases hw : W.testBit j = true
    · have : m.testBit j = true := by
        by_contra hm
        exact hcon ⟨j, hw, by simpa using hm⟩
      rw [this, hw]; rfl
    · have : W.testBit j = false := by simpa using hw
      rw [this]; simp
  · rintro ⟨j, hw, hm⟩ h
    have := congrArg (fun x => Nat.testBit x j) h
    simp only [Nat.testBit_and, hw, hm] at this
    exact absurd this (by decide)

theorem usedBit_iDepth (loc : CalcLocals) (d k : Nat) :
    CalcLocals.usedBit { loc with iDepth := d } k = loc.usedBit k := rfl

theorem usedMask_setUsedMask (loc : CalcLocals) (i j v : Nat) (hi : i ≤ 1) (hj : j ≤ 1) :
    (loc.setUsedMask i v).usedMask j = if j = i then v else loc.usedMask j := by
  unfold CalcLocals.setUsedMask CalcLocals.usedMask
  have hi' : i = 0 ∨ i = 1 := by omega
  have hj' : j = 0 ∨ j = 1 := by omega
  rcases hi' with rfl | rfl <;> rcases hj' with rfl | rfl <;> simp

theorem usedMaskIndex_le (k : Nat) : usedMaskIndex k ≤ 1 := by
  unfold usedMaskIndex; split <;> omega

theorem usedMaskIndex_eq_div (k : Nat) (hk : k < 128) : usedMaskIndex k = k / 64 := by
  unfold usedMaskIndex ULONGLONG_BITS; split <;> omega

theorem usedBit_set_or (loc : CalcLocals) (x k : Nat) (hx : x < 128) (hk : k < 128) :
    (loc.setUsedMask (usedMaskIndex x)
        (loc.usedMask (usedMaskIndex x) ||| numeralMask x)).usedBit k
      = (loc.usedBit k || decide (k = x)) := by
  unfold CalcLocals.usedBit
  rw [usedMask_setUsedMask _ _ _ _ (usedMaskIndex_le x) (usedMaskIndex_le k)]
  rw [usedMaskIndex_eq_div x hx, usedMaskIndex_eq_div k hk, numeralMask_eq]
  by_cases h : k / 64 = x / 64
  · rw [if_pos h, testBit_or_two_pow, h]
    congr 1
    apply decide_eq_decide.mpr
    omega
  · rw [if_neg h]
    have : ¬ k = x := fun e => h (by rw [e])
    simp [this]

theorem usedBit_set_clear (loc : CalcLocals) (x k : Nat) (hx : x < 128) (hk : k < 128) :
    (loc.setUsedMask (usedMaskIndex x)
        (loc.usedMask (usedMaskIndex x) &&& (0xFFFFFFFFFFFFFFFF ^^^ numeralMask x))).usedBit k
      = (loc.usedBit k && !decide (k = x)) := by
  unfold CalcLocals.usedBit
  rw [usedMask_setUsedMask _ _ _ _ (usedMaskIndex_le x) (usedMaskIndex_le k)]
  rw [usedMaskIndex_eq_div x hx, usedMaskIndex_eq_div k hk, numeralMask_eq]
  by_cases h : k / 64 = x / 64
  · rw [if_pos h, testBit_clear _ _ _ (Nat.mod_lt _ (by norm_num)), h]
    congr 2
    apply decide_eq_decide.mpr
    omega
  · rw [if_neg h]
    have : ¬ k = x := fun e => h (by rw [e])
    simp [this]

theorem usedBit_test (loc : CalcLocals) (x : Nat) :
    loc.usedMask (usedMaskIndex x) &&& numeralMask x = 0 ↔ loc.usedBit x = false := by
  rw [numeralMask_eq, and_two_pow_eq_zero]
  rfl

theorem setUsedMask_best (loc : CalcLocals) (i v : Nat) :
    (loc.setUsedMask i v).nBestImbalance = loc.nBestImbalance ∧
    (loc.setUsedMask i v).nBestMaxTrans = loc.nBestMaxTrans ∧
    (loc.setUsedMask i v).m_arrBestPerm = loc.m_arrBestPerm := by
  unfold CalcLocals.setUsedMask
  split <;> exact ⟨rfl, rfl, rfl⟩

theorem state_setState (bg : CBalaGray) (i j : Nat) (st : STATE) :
    (bg.setState i st).state j
      = if i = j ∧ j < bg.m_arrState.length then st else bg.state j := by
  unfold CBalaGray.setState CBalaGray.state
  simp only
  rw [getD_set_gen]

theorem setState_length (bg : CBalaGray) (i : Nat) (st : STATE) :
    (bg.setState i st).m_arrState.length = bg.m_arrState.length := by
  unfold CBalaGray.setState
  simp

theorem setState_frame (bg : CBalaGray) (i : Nat) (st : STATE) :
    (bg.setState i st).frame = bg.frame := rfl

theorem frame_num {bg bg' : CBalaGray} (h : bg'.frame = bg.frame) (i : Nat) :
    bg'.num i = bg.num i := by
  have : bg'.frame.m_arrNum = bg.frame.m_arrNum := by rw [h]
  have : bg'.m_arrNum = bg.m_arrNum := this
  unfold CBalaGray.num
  rw [this]

theorem frame_places {bg bg' : CBalaGray} (h : bg'.frame = bg.frame) :
    bg'.m_nPlaces = bg.m_nPlaces := by
  have : bg'.frame.m_nPlaces = bg.frame.m_nPlaces := by rw [h]
  exact this

theorem frame_table {bg bg' : CBalaGray} (h : bg'.frame = bg.frame) :
    bg'.m_arrGraySuccessor = bg.m_arrGraySuccessor := by
  have : bg'.frame.m_arrGraySuccessor = bg.frame.m_arrGraySuccessor := by rw [h]
  exact this

theorem incFold_spec (f : Nat → Bool) (n : NUMERAL) (hn : n.length = 8) (P : Nat) :
    ((List.range P).foldl (fun nT p => incTrans nT p (f p)) n).length = 8 ∧
    ∀ q, ((List.range P).foldl (fun nT p => incTrans nT p (f p)) n).b q
      = if q < P ∧ q < 8 ∧ f q = true then (n.b q + 1) % 256 else n.b q := by
  induction P with
  | zero => simp [hn]
  | succ P ih =>
    rw [List.range_succ, List.foldl_append]
    simp only [List.foldl_cons, List.foldl_nil]
    obtain ⟨ihl, ihb⟩ := ih
    generalize (List.range P).foldl (fun nT p => incTrans nT p (f p)) n = acc at ihl ihb ⊢
    unfold incTrans
    by_cases hf : f P = true
    · rw [if_pos hf]
      refine ⟨by unfold NUMERAL.setB; simp [ihl], ?_⟩
      intro q
      rw [setB_b, ihl, ihb, ihb]
      by_cases hq : P = q
      · subst hq
        by_cases h8 : P < 8
        · simp [hf, h8]
        · simp [h8]
      · have : (q < P + 1) = (q < P) := by
          apply propext; constructor <;> intro h <;> omega
        simp only [hq, false_and, if_false, this]
    · rw [if_neg hf]
      refine ⟨ihl, ?_⟩
      intro q
      rw [ihb]
      by_cases hq : P = q
      · subst hq
        simp [hf]
      · have : (q < P + 1) = (q < P) := by
          apply propext; constructor <;> intro h <;> omega
        simp only [this]

theorem minmax_fold (g : Nat → Nat) (P : Nat) :
    (∀ p ≤ P, ((List.range' 1 P).foldl
        (fun (mm : Nat × Nat) iPlace =>
          (if g iPlace < mm.1 then g iPlace else mm.1, if g iPlace > mm.2 then g iPlace else mm.2))
        (g 0, g 0)).1 ≤ g p ∧
      g p ≤ ((List.range' 1 P).foldl
        (fun (mm : Nat × Nat) iPlace =>
          (if g iPlace < mm.1 then g iPlace else mm.1, if g iPlace > mm.2 then g iPlace else mm.2))
        (g 0, g 0)).2) ∧
    (∃ p ≤ P, g p = ((List.range' 1 P).foldl
        (fun (mm : Nat × Nat) iPlace =>
          (if g iPlace < mm.1 then g iPlace else mm.1, if g iPlace > mm.2 then g iPlace else mm.2))
        (g 0, g 0)).1) ∧
    (∃ p ≤ P, g p = ((List.range' 1 P).foldl
        (fun (mm : Nat × Nat) iPlace =>
          (if g iPlace < mm.1 then g iPlace else mm.1, if g iPlace > mm.2 then g iPlace else mm.2))
        (g 0, g 0)).2) := by
  induction P with
  | zero =>
    simp
  | succ P ih =>
    rw [List.range'_1_concat, List.foldl_append]
    simp only [List.foldl_cons, List.foldl_nil]
    generalize ((List.range' 1 P).foldl
        (fun (mm : Nat × Nat) iPlace =>
          (if g iPlace < mm.1 then g iPlace else mm.1, if g iPlace > mm.2 then g iPlace else mm.2))
        (g 0, g 0)) = mm at ih ⊢
    obtain ⟨hb, ⟨p1, hp1, e1⟩, ⟨p2, hp2, e2⟩⟩ := ih
    refine ⟨?_, ?_, ?_⟩
    · intro p hp
      by_cases hpP : p ≤ P
      · have := hb p hpP
        constructor
        · split <;> omega
        · split <;> omega
      · have : p = 1 + P := by omega
        subst this
        constructor
        · split <;> omega
        · split <;> omega
    · by_cases h : g (1 + P) < mm.1
      · exact ⟨1 + P, by omega, by rw [if_pos h]⟩
      · exact ⟨p1, by omega, by rw [if_neg h]; exact e1⟩
    · by_cases h : g (1 + P) > mm.2
      · exact ⟨1 + P, by omega, by rw [if_pos h]⟩
      · exact ⟨p2, by omega, by rw [if_neg h]; exact e2⟩

theorem ComputeBalance_spec (bg : CBalaGray) (d : Nat) (hP1 : 1 ≤ bg.m_nPlaces)
    (hP8 : bg.m_nPlaces ≤ 8) (hl : (bg.state (d - 1)).nTrans.length = 8)
    (hb : ∀ p < bg.m_nPlaces, (bg.state (d - 1)).nTrans.b p + 2 < 256) :
    (bg.ComputeBalance d).2.2.length = 8 ∧
    (∀ p < bg.m_nPlaces, (bg.ComputeBalance d).2.2.b p
      = (bg.state (d - 1)).nTrans.b p
        + (if (bg.stateNum d).b p ≠ (bg.stateNum (d - 1)).b p then 1 else 0)) ∧
    (∀ p < bg.m_nPlaces, (bg.wrapCount d p : Int) ≤ (bg.ComputeBalance d).2.1) ∧
    (∃ p < bg.m_nPlaces, (bg.wrapCount d p : Int) = (bg.ComputeBalance d).2.1) ∧
    ∃ mn : Nat, (∀ p < bg.m_nPlaces, mn ≤ bg.wrapCount d p) ∧
      (∃ p < bg.m_nPlaces, bg.wrapCount d p = mn) ∧
      (bg.ComputeBalance d).1 = (bg.ComputeBalance d).2.1 - (mn : Int) := by
  obtain ⟨l1, b1⟩ := incFold_spec
    (fun p => (bg.stateNum d).b p != (bg.stateNum (d - 1)).b p)
    (bg.state (d - 1)).nTrans hl bg.m_nPlaces
  obtain ⟨l2, b2⟩ := incFold_spec (fun p => (bg.stateNum d).b p != 0) _ l1 bg.m_nPlaces
  have hc : ∀ p < bg.m_nPlaces,
      ((List.range bg.m_nPlaces).foldl (fun nT p => incTrans nT p
        ((bg.stateNum d).b p != (bg.stateNum (d - 1)).b p)) (bg.state (d - 1)).nTrans).b p
      = (bg.state (d - 1)).nTrans.b p
        + (if (bg.stateNum d).b p ≠ (bg.stateNum (d - 1)).b p then 1 else 0) := by
    intro p hp
    rw [b1]
    have := hb p hp
    by_cases h : (bg.stateNum d).b p = (bg.stateNum (d - 1)).b p
    · simp [h]
    · have h8 : p < 8 := by omega
      simp only [hp, h8, bne_iff_ne, ne_eq, h, not_false_eq_true, and_true, if_true]
      rw [Nat.mod_eq_of_lt (by omega)]
  have hw : ∀ p < bg.m_nPlaces,
      ((List.range bg.m_nPlaces).foldl (fun nT p => incTrans nT p ((bg.stateNum d).b p != 0))
        ((List.range bg.m_nPlaces).foldl (fun nT p => incTrans nT p
          ((bg.stateNum d).b p != (bg.stateNum (d - 1)).b p)) (bg.state (d - 1)).nTrans)).b p
      = bg.wrapCount d p := by
    intro p hp
    rw [b2, hc p hp]
    unfold CBalaGray.wrapCount
    have := hb p hp
    by_cases h : (bg.stateNum d).b p = 0
    · simp [h]
    · have h8 : p < 8 := by omega
      simp only [hp, h8, bne_iff_ne, ne_eq, h, not_false_eq_true, and_true, if_true]
      rw [Nat.mod_eq_of_lt (by split <;> omega)]
  obtain ⟨m1, ⟨p1, hp1, e1⟩, ⟨p2, hp2, e2⟩⟩ := minmax_fold
    (fun p => ((List.range bg.m_nPlaces).foldl
      (fun nT p => incTrans nT p ((bg.stateNum d).b p != 0))
      ((List.range bg.m_nPlaces).foldl (fun nT p => incTrans nT p
        ((bg.stateNum d).b p != (bg.stateNum (d - 1)).b p)) (bg.state (d - 1)).nTrans)).b p)
    (bg.m_nPlaces - 1)
  refine ⟨l1, hc, ?_, ?_, ?_⟩
  · intro p hp
    have := (m1 p (by omega)).2
    rw [hw p hp] at this
    unfold CBalaGray.ComputeBalance
    simp only
    exact_mod_cast this
  · refine ⟨p2, by omega, ?_⟩
    rw [hw p2 (by omega)] at e2
    unfold CBalaGray.ComputeBalance
    simp only
    exact_mod_cast e2
  · refine ⟨bg.wrapCount d p1, ?_, ⟨p1, by omega, rfl⟩, ?_⟩
    · intro p hp
      have := (m1 p (by omega)).1
      rw [hw p hp, ← e1, hw p1 (by omega)] at this
      exact this
    · rw [← hw p1 (by omega), e1]
      unfold CBalaGray.ComputeBalance
      simp only

theorem pathNums_succ (bg : CBalaGray) (d : Nat) :
    bg.pathNums (d + 1) = bg.pathNums d ++ [(bg.state d).iNum] := by
  unfold CBalaGray.pathNums
  rw [List.range_succ, List.map_append]
  rfl

theorem pathNums_length (bg : CBalaGray) (d : Nat) : (bg.pathNums d).length = d := by
  unfold CBalaGray.pathNums; simp

theorem mem_pathNums (bg : CBalaGray) (d k : Nat) :
    k ∈ bg.pathNums d ↔ ∃ t < d, (bg.state t).iNum = k := by
  unfold CBalaGray.pathNums
  simp [List.mem_map]

theorem pathNums_getD (bg : CBalaGray) (d t : Nat) (ht : t < d) :
    (bg.pathNums d).getD t 0 = (bg.state t).iNum := by
  unfold CBalaGray.pathNums
  rw [List.getD_eq_getElem _ _ (by simpa using ht)]
  simp

theorem pathCount_succ (bg : CBalaGray) (t p : Nat) :
    bg.pathCount (t + 1) p = bg.pathCount t p
      + (if (bg.stateNum (t + 1)).b p ≠ (bg.stateNum t).b p then 1 else 0) := by
  unfold CBalaGray.pathCount
  rw [List.range_succ, List.filter_append, List.length_append]
  congr 1
  by_cases h : (bg.stateNum (t + 1)).b p = (bg.stateNum t).b p
  · simp [h]
  · simp [h]

theorem pathCount_le (bg : CBalaGray) (t p : Nat) : bg.pathCount t p ≤ t := by
  unfold CBalaGray.pathCount
  have := List.length_filter_le
    (fun s => decide ((bg.stateNum (s + 1)).b p ≠ (bg.stateNum s).b p)) (List.range t)
  simpa using this

theorem StatesAgree_stateNum {bg bg1 : CBalaGray} {d : Nat} (h : StatesAgree bg bg1 d)
    (t : Nat) (ht : t < d) : bg1.stateNum t = bg.stateNum t := by
  unfold CBalaGray.stateNum
  rw [(h.2.2 t ht).1, frame_num h.1]

theorem StatesAgree_pathNums {bg bg1 : CBalaGray} {d : Nat} (h : StatesAgree bg bg1 d)
    (e : Nat) (he : e ≤ d) : bg1.pathNums e = bg.pathNums e := by
  unfold CBalaGray.pathNums
  apply List.map_congr_left
  intro t ht
  exact (h.2.2 t (by have := List.mem_range.mp ht; omega)).1

theorem StatesAgree_pathCount {bg bg1 : CBalaGray} {d : Nat} (h : StatesAgree bg bg1 d)
    (t p : Nat) (ht : t < d) : bg1.pathCount t p = bg.pathCount t p := by
  unfold CBalaGray.pathCount
  congr 1
  apply List.filter_congr
  intro s hs
  have hs' := List.mem_range.mp hs
  rw [StatesAgree_stateNum h s (by omega), StatesAgree_stateNum h (s + 1) (by omega)]

theorem StatesAgree_mono {bg bg1 : CBalaGray} {d e : Nat} (h : StatesAgree bg bg1 d)
    (he : e ≤ d) : StatesAgree bg bg1 e :=
  ⟨h.1, h.2.1, fun t ht => h.2.2 t (by omega)⟩

theorem StatesAgree_setState (bg : CBalaGray) (i d : Nat) (st : STATE) (hi : d ≤ i) :
    StatesAgree bg (bg.setState i st) d := by
  refine ⟨rfl, setState_length bg i st, ?_⟩
  intro t ht
  rw [state_setState, if_neg (by omega)]
  exact ⟨rfl, rfl⟩

theorem StatesAgree_setGray (bg : CBalaGray) (i d g : Nat) :
    StatesAgree bg (bg.setState i { bg.state i with iGray := g }) d := by
  refine ⟨rfl, setState_length bg i _, ?_⟩
  intro t _
  rw [state_setState]
  split
  · rename_i h
    rw [h.1]
    exact ⟨rfl, rfl⟩
  · exact ⟨rfl, rfl⟩

theorem PathInv_frame {c : CalcConsts} {bg bg1 : CBalaGray} {used : Nat → Bool} {d : Nat}
    (h : PathInv c bg used d) (ha : StatesAgree bg bg1 d) : PathInv c bg1 used d := by
  have hd2 := h.hd2
  refine ⟨by rw [ha.2.1]; exact h.hlen, h.hd2, h.hdN, ?_, ?_, ?_, ?_, ?_, ?_, ?_⟩
  · rw [(ha.2.2 0 (by omega)).1]; exact h.h0
  · rw [(ha.2.2 1 (by omega)).1]; exact h.h1
  · intro t ht
    rw [(ha.2.2 t ht).1]; exact h.hlt t ht
  · rw [StatesAgree_pathNums ha d (le_refl d)]; exact h.hnodup
  · intro t ht
    rw [StatesAgree_stateNum ha t (by omega), StatesAgree_stateNum ha (t + 1) ht,
      frame_places ha.1]
    exact h.hgray t ht
  · intro k hk
    rw [StatesAgree_pathNums ha d (le_refl d)]; exact h.hmask k hk
  · intro t ht
    rw [(ha.2.2 t ht).2, frame_places ha.1]
    refine ⟨(h.htrans t ht).1, ?_⟩
    intro p hp
    rw [StatesAgree_pathCount ha t p ht]
    exact (h.htrans t ht).2 p hp

theorem PathInv_pop {c : CalcConsts} {bg : CBalaGray} {used used1 : Nat → Bool} {d : Nat}
    (h : PathInv c bg used (d + 1)) (hd : 2 ≤ d)
    (hu : ∀ k < 128, used1 k = (used k && !decide (k = (bg.state d).iNum))) :
    PathInv c bg used1 d := by
  have hnd := h.hnodup
  rw [pathNums_succ] at hnd
  have hnd' := List.nodup_append.mp hnd
  refine ⟨h.hlen, hd, by have := h.hdN; omega, h.h0, h.h1,
    fun t ht => h.hlt t (by omega), hnd'.1, fun t ht => h.hgray t (by omega), ?_,
    fun t ht => h.htrans t (by omega)⟩
  intro k hk
  rw [hu k hk]
  have := h.hmask k hk
  rw [pathNums_succ, List.mem_append, List.mem_singleton] at this
  have hx : (bg.state d).iNum ∉ bg.pathNums d := by
    intro hmem
    exact hnd'.2.2 hmem (List.mem_singleton.mpr rfl)
  constructor
  · intro hb
    simp only [Bool.and_eq_true, Bool.not_eq_true', decide_eq_false_iff_not] at hb
    rcases this.mp hb.1 with h1 | h1
    · exact h1
    · exact absurd h1 hb.2
  · intro hmem
    simp only [Bool.and_eq_true, Bool.not_eq_true', decide_eq_false_iff_not]
    refine ⟨this.mpr (Or.inl hmem), ?_⟩
    intro e
    exact hx (e ▸ hmem)

theorem BestOK_frame {c : CalcConsts} {bg bg1 : CBalaGray} {loc : CalcLocals}
    (hf : bg1.frame = bg.frame) (h : BestOK c bg loc) : BestOK c bg1 loc := by
  have hnum : bg1.num = bg.num := funext (frame_num hf)
  unfold BestOK at h ⊢
  rw [hnum, frame_places hf]
  exact h

theorem BestOK_setUsedMask {c : CalcConsts} {bg : CBalaGray} {loc : CalcLocals} (i v : Nat)
    (h : BestOK c bg loc) : BestOK c bg (loc.setUsedMask i v) := by
  unfold CalcLocals.setUsedMask
  split <;> exact h

theorem CrawlCtx_frame {c : CalcConsts} {bg bg1 : CBalaGray}
    (hf : bg1.frame = bg.frame) (h : CrawlCtx c bg) : CrawlCtx c bg1 := by
  have hnum : bg1.num = bg.num := funext (frame_num hf)
  refine ⟨h.hN4, h.hN127, h.hK, h.hStart, ?_, ?_, ?_, ?_, ?_, ?_⟩
  · rw [frame_places hf]; exact h.hP1
  · rw [frame_places hf]; exact h.hP8
  · rw [hnum]; exact h.hzero
  · rw [hnum, frame_places hf]; exact h.hone
  · rw [hnum, frame_places hf, frame_table hf]; exact h.hrow
  · rw [hnum, frame_places hf]; exact h.hwrap

theorem StepPost_trans {c : CalcConsts} {bg bg1 : CBalaGray} {r : CBalaGray × CalcLocals × Bool}
    (hf : bg1.frame = bg.frame) (h : StepPost c bg1 r) : StepPost c bg r :=
  ⟨h.1.trans hf, h.2.1, h.2.2⟩

theorem lblPrune_inv (c : CalcConsts) : ∀ (d : Nat) (bg : CBalaGray) (loc : CalcLocals),
    CrawlCtx c bg → PathInv c bg loc.usedBit d → BestOK c bg loc →
    StepPost c bg (lblPrune c d bg loc) := by
  intro d
  induction d with
  | zero =>
    intro bg loc _ _ hbest
    exact ⟨rfl, hbest, fun h => by simp [lblPrune] at h⟩
  | succ d ih =>
    intro bg loc hctx hpath hbest
    unfold lblPrune
    by_cases hs : d + 1 ≤ c.nStartDepth
    · rw [if_pos hs]
      exact ⟨rfl, hbest, fun h => by simp at h⟩
    · rw [if_neg hs]
      have hd2 : 2 ≤ d := by have := hctx.hStart; omega
      have hdN := hpath.hdN
      have hN := hctx.hN127
      have hx := hpath.hlt d (by omega)
      have hpop : PathInv c bg
          (loc.setUsedMask (usedMaskIndex (bg.state d).iNum)
            (loc.usedMask (usedMaskIndex (bg.state d).iNum)
              &&& (0xFFFFFFFFFFFFFFFF ^^^ numeralMask (bg.state d).iNum))).usedBit d :=
        PathInv_pop hpath hd2 (fun k hk => usedBit_set_clear loc _ k (by omega) hk)
      have hpop1 := PathInv_frame hpop
        (StatesAgree_setGray bg d d (((bg.state d).iGray + 1) % 256))
      have hbest1 : BestOK c (bg.setState d
          { bg.state d with iGray := ((bg.state d).iGray + 1) % 256 })
          (loc.setUsedMask (usedMaskIndex (bg.state d).iNum)
            (loc.usedMask (usedMaskIndex (bg.state d).iNum)
              &&& (0xFFFFFFFFFFFFFFFF ^^^ numeralMask (bg.state d).iNum))) :=
        BestOK_setUsedMask _ _ hbest
      simp only
      by_cases hg : ((bg.state d).iGray + 1) % 256 ≥ c.nGraySuccessors
      · rw [if_pos hg]
        exact StepPost_trans (setState_frame bg d _) (ih _ _ (CrawlCtx_frame (setState_frame bg d _) hctx) hpop1 hbest1)
      · rw [if_neg hg]
        refine ⟨rfl, hbest1, fun _ => ⟨hpop1, ?_⟩⟩
        show ((bg.setState d
          { bg.state d with iGray := ((bg.state d).iGray + 1) % 256 }).state d).iGray
            < c.nGraySuccessors
        rw [state_setState, if_pos ⟨rfl, by rw [hpath.hlen]; omega⟩]
        simp only
        omega

theorem crawlAdvance_inv (c : CalcConsts) (bg : CBalaGray) (loc : CalcLocals)
    (hctx : CrawlCtx c bg) (hpath : PathInv c bg loc.usedBit loc.iDepth) (hbest : BestOK c bg loc) :
    StepPost c bg (crawlAdvance c bg loc) := by
  unfold crawlAdvance
  have hpath1 := PathInv_frame hpath
    (StatesAgree_setGray bg loc.iDepth loc.iDepth (((bg.state loc.iDepth).iGray + 1) % 256))
  simp only
  by_cases hg : ((bg.state loc.iDepth).iGray + 1) % 256 ≥ c.nGraySuccessors
  · rw [if_pos hg]
    exact StepPost_trans (setState_frame bg loc.iDepth _)
      (lblPrune_inv c _ _ _ (CrawlCtx_frame (setState_frame bg loc.iDepth _) hctx) hpath1 hbest)
  · rw [if_neg hg]
    refine ⟨rfl, hbest, fun _ => ⟨hpath1, ?_⟩⟩
    show ((bg.setState loc.iDepth { bg.state loc.iDepth with
      iGray := ((bg.state loc.iDepth).iGray + 1) % 256 }).state loc.iDepth).iGray
        < c.nGraySuccessors
    rw [state_setState, if_pos ⟨rfl, by rw [hpath.hlen]; exact hpath.hdN⟩]
    simp only
    omega

theorem differInOnePlace_symm {P : Nat} {a b : NUMERAL} (h : differInOnePlace P a b) :
    differInOnePlace P b a := by
  unfold differInOnePlace at h ⊢
  rw [← h]
  congr 1
  apply List.filter_congr
  intro p _
  simp only [ne_eq, decide_not, Bool.not_eq_eq_eq_not, Bool.not_not, decide_eq_decide]
  exact eq_comm

theorem nodup_full (l : List Nat) (N : Nat) (hnd : l.Nodup) (hl : l.length = N)
    (hlt : ∀ x ∈ l, x < N) (j : Nat) (hj : j < N) : j ∈ l := by
  have hsub : l.toFinset ⊆ Finset.range N := by
    intro x hx
    exact Finset.mem_range.mpr (hlt x (List.mem_toFinset.mp hx))
  have hcard : (Finset.range N).card ≤ l.toFinset.card := by
    rw [List.toFinset_card_of_nodup hnd, Finset.card_range, hl]
  have := Finset.eq_of_subset_of_card_le hsub hcard
  have hm : j ∈ l.toFinset := by rw [this]; exact Finset.mem_range.mpr hj
  exact List.mem_toFinset.mp hm

theorem nodup_perm_range (l : List Nat) (N : Nat) (hnd : l.Nodup) (hl : l.length = N)
    (hlt : ∀ x ∈ l, x < N) : l.Perm (List.range N) := by
  rw [List.perm_ext_iff_of_nodup hnd (List.nodup_range N)]
  intro j
  constructor
  · intro h; exact List.mem_range.mpr (hlt j h)
  · intro h; exact nodup_full l N hnd hl hlt j (List.mem_range.mp h)

theorem PathInv_extend {c : CalcConsts} {bg bg1 : CBalaGray} {used used1 : Nat → Bool} {d : Nat}
    (h : PathInv c bg used d) (ha : StatesAgree bg bg1 d) (hd : d + 1 < c.nNumerals)
    (hx : (bg1.state d).iNum < c.nNumerals)
    (hnew : (bg1.state d).iNum ∉ bg.pathNums d)
    (hg : differInOnePlace bg.m_nPlaces (bg.stateNum (d - 1)) (bg.num (bg1.state d).iNum))
    (hl : (bg1.state d).nTrans.length = 8)
    (ht : ∀ p < bg.m_nPlaces, (bg1.state d).nTrans.b p = (bg.state (d - 1)).nTrans.b p
      + (if (bg.num (bg1.state d).iNum).b p ≠ (bg.stateNum (d - 1)).b p then 1 else 0))
    (hu : ∀ k < 128, used1 k = (used k || decide (k = (bg1.state d).iNum))) :
    PathInv c bg1 used1 (d + 1) := by
  have h1 := PathInv_frame h ha
  have hd2 := h.hd2
  have hN : bg1.stateNum d = bg.num (bg1.state d).iNum := by
    unfold CBalaGray.stateNum
    rw [frame_num ha.1]
  have hprev : bg1.stateNum (d - 1) = bg.stateNum (d - 1) :=
    StatesAgree_stateNum ha (d - 1) (by omega)
  have hpn : bg1.pathNums d = bg.pathNums d := StatesAgree_pathNums ha d (le_refl d)
  refine ⟨h1.hlen, by omega, hd, h1.h0, h1.h1, ?_, ?_, ?_, ?_, ?_⟩
  · intro t ht'
    by_cases htd : t < d
    · exact h1.hlt t htd
    · have : t = d := by omega
      subst this
      exact hx
  · rw [pathNums_succ]
    apply List.Nodup.append h1.hnodup (List.nodup_singleton _)
    intro a ha1 ha2
    rw [List.mem_singleton] at ha2
    subst ha2
    rw [hpn] at ha1
    exact hnew ha1
  · intro t ht'
    by_cases htd : t + 1 < d
    · exact h1.hgray t htd
    · have : t = d - 1 := by omega
      subst this
      have e : d - 1 + 1 = d := by omega
      rw [e, hN, hprev, frame_places ha.1]
      exact hg
  · intro k hk
    rw [hu k hk, pathNums_succ, List.mem_append, List.mem_singleton, Bool.or_eq_true,
      decide_eq_true_eq, h1.hmask k hk]
  · intro t ht'
    by_cases htd : t < d
    · exact h1.htrans t htd
    · have : t = d := by omega
      subst this
      refine ⟨hl, ?_⟩
      intro p hp
      rw [frame_places ha.1] at hp
      rw [ht p hp]
      have e : t = (t - 1) + 1 := by omega
      conv_rhs => rw [e, pathCount_succ, ← e]
      rw [hN, hprev, ← (h1.htrans (t - 1) (by omega)).2 p (by rw [frame_places ha.1]; exact hp),
        (ha.2.2 (t - 1) (by omega)).2]

theorem seq_getD (bg : CBalaGray) (e t : Nat) (ht : t < e) :
    ((bg.pathNums e).map bg.num).getD t zeroNumeral = bg.stateNum t := by
  unfold CBalaGray.pathNums CBalaGray.stateNum
  rw [List.getD_eq_getElem _ _ (by simpa using ht)]
  simp

theorem transCount_path (bg : CBalaGray) (d p : Nat) (h0 : (bg.stateNum 0).b p = 0) :
    transCount ((bg.pathNums (d + 1)).map bg.num) p
      = bg.pathCount d p + (if (bg.stateNum d).b p ≠ 0 then 1 else 0) := by
  unfold transCount
  have hlen : ((bg.pathNums (d + 1)).map bg.num).length = d + 1 := by
    rw [List.length_map, pathNums_length]
  rw [hlen, List.range_succ, List.filter_append, List.length_append]
  congr 1
  · unfold CBalaGray.pathCount
    congr 1
    apply List.filter_congr
    intro t ht
    have ht' := List.mem_range.mp ht
    rw [Nat.mod_eq_of_lt (by omega), seq_getD bg (d + 1) t (by omega),
      seq_getD bg (d + 1) (t + 1) (by omega)]
    simp only [ne_eq, decide_not, Bool.not_eq_eq_eq_not, Bool.not_not, decide_eq_decide]
    exact eq_comm
  · rw [List.filter_singleton]
    simp only [Nat.mod_self]
    rw [seq_getD bg (d + 1) d (by omega), seq_getD bg (d + 1) 0 (by omega), h0]
    by_cases h : (bg.stateNum d).b p = 0
    · simp [h]
    · simp [h]

theorem leaf_best {c : CalcConsts} {bg : CBalaGray} {used : Nat → Bool} {d : Nat}
    (hctx : CrawlCtx c bg) (h : PathInv c bg used d) (hd : d + 1 = c.nNumerals)
    (hx : (bg.state d).iNum < c.nNumerals) (hnew : (bg.state d).iNum ∉ bg.pathNums d)
    (hg : differInOnePlace bg.m_nPlaces (bg.stateNum (d - 1)) (bg.stateNum d))
    (hw : ∃ j, j < c.nNumerals ∧ j ∉ bg.pathNums d ∧
      differInOnePlace bg.m_nPlaces (bg.num 0) (bg.num j)) :
    (bg.pathNums c.nNumerals).Nodup ∧ (∀ x ∈ bg.pathNums c.nNumerals, x < c.nNumerals) ∧
    IsGrayCycle bg.m_nPlaces ((bg.pathNums c.nNumerals).map bg.num) ∧
    ∀ p < bg.m_nPlaces,
      transCount ((bg.pathNums c.nNumerals).map bg.num) p = bg.wrapCount d p := by
  have hd2 := h.hd2
  have hnd : (bg.pathNums c.nNumerals).Nodup := by
    rw [← hd, pathNums_succ]
    apply List.Nodup.append h.hnodup (List.nodup_singleton _)
    intro a ha1 ha2
    rw [List.mem_singleton] at ha2
    subst ha2
    exact hnew ha1
  have hlt : ∀ x ∈ bg.pathNums c.nNumerals, x < c.nNumerals := by
    intro x hxm
    obtain ⟨t, ht, rfl⟩ := (mem_pathNums bg _ x).mp hxm
    by_cases htd : t < d
    · exact h.hlt t htd
    · have : t = d := by omega
      subst this
      exact hx
  have hwrap : differInOnePlace bg.m_nPlaces (bg.stateNum d) (bg.stateNum 0) := by
    obtain ⟨j, hj, hjn, hjd⟩ := hw
    have hm := nodup_full _ c.nNumerals hnd (pathNums_length bg _) hlt j hj
    rw [← hd, pathNums_succ, List.mem_append, List.mem_singleton] at hm
    rcases hm with hm | hm
    · exact absurd hm hjn
    · subst hm
      have e0 : bg.stateNum 0 = bg.num 0 := by
        unfold CBalaGray.stateNum; rw [h.h0]
      rw [e0]
      exact differInOnePlace_symm hjd
  refine ⟨hnd, hlt, ?_, ?_⟩
  · intro t ht
    rw [List.length_map, pathNums_length] at ht ⊢
    rw [seq_getD bg _ t ht]
    by_cases htd : t < d
    · rw [Nat.mod_eq_of_lt (by omega), seq_getD bg _ (t + 1) (by omega)]
      by_cases htd1 : t + 1 < d
      · exact h.hgray t htd1
      · have : t = d - 1 := by omega
        subst this
        have e : d - 1 + 1 = d := by omega
        rw [e]
        exact hg
    · have : t = d := by omega
      subst this
      rw [hd, Nat.mod_self, seq_getD bg _ 0 (by omega)]
      exact hwrap
  · intro p hp
    have h0 : (bg.stateNum 0).b p = 0 := by
      unfold CBalaGray.stateNum; rw [h.h0]; exact hctx.hzero p
    rw [← hd, transCount_path bg d p h0]
    unfold CBalaGray.wrapCount
    have e : d = (d - 1) + 1 := by omega
    conv_lhs => rw [e, pathCount_succ, ← e]
    rw [(h.htrans (d - 1) (by omega)).2 p hp]

theorem StatesAgree_trans {a b e : CBalaGray} {d : Nat} (h1 : StatesAgree a b d)
    (h2 : StatesAgree b e d) : StatesAgree a e d :=
  ⟨h2.1.trans h1.1, h2.2.1.trans h1.2.1,
    fun t ht => ⟨(h2.2.2 t ht).1.trans (h1.2.2 t ht).1, (h2.2.2 t ht).2.trans (h1.2.2 t ht).2⟩⟩

theorem descend_inv (c : CalcConsts) (bg bg1 : CBalaGray) (loc : CalcLocals) (d x : Nat)
    (cnt : NUMERAL) (hpath : PathInv c bg loc.usedBit d) (ha : StatesAgree bg bg1 d)
    (hs : (bg1.state d).iNum = x) (hd : d + 1 < c.nNumerals) (hxN : x < c.nNumerals)
    (hN : c.nNumerals ≤ 127) (hK : 0 < c.nGraySuccessors)
    (hxnew : x ∉ bg.pathNums d)
    (hxg : differInOnePlace bg.m_nPlaces (bg.stateNum (d - 1)) (bg.num x))
    (hcl : cnt.length = 8)
    (hcc : ∀ p < bg.m_nPlaces, cnt.b p = (bg.state (d - 1)).nTrans.b p
      + (if (bg.num x).b p ≠ (bg.stateNum (d - 1)).b p then 1 else 0)) :
    LoopTop c
      ((bg1.setState d { bg1.state d with nTrans := cnt }).setState (d + 1)
        { (bg1.setState d { bg1.state d with nTrans := cnt }).state (d + 1) with
          iGray := 0, iNum := 0 })
      { loc.setUsedMask (usedMaskIndex x) (loc.usedMask (usedMaskIndex x) ||| numeralMask x) with
        iDepth := d + 1 } := by
  have hlen1 : bg1.m_arrState.length = c.nNumerals := by rw [ha.2.1]; exact hpath.hlen
  have hs3 : (((bg1.setState d { bg1.state d with nTrans := cnt }).setState (d + 1)
        { (bg1.setState d { bg1.state d with nTrans := cnt }).state (d + 1) with
          iGray := 0, iNum := 0 }).state d) = { bg1.state d with nTrans := cnt } := by
    rw [state_setState, if_neg (by omega), state_setState, if_pos ⟨rfl, by omega⟩]
  have ha3 : StatesAgree bg
      ((bg1.setState d { bg1.state d with nTrans := cnt }).setState (d + 1)
        { (bg1.setState d { bg1.state d with nTrans := cnt }).state (d + 1) with
          iGray := 0, iNum := 0 }) d :=
    StatesAgree_trans (StatesAgree_trans ha (StatesAgree_setState bg1 d d _ (le_refl d)))
      (StatesAgree_setState _ (d + 1) d _ (by omega))
  constructor
  · show PathInv c _ (loc.setUsedMask (usedMaskIndex x)
      (loc.usedMask (usedMaskIndex x) ||| numeralMask x)).usedBit (d + 1)
    apply PathInv_extend hpath ha3 hd
    · rw [hs3]; simp only; rw [hs]; exact hxN
    · rw [hs3]; simp only; rw [hs]; exact hxnew
    · rw [hs3]; simp only; rw [hs]; exact hxg
    · rw [hs3]; exact hcl
    · rw [hs3]; simp only; rw [hs]; exact hcc
    · intro k hk
      rw [hs3]; simp only; rw [hs]
      exact usedBit_set_or loc x k (by omega) hk
  · show (((bg1.setState d { bg1.state d with nTrans := cnt }).setState (d + 1)
        { (bg1.setState d { bg1.state d with nTrans := cnt }).state (d + 1) with
          iGray := 0, iNum := 0 }).state (d + 1)).iGray < c.nGraySuccessors
    rw [state_setState, if_pos ⟨rfl, by rw [setState_length]; omega⟩]
    exact hK

theorem transCount_le (s : List NUMERAL) (p : Nat) : transCount s p ≤ s.length := by
  unfold transCount
  have := List.length_filter_le
    (fun t => decide ((s.getD t zeroNumeral).b p ≠ (s.getD ((t + 1) % s.length) zeroNumeral).b p))
    (List.range s.length)
  simpa using this

theorem record_best (c : CalcConsts) (bg : CBalaGray) (loc : CalcLocals) (used : Nat → Bool)
    (d : Nat) (imb mt ms : Int) (sd : StdDev) (hbl : loc.m_arrBestPerm.length = c.nNumerals)
    (hctx : CrawlCtx c bg) (h : PathInv c bg used d) (hd : d + 1 = c.nNumerals)
    (hx : (bg.state d).iNum < c.nNumerals) (hnew : (bg.state d).iNum ∉ bg.pathNums d)
    (hg : differInOnePlace bg.m_nPlaces (bg.stateNum (d - 1)) (bg.stateNum d))
    (hw : ∃ j, j < c.nNumerals ∧ j ∉ bg.pathNums d ∧
      differInOnePlace bg.m_nPlaces (bg.num 0) (bg.num j))
    (hmx : ∀ p < bg.m_nPlaces, (bg.wrapCount d p : Int) ≤ mt)
    (hmxa : ∃ p < bg.m_nPlaces, (bg.wrapCount d p : Int) = mt)
    (hmn : ∃ mn : Nat, (∀ p < bg.m_nPlaces, mn ≤ bg.wrapCount d p) ∧
      (∃ p < bg.m_nPlaces, bg.wrapCount d p = mn) ∧ imb = mt - (mn : Int)) :
    BestOK c bg { loc with
      nBestMaxTrans := mt, nBestImbalance := imb, nBestMaxSpan := ms, fBestStdDev := sd,
      m_arrBestPerm := (List.range c.nNumerals).foldl
        (fun arr iNum => arr.set iNum (bg.state iNum).iNum) loc.m_arrBestPerm } := by
  obtain ⟨hnd, hlt, hcyc, hcnt⟩ := leaf_best hctx h hd hx hnew hg hw
  have hperm : (List.range c.nNumerals).foldl
      (fun arr iNum => arr.set iNum (bg.state iNum).iNum) loc.m_arrBestPerm
        = bg.pathNums c.nNumerals :=
    foldl_set_range (fun i => (bg.state i).iNum) loc.m_arrBestPerm c.nNumerals hbl
  unfold BestOK
  simp only
  rw [hperm]
  have hne : imb ≠ INT_MAX := by
    obtain ⟨mn, _, _, himb⟩ := hmn
    obtain ⟨p, hp, hpe⟩ := hmxa
    have h1 := transCount_le ((bg.pathNums c.nNumerals).map bg.num) p
    rw [List.length_map, pathNums_length, hcnt p hp] at h1
    have := hctx.hN127
    unfold INT_MAX
    omega
  refine ⟨pathNums_length bg _, fun e => absurd e hne, fun _ => ⟨hnd, hlt, hcyc, ?_, ?_, ?_⟩⟩
  · intro p hp
    rw [hcnt p hp]; exact hmx p hp
  · obtain ⟨p, hp, hpe⟩ := hmxa
    exact ⟨p, hp, by rw [hcnt p hp]; exact hpe⟩
  · obtain ⟨mn, hmn1, ⟨p, hp, hpe⟩, himb⟩ := hmn
    exact ⟨mn, fun q hq => by rw [hcnt q hq]; exact hmn1 q hq,
      ⟨p, hp, by rw [hcnt p hp]; exact hpe⟩, himb⟩

theorem crawlStep_inv (c : CalcConsts) (bg : CBalaGray) (loc : CalcLocals)
    (hctx : CrawlCtx c bg) (htop : LoopTop c bg loc) (hbest : BestOK c bg loc) :
    StepPost c bg (crawlStep c bg loc) := by
  obtain ⟨hpath, hgrayc⟩ := htop
  have hd2 := hpath.hd2
  have hdN := hpath.hdN
  have hN := hctx.hN127
  have hprev := hpath.hlt (loc.iDepth - 1) (by omega)
  obtain ⟨hxN, hxg⟩ := hctx.hrow _ hprev _ hgrayc
  unfold crawlStep
  simp only
  generalize hx : bg.m_arrGraySuccessor.getD
    (((bg.state (loc.iDepth - 1)).iNum <<< c.nGrayStrideShift) + (bg.state loc.iDepth).iGray) 0
      = x at hxN hxg ⊢
  split
  · rename_i htest
    obtain ⟨hunused, hwrapne⟩ := htest
    have hxnew : x ∉ bg.pathNums loc.iDepth := by
      have h1 := (usedBit_test loc x).mp hunused
      intro hm
      have := (hpath.hmask x (by omega)).mpr hm
      rw [h1] at this
      exact absurd this (by decide)
    have hw : ∃ j, j < c.nNumerals ∧ j ∉ bg.pathNums loc.iDepth ∧
        differInOnePlace bg.m_nPlaces (bg.num 0) (bg.num j) := by
      obtain ⟨j, hj1, hj2⟩ := (and_ne_self_iff _ _).mp hwrapne
      obtain ⟨hj64, hjN, hjd⟩ := hctx.hwrap j hj1
      refine ⟨j, hjN, ?_, hjd⟩
      intro hm
      have h1 := (hpath.hmask j (by omega)).mpr hm
      have h2 : loc.usedBit j = (loc.usedMask 0).testBit j := by
        unfold CalcLocals.usedBit
        rw [usedMaskIndex_eq_div j (by omega), Nat.div_eq_of_lt hj64, Nat.mod_eq_of_lt hj64]
      rw [h2, hj2] at h1
      exact absurd h1 (by decide)
    have ha : StatesAgree bg (bg.setState loc.iDepth
        ⟨x, (bg.state loc.iDepth).iGray, (bg.state loc.iDepth).nTrans⟩) loc.iDepth :=
      StatesAgree_setState bg _ _ _ (le_refl _)
    have hs : (bg.setState loc.iDepth
        ⟨x, (bg.state loc.iDepth).iGray, (bg.state loc.iDepth).nTrans⟩).state loc.iDepth
          = ⟨x, (bg.state loc.iDepth).iGray, (bg.state loc.iDepth).nTrans⟩ := by
      rw [state_setState, if_pos ⟨rfl, by rw [hpath.hlen]; exact hdN⟩]
    generalize bg.setState loc.iDepth
        ⟨x, (bg.state loc.iDepth).iGray, (bg.state loc.iDepth).nTrans⟩ = bg1 at ha hs ⊢
    have hctx1 := CrawlCtx_frame ha.1 hctx
    have hpath1 := PathInv_frame hpath ha
    have hbest1 : BestOK c bg1 loc := BestOK_frame ha.1 hbest
    have hsn : bg1.stateNum loc.iDepth = bg.num x := by
      unfold CBalaGray.stateNum
      rw [hs, frame_num ha.1]
    have hsp : bg1.stateNum (loc.iDepth - 1) = bg.stateNum (loc.iDepth - 1) :=
      StatesAgree_stateNum ha _ (by omega)
    have htr := hpath1.htrans (loc.iDepth - 1) (by omega)
    have hcb := ComputeBalance_spec bg1 loc.iDepth hctx1.hP1 hctx1.hP8 htr.1 (by
      intro p hp
      rw [htr.2 p hp]
      have := pathCount_le bg1 (loc.iDepth - 1) p
      omega)
    obtain ⟨hcl, hcc, hmx, hmxa, mn, hmn, hmna, himb⟩ := hcb
    generalize bg1.ComputeBalance loc.iDepth = bal at hcl hcc hmx hmxa himb ⊢
    by_cases hdepth : (loc.iDepth : Int) < (c.nNumerals : Int) - 1
    · rw [if_pos hdepth]
      split
      · exact StepPost_trans ha.1 (lblPrune_inv c _ _ _ hctx1 hpath1 hbest1)
      · refine ⟨ha.1, BestOK_setUsedMask _ _ hbest1, fun _ => ?_⟩
        exact descend_inv c bg bg1 loc loc.iDepth x bal.2.2 hpath ha (by rw [hs])
          (by omega) hxN hN hctx.hK hxnew hxg hcl (by
            intro p hp
            rw [hcc p (by rw [frame_places ha.1]; exact hp), hsn, hsp,
              (ha.2.2 (loc.iDepth - 1) (by omega)).2])
    · rw [if_neg hdepth]
      have hleaf : loc.iDepth + 1 = c.nNumerals := by omega
      split
      · refine StepPost_trans ha.1 (crawlAdvance_inv c bg1 _ hctx1 hpath1 ?_)
        apply record_best c bg1 loc loc.usedBit loc.iDepth _ _ _ _ hbest.1 hctx1 hpath1 hleaf
        · rw [hs]; exact hxN
        · rw [hs, StatesAgree_pathNums ha _ (le_refl _)]; exact hxnew
        · rw [hsn, hsp, frame_places ha.1]; exact hxg
        · obtain ⟨j, hj1, hj2, hj3⟩ := hw
          refine ⟨j, hj1, ?_, ?_⟩
          · rw [StatesAgree_pathNums ha _ (le_refl _)]; exact hj2
          · rw [frame_num ha.1, frame_num ha.1, frame_places ha.1]; exact hj3
        · exact hmx
        · exact hmxa
        · exact ⟨mn, hmn, hmna, himb⟩
      · exact StepPost_trans ha.1 (lblPrune_inv c _ _ _ hctx1 hpath1 hbest1)
  · exact crawlAdvance_inv c bg loc hctx hpath hbest

theorem crawlLoop_inv (c : CalcConsts) (cancelAt : Option Nat) :
    ∀ (fuel nReads : Nat) (bg : CBalaGray) (loc : CalcLocals)
      (r : CBalaGray × CalcLocals × Nat),
      CrawlCtx c bg → LoopTop c bg loc → BestOK c bg loc →
      crawlLoop c cancelAt fuel nReads bg loc = some r →
      r.1.frame = bg.frame ∧ BestOK c r.1 r.2.1 := by
  intro fuel
  induction fuel with
  | zero =>
    intro nReads bg loc r _ _ _ h
    simp [crawlLoop] at h
  | succ fuel ih =>
    intro nReads bg loc r hctx htop hbest h
    unfold crawlLoop at h
    by_cases hc : cancelRequested cancelAt nReads = true
    · rw [if_pos hc] at h
      simp only [Option.some.injEq] at h
      subst h
      exact ⟨rfl, hbest⟩
    · rw [if_neg hc] at h
      have hpost := crawlStep_inv c bg loc hctx htop hbest
      revert h hpost
      generalize crawlStep c bg loc = st
      obtain ⟨bg1, loc1, brk⟩ := st
      intro h hpost
      cases brk with
      | true =>
        simp only [Option.some.injEq] at h
        subst h
        exact ⟨hpost.1, hpost.2.1⟩
      | false =>
        simp only at h
        have := ih (nReads + 1) bg1 loc1 r (CrawlCtx_frame hpost.1 hctx) (hpost.2.2 rfl)
          hpost.2.1 h
        exact ⟨this.1.trans hpost.1, this.2⟩

theorem wrapMaskLoop_bits (table : List Nat) : ∀ (n i m W : Nat),
    wrapMaskLoop table n i m = some W →
    ∀ j, W.testBit j = true →
      m.testBit j = true ∨ ∃ col, i ≤ col ∧ col < i + n ∧ table.getD col 0 = j ∧ j < 64 := by
  intro n
  induction n with
  | zero =>
    intro i m W h j hj
    simp only [wrapMaskLoop, Option.some.injEq] at h
    subst h
    exact Or.inl hj
  | succ n ih =>
    intro i m W h j hj
    unfold wrapMaskLoop at h
    simp only at h
    by_cases hs : table.getD i 0 ≥ ULONGLONG_BITS
    · rw [if_pos hs] at h
      exact absurd h (by simp)
    · rw [if_neg hs] at h
      rcases ih _ _ _ h j hj with h1 | ⟨col, h1, h2, h3, h4⟩
      · rw [Nat.one_shiftLeft, testBit_or_two_pow, Bool.or_eq_true, decide_eq_true_eq] at h1
        rcases h1 with h1 | h1
        · exact Or.inl h1
        · refine Or.inr ⟨i, le_refl _, by omega, h1, ?_⟩
          unfold ULONGLONG_BITS at hs
          omega
      · exact Or.inr ⟨col, by omega, by omega, h3, h4⟩

theorem Calc_returned_true (bg : CBalaGray) (fuel : Nat) (cancelAt : Option Nat)
    (nPlaces : Nat) (parrBase : List Nat) (w0 w : CWinner) (bg1 : CBalaGray)
    (hv : ValidRadix nPlaces parrBase)
    (h : bg.Calc fuel cancelAt (nPlaces : Int) parrBase w0 = .returned true bg1 w) :
    ∃ W bgF locF nReads,
      wrapMaskLoop (bg.prepared nPlaces parrBase).m_arrGraySuccessor
        (bg.prepared nPlaces parrBase).m_nGraySuccessors 0 0 = some W ∧
      crawlLoop (crawlConsts (bg.prepared nPlaces parrBase) W) cancelAt fuel 0
        (crawlStart (bg.prepared nPlaces parrBase)) (crawlLocals (bg.prepared nPlaces parrBase))
        = some (bgF, locF, nReads) ∧
      bg1.frame = { bgF.frame with m_bCancel := cancelRequested cancelAt nReads } ∧
      w.m_arrNum = (List.range (bg.prepared nPlaces parrBase).GetNumeralCount).foldl
        (fun arr iNum => arr.set iNum (bgF.num (locF.m_arrBestPerm.getD iNum 0)))
        (resize w0.m_arrNum (bg.prepared nPlaces parrBase).GetNumeralCount zeroNumeral) ∧
      w.m_nImbalance = locF.nBestImbalance ∧ w.m_nMaxTrans = locF.nBestMaxTrans := by
  unfold CBalaGray.Calc at h
  have h2 := hv.1
  have h8 := hv.2.1
  rw [if_neg (by unfold MAX_PLACES at *; omega)] at h
  by_cases hout : (!bg.fOutGood) = true
  · rw [if_pos hout] at h
    simp at h
  · rw [if_neg hout] at h
    simp only [Int.toNat_ofNat] at h
    rw [MakeNumerals_valid bg.Reset nPlaces parrBase hv] at h
    simp only at h
    change (match wrapMaskLoop (bg.prepared nPlaces parrBase).m_arrGraySuccessor
        (bg.prepared nPlaces parrBase).m_nGraySuccessors 0 0 with
      | none => _
      | some nGrayWrapMask =>
        match crawlLoop (crawlConsts (bg.prepared nPlaces parrBase) nGrayWrapMask) cancelAt fuel 0
          (crawlStart (bg.prepared nPlaces parrBase))
          (crawlLocals (bg.prepared nPlaces parrBase)) with
        | none => _
        | some (bgF, locF, nReads) => _) = _ at h
    cases hW : wrapMaskLoop (bg.prepared nPlaces parrBase).m_arrGraySuccessor
        (bg.prepared nPlaces parrBase).m_nGraySuccessors 0 0 with
    | none =>
      rw [hW] at h
      simp at h
    | some W =>
      rw [hW] at h
      simp only at h
      cases hL : crawlLoop (crawlConsts (bg.prepared nPlaces parrBase) W) cancelAt fuel 0
          (crawlStart (bg.prepared nPlaces parrBase))
          (crawlLocals (bg.prepared nPlaces parrBase)) with
      | none =>
        rw [hL] at h
        simp at h
      | some r =>
        rw [hL] at h
        obtain ⟨bgF, locF, nReads⟩ := r
        simp only [CalcResult.returned.injEq, true_and] at h
        obtain ⟨hb, hw⟩ := h
        refine ⟨W, bgF, locF, nReads, rfl, hL, ?_, ?_, ?_, ?_⟩
        · rw [← hb]; rfl
        · rw [← hw]; rfl
        · rw [← hw]
        · rw [← hw]

theorem replicate_state (n t : Nat) (bg : CBalaGray) (h : bg.m_arrState = List.replicate n STATE.zero) :
    bg.state t = STATE.zero := by
  unfold CBalaGray.state
  rw [h]
  by_cases ht : t < n
  · rw [List.getD_eq_getElem _ _ (by simpa using ht)]
    simp
  · rw [List.getD_eq_default _ _ (by simp; omega)]

theorem crawlStart_state (bgT : CBalaGray) (hst : bgT.m_arrState = [])
    (hN : 4 ≤ bgT.GetNumeralCount) (t : Nat) :
    (crawlStart bgT).state t
      = if t = 1 then ⟨1, 0, zeroNumeral.setB 0 1⟩ else STATE.zero := by
  have hrep : ∀ u, CBalaGray.state
      { bgT with m_arrState := resize bgT.m_arrState bgT.GetNumeralCount STATE.zero } u
        = STATE.zero := by
    intro u
    apply replicate_state bgT.GetNumeralCount
    simp [resize, hst]
  have hlen : (resize bgT.m_arrState bgT.GetNumeralCount STATE.zero).length
      = bgT.GetNumeralCount := resize_length _ _ _
  unfold crawlStart
  simp only
  rw [state_setState, state_setState, state_setState, hrep, hrep, setState_length]
  simp only [hlen]
  have h1N : 1 < bgT.GetNumeralCount := by omega
  by_cases h1 : t = 1
  · subst h1
    simp only [h1N, and_self, if_true]
    rfl
  · have h1' : ¬ 1 = t := fun h => h1 h.symm
    simp only [h1', h1, false_and, if_false]

theorem crawlStart_length (bgT : CBalaGray) :
    (crawlStart bgT).m_arrState.length = bgT.GetNumeralCount := by
  unfold crawlStart
  simp only
  rw [setState_length, setState_length]
  exact resize_length _ _ _

theorem start_usedBit : ∀ k < 128,
    ((if usedMaskIndex k = 0 then 3 else 0 : Nat).testBit (k % 64) = true ↔ k = 0 ∨ k = 1) := by
  decide

theorem start_ctx (bgN : CBalaGray) (hOK : bgN.NumeralsOK) (W : Nat)
    (hW : wrapMaskLoop bgN.MakeGraySuccessorTable.m_arrGraySuccessor
      bgN.MakeGraySuccessorTable.m_nGraySuccessors 0 0 = some W) :
    CrawlCtx (crawlConsts bgN.MakeGraySuccessorTable W) bgN.MakeGraySuccessorTable := by
  have hlen : bgN.MakeGraySuccessorTable.GetNumeralCount = bgN.radixProduct :=
    NumeralsOK_length hOK
  have hK2 := NumeralsOK_two_le_succCount hOK
  have hN4 := NumeralsOK_four_le hOK
  have hrow : ∀ i < bgN.radixProduct, ∀ col < graySuccessorCount bgN,
      bgN.MakeGraySuccessorTable.m_arrGraySuccessor.getD
        ((i <<< bgN.MakeGraySuccessorTable.m_nGrayStrideShift) + col) 0 < bgN.radixProduct ∧
      differInOnePlace bgN.m_nPlaces (bgN.num i)
        (bgN.num (bgN.MakeGraySuccessorTable.m_arrGraySuccessor.getD
          ((i <<< bgN.MakeGraySuccessorTable.m_nGrayStrideShift) + col) 0)) := by
    intro i hi col hcol
    obtain ⟨_, _, h3, h4⟩ := tableRow_correct bgN hOK i hi
    have hmem : bgN.MakeGraySuccessorTable.m_arrGraySuccessor.getD
        ((i <<< bgN.MakeGraySuccessorTable.m_nGrayStrideShift) + col) 0
          ∈ bgN.MakeGraySuccessorTable.tableRow i := by
      unfold CBalaGray.tableRow
      exact List.mem_map.mpr ⟨col, List.mem_range.mpr hcol, rfl⟩
    exact ⟨h3 _ hmem, (h4 _ (h3 _ hmem)).mp hmem⟩
  refine ⟨by show 4 ≤ bgN.MakeGraySuccessorTable.GetNumeralCount; omega,
    by show bgN.MakeGraySuccessorTable.GetNumeralCount ≤ 127; have := hOK.2.2.1; omega,
    by show 0 < graySuccessorCount bgN; omega, rfl,
    by show 1 ≤ bgN.m_nPlaces; have := hOK.1; omega,
    by show bgN.m_nPlaces ≤ 8; exact hOK.2.1.2.1, ?_, ?_, ?_, ?_⟩
  · intro p
    show (bgN.num 0).b p = 0
    rw [NumeralsOK_num_zero hOK]
    exact zeroNumeral_b p
  · have h := (hrow 0 (by omega) 0 (by omega)).2
    simp only [Nat.zero_shiftLeft, Nat.add_zero] at h
    rw [table_origin_first bgN hOK] at h
    exact h
  · intro i hi col hcol
    have hi' : i < bgN.radixProduct := by rw [← hlen]; exact hi
    exact ⟨by show _ < bgN.MakeGraySuccessorTable.GetNumeralCount
              rw [hlen]; exact (hrow i hi' col hcol).1, (hrow i hi' col hcol).2⟩
  · intro j hj
    rcases wrapMaskLoop_bits _ _ _ _ _ hW j hj with h | ⟨col, _, h2, h3, h4⟩
    · simp at h
    · have h := hrow 0 (by omega) col (by
        have : bgN.MakeGraySuccessorTable.m_nGraySuccessors = graySuccessorCount bgN := rfl
        omega)
      simp only [Nat.zero_shiftLeft, Nat.zero_add] at h
      rw [h3] at h
      exact ⟨h4, by show _ < bgN.MakeGraySuccessorTable.GetNumeralCount
                    rw [hlen]; exact h.1, h.2⟩

theorem NumeralsOK_num_one {bg : CBalaGray} (h : bg.NumeralsOK) :
    bg.num 1 = zeroNumeral.setB 0 1 := by
  have h4 := NumeralsOK_four_le h
  rw [NumeralsOK_num h 1 (by omega)]
  have hin := setB_inRange bg h.2.1 zeroNumeral (zeroNumeral_inRange bg h.2.1) 0 1
    (by have := h.1; omega) (by have := (h.2.1.2.2.1 0 (by have := h.1; omega)).1; omega)
  have := Unpack_Pack bg h.2.1 _ hin
  rw [Pack_one bg h.2.1] at this
  exact this

theorem start_top (bgN : CBalaGray) (hOK : bgN.NumeralsOK) (hst : bgN.m_arrState = [])
    (W : Nat) :
    LoopTop (crawlConsts bgN.MakeGraySuccessorTable W) (crawlStart bgN.MakeGraySuccessorTable)
      (crawlLocals bgN.MakeGraySuccessorTable) := by
  have hlen : bgN.MakeGraySuccessorTable.GetNumeralCount = bgN.radixProduct :=
    NumeralsOK_length hOK
  have hK2 := NumeralsOK_two_le_succCount hOK
  have hN4 := NumeralsOK_four_le hOK
  have hN4' : 4 ≤ bgN.MakeGraySuccessorTable.GetNumeralCount := by omega
  have hs := crawlStart_state bgN.MakeGraySuccessorTable hst hN4'
  have hnum : ∀ i, (crawlStart bgN.MakeGraySuccessorTable).num i = bgN.num i := fun _ => rfl
  have hsn0 : (crawlStart bgN.MakeGraySuccessorTable).stateNum 0 = zeroNumeral := by
    unfold CBalaGray.stateNum
    rw [hs 0, hnum]
    exact NumeralsOK_num_zero hOK
  have hsn1 : (crawlStart bgN.MakeGraySuccessorTable).stateNum 1 = zeroNumeral.setB 0 1 := by
    unfold CBalaGray.stateNum
    rw [hs 1, hnum]
    exact NumeralsOK_num_one hOK
  have hN2 : 2 < (crawlConsts bgN.MakeGraySuccessorTable W).nNumerals := by
    show 2 < bgN.MakeGraySuccessorTable.GetNumeralCount
    omega
  have hpn : (crawlStart bgN.MakeGraySuccessorTable).pathNums 2 = [0, 1] := by
    unfold CBalaGray.pathNums
    simp only [List.range_succ, List.range_zero, List.nil_append, List.map_cons, List.map_nil,
      List.cons_append]
    rw [hs 0, hs 1]
    rfl
  constructor
  · refine ⟨crawlStart_length _, le_refl 2, hN2, ?_, ?_, ?_, ?_, ?_, ?_, ?_⟩
    · rw [hs 0]; rfl
    · rw [hs 1]; rfl
    · intro t ht
      show _ < bgN.MakeGraySuccessorTable.GetNumeralCount
      rw [hs t]
      by_cases h1 : t = 1
      · rw [if_pos h1]
        show 1 < bgN.MakeGraySuccessorTable.GetNumeralCount
        omega
      · rw [if_neg h1]
        show 0 < bgN.MakeGraySuccessorTable.GetNumeralCount
        omega
    · show ((crawlStart bgN.MakeGraySuccessorTable).pathNums 2).Nodup
      rw [hpn]; decide
    · intro t ht
      have : t = 0 := by
        have : t + 1 < 2 := ht
        omega
      subst this
      rw [hsn0, hsn1]
      exact differInOnePlace_setB bgN hOK.2.1 zeroNumeral (zeroNumeral_inRange bgN hOK.2.1) 0 1
        (by have := hOK.1; omega)
        (by have := (hOK.2.1.2.2.1 0 (by have := hOK.1; omega)).1; omega)
        (by rw [zeroNumeral_b]; decide)
    · intro k hk
      show _ ↔ k ∈ (crawlStart bgN.MakeGraySuccessorTable).pathNums 2
      rw [hpn]
      have := start_usedBit k hk
      simp only [List.mem_cons, List.mem_singleton, List.not_mem_nil, or_false]
      exact this
    · intro t ht
      have ht' : t < 2 := ht
      have : t = 0 ∨ t = 1 := by omega
      rcases this with rfl | rfl
      · rw [hs 0]
        refine ⟨by decide, fun p _ => ?_⟩
        unfold CBalaGray.pathCount
        simp only [List.range_zero, List.filter_nil, List.length_nil]
        exact zeroNumeral_b p
      · rw [hs 1]
        refine ⟨by decide, fun p _ => ?_⟩
        unfold CBalaGray.pathCount
        simp only [List.range_succ, List.range_zero, List.nil_append, List.filter_singleton]
        rw [hsn0, hsn1]
        simp only [if_true, zeroNumeral_b]
        by_cases hp : (zeroNumeral.setB 0 1).b p = 0
        · simp [hp]
        · have : (zeroNumeral.setB 0 1).b p = 1 := by
            rw [setB_b] at hp ⊢
            by_cases hc : 0 = p ∧ p < zeroNumeral.length
            · rw [if_pos hc]
            · rw [if_neg hc] at hp
              exact absurd (zeroNumeral_b p) hp
          simp [this]
  · show ((crawlStart bgN.MakeGraySuccessorTable).state 2).iGray < graySuccessorCount bgN
    rw [hs 2, if_neg (by decide)]
    show 0 < graySuccessorCount bgN
    omega

theorem start_best (bgT : CBalaGray) (W : Nat) :
    BestOK (crawlConsts bgT W) (crawlStart bgT) (crawlLocals bgT) := by
  refine ⟨resize_length _ _ _, fun _ => ?_, fun h => absurd rfl h⟩
  show resize [] bgT.GetNumeralCount 0 = List.replicate bgT.GetNumeralCount 0
  simp [resize]

theorem map_getD_range_gen {α : Type} (f : Nat → α) (L : List Nat) :
    (List.range L.length).map (fun i => f (L.getD i 0)) = L.map f := by
  conv_rhs => rw [← map_getD_range L]
  rw [List.map_map]
  rfl

theorem prepared_count (bg : CBalaGray) (nPlaces : Nat) (parrBase : List Nat) :
    (bg.prepared nPlaces parrBase).GetNumeralCount = placeWeight parrBase nPlaces := by
  unfold CBalaGray.prepared CBalaGray.GetNumeralCount
  rw [(MakeGraySuccessorTable_fields _).2.2.1]
  simp [CBalaGray.withNumerals]

theorem Calc_winner (bg : CBalaGray) (fuel : Nat) (cancelAt : Option Nat)
    (nPlaces : Nat) (parrBase : List Nat) (w0 w : CWinner) (bg1 : CBalaGray)
    (hv : ValidRadix nPlaces parrBase)
    (h : bg.Calc fuel cancelAt (nPlaces : Int) parrBase w0 = .returned true bg1 w) :
    ∃ perm : List Nat, perm.length = placeWeight parrBase nPlaces ∧
      w.m_arrNum = perm.map (bg.Reset.withNumerals nPlaces parrBase).num ∧
      (∀ x, bg1.Unpack x = (bg.Reset.withNumerals nPlaces parrBase).Unpack x) ∧
      (w.m_nImbalance = INT_MAX → perm = List.replicate (placeWeight parrBase nPlaces) 0) ∧
      (w.m_nImbalance ≠ INT_MAX →
        perm.Nodup ∧ (∀ x ∈ perm, x < placeWeight parrBase nPlaces) ∧
        IsGrayCycle nPlaces (perm.map (bg.Reset.withNumerals nPlaces parrBase).num) ∧
        IsBalanceOf nPlaces (perm.map (bg.Reset.withNumerals nPlaces parrBase).num)
          w.m_nImbalance w.m_nMaxTrans) := by
  obtain ⟨W, bgF, locF, nReads, hW, hL, hb, hw, himb, hmt⟩ :=
    Calc_returned_true bg fuel cancelAt nPlaces parrBase w0 w bg1 hv h
  have hOK := withNumerals_NumeralsOK bg.Reset nPlaces parrBase hv
  have hcount := prepared_count bg nPlaces parrBase
  have hctxT : CrawlCtx (crawlConsts (bg.prepared nPlaces parrBase) W)
      (bg.prepared nPlaces parrBase) := start_ctx _ hOK W hW
  have hctx : CrawlCtx (crawlConsts (bg.prepared nPlaces parrBase) W)
      (crawlStart (bg.prepared nPlaces parrBase)) :=
    @CrawlCtx_frame _ (bg.prepared nPlaces parrBase) (crawlStart (bg.prepared nPlaces parrBase))
      rfl hctxT
  have htop := start_top _ hOK rfl W
  have hbest0 := start_best (bg.prepared nPlaces parrBase) W
  obtain ⟨hfr, hbest⟩ := crawlLoop_inv _ cancelAt fuel 0 _ _ _ hctx htop hbest0 hL
  simp only at hfr hbest
  have hfr' : bgF.frame = (bg.prepared nPlaces parrBase).frame := hfr
  have hnum : bgF.num = (bg.Reset.withNumerals nPlaces parrBase).num :=
    funext (fun i => frame_num hfr' i)
  have hpl : bgF.m_nPlaces = nPlaces := frame_places hfr'
  obtain ⟨hlen, hnone, hsome⟩ := hbest
  have hN : (crawlConsts (bg.prepared nPlaces parrBase) W).nNumerals
      = placeWeight parrBase nPlaces := hcount
  rw [hN] at hlen hnone hsome
  rw [hnum, hpl, ← himb, ← hmt] at hsome
  rw [← himb] at hnone
  refine ⟨locF.m_arrBestPerm, hlen, ?_, ?_, hnone, hsome⟩
  · rw [hw, hcount, foldl_set_range _ _ _ (resize_length _ _ _), hnum, ← hlen]
    exact map_getD_range_gen _ _
  · intro x
    have e1 : bg1.frame.m_arrBase = bgF.frame.m_arrBase := by rw [hb]
    have e2 : bg1.frame.m_nPlaces = bgF.frame.m_nPlaces := by rw [hb]
    have e3 : bgF.frame.m_arrBase = (bg.prepared nPlaces parrBase).frame.m_arrBase := by rw [hfr']
    have e1' : bg1.m_arrBase = (bg.Reset.withNumerals nPlaces parrBase).m_arrBase :=
      e1.trans e3
    have e2' : bg1.m_nPlaces = (bg.Reset.withNumerals nPlaces parrBase).m_nPlaces :=
      e2.trans hpl
    unfold CBalaGray.Unpack
    rw [e1', e2']

theorem count_inst_eq (a : NUMERAL) (l : List NUMERAL) :
    @List.count NUMERAL List.instBEq a l = @List.count NUMERAL instBEqOfDecidableEq a l := by
  unfold List.count
  apply List.countP_congr
  intro x _
  simp only [beq_iff_eq]

theorem Unpack_nodup (bg : CBalaGray) (h : bg.RadixOK) :
    ((List.range bg.radixProduct).map (fun (i : Nat) => bg.Unpack (i : Int))).Nodup := by
  apply List.Nodup.map_on _ (List.nodup_range _)
  intro x hx y hy hxy
  have h1 := Pack_Unpack bg h x (List.mem_range.mp hx)
  have h2 := Pack_Unpack bg h y (List.mem_range.mp hy)
  rw [hxy, h2] at h1
  exact_mod_cast h1.symm

/-- C1, counterexample: after `SetPruneMaxTrans(0)` the call
`Calc(2, (2, 2), seqWinner)` on the valid radix vector (2, 2) returns true, yet
the returned list is four copies of numeral 0: numeral 1 is absent from it and
consecutive entries do not differ in any place. -/
theorem Calc_true_without_winner :
    ValidRadix 2 [2, 2] ∧
    exampleRunPruned22
      = .returned true exampleRunPruned22.object exampleRunPruned22.winner ∧
    exampleRunPruned22.winner.m_arrNum = List.replicate 4 zeroNumeral ∧
    exampleRunPruned22.winner.m_arrNum.count (exampleRunPruned22.object.Unpack 1) = 0 ∧
    ¬ IsGrayCycle 2 exampleRunPruned22.winner.m_arrNum := by
  decide

/-- C1, amended: for every call of `Calc` on a valid radix vector that returns
true, with any pruning thresholds and cancelled or not, the returned numeral
list has length `N`, and either no winner was recorded, the returned imbalance
being `INT_MAX` and the list holding `N` copies of numeral 0, or the list is a
rearrangement of the numerals `Unpack 0, ..., Unpack (N - 1)`, holds each of
them exactly once, and every entry differs from its cyclic successor (the
last from the first) in exactly one place. -/
theorem Calc_sequence_hamiltonian (bg : CBalaGray) (fuel : Nat) (cancelAt : Option Nat)
    (nPlaces : Nat) (parrBase : List Nat) (w0 w : CWinner) (bg1 : CBalaGray)
    (hv : ValidRadix nPlaces parrBase)
    (h : bg.Calc fuel cancelAt (nPlaces : Int) parrBase w0 = .returned true bg1 w) :
    w.m_arrNum.length = placeWeight parrBase nPlaces ∧
    ((w.m_nImbalance = INT_MAX ∧
        w.m_arrNum = List.replicate (placeWeight parrBase nPlaces) zeroNumeral) ∨
      (w.m_nImbalance ≠ INT_MAX ∧
        w.m_arrNum.Perm ((List.range (placeWeight parrBase nPlaces)).map
          (fun (i : Nat) => bg1.Unpack (i : Int))) ∧
        (∀ i < placeWeight parrBase nPlaces, w.m_arrNum.count (bg1.Unpack (i : Int)) = 1) ∧
        IsGrayCycle nPlaces w.m_arrNum)) := by
  obtain ⟨perm, hlen, hw, hun, hnone, hsome⟩ :=
    Calc_winner bg fuel cancelAt nPlaces parrBase w0 w bg1 hv h
  have hOK := withNumerals_NumeralsOK bg.Reset nPlaces parrBase hv
  have hrp : (bg.Reset.withNumerals nPlaces parrBase).radixProduct
      = placeWeight parrBase nPlaces := by
    rw [← NumeralsOK_length hOK]
    simp [CBalaGray.withNumerals]
  refine ⟨by rw [hw, List.length_map, hlen], ?_⟩
  by_cases himb : w.m_nImbalance = INT_MAX
  · refine Or.inl ⟨himb, ?_⟩
    rw [hw, hnone himb, List.map_replicate, NumeralsOK_num_zero hOK]
  · obtain ⟨hnd, hlt, hcyc, _⟩ := hsome himb
    have hperm : w.m_arrNum.Perm ((List.range (placeWeight parrBase nPlaces)).map
        (fun (i : Nat) => bg1.Unpack (i : Int))) := by
      rw [hw]
      have hp := (nodup_perm_range perm _ hnd hlen hlt).map
        (bg.Reset.withNumerals nPlaces parrBase).num
      have he : (List.range (placeWeight parrBase nPlaces)).map
            (bg.Reset.withNumerals nPlaces parrBase).num
          = (List.range (placeWeight parrBase nPlaces)).map
            (fun (i : Nat) => bg1.Unpack (i : Int)) := by
        apply List.map_congr_left
        intro i hi
        rw [hun, NumeralsOK_num hOK i (by rw [hrp]; exact List.mem_range.mp hi)]
      rw [← he]
      exact hp
    refine Or.inr ⟨himb, hperm, ?_, by rw [hw]; exact hcyc⟩
    intro i hi
    have hndU := Unpack_nodup _ hOK.2.1
    rw [hrp] at hndU
    have he : (fun (i : Nat) => bg1.Unpack (i : Int))
        = (fun (i : Nat) => (bg.Reset.withNumerals nPlaces parrBase).Unpack (i : Int)) :=
      funext (fun i => hun i)
    rw [← he] at hndU
    have hc := hperm.count_eq (bg1.Unpack (i : Int))
    rw [List.count_eq_one_of_mem hndU (List.mem_map.mpr ⟨i, List.mem_range.mpr hi, rfl⟩)] at hc
    rw [count_inst_eq]
    exact hc

/-- Witness of C1 (amended) on the radix vector (2, 2): the call returns true
with a recorded winner. -/
theorem Calc_sequence_hamiltonian_witness :
    (ValidRadix 2 [2, 2] ∧
      (CBalaGray.new true).Calc 64 none ((2 : Nat) : Int) [2, 2] CWinner.new
        = .returned true exampleRun22.object exampleRun22.winner ∧
      exampleRun22.winner.m_nImbalance ≠ INT_MAX) ∧
    exampleRun22.winner.m_arrNum.length = placeWeight [2, 2] 2 ∧
    ((exampleRun22.winner.m_nImbalance = INT_MAX ∧
        exampleRun22.winner.m_arrNum = List.replicate (placeWeight [2, 2] 2) zeroNumeral) ∨
      (exampleRun22.winner.m_nImbalance ≠ INT_MAX ∧
        exampleRun22.winner.m_arrNum.Perm ((List.range (placeWeight [2, 2] 2)).map
          (fun (i : Nat) => exampleRun22.object.Unpack (i : Int))) ∧
        (∀ i < placeWeight [2, 2] 2,
          exampleRun22.winner.m_arrNum.count (exampleRun22.object.Unpack (i : Int)) = 1) ∧
        IsGrayCycle 2 exampleRun22.winner.m_arrNum)) :=
  ⟨⟨by decide, by decide, by decide⟩,
    Calc_sequence_hamiltonian (CBalaGray.new true) 64 none 2 [2, 2] CWinner.new
      exampleRun22.winner exampleRun22.object (by decide) (by decide)⟩

/-- C2: whenever a call of `Calc` on a valid radix vector returns true with a
recorded winner (the returned imbalance is not `INT_MAX`), the returned
max-transition is the greatest and the returned imbalance is the greatest
minus the least of the per-place counts `c_i` recomputed from the returned
sequence `s`, where `c_i` is the number of positions `t` in `0 .. N-1` at
which place `i` of `s[t]` differs from place `i` of `s[(t + 1) mod N]`. -/
theorem Calc_balance_recomputed (bg : CBalaGray) (fuel : Nat) (cancelAt : Option Nat)
    (nPlaces : Nat) (parrBase : List Nat) (w0 w : CWinner) (bg1 : CBalaGray)
    (hv : ValidRadix nPlaces parrBase)
    (h : bg.Calc fuel cancelAt (nPlaces : Int) parrBase w0 = .returned true bg1 w)
    (hrec : w.m_nImbalance ≠ INT_MAX) :
    IsBalanceOf nPlaces w.m_arrNum w.m_nImbalance w.m_nMaxTrans := by
  obtain ⟨perm, _, hw, _, _, hsome⟩ :=
    Calc_winner bg fuel cancelAt nPlaces parrBase w0 w bg1 hv h
  rw [hw]
  exact (hsome hrec).2.2.2

/-- Witness of C2 on the radix vector (2, 2): the winner is recorded with
imbalance 0 and max-transition 2. -/
theorem Calc_balance_recomputed_witness :
    (ValidRadix 2 [2, 2] ∧
      (CBalaGray.new true).Calc 64 none ((2 : Nat) : Int) [2, 2] CWinner.new
        = .returned true exampleRun22.object exampleRun22.winner ∧
      exampleRun22.winner.m_nImbalance ≠ INT_MAX) ∧
    exampleRun22.winner.m_nImbalance = 0 ∧ exampleRun22.winner.m_nMaxTrans = 2 ∧
    IsBalanceOf 2 exampleRun22.winner.m_arrNum exampleRun22.winner.m_nImbalance
      exampleRun22.winner.m_nMaxTrans :=
  ⟨⟨by decide, by decide, by decide⟩, by decide, by decide,
    Calc_balance_recomputed (CBalaGray.new true) 64 none 2 [2, 2] CWinner.new
      exampleRun22.winner exampleRun22.object (by decide) (by decide) (by decide)⟩

theorem GetBases_digits (nSetCode : Nat) (h0 : nSetCode ≠ 0) (h32 : nSetCode < 4294967296) :
    getBasesScan (MAX_PLACES + 1) nSetCode 0 zeroNumeral
      = (false, (Nat.digits 16 nSetCode).length,
          Nat.digits 16 nSetCode
            ++ List.replicate (MAX_PLACES - (Nat.digits 16 nSetCode).length) 0) ∧
    GetBases nSetCode = ((Nat.digits 16 nSetCode).length,
      (Nat.digits 16 nSetCode).reverse
        ++ List.replicate (MAX_PLACES - (Nat.digits 16 nSetCode).length) 0) ∧
    (Nat.digits 16 nSetCode).length ≤ MAX_PLACES := by
  have hlen : (Nat.digits 16 nSetCode).length ≤ MAX_PLACES := by
    rw [Nat.digits_len 16 nSetCode (by norm_num) h0]
    have := Nat.log_lt_of_lt_pow (b := 16) (x := 8) (y := nSetCode) h0 (by norm_num; omega)
    unfold MAX_PLACES; omega
  have hscan := getBasesScan_digits (MAX_PLACES + 1) nSetCode [] (by simpa using hlen)
    (by omega)
  simp only [List.length_nil, Nat.sub_zero, List.nil_append, Nat.zero_add] at hscan
  rw [show List.replicate MAX_PLACES 0 = zeroNumeral from rfl] at hscan
  refine ⟨hscan, ?_, hlen⟩
  unfold GetBases
  rw [hscan]
  simp only []
  rw [getBasesReverse_eq _ hlen (fun x hx => Nat.digits_lt_base (by norm_num) hx)]

theorem digits16_getD : ∀ (k n : Nat), (Nat.digits 16 n).getD k 0 = n / 16 ^ k % 16 := by
  intro k
  induction k with
  | zero =>
    intro n
    rcases Nat.eq_zero_or_pos n with h | h
    · subst h; simp
    · rw [Nat.digits_def' (by norm_num) h]
      simp
  | succ k ih =>
    intro n
    rcases Nat.eq_zero_or_pos n with h | h
    · subst h; simp
    · rw [Nat.digits_def' (by norm_num) h, List.getD_cons_succ, ih, Nat.div_div_eq_div_mul,
        pow_succ, Nat.mul_comm]

theorem getD_reverse_append (ds zs : List Nat) (k : Nat) (hk : k < ds.length) :
    (ds.reverse ++ zs).getD (ds.length - 1 - k) 0 = ds.getD k 0 := by
  rw [List.getD_append _ _ _ _ (by rw [List.length_reverse]; omega)]
  rw [List.getD_eq_getElem _ _ (by rw [List.length_reverse]; omega),
    List.getD_eq_getElem _ _ hk, List.getElem_reverse]
  congr 1
  omega

/-- C11, counterexample: on set code 0x23 the first nibble consumed, the least
significant nibble 3, is stored at place 0 by the scan but is not `b_0` of the
result of `GetBases`, which is 2; the nibble 3 is `b_1`. -/
theorem GetBases_first_nibble_not_b0 :
    (getBasesScan (MAX_PLACES + 1) 0x23 0 zeroNumeral).2.2.b 0 = 0x23 % 16 ∧
    (GetBases 0x23).2.b 0 ≠ 0x23 % 16 ∧
    (GetBases 0x23).2.b 0 = 2 ∧ (GetBases 0x23).2.b 1 = 0x23 % 16 := by
  decide

/-- C11, amended: for every nonzero 32-bit set code with `P` hex digits the
scan of `GetBases` consumes the nibbles from the least significant to the most
significant one, the `k`-th nibble consumed (counting from 0) being stored at
place `k` of the working array; the reversal that follows puts it at place
`P - 1 - k` of the result, so the first nibble consumed (the least
significant one) becomes `b_(P-1)` and the last nibble consumed (the most
significant one) becomes `b_0`. -/
theorem GetBases_nibble_order (nSetCode : Nat) (h0 : nSetCode ≠ 0)
    (h32 : nSetCode < 4294967296) :
    (getBasesScan (MAX_PLACES + 1) nSetCode 0 zeroNumeral).1 = false ∧
    (GetBases nSetCode).1 = (Nat.digits 16 nSetCode).length ∧
    (∀ k < (GetBases nSetCode).1,
      (getBasesScan (MAX_PLACES + 1) nSetCode 0 zeroNumeral).2.2.b k
        = nSetCode / 16 ^ k % 16 ∧
      (GetBases nSetCode).2.b ((GetBases nSetCode).1 - 1 - k) = nSetCode / 16 ^ k % 16) ∧
    (GetBases nSetCode).2.b ((GetBases nSetCode).1 - 1) = nSetCode % 16 ∧
    (GetBases nSetCode).2.b 0 = nSetCode / 16 ^ ((GetBases nSetCode).1 - 1) % 16 := by
  obtain ⟨hscan, hgb, hlen⟩ := GetBases_digits nSetCode h0 h32
  have hpos : 0 < (Nat.digits 16 nSetCode).length := by
    rw [Nat.digits_len 16 nSetCode (by norm_num) h0]; omega
  have hk : ∀ k < (Nat.digits 16 nSetCode).length,
      (GetBases nSetCode).2.b ((Nat.digits 16 nSetCode).length - 1 - k)
        = nSetCode / 16 ^ k % 16 := by
    intro k hk
    rw [hgb]
    show (_ ++ _ : List Nat).getD _ 0 = _
    rw [getD_reverse_append _ _ k hk, digits16_getD]
  rw [hscan]
  rw [show (GetBases nSetCode).1 = (Nat.digits 16 nSetCode).length by rw [hgb]]
  refine ⟨rfl, rfl, ?_, ?_, ?_⟩
  · intro k hk'
    refine ⟨?_, hk k hk'⟩
    show (_ ++ _ : List Nat).getD _ 0 = _
    rw [List.getD_append _ _ _ _ hk', digits16_getD]
  · have := hk 0 hpos
    simpa using this
  · have := hk ((Nat.digits 16 nSetCode).length - 1) (by omega)
    rw [show (Nat.digits 16 nSetCode).length - 1 - ((Nat.digits 16 nSetCode).length - 1) = 0
      by omega] at this
    exact this

/-- Witness of C11 (amended) on set code 0x234: the nibble 4 consumed first
becomes `b_2`, the nibble 2 consumed last becomes `b_0`. -/
theorem GetBases_nibble_order_witness :
    ((0x234 : Nat) ≠ 0 ∧ (0x234 : Nat) < 4294967296) ∧
    (GetBases 0x234).1 = 3 ∧
    (GetBases 0x234).2.b ((GetBases 0x234).1 - 1) = 0x234 % 16 ∧
    (GetBases 0x234).2.b 0 = 0x234 / 16 ^ ((GetBases 0x234).1 - 1) % 16 :=
  ⟨⟨by decide, by decide⟩, by decide,
    (GetBases_nibble_order 0x234 (by decide) (by decide)).2.2.2⟩

theorem Calc_false_winner (bg : CBalaGray) (fuel : Nat) (cancelAt : Option Nat)
    (nPlaces : Int) (parrBase : List Nat) (w0 w : CWinner) (bg1 : CBalaGray)
    (h : bg.Calc fuel cancelAt nPlaces parrBase w0 = .returned false bg1 w) : w = w0 := by
  unfold CBalaGray.Calc at h
  split at h
  · simp only [CalcResult.returned.injEq, true_and] at h
    exact h.2.symm
  · split at h
    · simp only [CalcResult.returned.injEq, true_and] at h
      exact h.2.symm
    · simp only at h
      split at h
      · exact absurd h (by simp)
      · simp only [CalcResult.returned.injEq, true_and] at h
        exact h.2.symm
      · split at h
        · simp only [CalcResult.returned.injEq, true_and] at h
          exact h.2.symm
        · split at h
          · exact absurd h (by simp)
          · simp only [CalcResult.returned.injEq, Bool.true_eq_false, false_and] at h

theorem Calc_invalid_places (bg : CBalaGray) (fuel : Nat) (cancelAt : Option Nat)
    (nPlaces : Int) (parrBase : List Nat) (w0 : CWinner) (h : nPlaces < 2 ∨ nPlaces > 8) :
    bg.Calc fuel cancelAt nPlaces parrBase w0 = .returned false bg w0 := by
  unfold CBalaGray.Calc
  rw [if_pos (by unfold MAX_PLACES; simpa using h)]

theorem Calc_bad_stream (bg : CBalaGray) (fuel : Nat) (cancelAt : Option Nat)
    (nPlaces : Int) (parrBase : List Nat) (w0 : CWinner) (h : bg.fOutGood = false) :
    bg.Calc fuel cancelAt nPlaces parrBase w0 = .returned false bg w0 := by
  unfold CBalaGray.Calc
  split
  · rfl
  · rw [if_pos (by rw [h]; rfl)]

theorem Calc_numerals_false (bg bgx : CBalaGray) (fuel : Nat) (cancelAt : Option Nat)
    (nPlaces : Nat) (parrBase : List Nat) (w0 : CWinner) (h2 : 2 ≤ nPlaces) (h8 : nPlaces ≤ 8)
    (hout : bg.fOutGood = true)
    (h : bg.Reset.MakeNumerals nPlaces parrBase = some (false, bgx)) :
    bg.Calc fuel cancelAt (nPlaces : Int) parrBase w0 = .returned false bgx w0 := by
  unfold CBalaGray.Calc
  rw [if_neg (by unfold MAX_PLACES; omega), if_neg (by rw [hout]; decide)]
  simp only [Int.toNat_ofNat]
  rw [h]

theorem Calc_numerals_threw (bg : CBalaGray) (fuel : Nat) (cancelAt : Option Nat)
    (nPlaces : Nat) (parrBase : List Nat) (w0 : CWinner) (h2 : 2 ≤ nPlaces) (h8 : nPlaces ≤ 8)
    (hout : bg.fOutGood = true)
    (h : bg.Reset.MakeNumerals nPlaces parrBase = none) :
    bg.Calc fuel cancelAt (nPlaces : Int) parrBase w0 = .threw := by
  unfold CBalaGray.Calc
  rw [if_neg (by unfold MAX_PLACES; omega), if_neg (by rw [hout]; decide)]
  simp only [Int.toNat_ofNat]
  rw [h]

theorem makeNumeralsLoop_small (parrBase : List Nat) (n : Nat) :
    ∀ (p : Nat) (arrBase : List Nat) (acc : Int),
      (∃ i, p ≤ i ∧ i < p + n ∧ parrBase.getD i 0 < 2) →
      (makeNumeralsLoop parrBase n p arrBase acc).1 = false := by
  induction n with
  | zero =>
    intro p arrBase acc ⟨i, h1, h2, _⟩
    omega
  | succ n ih =>
    intro p arrBase acc ⟨i, h1, h2, h3⟩
    unfold makeNumeralsLoop
    by_cases hp : parrBase.getD p 0 < 2
    · rw [if_pos hp]
    · rw [if_neg hp]
      apply ih
      refine ⟨i, ?_, by omega, h3⟩
      rcases Nat.eq_or_lt_of_le h1 with e | e
      · subst e; exact absurd h3 hp
      · omega

theorem MakeNumerals_small (bg : CBalaGray) (nPlaces : Nat) (parrBase : List Nat)
    (h : ∃ i, i < nPlaces ∧ parrBase.getD i 0 < 2) :
    ∃ bgx, bg.MakeNumerals nPlaces parrBase = some (false, bgx) := by
  obtain ⟨i, hi, hb⟩ := h
  have := makeNumeralsLoop_small parrBase nPlaces 0 (resize bg.m_arrBase nPlaces 0) 1
    ⟨i, Nat.zero_le _, by omega, hb⟩
  unfold CBalaGray.MakeNumerals
  simp only
  revert this
  generalize makeNumeralsLoop parrBase nPlaces 0 (resize bg.m_arrBase nPlaces 0) 1 = r
  obtain ⟨ok, arr, z⟩ := r
  intro h
  simp only at h
  subst h
  exact ⟨_, rfl⟩

theorem Calc_rejects (bg : CBalaGray) (fuel : Nat) (cancelAt : Option Nat)
    (nPlaces : Int) (parrBase : List Nat) (w0 : CWinner)
    (h : nPlaces < 2 ∨ nPlaces > 8 ∨ ∃ i : Nat, (i : Int) < nPlaces ∧ parrBase.getD i 0 < 2) :
    ∃ bg1, bg.Calc fuel cancelAt nPlaces parrBase w0 = .returned false bg1 w0 := by
  by_cases hP : nPlaces < 2 ∨ nPlaces > 8
  · exact ⟨bg, Calc_invalid_places bg fuel cancelAt nPlaces parrBase w0 hP⟩
  · have hi : ∃ i : Nat, (i : Int) < nPlaces ∧ parrBase.getD i 0 < 2 := by
      rcases h with h | h | h
      · exact absurd (Or.inl h) hP
      · exact absurd (Or.inr h) hP
      · exact h
    by_cases hout : bg.fOutGood = true
    · obtain ⟨n, rfl⟩ : ∃ n : Nat, nPlaces = (n : Int) := ⟨nPlaces.toNat, by omega⟩
      obtain ⟨i, hi1, hi2⟩ := hi
      obtain ⟨bgx, hx⟩ := MakeNumerals_small bg.Reset n parrBase ⟨i, by omega, hi2⟩
      exact ⟨bgx, Calc_numerals_false bg bgx fuel cancelAt n parrBase w0 (by omega) (by omega)
        hout hx⟩
    · exact ⟨bg, Calc_bad_stream bg fuel cancelAt nPlaces parrBase w0 (by simpa using hout)⟩

theorem GetBases_zero : GetBases 0 = (0, zeroNumeral) := by decide

theorem CalcFromCode_rejects (bg : CBalaGray) (fuel : Nat) (cancelAt : Option Nat)
    (nSetCode : Nat) (w0 : CWinner) (h32 : nSetCode < 4294967296)
    (h : (Nat.digits 16 nSetCode).length < 2 ∨ ∃ d ∈ Nat.digits 16 nSetCode, d < 2) :
    ∃ bg1, bg.CalcFromCode fuel cancelAt nSetCode w0
      = .returned false bg1 { w0 with m_nSetCode := nSetCode } := by
  unfold CBalaGray.CalcFromCode
  simp only
  apply Calc_rejects
  rcases Nat.eq_zero_or_pos nSetCode with h0 | h0
  · subst h0
    rw [GetBases_zero]
    exact Or.inl (by decide)
  · obtain ⟨_, hgb, hlen⟩ := GetBases_digits nSetCode (by omega) h32
    rw [hgb]
    simp only
    rcases h with h | ⟨d, hd, hd2⟩
    · exact Or.inl (by omega)
    · refine Or.inr (Or.inr ?_)
      obtain ⟨k, hk, hkd⟩ := List.getElem_of_mem hd
      refine ⟨(Nat.digits 16 nSetCode).length - 1 - k, by omega, ?_⟩
      rw [getD_reverse_append _ _ k hk, List.getD_eq_getElem _ _ hk, hkd]
      exact hd2

/-- C12: `Calc` returns false, leaving the winner as it was, whenever the
place count is below 2 or above 8 or some radix `b_i` with `i < P` is below 2;
hence `CalcFromCode` returns false for every 32-bit set code that has fewer
than two hex digits or contains a hex digit below 2, in particular for set
code 0x1. -/
theorem Calc_rejects_invalid_input (bg : CBalaGray) (fuel : Nat) (cancelAt : Option Nat)
    (nPlaces : Int) (parrBase : List Nat) (nSetCode : Nat) (w0 : CWinner) :
    ((nPlaces < 2 ∨ nPlaces > 8 ∨ ∃ i : Nat, (i : Int) < nPlaces ∧ parrBase.getD i 0 < 2) →
      ∃ bg1, bg.Calc fuel cancelAt nPlaces parrBase w0 = .returned false bg1 w0) ∧
    (nSetCode < 4294967296 →
      ((Nat.digits 16 nSetCode).length < 2 ∨ ∃ d ∈ Nat.digits 16 nSetCode, d < 2) →
      ∃ bg1, bg.CalcFromCode fuel cancelAt nSetCode w0
        = .returned false bg1 { w0 with m_nSetCode := nSetCode }) ∧
    ∃ bg1, bg.CalcFromCode fuel cancelAt 0x1 w0
      = .returned false bg1 { w0 with m_nSetCode := 0x1 } :=
  ⟨Calc_rejects bg fuel cancelAt nPlaces parrBase w0,
    CalcFromCode_rejects bg fuel cancelAt nSetCode w0,
    CalcFromCode_rejects bg fuel cancelAt 0x1 w0 (by norm_num) (Or.inl (by norm_num))⟩

/-- Witness of C12: `Calc` with nine places, `Calc` on the radix vector
(3, 1), and `CalcFromCode` on set code 0x31, which holds the hex digit 1. -/
theorem Calc_rejects_invalid_input_witness :
    (((9 : Int) < 2 ∨ (9 : Int) > 8 ∨
        ∃ i : Nat, (i : Int) < 9 ∧ [2, 2, 2, 2, 2, 2, 2, 2, 2].getD i 0 < 2) ∧
      (∃ bg1, (CBalaGray.new true).Calc 64 none 9 [2, 2, 2, 2, 2, 2, 2, 2, 2] CWinner.new
        = .returned false bg1 CWinner.new)) ∧
    (((0x31 : Nat) < 4294967296 ∧
        ((Nat.digits 16 0x31).length < 2 ∨ ∃ d ∈ Nat.digits 16 0x31, d < 2)) ∧
      (∃ bg1, (CBalaGray.new true).CalcFromCode 64 none 0x31 CWinner.new
        = .returned false bg1 { CWinner.new with m_nSetCode := 0x31 })) :=
  ⟨⟨Or.inr (Or.inl (by decide)),
      (Calc_rejects_invalid_input (CBalaGray.new true) 64 none 9 [2, 2, 2, 2, 2, 2, 2, 2, 2]
        0x31 CWinner.new).1 (Or.inr (Or.inl (by decide)))⟩,
    ⟨⟨by decide, Or.inr ⟨1, by norm_num, by decide⟩⟩,
      (Calc_rejects_invalid_input (CBalaGray.new true) 64 none 9 [2, 2, 2, 2, 2, 2, 2, 2, 2]
        0x31 CWinner.new).2.1 (by decide) (Or.inr ⟨1, by norm_num, by decide⟩)⟩⟩

/-- C15: whenever `Calc` returns false the winner record it leaves is the one
it was given, every field unchanged; whenever `CalcFromCode` returns false the
winner record differs from the one it was given at most in the set code, which
holds the code passed. -/
theorem Calc_false_leaves_winner (bg : CBalaGray) (fuel : Nat) (cancelAt : Option Nat)
    (nPlaces : Int) (parrBase : List Nat) (nSetCode : Nat) (w0 : CWinner) :
    (∀ bg1 w, bg.Calc fuel cancelAt nPlaces parrBase w0 = .returned false bg1 w → w = w0) ∧
    (∀ bg1 w, bg.CalcFromCode fuel cancelAt nSetCode w0 = .returned false bg1 w →
      w = { w0 with m_nSetCode := nSetCode }) :=
  ⟨fun bg1 w h => Calc_false_winner bg fuel cancelAt nPlaces parrBase w0 w bg1 h,
    fun bg1 w h => Calc_false_winner bg fuel cancelAt _ _ _ w bg1 h⟩

/-- Witness of C15: `Calc` with one place returns false, and so does
`CalcFromCode` on set code 0x1; the winner records are left as the theorem
says. -/
theorem Calc_false_leaves_winner_witness :
    ((CBalaGray.new true).Calc 64 none 1 [1] CWinner.new
        = .returned false (CBalaGray.new true) CWinner.new ∧
      (CBalaGray.new true).CalcFromCode 64 none 0x1 CWinner.new
        = .returned false (CBalaGray.new true) { CWinner.new with m_nSetCode := 0x1 }) ∧
    (∀ bg1 w, (CBalaGray.new true).Calc 64 none 1 [1] CWinner.new = .returned false bg1 w →
      w = CWinner.new) ∧
    (∀ bg1 w, (CBalaGray.new true).CalcFromCode 64 none 0x1 CWinner.new
        = .returned false bg1 w → w = { CWinner.new with m_nSetCode := 0x1 }) :=
  ⟨⟨by decide, by decide⟩,
    Calc_false_leaves_winner (CBalaGray.new true) 64 none 1 [1] 0x1 CWinner.new⟩

theorem wrapInt_mul (a b : Int) : wrapInt (wrapInt a * b) = wrapInt (a * b) := by
  unfold wrapInt
  have h : (a + 2147483648) % 4294967296 - 2147483648
      = a - 4294967296 * ((a + 2147483648) / 4294967296) := by
    have := Int.emod_add_ediv (a + 2147483648) 4294967296
    omega
  rw [h]
  have e : (a - 4294967296 * ((a + 2147483648) / 4294967296)) * b + 2147483648
      = (a * b + 2147483648) + 4294967296 * (-((a + 2147483648) / 4294967296) * b) := by ring
  rw [e, Int.add_mul_emod_self_left]

theorem makeNumeralsLoop_wrap (parrBase : List Nat) (n : Nat) :
    ∀ (p : Nat) (arrBase : List Nat) (acc : Int),
      (∀ j, p ≤ j → j < p + n → 2 ≤ parrBase.getD j 0) →
      ∃ arrBase', makeNumeralsLoop parrBase n p arrBase (wrapInt acc)
          = (true, arrBase',
              wrapInt (acc * ((∏ j in Finset.Ico p (p + n), parrBase.getD j 0 : Nat) : Int))) := by
  induction n with
  | zero =>
    intro p arrBase acc _
    exact ⟨arrBase, by simp [makeNumeralsLoop]⟩
  | succ n ih =>
    intro p arrBase acc hB
    have hbp := hB p (by omega) (by omega)
    have hprod : ∏ j in Finset.Ico p (p + (n + 1)), parrBase.getD j 0
        = parrBase.getD p 0 * ∏ j in Finset.Ico (p + 1) (p + 1 + n), parrBase.getD j 0 := by
      have e : p + (n + 1) = p + 1 + n := by omega
      rw [e, Finset.prod_eq_prod_Ico_succ_bot (by omega)]
    unfold makeNumeralsLoop
    rw [if_neg (by omega), wrapInt_mul]
    obtain ⟨arr', h⟩ := ih (p + 1) (arrBase.set p (parrBase.getD p 0))
      (acc * (parrBase.getD p 0 : Nat)) (fun j h1 h2 => hB j (by omega) (by omega))
    refine ⟨arr', ?_⟩
    rw [h, hprod]
    push_cast
    rw [Int.mul_assoc]

theorem placeWeight_le_pow (B : List Nat) (n m : Nat) (h : ∀ i < n, B.getD i 0 ≤ m) :
    placeWeight B n ≤ m ^ n := by
  unfold placeWeight
  have := Finset.prod_le_pow_card (Finset.range n) (fun j => B.getD j 0) m
    (fun x hx => h x (Finset.mem_range.mp hx))
  simpa using this

theorem MakeNumerals_capacity (bg : CBalaGray) (nPlaces : Nat) (parrBase : List Nat)
    (hB : ∀ i < nPlaces, 2 ≤ parrBase.getD i 0)
    (hN : 127 < placeWeight parrBase nPlaces) (h32 : placeWeight parrBase nPlaces < 4294967296) :
    (placeWeight parrBase nPlaces < 2147483648 ∧
      ∃ bgx, bg.MakeNumerals nPlaces parrBase = some (false, bgx)) ∨
    (2147483648 ≤ placeWeight parrBase nPlaces ∧ bg.MakeNumerals nPlaces parrBase = none) := by
  obtain ⟨arr', h⟩ := makeNumeralsLoop_wrap parrBase nPlaces 0 (resize bg.m_arrBase nPlaces 0) 1
    (fun j _ hj => hB j (by omega))
  have e1 : wrapInt 1 = 1 := by decide
  rw [e1, Nat.zero_add, ← Finset.range_eq_Ico, Int.one_mul] at h
  have hpw : ∏ j in Finset.range nPlaces, parrBase.getD j 0 = placeWeight parrBase nPlaces := rfl
  rw [hpw] at h
  unfold CBalaGray.MakeNumerals
  simp only
  rw [h]
  simp only
  by_cases hlt : placeWeight parrBase nPlaces < 2147483648
  · refine Or.inl ⟨hlt, ?_⟩
    have hw : wrapInt (placeWeight parrBase nPlaces : Int) = placeWeight parrBase nPlaces :=
      wrapInt_of_lt (by omega) (by omega)
    rw [hw, if_pos (by unfold ULONGLONG_BITS; push_cast; omega)]
    exact ⟨_, rfl⟩
  · refine Or.inr ⟨by omega, ?_⟩
    have hw : wrapInt (placeWeight parrBase nPlaces : Int)
        = (placeWeight parrBase nPlaces : Int) - 4294967296 := by
      unfold wrapInt
      omega
    rw [hw, if_neg (by unfold ULONGLONG_BITS; push_cast; omega), if_pos (by omega)]

/-- C13: for a place count `P` in 2..8 and bases with `2 <= b_i <= 15` whose
product `N` exceeds 127, on an object whose log stream is good, `Calc`
returns false, leaving the winner as it was, when `N` is below `2^31`; when
`N` is `2^31` or more the product accumulated in a 32-bit `int` is negative,
the comparison with 127 lets it pass, and `Calc` ends by the exception that
`m_arrNum.resize` throws. -/
theorem Calc_capacity_check (bg : CBalaGray) (fuel : Nat) (cancelAt : Option Nat)
    (nPlaces : Nat) (parrBase : List Nat) (w0 : CWinner) (hP2 : 2 ≤ nPlaces) (hP8 : nPlaces ≤ 8)
    (hB : ∀ i < nPlaces, 2 ≤ parrBase.getD i 0 ∧ parrBase.getD i 0 ≤ 15)
    (hN : 127 < placeWeight parrBase nPlaces) (hout : bg.fOutGood = true) :
    (placeWeight parrBase nPlaces < 2147483648 ∧
      ∃ bg1, bg.Calc fuel cancelAt (nPlaces : Int) parrBase w0 = .returned false bg1 w0) ∨
    (2147483648 ≤ placeWeight parrBase nPlaces ∧
      bg.Calc fuel cancelAt (nPlaces : Int) parrBase w0 = .threw) := by
  have h32 : placeWeight parrBase nPlaces < 4294967296 := by
    have h1 := placeWeight_le_pow parrBase nPlaces 15 (fun i hi => (hB i hi).2)
    have h2 : 15 ^ nPlaces ≤ 15 ^ 8 := Nat.pow_le_pow_right (by norm_num) hP8
    have h3 : (15 : Nat) ^ 8 < 4294967296 := by norm_num
    omega
  rcases MakeNumerals_capacity bg.Reset nPlaces parrBase (fun i hi => (hB i hi).1) hN h32 with
    ⟨hlt, bgx, hx⟩ | ⟨hge, hx⟩
  · exact Or.inl ⟨hlt, bgx,
      Calc_numerals_false bg bgx fuel cancelAt nPlaces parrBase w0 hP2 hP8 hout hx⟩
  · exact Or.inr ⟨hge, Calc_numerals_threw bg fuel cancelAt nPlaces parrBase w0 hP2 hP8 hout hx⟩

/-- Witness of C13 on eight places of base 15 (set code 0xFFFFFFFF): the
product `15^8` is not below `2^31`, and `Calc` and `CalcFromCode` end by the
exception instead of returning false. -/
theorem Calc_capacity_check_witness :
    ((2 : Nat) ≤ 8 ∧ (8 : Nat) ≤ 8 ∧
      (∀ i < 8, 2 ≤ [15, 15, 15, 15, 15, 15, 15, 15].getD i 0 ∧
        [15, 15, 15, 15, 15, 15, 15, 15].getD i 0 ≤ 15) ∧
      127 < placeWeight [15, 15, 15, 15, 15, 15, 15, 15] 8 ∧
      (CBalaGray.new true).fOutGood = true) ∧
    ¬ placeWeight [15, 15, 15, 15, 15, 15, 15, 15] 8 < 2147483648 ∧
    (CBalaGray.new true).CalcFromCode 64 none 0xFFFFFFFF CWinner.new = .threw ∧
    ((placeWeight [15, 15, 15, 15, 15, 15, 15, 15] 8 < 2147483648 ∧
      ∃ bg1, (CBalaGray.new true).Calc 64 none ((8 : Nat) : Int)
        [15, 15, 15, 15, 15, 15, 15, 15] CWinner.new = .returned false bg1 CWinner.new) ∨
    (2147483648 ≤ placeWeight [15, 15, 15, 15, 15, 15, 15, 15] 8 ∧
      (CBalaGray.new true).Calc 64 none ((8 : Nat) : Int)
        [15, 15, 15, 15, 15, 15, 15, 15] CWinner.new = .threw)) :=
  ⟨⟨by decide, by decide, by decide, by decide, by decide⟩, by decide, by decide,
    Calc_capacity_check (CBalaGray.new true) 64 none 8 [15, 15, 15, 15, 15, 15, 15, 15]
      CWinner.new (by decide) (by decide) (by decide) (by decide) (by decide)⟩

theorem bitScanLoop_eq_log (fuel : Nat) : ∀ m, m < 2 ^ fuel → bitScanLoop fuel m = Nat.log 2 m := by
  induction fuel with
  | zero =>
    intro m hm
    have : m = 0 := by simpa using hm
    subst this
    simp [bitScanLoop]
  | succ fuel ih =>
    intro m hm
    unfold bitScanLoop
    by_cases h2 : 2 ≤ m
    · rw [if_pos h2, ih (m / 2) (by rw [pow_succ] at hm; omega),
        Nat.log_of_one_lt_of_le (by norm_num) h2]
    · rw [if_neg h2, Nat.log_of_lt (by omega)]

theorem grayStrideShift_eq (K : Nat) (hK : K - 1 < 2 ^ 32) :
    grayStrideShift K = 2 ^ Nat.log 2 (K - 1) := by
  unfold grayStrideShift bitScanReverse
  rw [bitScanLoop_eq_log 32 _ hK, Nat.one_shiftLeft]

theorem clog_le_log_pred (K : Nat) (hK : 2 ≤ K) : Nat.clog 2 K = Nat.log 2 (K - 1) + 1 := by
  apply le_antisymm
  · apply (Nat.le_pow_iff_clog_le (by norm_num)).mp
    have := Nat.lt_pow_succ_log_self (by norm_num : 1 < 2) (K - 1)
    omega
  · by_contra hcon
    have h1 : Nat.clog 2 K ≤ Nat.log 2 (K - 1) := by omega
    have h2 := (Nat.le_pow_iff_clog_le (by norm_num)).mpr h1
    have h3 := Nat.pow_log_le_self 2 (show K - 1 ≠ 0 by omega)
    omega

theorem MakeGraySuccessorTable_length (bg : CBalaGray) (h : bg.NumeralsOK) :
    bg.MakeGraySuccessorTable.m_arrGraySuccessor.length
      = bg.radixProduct * 2 ^ grayStrideShift (graySuccessorCount bg) := by
  have hlen := NumeralsOK_length h
  have := (rowFold_getD bg (grayStrideShift (graySuccessorCount bg)) (graySuccessorCount bg)
    (resize bg.m_arrGraySuccessor
      (bg.m_arrNum.length <<< grayStrideShift (graySuccessorCount bg)) 0)
    (le_two_pow_grayStrideShift _ (by
      have := NumeralsOK_succCount_lt h; have := h.2.2.1; omega))
    (fun j hj => NumeralsOK_rowBytes_length h j (by omega))
    (resize_length _ _ _) bg.m_arrNum.length (le_refl _)).1
  have e : bg.MakeGraySuccessorTable.m_arrGraySuccessor.length
      = (resize bg.m_arrGraySuccessor
          (bg.m_arrNum.length <<< grayStrideShift (graySuccessorCount bg)) 0).length := this
  rw [e, resize_length, Nat.shiftLeft_eq, hlen]

theorem clog_two_five : Nat.clog 2 5 = 3 := by
  have h1 := (Nat.le_pow_iff_clog_le (by norm_num : 1 < 2)).mp (by norm_num : 5 ≤ 2 ^ 3)
  have h2 := (Nat.pow_lt_iff_lt_clog (by norm_num : 1 < 2)).mp (by norm_num : 2 ^ 2 < 5)
  omega

/-- C19: for a valid radix vector with Gray out-degree `K = sum (b_i - 1)`
the stride shift stored by `MakeGraySuccessorTable` is
`2 ^ floor(log2 (K - 1))`, the value `1 << iFirstBitPos` that the code
computes, and the table holds `N * 2 ^ shift` entries, each row being wide
enough for its `K` successors. The stored shift equals `ceil(log2 K)` when
`K <= 4` and exceeds it whenever `K >= 5`. -/
theorem stride_shift_value (bg0 bgN : CBalaGray) (nPlaces : Nat) (parrBase : List Nat)
    (hv : ValidRadix nPlaces parrBase)
    (hm : bg0.MakeNumerals nPlaces parrBase = some (true, bgN)) :
    bgN.MakeGraySuccessorTable.m_nGraySuccessors
      = ∑ p in Finset.range nPlaces, (parrBase.getD p 0 - 1) ∧
    bgN.MakeGraySuccessorTable.m_nGrayStrideShift
      = 2 ^ Nat.log 2 (bgN.MakeGraySuccessorTable.m_nGraySuccessors - 1) ∧
    bgN.MakeGraySuccessorTable.m_arrGraySuccessor.length
      = placeWeight parrBase nPlaces * 2 ^ bgN.MakeGraySuccessorTable.m_nGrayStrideShift ∧
    bgN.MakeGraySuccessorTable.m_nGraySuccessors
      ≤ 2 ^ bgN.MakeGraySuccessorTable.m_nGrayStrideShift ∧
    (bgN.MakeGraySuccessorTable.m_nGraySuccessors ≤ 4 →
      bgN.MakeGraySuccessorTable.m_nGrayStrideShift
        = Nat.clog 2 bgN.MakeGraySuccessorTable.m_nGraySuccessors) ∧
    (5 ≤ bgN.MakeGraySuccessorTable.m_nGraySuccessors →
      Nat.clog 2 bgN.MakeGraySuccessorTable.m_nGraySuccessors
        < bgN.MakeGraySuccessorTable.m_nGrayStrideShift) := by
  have e := MakeNumerals_eq bg0 bgN nPlaces parrBase hv hm
  subst e
  have h := withNumerals_NumeralsOK bg0 nPlaces parrBase hv
  have hK2 := NumeralsOK_two_le_succCount h
  have hKN := NumeralsOK_succCount_lt h
  have hN := h.2.2.1
  have hK32 : graySuccessorCount (bg0.withNumerals nPlaces parrBase) - 1 < 2 ^ 32 := by omega
  have hrp : (bg0.withNumerals nPlaces parrBase).radixProduct = placeWeight parrBase nPlaces := by
    rw [← NumeralsOK_length h]
    simp [CBalaGray.withNumerals]
  have hshift : (bg0.withNumerals nPlaces parrBase).MakeGraySuccessorTable.m_nGrayStrideShift
      = 2 ^ Nat.log 2 (graySuccessorCount (bg0.withNumerals nPlaces parrBase) - 1) :=
    grayStrideShift_eq _ hK32
  have hcount : (bg0.withNumerals nPlaces parrBase).MakeGraySuccessorTable.m_nGraySuccessors
      = graySuccessorCount (bg0.withNumerals nPlaces parrBase) := rfl
  have hclog := clog_le_log_pred _ hK2
  rw [hcount]
  refine ⟨withNumerals_succCount bg0 nPlaces parrBase, hshift, ?_, ?_, ?_, ?_⟩
  · rw [MakeGraySuccessorTable_length _ h, hrp]
    rfl
  · exact le_two_pow_grayStrideShift _ hK32
  · intro h4
    rw [hshift, hclog]
    generalize hL : Nat.log 2 (graySuccessorCount (bg0.withNumerals nPlaces parrBase) - 1) = L
    have hL1 : L < 2 := by
      rw [← hL]
      apply (Nat.lt_pow_iff_log_lt (by norm_num) (by omega)).mp
      omega
    interval_cases L <;> rfl
  · intro h5
    rw [hshift, hclog]
    generalize hL : Nat.log 2 (graySuccessorCount (bg0.withNumerals nPlaces parrBase) - 1) = L
    have hL2 : 2 ≤ L := by
      rw [← hL]
      apply (Nat.pow_le_iff_le_log (by norm_num) (by omega)).mp
      omega
    have : L + 1 < 2 ^ L := by
      have := Nat.lt_two_pow L
      clear hL hclog hshift
      induction L with
      | zero => omega
      | succ n ih =>
        rcases Nat.lt_or_ge n 2 with h | h
        · have : n = 1 := by omega
          subst this; norm_num
        · have := ih h (Nat.lt_two_pow n)
          rw [pow_succ]; omega
    exact this

/-- Witness of C19 on the radix vector (2, 5), out-degree `K = 5`: the stored
stride shift is 4 (a row stride of 16 entries, a table of 160 entries),
whereas `ceil(log2 5)` is 3. -/
theorem stride_shift_value_witness :
    (ValidRadix 2 [2, 5] ∧
      (CBalaGray.new true).MakeNumerals 2 [2, 5]
        = some (true, (CBalaGray.new true).withNumerals 2 [2, 5])) ∧
    ((CBalaGray.new true).withNumerals 2 [2, 5]).MakeGraySuccessorTable.m_nGraySuccessors = 5 ∧
    ((CBalaGray.new true).withNumerals 2 [2, 5]).MakeGraySuccessorTable.m_nGrayStrideShift = 4 ∧
    Nat.clog 2 5 = 3 ∧
    ((CBalaGray.new true).withNumerals 2 [2, 5]).MakeGraySuccessorTable.m_arrGraySuccessor.length
      = placeWeight [2, 5] 2
        * 2 ^ ((CBalaGray.new true).withNumerals 2 [2, 5]).MakeGraySuccessorTable.m_nGrayStrideShift :=
  ⟨⟨by decide, by decide⟩, by decide, by decide, clog_two_five,
    (stride_shift_value (CBalaGray.new true) ((CBalaGray.new true).withNumerals 2 [2, 5])
      2 [2, 5] (by decide) (by decide)).2.2.1⟩

/-- C18: for a valid radix vector and all numeral indices `i, j < N`, `j` is
among the first `K` entries of row `i` of the successor table if and only if
`i` is among the first `K` entries of row `j`. -/
theorem successor_symmetry (bg0 bgN : CBalaGray) (nPlaces : Nat) (parrBase : List Nat)
    (hv : ValidRadix nPlaces parrBase)
    (hm : bg0.MakeNumerals nPlaces parrBase = some (true, bgN))
    (i j : Nat) (hi : i < bgN.GetNumeralCount) (hj : j < bgN.GetNumeralCount) :
    j ∈ bgN.MakeGraySuccessorTable.tableRow i ↔ i ∈ bgN.MakeGraySuccessorTable.tableRow j := by
  have e := MakeNumerals_eq bg0 bgN nPlaces parrBase hv hm
  subst e
  have h := withNumerals_NumeralsOK bg0 nPlaces parrBase hv
  have hN : (bg0.withNumerals nPlaces parrBase).GetNumeralCount
      = (bg0.withNumerals nPlaces parrBase).radixProduct := NumeralsOK_length h
  rw [hN] at hi hj
  rw [(tableRow_correct _ h i hi).2.2.2 j hj, (tableRow_correct _ h j hj).2.2.2 i hi]
  exact ⟨differInOnePlace_symm, differInOnePlace_symm⟩

/-- Witness of C18 on the radix vector (2, 3), rows 0 and 4. -/
theorem successor_symmetry_witness :
    (ValidRadix 2 [2, 3] ∧
      (CBalaGray.new true).MakeNumerals 2 [2, 3]
        = some (true, (CBalaGray.new true).withNumerals 2 [2, 3]) ∧
      0 < ((CBalaGray.new true).withNumerals 2 [2, 3]).GetNumeralCount ∧
      4 < ((CBalaGray.new true).withNumerals 2 [2, 3]).GetNumeralCount) ∧
    4 ∈ ((CBalaGray.new true).withNumerals 2 [2, 3]).MakeGraySuccessorTable.tableRow 0 ∧
    (4 ∈ ((CBalaGray.new true).withNumerals 2 [2, 3]).MakeGraySuccessorTable.tableRow 0 ↔
      0 ∈ ((CBalaGray.new true).withNumerals 2 [2, 3]).MakeGraySuccessorTable.tableRow 4) :=
  ⟨⟨by decide, by decide, by decide, by decide⟩, by decide,
    successor_symmetry (CBalaGray.new true) ((CBalaGray.new true).withNumerals 2 [2, 3])
      2 [2, 3] (by decide) (by decide) 0 4 (by decide) (by decide)⟩

theorem crawlLoop_fuel_mono (c : CalcConsts) (cancelAt : Option Nat) :
    ∀ (fuel nReads : Nat) (bg : CBalaGray) (loc : CalcLocals)
      (r : CBalaGray × CalcLocals × Nat),
      crawlLoop c cancelAt fuel nReads bg loc = some r →
      ∀ fuel', fuel ≤ fuel' → crawlLoop c cancelAt fuel' nReads bg loc = some r := by
  intro fuel
  induction fuel with
  | zero =>
    intro nReads bg loc r h
    simp [crawlLoop] at h
  | succ fuel ih =>
    intro nReads bg loc r h fuel' hf
    obtain ⟨f, rfl⟩ : ∃ f, fuel' = f + 1 := ⟨fuel' - 1, by omega⟩
    unfold crawlLoop at h ⊢
    by_cases hc : cancelRequested cancelAt nReads = true
    · rw [if_pos hc] at h ⊢
      exact h
    · rw [if_neg hc] at h ⊢
      revert h
      generalize crawlStep c bg loc = st
      obtain ⟨bg1, loc1, brk⟩ := st
      cases brk with
      | true => exact fun h => h
      | false =>
        intro h
        exact ih _ _ _ _ h f (by omega)

theorem Calc_fuel_mono (bg : CBalaGray) (fuel fuel' : Nat) (cancelAt : Option Nat)
    (nPlaces : Int) (parrBase : List Nat) (w0 w : CWinner) (bg1 : CBalaGray) (ok : Bool)
    (h : bg.Calc fuel cancelAt nPlaces parrBase w0 = .returned ok bg1 w) (hf : fuel ≤ fuel') :
    bg.Calc fuel' cancelAt nPlaces parrBase w0 = .returned ok bg1 w := by
  unfold CBalaGray.Calc at h ⊢
  split
  · rename_i h1
    rw [if_pos h1] at h
    exact h
  · rename_i h1
    rw [if_neg h1] at h
    split
    · rename_i h2
      rw [if_pos h2] at h
      exact h
    · rename_i h2
      rw [if_neg h2] at h
      simp only at h ⊢
      split
      · rename_i h3
        rw [h3] at h
        exact h
      · rename_i bgx h3
        rw [h3] at h
        exact h
      · rename_i bgx h3
        rw [h3] at h
        simp only at h
        split
        · rename_i h4
          rw [h4] at h
          exact h
        · rename_i W h4
          rw [h4] at h
          simp only at h
          revert h
          split
          · intro h
            exact absurd h (by simp)
          · rename_i bgF locF nReads h5
            intro h
            rw [crawlLoop_fuel_mono _ _ _ _ _ _ _ h5 fuel' hf]
            exact h

theorem CalcFromCode_fuel_mono (bg : CBalaGray) (fuel fuel' : Nat) (cancelAt : Option Nat)
    (nSetCode : Nat) (w0 w : CWinner) (bg1 : CBalaGray) (ok : Bool)
    (h : bg.CalcFromCode fuel cancelAt nSetCode w0 = .returned ok bg1 w) (hf : fuel ≤ fuel') :
    bg.CalcFromCode fuel' cancelAt nSetCode w0 = .returned ok bg1 w := by
  unfold CBalaGray.CalcFromCode at h ⊢
  exact Calc_fuel_mono _ fuel fuel' cancelAt _ _ _ _ _ ok h hf

theorem CalcFromCode_0x22_base :
    (CBalaGray.new true).CalcFromCode 4 none 0x22 CWinner.new
      = .returned true ((CBalaGray.new true).CalcFromCode 4 none 0x22 CWinner.new).object
          { m_nSetCode := 0x22, m_nPlaces := 2, m_nBaseSum := 4, m_nImbalance := 0,
            m_nMaxTrans := 2, m_nMaxSpan := 2, m_fStdDev := some 0, m_bIsProven := true,
            m_arrNum := [[0, 0, 0, 0, 0, 0, 0, 0], [1, 0, 0, 0, 0, 0, 0, 0],
              [1, 1, 0, 0, 0, 0, 0, 0], [0, 1, 0, 0, 0, 0, 0, 0]] } ∧
    ((CBalaGray.new true).CalcFromCode 4 none 0x22 CWinner.new).object.Pack
      [0, 0, 0, 0, 0, 0, 0, 0] = 0 ∧
    ((CBalaGray.new true).CalcFromCode 4 none 0x22 CWinner.new).object.Pack
      [1, 0, 0, 0, 0, 0, 0, 0] = 1 ∧
    ((CBalaGray.new true).CalcFromCode 4 none 0x22 CWinner.new).object.Pack
      [1, 1, 0, 0, 0, 0, 0, 0] = 3 ∧
    ((CBalaGray.new true).CalcFromCode 4 none 0x22 CWinner.new).object.Pack
      [0, 1, 0, 0, 0, 0, 0, 0] = 2 := by
  decide

/-- C20: `CalcFromCode(0x22)` on a new object, with the default thresholds
and no cancellation, given at least the four crawl iterations it needs,
returns true with proven = true, imbalance 0, max-transition 2, max-span 2,
squared-deviation sum 0 (standard deviation 0), `P = 2`, base sum 4, and the
winning cycle 00 -> 01 -> 11 -> 10, the numerals of indices 0, 1, 3, 2 (a
numeral is listed least significant place first). -/
theorem CalcFromCode_0x22 (fuel : Nat) (hf : 4 ≤ fuel) :
    ∃ bg1, (CBalaGray.new true).CalcFromCode fuel none 0x22 CWinner.new
      = .returned true bg1
          { m_nSetCode := 0x22, m_nPlaces := 2, m_nBaseSum := 4, m_nImbalance := 0,
            m_nMaxTrans := 2, m_nMaxSpan := 2, m_fStdDev := some 0, m_bIsProven := true,
            m_arrNum := [[0, 0, 0, 0, 0, 0, 0, 0], [1, 0, 0, 0, 0, 0, 0, 0],
              [1, 1, 0, 0, 0, 0, 0, 0], [0, 1, 0, 0, 0, 0, 0, 0]] } ∧
      [bg1.Pack [0, 0, 0, 0, 0, 0, 0, 0], bg1.Pack [1, 0, 0, 0, 0, 0, 0, 0],
        bg1.Pack [1, 1, 0, 0, 0, 0, 0, 0], bg1.Pack [0, 1, 0, 0, 0, 0, 0, 0]] = [0, 1, 3, 2] := by
  obtain ⟨h, p0, p1, p2, p3⟩ := CalcFromCode_0x22_base
  refine ⟨_, CalcFromCode_fuel_mono _ 4 fuel none _ _ _ _ true h hf, ?_⟩
  rw [p0, p1, p2, p3]

/-- Witness of C20 with 64 crawl iterations allowed. -/
theorem CalcFromCode_0x22_witness :
    (4 : Nat) ≤ 64 ∧
    ∃ bg1, (CBalaGray.new true).CalcFromCode 64 none 0x22 CWinner.new
      = .returned true bg1
          { m_nSetCode := 0x22, m_nPlaces := 2, m_nBaseSum := 4, m_nImbalance := 0,
            m_nMaxTrans := 2, m_nMaxSpan := 2, m_fStdDev := some 0, m_bIsProven := true,
            m_arrNum := [[0, 0, 0, 0, 0, 0, 0, 0], [1, 0, 0, 0, 0, 0, 0, 0],
              [1, 1, 0, 0, 0, 0, 0, 0], [0, 1, 0, 0, 0, 0, 0, 0]] } ∧
      [bg1.Pack [0, 0, 0, 0, 0, 0, 0, 0], bg1.Pack [1, 0, 0, 0, 0, 0, 0, 0],
        bg1.Pack [1, 1, 0, 0, 0, 0, 0, 0], bg1.Pack [0, 1, 0, 0, 0, 0, 0, 0]] = [0, 1, 3, 2] :=
  ⟨by decide, CalcFromCode_0x22 64 (by decide)⟩

theorem wrapMaskLoop_none_iff (table : List Nat) : ∀ (n i m : Nat),
    wrapMaskLoop table n i m = none ↔
      ∃ col, i ≤ col ∧ col < i + n ∧ 64 ≤ table.getD col 0 := by
  intro n
  induction n with
  | zero =>
    intro i m
    simp only [wrapMaskLoop]
    constructor
    · intro h; exact absurd h (by simp)
    · rintro ⟨col, h1, h2, _⟩; omega
  | succ n ih =>
    intro i m
    unfold wrapMaskLoop
    simp only
    by_cases hs : table.getD i 0 ≥ ULONGLONG_BITS
    · rw [if_pos hs]
      exact ⟨fun _ => ⟨i, le_refl _, by omega, hs⟩, fun _ => rfl⟩
    · rw [if_neg hs, ih]
      constructor
      · rintro ⟨col, h1, h2, h3⟩
        exact ⟨col, by omega, by omega, h3⟩
      · rintro ⟨col, h1, h2, h3⟩
        rcases Nat.eq_or_lt_of_le h1 with e | e
        · subst e; exact absurd h3 hs
        · exact ⟨col, by omega, by omega, h3⟩

theorem wrapMaskLoop_bits_iff (table : List Nat) : ∀ (n i m W : Nat),
    wrapMaskLoop table n i m = some W →
    ∀ j, (W.testBit j = true ↔
      (m.testBit j = true ∨ ∃ col, i ≤ col ∧ col < i + n ∧ table.getD col 0 = j)) := by
  intro n
  induction n with
  | zero =>
    intro i m W h j
    simp only [wrapMaskLoop, Option.some.injEq] at h
    subst h
    constructor
    · intro hj; exact Or.inl hj
    · rintro (hj | ⟨col, h1, h2, _⟩)
      · exact hj
      · omega
  | succ n ih =>
    intro i m W h j
    unfold wrapMaskLoop at h
    simp only at h
    by_cases hs : table.getD i 0 ≥ ULONGLONG_BITS
    · rw [if_pos hs] at h
      exact absurd h (by simp)
    · rw [if_neg hs] at h
      rw [ih _ _ _ h j, Nat.one_shiftLeft, testBit_or_two_pow, Bool.or_eq_true,
        decide_eq_true_eq]
      constructor
      · rintro ((h1 | h1) | ⟨col, h1, h2, h3⟩)
        · exact Or.inl h1
        · exact Or.inr ⟨i, le_refl _, by omega, h1⟩
        · exact Or.inr ⟨col, by omega, by omega, h3⟩
      · rintro (h1 | ⟨col, h1, h2, h3⟩)
        · exact Or.inl (Or.inl h1)
        · rcases Nat.eq_or_lt_of_le h1 with e | e
          · subst e; exact Or.inl (Or.inr h3)
          · exact Or.inr ⟨col, by omega, by omega, h3⟩

theorem mixedRadixValue_setB_zero (B : List Nat) (P p v : Nat) (hp : p < P) (hP : P ≤ 8)
    (hv : v < 256) :
    mixedRadixValue B (zeroNumeral.setB p v) P = v * placeWeight B p := by
  unfold mixedRadixValue
  rw [Finset.sum_eq_single p]
  · rw [setB_b, if_pos ⟨rfl, by rw [zeroNumeral_length]; unfold MAX_PLACES; omega⟩,
      Nat.mod_eq_of_lt hv]
  · intro k _ hk
    rw [setB_b, if_neg (fun h => hk h.1.symm), zeroNumeral_b, Nat.zero_mul]
  · intro h0
    exact absurd (Finset.mem_range.mpr hp) h0

theorem row0_mem (bg : CBalaGray) (h : bg.NumeralsOK) (j : Nat) :
    j ∈ bg.MakeGraySuccessorTable.tableRow 0 ↔
      ∃ p, p < bg.m_nPlaces ∧ ∃ v, 0 < v ∧ v < bg.m_arrBase.getD p 0 ∧
        j = v * placeWeight bg.m_arrBase p := by
  have hN4 := NumeralsOK_four_le h
  have hP8 : bg.m_nPlaces ≤ 8 := h.2.1.2.1
  rw [MakeGraySuccessorTable_tableRow bg h 0 (by omega), NumeralsOK_num_zero h, rowBytes_eq_map,
    List.mem_map]
  have key : ∀ p v, p < bg.m_nPlaces → v < bg.m_arrBase.getD p 0 →
      toPLACE (bg.Pack (zeroNumeral.setB p v)) = v * placeWeight bg.m_arrBase p := by
    intro p v hp hv
    have hin := setB_inRange bg h.2.1 zeroNumeral (zeroNumeral_inRange bg h.2.1) p v hp hv
    have h1 := (toPLACE_Pack bg h _ hin).trans (Pack_of_inRange bg h.2.1 _ hin).1
    have h2 : toPLACE (bg.Pack (zeroNumeral.setB p v))
        = mixedRadixValue bg.m_arrBase (zeroNumeral.setB p v) bg.m_nPlaces := by
      exact_mod_cast h1
    rw [h2, mixedRadixValue_setB_zero _ _ p v hp hP8
      (by have := (h.2.1.2.2.1 p hp).2; omega)]
  constructor
  · rintro ⟨x, hx, rfl⟩
    obtain ⟨p, hp, v, hv, hne, rfl⟩ := (mem_succNumerals bg _ x _).mp hx
    rw [zeroNumeral_b] at hne
    exact ⟨p, hp, v, by omega, hv, key p v hp hv⟩
  · rintro ⟨p, hp, v, hv0, hv, rfl⟩
    refine ⟨zeroNumeral.setB p v, (mem_succNumerals bg _ _ _).mpr
      ⟨p, hp, v, hv, by rw [zeroNumeral_b]; omega, rfl⟩, key p v hp hv⟩

theorem row0_max (B : List Nat) (P : Nat) (hP : 1 ≤ P) (hB : ∀ p < P, 2 ≤ B.getD p 0) :
    (∃ p, p < P ∧ ∃ v, 0 < v ∧ v < B.getD p 0 ∧ 64 ≤ v * placeWeight B p) ↔
      64 ≤ (B.getD (P - 1) 0 - 1) * placeWeight B (P - 1) := by
  constructor
  · rintro ⟨p, hp, v, _, hv, h64⟩
    have hb := hB p hp
    have hbl := hB (P - 1) (by omega)
    have h1 : v * placeWeight B p ≤ (B.getD p 0 - 1) * placeWeight B p :=
      Nat.mul_le_mul_right _ (by omega)
    rcases Nat.eq_or_lt_of_le (show p ≤ P - 1 by omega) with e | e
    · rw [← e]; omega
    · obtain ⟨M, hM⟩ := placeWeight_factor B p (P - 1) (by omega)
      have hpos : 0 < placeWeight B (P - 1) :=
        placeWeight_pos B (P - 1) (fun j hj => by have := hB j (by omega); omega)
      have hM1 : 1 ≤ M := by
        rcases Nat.eq_zero_or_pos M with h0 | h0
        · rw [h0, Nat.mul_zero, Nat.mul_zero] at hM; omega
        · exact h0
      have h2 : (B.getD p 0 - 1) * placeWeight B p ≤ placeWeight B (P - 1) := by
        rw [hM]
        calc (B.getD p 0 - 1) * placeWeight B p
            ≤ B.getD p 0 * placeWeight B p := Nat.mul_le_mul_right _ (by omega)
          _ = placeWeight B p * (B.getD p 0 * 1) := by ring
          _ ≤ placeWeight B p * (B.getD p 0 * M) :=
              Nat.mul_le_mul_left _ (Nat.mul_le_mul_left _ hM1)
      have h3 : placeWeight B (P - 1) ≤ (B.getD (P - 1) 0 - 1) * placeWeight B (P - 1) :=
        Nat.le_mul_of_pos_left _ (by omega)
      omega
  · intro h
    have hbl := hB (P - 1) (by omega)
    exact ⟨P - 1, by omega, B.getD (P - 1) 0 - 1, by omega, by omega, h⟩

theorem Calc_valid_eq (bg : CBalaGray) (fuel : Nat) (cancelAt : Option Nat)
    (nPlaces : Nat) (parrBase : List Nat) (w0 : CWinner)
    (hv : ValidRadix nPlaces parrBase) (hout : bg.fOutGood = true) :
    bg.Calc fuel cancelAt (nPlaces : Int) parrBase w0
      = match wrapMaskLoop (bg.prepared nPlaces parrBase).m_arrGraySuccessor
          (bg.prepared nPlaces parrBase).m_nGraySuccessors 0 0 with
        | none => .returned false
            { bg.prepared nPlaces parrBase with
              m_arrState := resize (bg.prepared nPlaces parrBase).m_arrState
                (bg.prepared nPlaces parrBase).GetNumeralCount STATE.zero } w0
        | some W =>
          match crawlLoop (crawlConsts (bg.prepared nPlaces parrBase) W) cancelAt fuel 0
              (crawlStart (bg.prepared nPlaces parrBase))
              (crawlLocals (bg.prepared nPlaces parrBase)) with
          | none => .running
          | some (bgF, locF, nReads) =>
            .returned true { bgF with m_bCancel := cancelRequested cancelAt nReads }
              (handBack nPlaces parrBase (bg.prepared nPlaces parrBase).GetNumeralCount bgF locF
                (cancelRequested cancelAt nReads) w0) := by
  unfold CBalaGray.Calc
  have h2 := hv.1
  have h8 := hv.2.1
  rw [if_neg (by unfold MAX_PLACES at *; omega), if_neg (by rw [hout]; decide)]
  simp only [Int.toNat_ofNat]
  rw [MakeNumerals_valid bg.Reset nPlaces parrBase hv]
  rfl

theorem row0_cols (bgT : CBalaGray) (j : Nat) :
    (∃ col, 0 ≤ col ∧ col < 0 + bgT.m_nGraySuccessors ∧ bgT.m_arrGraySuccessor.getD col 0 = j)
      ↔ j ∈ bgT.tableRow 0 := by
  unfold CBalaGray.tableRow
  simp only [List.mem_map, List.mem_range, Nat.zero_shiftLeft, Nat.zero_add]
  constructor
  · rintro ⟨col, _, h2, h3⟩; exact ⟨col, h2, h3⟩
  · rintro ⟨col, h2, h3⟩; exact ⟨col, Nat.zero_le _, h2, h3⟩

theorem wrap_none_iff_row0 (bgT : CBalaGray) :
    wrapMaskLoop bgT.m_arrGraySuccessor bgT.m_nGraySuccessors 0 0 = none
      ↔ ∃ j, j ∈ bgT.tableRow 0 ∧ 64 ≤ j := by
  rw [wrapMaskLoop_none_iff]
  constructor
  · rintro ⟨col, h1, h2, h3⟩
    exact ⟨_, (row0_cols bgT _).mp ⟨col, h1, h2, rfl⟩, h3⟩
  · rintro ⟨j, hj, h64⟩
    obtain ⟨col, h1, h2, h3⟩ := (row0_cols bgT j).mpr hj
    exact ⟨col, h1, h2, by rw [h3]; exact h64⟩

theorem crawlLoop_cancel_now (c : CalcConsts) (cancelAt : Option Nat) (fuel nReads : Nat)
    (bg : CBalaGray) (loc : CalcLocals) (h : cancelRequested cancelAt nReads = true) :
    crawlLoop c cancelAt (fuel + 1) nReads bg loc = some (bg, loc, nReads + 1) := by
  unfold crawlLoop
  rw [if_pos h]

theorem crawlLoop_cancelAt (c : CalcConsts) : ∀ (n fuel k : Nat) (bg : CBalaGray)
    (loc : CalcLocals) (bgn : CBalaGray) (locn : CalcLocals),
    crawlIter c n bg loc = some (bgn, locn) → n < fuel →
    crawlLoop c (some (k + n)) fuel k bg loc = some (bgn, locn, k + n + 1) := by
  intro n
  induction n with
  | zero =>
    intro fuel k bg loc bgn locn h hf
    simp only [crawlIter, Option.some.injEq, Prod.mk.injEq] at h
    obtain ⟨rfl, rfl⟩ := h
    obtain ⟨f, rfl⟩ : ∃ f, fuel = f + 1 := ⟨fuel - 1, by omega⟩
    exact crawlLoop_cancel_now c _ f k bg loc (by simp [cancelRequested])
  | succ n ih =>
    intro fuel k bg loc bgn locn h hf
    obtain ⟨f, rfl⟩ : ∃ f, fuel = f + 1 := ⟨fuel - 1, by omega⟩
    unfold crawlIter at h
    unfold crawlLoop
    rw [if_neg (by simp [cancelRequested])]
    revert h
    generalize crawlStep c bg loc = st
    obtain ⟨bg1, loc1, brk⟩ := st
    cases brk with
    | true => intro h; exact absurd h (by simp)
    | false =>
      intro h
      simp only at h ⊢
      have := ih f (k + 1) bg1 loc1 bgn locn h (by omega)
      rw [show k + 1 + n = k + (n + 1) by omega] at this
      exact this

theorem crawlLoop_reads (c : CalcConsts) (cancelAt : Option Nat) :
    ∀ (fuel nReads : Nat) (bg : CBalaGray) (loc : CalcLocals)
      (r : CBalaGray × CalcLocals × Nat),
      crawlLoop c cancelAt fuel nReads bg loc = some r → nReads < r.2.2 := by
  intro fuel
  induction fuel with
  | zero =>
    intro nReads bg loc r h
    simp [crawlLoop] at h
  | succ fuel ih =>
    intro nReads bg loc r h
    unfold crawlLoop at h
    by_cases hc : cancelRequested cancelAt nReads = true
    · rw [if_pos hc] at h
      simp only [Option.some.injEq] at h
      subst h
      exact Nat.lt_succ_self _
    · rw [if_neg hc] at h
      revert h
      generalize crawlStep c bg loc = st
      obtain ⟨bg1, loc1, brk⟩ := st
      cases brk with
      | true =>
        intro h
        simp only [Option.some.injEq] at h
        subst h
        exact Nat.lt_succ_self _
      | false =>
        intro h
        have := ih _ _ _ _ h
        omega

/-- C16: on valid input, if the cancel flag is found set at the top of a
crawl iteration the loop is left at once with the object and the locals as
they are (no further crawl step); hence when the flag is first found set at
the top of iteration `n`, `Calc` returns true with the state stack of that
moment, the best imbalance, max-transition, max-span, standard deviation and
the best sequence exactly as recorded up to then, and proven = false; and when
the flag is never set, a `Calc` that returns true leaves proven = true. -/
theorem Calc_cancel_keeps_best (bg : CBalaGray) (fuel : Nat) (nPlaces : Nat)
    (parrBase : List Nat) (w0 : CWinner) (W n : Nat) (bgn : CBalaGray) (locn : CalcLocals)
    (hv : ValidRadix nPlaces parrBase) (hout : bg.fOutGood = true)
    (hW : wrapMaskLoop (bg.prepared nPlaces parrBase).m_arrGraySuccessor
      (bg.prepared nPlaces parrBase).m_nGraySuccessors 0 0 = some W)
    (hn : crawlIter (crawlConsts (bg.prepared nPlaces parrBase) W) n
      (crawlStart (bg.prepared nPlaces parrBase)) (crawlLocals (bg.prepared nPlaces parrBase))
        = some (bgn, locn))
    (hf : n < fuel) :
    (∀ (cancelAt : Option Nat) (f k : Nat) (bgk : CBalaGray) (lock : CalcLocals),
      cancelRequested cancelAt k = true →
      crawlLoop (crawlConsts (bg.prepared nPlaces parrBase) W) cancelAt (f + 1) k bgk lock
        = some (bgk, lock, k + 1)) ∧
    (∃ bg1 w, bg.Calc fuel (some n) (nPlaces : Int) parrBase w0 = .returned true bg1 w ∧
      bg1.m_arrState = bgn.m_arrState ∧ bg1.m_bCancel = true ∧
      w.m_nImbalance = locn.nBestImbalance ∧ w.m_nMaxTrans = locn.nBestMaxTrans ∧
      w.m_nMaxSpan = locn.nBestMaxSpan ∧ w.m_fStdDev = locn.fBestStdDev ∧
      w.m_arrNum = (List.range (placeWeight parrBase nPlaces)).map
        (fun i => bgn.num (locn.m_arrBestPerm.getD i 0)) ∧
      w.m_bIsProven = false) ∧
    (∀ bg1 w, bg.Calc fuel none (nPlaces : Int) parrBase w0 = .returned true bg1 w →
      w.m_bIsProven = true ∧ bg1.m_bCancel = false) := by
  refine ⟨fun cancelAt f k bgk lock h => crawlLoop_cancel_now _ cancelAt f k bgk lock h, ?_, ?_⟩
  · have hL := crawlLoop_cancelAt _ n fuel 0 _ _ bgn locn hn hf
    rw [Nat.zero_add] at hL
    have hc : cancelRequested (some n) (n + 1) = true := by simp [cancelRequested]
    refine ⟨{ bgn with m_bCancel := true },
      handBack nPlaces parrBase (bg.prepared nPlaces parrBase).GetNumeralCount bgn locn true w0,
      ?_, rfl, rfl, rfl, rfl, rfl, rfl, ?_, rfl⟩
    · rw [Calc_valid_eq bg fuel (some n) nPlaces parrBase w0 hv hout, hW]
      simp only
      rw [hL]
      simp only [hc]
    · show (List.range (bg.prepared nPlaces parrBase).GetNumeralCount).foldl _ _ = _
      rw [foldl_set_range _ _ _ (resize_length _ _ _), prepared_count]
  · intro bg1 w h
    rw [Calc_valid_eq bg fuel none nPlaces parrBase w0 hv hout] at h
    revert h
    cases wrapMaskLoop (bg.prepared nPlaces parrBase).m_arrGraySuccessor
        (bg.prepared nPlaces parrBase).m_nGraySuccessors 0 0 with
    | none => intro h; simp at h
    | some W1 =>
      simp only
      cases crawlLoop (crawlConsts (bg.prepared nPlaces parrBase) W1) none fuel 0
          (crawlStart (bg.prepared nPlaces parrBase))
          (crawlLocals (bg.prepared nPlaces parrBase)) with
      | none => intro h; simp at h
      | some r =>
        obtain ⟨bgF, locF, nReads⟩ := r
        intro h
        simp only [CalcResult.returned.injEq, true_and] at h
        obtain ⟨hb, hw⟩ := h
        rw [← hb, ← hw]
        exact ⟨rfl, rfl⟩

/-- Witness of C16 on the radix vector (2, 2) with the flag found set at the
top of iteration 3, just after the first leaf was recorded: `Calc` returns
the recorded imbalance 0 and max-transition 2 with proven = false. -/
theorem Calc_cancel_keeps_best_witness :
    (ValidRadix 2 [2, 2] ∧ (CBalaGray.new true).fOutGood = true ∧
      wrapMaskLoop ((CBalaGray.new true).prepared 2 [2, 2]).m_arrGraySuccessor
        ((CBalaGray.new true).prepared 2 [2, 2]).m_nGraySuccessors 0 0 = some 6 ∧
      crawlIter (crawlConsts ((CBalaGray.new true).prepared 2 [2, 2]) 6) 3
        (crawlStart ((CBalaGray.new true).prepared 2 [2, 2]))
        (crawlLocals ((CBalaGray.new true).prepared 2 [2, 2]))
          = some (exampleIter22.1, exampleIter22.2) ∧
      (3 : Nat) < 64) ∧
    exampleIter22.2.nBestImbalance = 0 ∧ exampleIter22.2.nBestMaxTrans = 2 ∧
    (∃ bg1 w, (CBalaGray.new true).Calc 64 (some 3) ((2 : Nat) : Int) [2, 2] CWinner.new
        = .returned true bg1 w ∧
      bg1.m_arrState = exampleIter22.1.m_arrState ∧ bg1.m_bCancel = true ∧
      w.m_nImbalance = exampleIter22.2.nBestImbalance ∧
      w.m_nMaxTrans = exampleIter22.2.nBestMaxTrans ∧
      w.m_nMaxSpan = exampleIter22.2.nBestMaxSpan ∧
      w.m_fStdDev = exampleIter22.2.fBestStdDev ∧
      w.m_arrNum = (List.range (placeWeight [2, 2] 2)).map
        (fun i => exampleIter22.1.num (exampleIter22.2.m_arrBestPerm.getD i 0)) ∧
      w.m_bIsProven = false) :=
  ⟨⟨by decide, by decide, by decide, by decide, by decide⟩, by decide, by decide,
    (Calc_cancel_keeps_best (CBalaGray.new true) 64 2 [2, 2] CWinner.new 6 3
      exampleIter22.1 exampleIter22.2 (by decide) (by decide) (by decide) (by decide)
      (by decide)).2.1⟩

theorem StdDev_ge_refl (a : StdDev) : a.ge a = true := by
  cases a <;> simp [StdDev.ge]

theorem StdDev_ge_trans (x y b : StdDev) (h1 : y.ge b = true) (h2 : x.ge b = false) :
    y.ge x = true := by
  cases x <;> cases y <;> cases b <;> simp [StdDev.ge] at h1 h2 ⊢
  omega

theorem leafRecords_accepts (bmt bimb bms : Int) (bsd : StdDev) (mt imb ms : Int) (sd : StdDev) :
    leafRecords bmt bimb bms bsd mt imb ms sd = true ↔
      (mt ≤ bmt ∧ imb ≤ bimb ∧
        (mt < bmt ∨ imb < bimb ∨ ms < bms ∨ (ms = bms ∧ sd.ge bsd = false))) := by
  unfold leafRecords
  by_cases h1 : mt > bmt ∨ imb > bimb
  · rw [if_pos h1]
    simp only [Bool.false_eq_true, false_iff, not_and]
    intro _ _; omega
  · rw [if_neg h1]
    by_cases h2 : (mt = bmt ∧ imb = bimb) ∧ ms > bms
    · rw [if_pos h2]
      simp only [Bool.false_eq_true, false_iff, not_and, not_or]
      intro _ _
      exact ⟨by omega, by omega, by omega, fun h => by omega⟩
    · rw [if_neg h2]
      by_cases h3 : (mt = bmt ∧ imb = bimb ∧ ms = bms) ∧ sd.ge bsd = true
      · rw [if_pos h3]
        simp only [Bool.false_eq_true, false_iff, not_and, not_or]
        intro _ _
        exact ⟨by omega, by omega, by omega, fun _ => by rw [h3.2]; decide⟩
      · rw [if_neg h3]
        simp only [true_iff]
        refine ⟨by omega, by omega, ?_⟩
        by_cases e : mt < bmt ∨ imb < bimb ∨ ms < bms
        · rcases e with e | e | e
          · exact Or.inl e
          · exact Or.inr (Or.inl e)
          · exact Or.inr (Or.inr (Or.inl e))
        · have e1 : mt = bmt := by omega
          have e2 : imb = bimb := by omega
          have e3 : ms = bms := by omega
          have : sd.ge bsd = false := by
            cases hge : sd.ge bsd
            · rfl
            · exact absurd ⟨⟨e1, e2, e3⟩, hge⟩ h3
          exact Or.inr (Or.inr (Or.inr ⟨e3, this⟩))

theorem leafRecords_self (mt imb ms : Int) (sd : StdDev) :
    leafRecords mt imb ms sd mt imb ms sd = false := by
  cases h : leafRecords mt imb ms sd mt imb ms sd
  · rfl
  · obtain ⟨_, _, h3⟩ := (leafRecords_accepts _ _ _ _ _ _ _ _).mp h
    rcases h3 with h3 | h3 | h3 | ⟨_, h3⟩
    · omega
    · omega
    · omega
    · rw [StdDev_ge_refl] at h3
      exact absurd h3 (by decide)

theorem leafRecords_mono (bmt bimb bms : Int) (bsd : StdDev) (xmt ximb xms : Int) (xsd : StdDev)
    (ymt yimb yms : Int) (ysd : StdDev)
    (hx : leafRecords bmt bimb bms bsd xmt ximb xms xsd = true)
    (hy : leafRecords bmt bimb bms bsd ymt yimb yms ysd = false) :
    leafRecords xmt ximb xms xsd ymt yimb yms ysd = false := by
  cases h : leafRecords xmt ximb xms xsd ymt yimb yms ysd
  · rfl
  · exfalso
    obtain ⟨x1, x2, x3⟩ := (leafRecords_accepts _ _ _ _ _ _ _ _).mp hx
    obtain ⟨y1, y2, y3⟩ := (leafRecords_accepts _ _ _ _ _ _ _ _).mp h
    have hn : ¬ (ymt ≤ bmt ∧ yimb ≤ bimb ∧
        (ymt < bmt ∨ yimb < bimb ∨ yms < bms ∨ (yms = bms ∧ ysd.ge bsd = false))) := by
      intro hc
      rw [(leafRecords_accepts _ _ _ _ _ _ _ _).mpr hc] at hy
      exact absurd hy (by decide)
    apply hn
    refine ⟨by omega, by omega, ?_⟩
    by_cases e : ymt < bmt ∨ yimb < bimb ∨ yms < bms
    · rcases e with e | e | e
      · exact Or.inl e
      · exact Or.inr (Or.inl e)
      · exact Or.inr (Or.inr (Or.inl e))
    · have e1 : ymt = bmt := by omega
      have e2 : yimb = bimb := by omega
      have e3 : yms = bms := by omega
      refine Or.inr (Or.inr (Or.inr ⟨e3, ?_⟩))
      have e4 : xmt = bmt := by omega
      have e5 : ximb = bimb := by omega
      have e6 : xms = bms := by
        rcases x3 with x3 | x3 | x3 | ⟨x3, _⟩
        · omega
        · omega
        · rcases y3 with y3 | y3 | y3 | ⟨y3, _⟩ <;> omega
        · exact x3
      have hxs : xsd.ge bsd = false := by
        rcases x3 with x3 | x3 | x3 | ⟨_, x3⟩
        · omega
        · omega
        · omega
        · exact x3
      have hys : ysd.ge xsd = false := by
        rcases y3 with y3 | y3 | y3 | ⟨_, y3⟩
        · omega
        · omega
        · omega
        · exact y3
      cases hge : ysd.ge bsd
      · rfl
      · have := StdDev_ge_trans xsd ysd bsd hge hxs
        rw [this] at hys
        exact absurd hys (by decide)

theorem IsBalanceOf_unique {P : Nat} {s : List NUMERAL} {imb mt imb1 mt1 : Int}
    (h : IsBalanceOf P s imb mt) (h1 : IsBalanceOf P s imb1 mt1) : imb = imb1 ∧ mt = mt1 := by
  obtain ⟨hb, ⟨p, hp, hpe⟩, mn, hmn, ⟨q, hq, hqe⟩, hi⟩ := h
  obtain ⟨hb1, ⟨p1, hp1, hpe1⟩, mn1, hmn1, ⟨q1, hq1, hqe1⟩, hi1⟩ := h1
  have e1 : mt = mt1 := by
    have a := hb p1 hp1
    have b := hb1 p hp
    omega
  have e2 : mn = mn1 := by
    have a := hmn q1 hq1
    have b := hmn1 q hq
    omega
  exact ⟨by rw [hi, hi1, e1, e2], e1⟩

theorem ComputeMaxSpan_congr (bg1 bg2 : CBalaGray) (d : Nat)
    (hP : bg1.m_nPlaces = bg2.m_nPlaces) (hs : ∀ t, bg1.stateNum t = bg2.stateNum t) :
    bg1.ComputeMaxSpan d = bg2.ComputeMaxSpan d := by
  have hf : bg1.stateNum = bg2.stateNum := funext hs
  unfold CBalaGray.ComputeMaxSpan
  rw [hP, hf]

theorem stdDevSteps_congr (bg1 bg2 : CBalaGray) (hP : bg1.m_nPlaces = bg2.m_nPlaces) :
    stdDevPlaceStep bg1 = stdDevPlaceStep bg2 ∧ stdDevWrapStep bg1 = stdDevWrapStep bg2 := by
  have hc : bg1.CalcDeviance = bg2.CalcDeviance := by
    funext n
    unfold CBalaGray.CalcDeviance
    rw [hP]
  constructor
  · funext s sPrev sc iPlace
    unfold stdDevPlaceStep
    rw [hc]
  · funext sFirst sPrev sc iPlace
    unfold stdDevWrapStep
    rw [hc]

theorem ComputeStdDev_congr (bg1 bg2 : CBalaGray)
    (hP : bg1.m_nPlaces = bg2.m_nPlaces) (hl : bg1.m_arrState.length = bg2.m_arrState.length)
    (hs : ∀ t, bg1.stateNum t = bg2.stateNum t) :
    bg1.ComputeStdDev = bg2.ComputeStdDev := by
  have hf : bg1.stateNum = bg2.stateNum := funext hs
  obtain ⟨h1, h2⟩ := stdDevSteps_congr bg1 bg2 hP
  unfold CBalaGray.ComputeStdDev CBalaGray.stdDevSum
  rw [hP, hf, hl, h1, h2]

theorem pathStack_frame {bg bg1 : CBalaGray} (h : bg1.frame = bg.frame) (π : List Nat) :
    pathStack bg1 π = pathStack bg π := by
  have e : ∀ b : CBalaGray, pathStack b π = pathStack b.frame π := fun _ => rfl
  rw [e bg1, e bg, h]

theorem frame_numfun {bg bg1 : CBalaGray} (h : bg1.frame = bg.frame) : bg1.num = bg.num :=
  funext (fun i => frame_num h i)

theorem Dominated_congr {bg bg1 : CBalaGray} {loc loc1 : CalcLocals} {π : List Nat}
    (hf : bg1.frame = bg.frame) (hb : BestEq loc loc1) (h : Dominated bg loc π) :
    Dominated bg1 loc1 π := by
  obtain ⟨e1, e2, e3, e4, _⟩ := hb
  unfold Dominated at h ⊢
  rw [pathStack_frame hf, frame_places hf, frame_numfun hf, e1, e2, e3, e4]
  exact h

theorem IsLeaf_frame {c : CalcConsts} {bg bg1 : CBalaGray} {π : List Nat}
    (hf : bg1.frame = bg.frame) (h : IsLeaf c bg1 π) : IsLeaf c bg π := by
  unfold IsLeaf at h ⊢
  rw [frame_places hf, frame_numfun hf] at h
  exact h

theorem SearchCtx_frame {c : CalcConsts} {bg bg1 : CBalaGray}
    (hf : bg1.frame = bg.frame) (h : SearchCtx c bg) : SearchCtx c bg1 := by
  have e1 : bg1.frame.m_nPruneMaxTrans = bg.frame.m_nPruneMaxTrans := by rw [hf]
  have e2 : bg1.frame.m_nPruneImbalance = bg.frame.m_nPruneImbalance := by rw [hf]
  refine ⟨?_, ?_, e1.trans h.hmt, e2.trans h.himb⟩
  · rw [frame_places hf, frame_numfun hf, frame_table hf]; exact h.hnbr
  · rw [frame_places hf, frame_numfun hf]; exact h.hwrapc

theorem BestEq_refl (loc : CalcLocals) : BestEq loc loc := ⟨rfl, rfl, rfl, rfl, rfl⟩

theorem BestEq_trans {a b e : CalcLocals} (h1 : BestEq a b) (h2 : BestEq b e) : BestEq a e :=
  ⟨h2.1.trans h1.1, h2.2.1.trans h1.2.1, h2.2.2.1.trans h1.2.2.1,
    h2.2.2.2.1.trans h1.2.2.2.1, h2.2.2.2.2.trans h1.2.2.2.2⟩

theorem BestEq_setUsedMask (loc : CalcLocals) (i v : Nat) : BestEq loc (loc.setUsedMask i v) := by
  unfold CalcLocals.setUsedMask
  split <;> exact ⟨rfl, rfl, rfl, rfl, rfl⟩

theorem Ahead_mono {c : CalcConsts} {bg bg1 : CBalaGray} {d lim lim1 : Nat} {π : List Nat}
    (hf : bg1.frame = bg.frame)
    (hn : ∀ s < d, (bg1.state s).iNum = (bg.state s).iNum)
    (hg : ∀ t < d, (bg1.state t).iGray = (bg.state t).iGray)
    (hl : ∀ col, lim ≤ col → col < c.nGraySuccessors → lim1 ≤ col)
    (h : Ahead c bg d lim π) : Ahead c bg1 d lim1 π := by
  obtain ⟨t, h2, htd, hpre, col, hcol, htab, hcond⟩ := h
  refine ⟨t, h2, htd, fun s hs => by rw [hpre s hs, hn s (by omega)], col, hcol, ?_, ?_⟩
  · rw [frame_table hf, hn (t - 1) (by omega)]; exact htab
  · by_cases e : t = d
    · rw [if_pos e] at hcond ⊢
      exact hl col hcond hcol
    · rw [if_neg e] at hcond ⊢
      rw [hg t (by omega)]; exact hcond

theorem Ahead_pop {c : CalcConsts} {bg bg1 : CBalaGray} {d lim lim1 : Nat} {π : List Nat}
    (hf : bg1.frame = bg.frame)
    (hn : ∀ s < d, (bg1.state s).iNum = (bg.state s).iNum)
    (hg : ∀ t < d, (bg1.state t).iGray = (bg.state t).iGray)
    (hK : c.nGraySuccessors ≤ lim) (hl : lim1 ≤ (bg.state d).iGray + 1)
    (h : Ahead c bg (d + 1) lim π) : Ahead c bg1 d lim1 π := by
  obtain ⟨t, h2, htd, hpre, col, hcol, htab, hcond⟩ := h
  have hne : t ≠ d + 1 := by
    intro e
    rw [if_pos e] at hcond
    omega
  rw [if_neg hne] at hcond
  refine ⟨t, h2, by omega, fun s hs => by rw [hpre s hs, hn s (by omega)], col, hcol, ?_, ?_⟩
  · rw [frame_table hf, hn (t - 1) (by omega)]; exact htab
  · by_cases e : t = d
    · rw [if_pos e]
      rw [e] at hcond
      omega
    · rw [if_neg e, hg t (by omega)]; exact hcond

theorem Ahead_cases {c : CalcConsts} {bg : CBalaGray} {d lim : Nat} {π : List Nat}
    (h : Ahead c bg d lim π) :
    Ahead c bg d c.nGraySuccessors π ∨
    ((∀ s < d, π.getD s 0 = (bg.state s).iNum) ∧ ∃ col, lim ≤ col ∧ col < c.nGraySuccessors ∧
      bg.m_arrGraySuccessor.getD (((bg.state (d - 1)).iNum <<< c.nGrayStrideShift) + col) 0
        = π.getD d 0) := by
  obtain ⟨t, h2, htd, hpre, col, hcol, htab, hcond⟩ := h
  by_cases e : t = d
  · rw [if_pos e] at hcond
    subst e
    exact Or.inr ⟨hpre, col, hcond, hcol, htab⟩
  · rw [if_neg e] at hcond
    exact Or.inl ⟨t, h2, htd, hpre, col, hcol, htab, by rw [if_neg e]; exact hcond⟩

theorem Ahead_at {c : CalcConsts} {bg : CBalaGray} {d lim col : Nat} {π : List Nat}
    (hd : 2 ≤ d) (hpre : ∀ s < d, π.getD s 0 = (bg.state s).iNum)
    (hl : lim ≤ col) (hcol : col < c.nGraySuccessors)
    (htab : bg.m_arrGraySuccessor.getD
      (((bg.state (d - 1)).iNum <<< c.nGrayStrideShift) + col) 0 = π.getD d 0) :
    Ahead c bg d lim π :=
  ⟨d, hd, le_refl _, hpre, col, hcol, htab, by rw [if_pos rfl]; exact hl⟩

theorem Complete_of {c : CalcConsts} {bg bg1 : CBalaGray} {loc loc1 : CalcLocals}
    {d d1 lim lim1 : Nat} (hf : bg1.frame = bg.frame)
    (hD : ∀ π, IsLeaf c bg π → Dominated bg loc π → Dominated bg1 loc1 π)
    (hA : ∀ π, IsLeaf c bg π → Ahead c bg d lim π →
      Dominated bg1 loc1 π ∨ Ahead c bg1 d1 lim1 π)
    (h : Complete c bg loc d lim) : Complete c bg1 loc1 d1 lim1 := by
  intro π hleaf
  have hleaf0 := IsLeaf_frame hf hleaf
  rcases h π hleaf0 with h1 | h1
  · exact Or.inl (hD π hleaf0 h1)
  · exact hA π hleaf0 h1

theorem Complete_exhausted {c : CalcConsts} {bg : CBalaGray} {loc : CalcLocals} {d : Nat}
    (hd : d ≤ 2) (h : Complete c bg loc d c.nGraySuccessors) : Exhausted c bg loc := by
  intro π hleaf
  rcases h π hleaf with h1 | ⟨t, h2, htd, _, col, hcol, _, hcond⟩
  · exact h1
  · rw [if_pos (by omega)] at hcond
    omega

theorem setState_iNum_below (bg : CBalaGray) (d s : Nat) (st : STATE) (hs : s < d) :
    ((bg.setState d st).state s).iNum = (bg.state s).iNum := by
  rw [state_setState, if_neg (by omega)]

theorem setState_iGray_below (bg : CBalaGray) (d s : Nat) (st : STATE) (hs : s < d) :
    ((bg.setState d st).state s).iGray = (bg.state s).iGray := by
  rw [state_setState, if_neg (by omega)]

theorem setGray_le (bg : CBalaGray) (d g : Nat) (hg : g ≤ (bg.state d).iGray + 1) :
    ((bg.setState d { bg.state d with iGray := g }).state d).iGray ≤ (bg.state d).iGray + 1 := by
  rw [state_setState]
  split
  · exact hg
  · omega

theorem lblPrune_exh (c : CalcConsts) (hS : c.nStartDepth = 2) :
    ∀ (d : Nat) (bg : CBalaGray) (loc : CalcLocals),
      Complete c bg loc d c.nGraySuccessors → ExhPost c (lblPrune c d bg loc) := by
  intro d
  induction d with
  | zero =>
    intro bg loc h
    unfold lblPrune
    exact ⟨fun _ => Complete_exhausted (by omega) h, fun e => by simp at e⟩
  | succ d ih =>
    intro bg loc h
    unfold lblPrune
    by_cases hs : d + 1 ≤ c.nStartDepth
    · rw [if_pos hs]
      exact ⟨fun _ => Complete_exhausted (by omega) h, fun e => by simp at e⟩
    · rw [if_neg hs]
      simp only
      have hmod : ((bg.state d).iGray + 1) % 256 ≤ (bg.state d).iGray + 1 := Nat.mod_le _ _
      have hstep : ∀ lim1, lim1 ≤ (bg.state d).iGray + 1 →
          Complete c (bg.setState d { bg.state d with iGray := ((bg.state d).iGray + 1) % 256 })
            (loc.setUsedMask (usedMaskIndex (bg.state d).iNum)
              (loc.usedMask (usedMaskIndex (bg.state d).iNum)
                &&& (0xFFFFFFFFFFFFFFFF ^^^ numeralMask (bg.state d).iNum))) d lim1 := by
        intro lim1 hl
        refine Complete_of (setState_frame bg d _)
          (fun π _ hdom => Dominated_congr (setState_frame bg d _) (BestEq_setUsedMask _ _ _) hdom)
          (fun π _ ha => Or.inr ?_) h
        exact Ahead_pop (setState_frame bg d _) (fun s hs => setState_iNum_below bg d s _ hs)
          (fun t ht => setState_iGray_below bg d t _ ht) (le_refl _) hl ha
      by_cases hg : ((bg.state d).iGray + 1) % 256 ≥ c.nGraySuccessors
      · rw [if_pos hg]
        refine ih _ _ ?_
        intro π hleaf
        rcases hstep (((bg.state d).iGray + 1) % 256) hmod π hleaf with h1 | h1
        · exact Or.inl h1
        · exact Or.inr (Ahead_mono rfl (fun _ _ => rfl) (fun _ _ => rfl)
            (fun col h1 _ => by omega) h1)
      · rw [if_neg hg]
        refine ⟨fun e => by simp at e, fun _ => ?_⟩
        exact hstep _ (setGray_le bg d _ hmod)

theorem crawlAdvance_exh (c : CalcConsts) (hS : c.nStartDepth = 2) (bg : CBalaGray)
    (loc : CalcLocals)
    (h : Complete c bg loc loc.iDepth ((bg.state loc.iDepth).iGray + 1)) :
    ExhPost c (crawlAdvance c bg loc) := by
  unfold crawlAdvance
  simp only
  have hmod : ((bg.state loc.iDepth).iGray + 1) % 256 ≤ (bg.state loc.iDepth).iGray + 1 :=
    Nat.mod_le _ _
  have hstep : ∀ lim1, (∀ col, (bg.state loc.iDepth).iGray + 1 ≤ col → col < c.nGraySuccessors →
        lim1 ≤ col) →
      Complete c (bg.setState loc.iDepth
        { bg.state loc.iDepth with iGray := ((bg.state loc.iDepth).iGray + 1) % 256 })
        loc loc.iDepth lim1 := by
    intro lim1 hl
    refine Complete_of (setState_frame bg _ _)
      (fun π _ hdom => Dominated_congr (setState_frame bg _ _) (BestEq_refl _) hdom)
      (fun π _ ha => Or.inr ?_) h
    exact Ahead_mono (setState_frame bg _ _) (fun s hs => setState_iNum_below bg _ s _ hs)
      (fun t ht => setState_iGray_below bg _ t _ ht) hl ha
  by_cases hg : ((bg.state loc.iDepth).iGray + 1) % 256 ≥ c.nGraySuccessors
  · rw [if_pos hg]
    exact lblPrune_exh c hS _ _ _ (hstep _ (fun col h1 h2 => by omega))
  · rw [if_neg hg]
    refine ⟨fun e => by simp at e, fun _ => ?_⟩
    refine hstep _ (fun col h1 _ => ?_)
    have := setGray_le bg loc.iDepth _ hmod
    exact le_trans this h1

theorem getD_of_mem {π : List Nat} {x : Nat} (h : x ∈ π) :
    ∃ s, s < π.length ∧ π.getD s 0 = x := by
  obtain ⟨n, hn, e⟩ := List.getElem_of_mem h
  exact ⟨n, hn, by rw [List.getD_eq_getElem _ _ hn]; exact e⟩

theorem getD_mem_lt {π : List Nat} {s : Nat} (h : s < π.length) : π.getD s 0 ∈ π := by
  rw [List.getD_eq_getElem _ _ h]
  exact List.getElem_mem h

theorem nodup_getD_inj {π : List Nat} (hnd : π.Nodup) {s t : Nat} (hs : s < π.length)
    (ht : t < π.length) (e : π.getD s 0 = π.getD t 0) : s = t := by
  rw [List.getD_eq_getElem _ _ hs, List.getD_eq_getElem _ _ ht] at e
  exact (List.Nodup.getElem_inj_iff hnd).mp e

theorem map_num_getD (bg : CBalaGray) (π : List Nat) (t : Nat) (ht : t < π.length) :
    (π.map bg.num).getD t zeroNumeral = bg.num (π.getD t 0) := by
  rw [List.getD_eq_getElem _ _ (by simpa using ht), List.getD_eq_getElem _ _ ht]
  simp

theorem IsLeaf_step {c : CalcConsts} {bg : CBalaGray} {π : List Nat} (h : IsLeaf c bg π)
    (t : Nat) (ht : t + 1 < c.nNumerals) :
    differInOnePlace bg.m_nPlaces (bg.num (π.getD t 0)) (bg.num (π.getD (t + 1) 0)) := by
  obtain ⟨hl, _, _, _, _, hg⟩ := h
  have := hg t (by rw [List.length_map, hl]; omega)
  rw [List.length_map, hl, Nat.mod_eq_of_lt ht, map_num_getD bg π t (by omega),
    map_num_getD bg π (t + 1) (by omega)] at this
  exact this

theorem IsLeaf_wrap {c : CalcConsts} {bg : CBalaGray} {π : List Nat} (h : IsLeaf c bg π)
    (hN : 0 < c.nNumerals) :
    differInOnePlace bg.m_nPlaces (bg.num 0) (bg.num (π.getD (c.nNumerals - 1) 0)) := by
  obtain ⟨hl, h0, _, _, _, hg⟩ := h
  have := hg (c.nNumerals - 1) (by rw [List.length_map, hl]; omega)
  have e : c.nNumerals - 1 + 1 = c.nNumerals := by omega
  rw [List.length_map, hl, e, Nat.mod_self, map_num_getD bg π _ (by omega),
    map_num_getD bg π 0 (by omega), h0] at this
  exact differInOnePlace_symm this

theorem IsLeaf_lt {c : CalcConsts} {bg : CBalaGray} {π : List Nat} (h : IsLeaf c bg π)
    (t : Nat) (ht : t < c.nNumerals) : π.getD t 0 < c.nNumerals :=
  h.2.2.2.2.1 _ (getD_mem_lt (by rw [h.1]; exact ht))

theorem Ahead_descend {c : CalcConsts} {bg bg3 : CBalaGray} {d : Nat} {π : List Nat}
    (hsc : SearchCtx c bg) (hleaf : IsLeaf c bg π) (hd2 : 2 ≤ d) (hd : d + 1 < c.nNumerals)
    (hf : bg3.frame = bg.frame)
    (hn : ∀ s < d, (bg3.state s).iNum = (bg.state s).iNum)
    (hg : ∀ t < d, (bg3.state t).iGray = (bg.state t).iGray)
    (hgd : (bg3.state d).iGray = (bg.state d).iGray)
    (hx : (bg3.state d).iNum = bg.m_arrGraySuccessor.getD
      (((bg.state (d - 1)).iNum <<< c.nGrayStrideShift) + (bg.state d).iGray) 0)
    (h : Ahead c bg d (bg.state d).iGray π) : Ahead c bg3 (d + 1) 0 π := by
  obtain ⟨t, h2, htd, hpre, col, hcol, htab, hcond⟩ := h
  by_cases e : t = d
  · subst e
    rw [if_pos rfl] at hcond
    by_cases ec : col = (bg.state t).iGray
    · subst ec
      have hpd : π.getD t 0 = (bg3.state t).iNum := by rw [hx, ← htab]
      have hstep := IsLeaf_step hleaf t hd
      obtain ⟨col1, hcol1, htab1⟩ := hsc.hnbr _ (IsLeaf_lt hleaf t (by omega)) _
        (IsLeaf_lt hleaf (t + 1) hd) hstep
      refine ⟨t + 1, by omega, le_refl _, ?_, col1, hcol1, ?_, by rw [if_pos rfl]; omega⟩
      · intro s hs
        by_cases es : s = t
        · rw [es]; exact hpd
        · rw [hpre s (by omega), hn s (by omega)]
      · rw [frame_table hf, Nat.add_sub_cancel, ← hpd]
        exact htab1
    · refine ⟨t, h2, by omega, fun s hs => by rw [hpre s hs, hn s hs], col, hcol, ?_, ?_⟩
      · rw [frame_table hf, hn (t - 1) (by omega)]; exact htab
      · rw [if_neg (by omega), hgd]; omega
  · rw [if_neg e] at hcond
    refine ⟨t, h2, by omega, fun s hs => by rw [hpre s hs, hn s (by omega)], col, hcol, ?_, ?_⟩
    · rw [frame_table hf, hn (t - 1) (by omega)]; exact htab
    · rw [if_neg (by omega), hg t (by omega)]; exact hcond

theorem usedBit_low (loc : CalcLocals) (j : Nat) (hj : j < 64) :
    loc.usedBit j = (loc.usedMask 0).testBit j := by
  unfold CalcLocals.usedBit
  rw [usedMaskIndex_eq_div j (by omega), Nat.div_eq_of_lt hj, Nat.mod_eq_of_lt hj]

theorem reject_no_leaf {c : CalcConsts} {bg : CBalaGray} {loc : CalcLocals} {d x : Nat}
    {π : List Nat} (hctx : CrawlCtx c bg) (hsc : SearchCtx c bg)
    (hpath : PathInv c bg loc.usedBit d) (hleaf : IsLeaf c bg π)
    (hpre : ∀ s < d, π.getD s 0 = (bg.state s).iNum) (hx : π.getD d 0 = x)
    (htest : ¬ (loc.usedMask (usedMaskIndex x) &&& numeralMask x = 0
      ∧ loc.usedMask 0 &&& c.nGrayWrapMask ≠ c.nGrayWrapMask)) : False := by
  have hdN := hpath.hdN
  have hN := hctx.hN127
  have hl := hleaf.1
  have hnd := hleaf.2.2.2.1
  have key : ∀ j t, t < c.nNumerals → d ≤ t → π.getD t 0 = j → loc.usedBit j = true → False := by
    intro j t ht hdt hj hu
    have hjN : j < c.nNumerals := by rw [← hj]; exact IsLeaf_lt hleaf t ht
    have hm := (hpath.hmask j (by omega)).mp hu
    obtain ⟨s, hs, hse⟩ := (mem_pathNums bg d j).mp hm
    have := nodup_getD_inj hnd (show s < π.length by omega) (show t < π.length by omega)
      (by rw [hpre s hs, hse, hj])
    omega
  by_cases hu : loc.usedBit x = true
  · exact key x d hdN (le_refl _) hx hu
  · apply htest
    refine ⟨(usedBit_test loc x).mpr (by simpa using hu), ?_⟩
    rw [and_ne_self_iff]
    have hw := IsLeaf_wrap hleaf (by omega)
    obtain ⟨hj64, hjW⟩ := hsc.hwrapc _ (IsLeaf_lt hleaf (c.nNumerals - 1) (by omega)) hw
    refine ⟨_, hjW, ?_⟩
    rw [← usedBit_low loc _ hj64]
    by_contra hcon
    exact key _ (c.nNumerals - 1) (by omega) (by omega) rfl (by simpa using hcon)

theorem pathStack_state (bg : CBalaGray) (π : List Nat) (t : Nat) :
    ((pathStack bg π).state t).iNum = π.getD t 0 := by
  unfold CBalaGray.state pathStack
  simp only
  by_cases ht : t < π.length
  · rw [List.getD_eq_getElem _ _ (by simpa using ht), List.getD_eq_getElem _ _ ht]
    simp
  · rw [List.getD_eq_default _ _ (by simpa using ht), List.getD_eq_default _ _ (by omega)]
    rfl

theorem pathStack_stateNum (bg : CBalaGray) (π : List Nat) (t : Nat) :
    (pathStack bg π).stateNum t = bg.num (π.getD t 0) := by
  unfold CBalaGray.stateNum
  rw [pathStack_state]
  rfl

theorem stateNum_pathNums (bg : CBalaGray) (n t : Nat) (hl : bg.m_arrState.length = n) :
    bg.stateNum t = bg.num ((bg.pathNums n).getD t 0) := by
  unfold CBalaGray.stateNum
  by_cases ht : t < n
  · rw [pathNums_getD bg n t ht]
  · rw [List.getD_eq_default _ _ (by rw [pathNums_length]; omega)]
    unfold CBalaGray.state
    rw [List.getD_eq_default _ _ (by omega)]
    rfl

theorem leaf_metrics (bg : CBalaGray) (n d : Nat) (hl : bg.m_arrState.length = n)
    (hd : d + 1 = n) :
    (pathStack bg (bg.pathNums n)).ComputeMaxSpan ((bg.pathNums n).length - 1)
      = bg.ComputeMaxSpan d ∧
    (pathStack bg (bg.pathNums n)).ComputeStdDev = bg.ComputeStdDev := by
  have hs : ∀ t, (pathStack bg (bg.pathNums n)).stateNum t = bg.stateNum t := by
    intro t
    rw [pathStack_stateNum, stateNum_pathNums bg n t hl]
  constructor
  · rw [pathNums_length]
    have e : n - 1 = d := by omega
    rw [e]
    exact ComputeMaxSpan_congr _ _ d rfl hs
  · refine ComputeStdDev_congr _ _ rfl ?_ hs
    show ((bg.pathNums n).map _).length = _
    rw [List.length_map, pathNums_length, hl]

theorem leaf_eq_path {c : CalcConsts} {bg : CBalaGray} {π : List Nat} {d : Nat}
    (hleaf : IsLeaf c bg π) (hd : d + 1 = c.nNumerals)
    (hpre : ∀ s < d, π.getD s 0 = (bg.state s).iNum)
    (hxN : (bg.state d).iNum < c.nNumerals) (hnew : (bg.state d).iNum ∉ bg.pathNums d) :
    π = bg.pathNums c.nNumerals := by
  have hl := hleaf.1
  apply list_ext_getD (by rw [hl, pathNums_length])
  intro t ht
  rw [pathNums_getD bg _ t (by omega)]
  by_cases htd : t < d
  · exact hpre t htd
  · have e : t = d := by omega
    subst e
    have hm := nodup_full π c.nNumerals hleaf.2.2.2.1 hl hleaf.2.2.2.2.1 _ hxN
    obtain ⟨s, hs, hse⟩ := getD_of_mem hm
    by_cases hst : s < t
    · exfalso
      apply hnew
      rw [mem_pathNums]
      exact ⟨s, hst, by rw [← hpre s hst, hse]⟩
    · have : s = t := by omega
      rw [this] at hse; exact hse

theorem wrapCount_le (bg : CBalaGray) (d p : Nat) :
    bg.wrapCount d p ≤ (bg.state (d - 1)).nTrans.b p + 2 := by
  unfold CBalaGray.wrapCount
  split <;> split <;> omega

theorem leaf_at_node {c : CalcConsts} {bg : CBalaGray} {used : Nat → Bool} {d : Nat}
    {π : List Nat} (hctx : CrawlCtx c bg) (hpath : PathInv c bg used d)
    (hd : d + 1 = c.nNumerals)
    (hxN : (bg.state d).iNum < c.nNumerals) (hnew : (bg.state d).iNum ∉ bg.pathNums d)
    (hg : differInOnePlace bg.m_nPlaces (bg.stateNum (d - 1)) (bg.stateNum d))
    (hw : ∃ j, j < c.nNumerals ∧ j ∉ bg.pathNums d ∧
      differInOnePlace bg.m_nPlaces (bg.num 0) (bg.num j))
    (hleaf : IsLeaf c bg π) (hpre : ∀ s < d, π.getD s 0 = (bg.state s).iNum)
    (imb mt : Int) (hb : IsBalanceOf bg.m_nPlaces (π.map bg.num) imb mt) :
    imb = (bg.ComputeBalance d).1 ∧ mt = (bg.ComputeBalance d).2.1 ∧
    (pathStack bg π).ComputeMaxSpan (π.length - 1) = bg.ComputeMaxSpan d ∧
    (pathStack bg π).ComputeStdDev = bg.ComputeStdDev := by
  have hπ := leaf_eq_path hleaf hd hpre hxN hnew
  subst hπ
  obtain ⟨_, _, _, hcnt⟩ := leaf_best hctx hpath hd hxN hnew hg hw
  have hd2 := hpath.hd2
  have htr := hpath.htrans (d - 1) (by omega)
  obtain ⟨_, _, hmx, hmxa, mn, hmn, hmna, himb⟩ :=
    ComputeBalance_spec bg d hctx.hP1 hctx.hP8 htr.1 (by
      intro p hp
      rw [htr.2 p hp]
      have := pathCount_le bg (d - 1) p
      have := hpath.hdN
      have := hctx.hN127
      omega)
  have hb1 : IsBalanceOf bg.m_nPlaces ((bg.pathNums c.nNumerals).map bg.num)
      (bg.ComputeBalance d).1 (bg.ComputeBalance d).2.1 := by
    refine ⟨fun p hp => by rw [hcnt p hp]; exact hmx p hp, ?_, mn,
      fun q hq => by rw [hcnt q hq]; exact hmn q hq, ?_, himb⟩
    · obtain ⟨p, hp, hpe⟩ := hmxa
      exact ⟨p, hp, by rw [hcnt p hp]; exact hpe⟩
    · obtain ⟨p, hp, hpe⟩ := hmna
      exact ⟨p, hp, by rw [hcnt p hp]; exact hpe⟩
  obtain ⟨e1, e2⟩ := IsBalanceOf_unique hb hb1
  obtain ⟨m1, m2⟩ := leaf_metrics bg c.nNumerals d hpath.hlen hd
  exact ⟨e1, e2, m1, m2⟩

theorem balance_small {c : CalcConsts} {bg : CBalaGray} {used : Nat → Bool} {d : Nat}
    (hctx : CrawlCtx c bg) (hpath : PathInv c bg used d) :
    (bg.ComputeBalance d).2.1 < INT_MAX ∧ (bg.ComputeBalance d).1 < INT_MAX := by
  have hd2 := hpath.hd2
  have hdN := hpath.hdN
  have hN := hctx.hN127
  have htr := hpath.htrans (d - 1) (by omega)
  have hpc : ∀ p < bg.m_nPlaces, (bg.state (d - 1)).nTrans.b p ≤ 127 := by
    intro p hp
    rw [htr.2 p hp]
    have := pathCount_le bg (d - 1) p
    omega
  obtain ⟨_, _, _, ⟨p, hp, hpe⟩, mn, _, _, himb⟩ :=
    ComputeBalance_spec bg d hctx.hP1 hctx.hP8 htr.1 (by
      intro p hp
      have := hpc p hp
      omega)
  have h1 := wrapCount_le bg d p
  have h2 := hpc p hp
  unfold INT_MAX
  omega

theorem descend_exh (c : CalcConsts) (bg bg1 : CBalaGray) (loc : CalcLocals) (d x : Nat)
    (cnt : NUMERAL) (hsc : SearchCtx c bg) (hpath : PathInv c bg loc.usedBit d)
    (ha : StatesAgree bg bg1 d)
    (hgc : ∀ t < d, (bg1.state t).iGray = (bg.state t).iGray)
    (hs : bg1.state d = ⟨x, (bg.state d).iGray, (bg.state d).nTrans⟩)
    (hd : d + 1 < c.nNumerals)
    (hx : bg.m_arrGraySuccessor.getD
      (((bg.state (d - 1)).iNum <<< c.nGrayStrideShift) + (bg.state d).iGray) 0 = x)
    (hcomp : Complete c bg loc d (bg.state d).iGray) :
    Complete c
      ((bg1.setState d { bg1.state d with nTrans := cnt }).setState (d + 1)
        { (bg1.setState d { bg1.state d with nTrans := cnt }).state (d + 1) with
          iGray := 0, iNum := 0 })
      { loc.setUsedMask (usedMaskIndex x) (loc.usedMask (usedMaskIndex x) ||| numeralMask x) with
        iDepth := d + 1 } (d + 1)
      (((bg1.setState d { bg1.state d with nTrans := cnt }).setState (d + 1)
        { (bg1.setState d { bg1.state d with nTrans := cnt }).state (d + 1) with
          iGray := 0, iNum := 0 }).state (d + 1)).iGray := by
  have hlen1 : bg1.m_arrState.length = c.nNumerals := by rw [ha.2.1]; exact hpath.hlen
  have hs3 : (((bg1.setState d { bg1.state d with nTrans := cnt }).setState (d + 1)
        { (bg1.setState d { bg1.state d with nTrans := cnt }).state (d + 1) with
          iGray := 0, iNum := 0 }).state d) = { bg1.state d with nTrans := cnt } := by
    rw [state_setState, if_neg (by omega), state_setState, if_pos ⟨rfl, by omega⟩]
  have ha3 : StatesAgree bg
      ((bg1.setState d { bg1.state d with nTrans := cnt }).setState (d + 1)
        { (bg1.setState d { bg1.state d with nTrans := cnt }).state (d + 1) with
          iGray := 0, iNum := 0 }) d :=
    StatesAgree_trans (StatesAgree_trans ha (StatesAgree_setState bg1 d d _ (le_refl d)))
      (StatesAgree_setState _ (d + 1) d _ (by omega))
  have hg3 : ∀ t < d, (((bg1.setState d { bg1.state d with nTrans := cnt }).setState (d + 1)
        { (bg1.setState d { bg1.state d with nTrans := cnt }).state (d + 1) with
          iGray := 0, iNum := 0 }).state t).iGray = (bg.state t).iGray := by
    intro t ht
    rw [state_setState, if_neg (by omega), state_setState, if_neg (by omega)]
    exact hgc t ht
  have h0 : (((bg1.setState d { bg1.state d with nTrans := cnt }).setState (d + 1)
        { (bg1.setState d { bg1.state d with nTrans := cnt }).state (d + 1) with
          iGray := 0, iNum := 0 }).state (d + 1)).iGray = 0 := by
    rw [state_setState, if_pos ⟨rfl, by rw [setState_length]; omega⟩]
  rw [h0]
  refine Complete_of ha3.1
    (fun π _ hdom => Dominated_congr ha3.1 (BestEq_setUsedMask _ _ _) hdom)
    (fun π hleaf hah => Or.inr ?_) hcomp
  refine Ahead_descend hsc hleaf hpath.hd2 hd ha3.1 (fun s hs => (ha3.2.2 s hs).1) hg3 ?_ ?_ hah
  · rw [hs3]; simp only; rw [hs]
  · rw [hs3]; simp only; rw [hs, hx]

theorem crawlStep_exh (c : CalcConsts) (bg : CBalaGray) (loc : CalcLocals)
    (hctx : CrawlCtx c bg) (hsc : SearchCtx c bg) (htop : LoopTop c bg loc)
    (hcomp : Complete c bg loc loc.iDepth (bg.state loc.iDepth).iGray) :
    ExhPost c (crawlStep c bg loc) := by
  obtain ⟨hpath, hgrayc⟩ := htop
  have hS := hctx.hStart
  have hd2 := hpath.hd2
  have hdN := hpath.hdN
  have hN := hctx.hN127
  have hprev := hpath.hlt (loc.iDepth - 1) (by omega)
  obtain ⟨hxN, hxg⟩ := hctx.hrow _ hprev _ hgrayc
  unfold crawlStep
  simp only
  generalize hx : bg.m_arrGraySuccessor.getD
    (((bg.state (loc.iDepth - 1)).iNum <<< c.nGrayStrideShift) + (bg.state loc.iDepth).iGray) 0
      = x at hxN hxg ⊢
  split
  · rename_i htest
    obtain ⟨hunused, hwrapne⟩ := htest
    have hxnew : x ∉ bg.pathNums loc.iDepth := by
      have h1 := (usedBit_test loc x).mp hunused
      intro hm
      have := (hpath.hmask x (by omega)).mpr hm
      rw [h1] at this
      exact absurd this (by decide)
    have hw : ∃ j, j < c.nNumerals ∧ j ∉ bg.pathNums loc.iDepth ∧
        differInOnePlace bg.m_nPlaces (bg.num 0) (bg.num j) := by
      obtain ⟨j, hj1, hj2⟩ := (and_ne_self_iff _ _).mp hwrapne
      obtain ⟨hj64, hjN, hjd⟩ := hctx.hwrap j hj1
      refine ⟨j, hjN, ?_, hjd⟩
      intro hm
      have h1 := (hpath.hmask j (by omega)).mpr hm
      rw [usedBit_low loc j hj64, hj2] at h1
      exact absurd h1 (by decide)
    have ha : StatesAgree bg (bg.setState loc.iDepth
        ⟨x, (bg.state loc.iDepth).iGray, (bg.state loc.iDepth).nTrans⟩) loc.iDepth :=
      StatesAgree_setState bg _ _ _ (le_refl _)
    have hgc : ∀ t < loc.iDepth, ((bg.setState loc.iDepth
        ⟨x, (bg.state loc.iDepth).iGray, (bg.state loc.iDepth).nTrans⟩).state t).iGray
          = (bg.state t).iGray := fun t ht => setState_iGray_below bg _ t _ ht
    have hs : (bg.setState loc.iDepth
        ⟨x, (bg.state loc.iDepth).iGray, (bg.state loc.iDepth).nTrans⟩).state loc.iDepth
          = ⟨x, (bg.state loc.iDepth).iGray, (bg.state loc.iDepth).nTrans⟩ := by
      rw [state_setState, if_pos ⟨rfl, by rw [hpath.hlen]; exact hdN⟩]
    generalize bg.setState loc.iDepth
        ⟨x, (bg.state loc.iDepth).iGray, (bg.state loc.iDepth).nTrans⟩ = bg1 at ha hgc hs ⊢
    have hctx1 := CrawlCtx_frame ha.1 hctx
    have hsc1 := SearchCtx_frame ha.1 hsc
    have hpath1 := PathInv_frame hpath ha
    have hsn : bg1.stateNum loc.iDepth = bg.num x := by
      unfold CBalaGray.stateNum
      rw [hs, frame_num ha.1]
    have hsp : bg1.stateNum (loc.iDepth - 1) = bg.stateNum (loc.iDepth - 1) :=
      StatesAgree_stateNum ha _ (by omega)
    have hsmall := balance_small hctx1 hpath1
    have hnode : ∀ π, IsLeaf c bg π →
        (∀ s < loc.iDepth, π.getD s 0 = (bg.state s).iNum) → loc.iDepth + 1 = c.nNumerals →
        ∀ imb mt, IsBalanceOf bg1.m_nPlaces (π.map bg1.num) imb mt →
        imb = (bg1.ComputeBalance loc.iDepth).1 ∧ mt = (bg1.ComputeBalance loc.iDepth).2.1 ∧
        (pathStack bg1 π).ComputeMaxSpan (π.length - 1) = bg1.ComputeMaxSpan loc.iDepth ∧
        (pathStack bg1 π).ComputeStdDev = bg1.ComputeStdDev := by
      intro π hleaf hpre hleafd imb mt hb
      refine leaf_at_node hctx1 hpath1 hleafd (by rw [hs]; exact hxN)
        (by rw [hs, StatesAgree_pathNums ha _ (le_refl _)]; exact hxnew)
        (by rw [hsn, hsp, frame_places ha.1]; exact hxg) ?_ (IsLeaf_frame ha.1.symm hleaf)
        (fun s hs => by rw [hpre s hs, (ha.2.2 s hs).1]) imb mt hb
      obtain ⟨j, hj1, hj2, hj3⟩ := hw
      refine ⟨j, hj1, ?_, ?_⟩
      · rw [StatesAgree_pathNums ha _ (le_refl _)]; exact hj2
      · rw [frame_num ha.1, frame_num ha.1, frame_places ha.1]; exact hj3
    generalize bg1.ComputeBalance loc.iDepth = bal at hsmall hnode ⊢
    by_cases hdepth : (loc.iDepth : Int) < (c.nNumerals : Int) - 1
    · rw [if_pos hdepth]
      split
      · rename_i hprune
        exfalso
        rw [hsc1.hmt, hsc1.himb] at hprune
        omega
      · refine ⟨fun e => by simp at e, fun _ => ?_⟩
        exact descend_exh c bg bg1 loc loc.iDepth x bal.2.2 hsc hpath ha hgc hs (by omega) hx
          hcomp
    · rw [if_neg hdepth]
      have hleafd : loc.iDepth + 1 = c.nNumerals := by omega
      split
      · rename_i hrec
        apply crawlAdvance_exh c hS
        refine Complete_of ha.1 ?_ ?_ hcomp
        · intro π _ hdom imb mt hb
          rw [pathStack_frame ha.1]
          rw [frame_places ha.1, frame_numfun ha.1] at hb
          exact leafRecords_mono _ _ _ _ _ _ _ _ _ _ _ _ hrec (hdom imb mt hb)
        · intro π hleaf hah
          rcases Ahead_cases hah with h1 | ⟨hpre, _⟩
          · exact Or.inr (Ahead_mono ha.1 (fun s hs => (ha.2.2 s hs).1) hgc
              (fun col h1 h2 => by omega) h1)
          · refine Or.inl ?_
            intro imb mt hb
            obtain ⟨e1, e2, e3, e4⟩ := hnode π hleaf hpre hleafd imb mt hb
            rw [e1, e2, e3, e4]
            exact leafRecords_self _ _ _ _
      · rename_i hrec
        apply lblPrune_exh c hS
        refine Complete_of ha.1
          (fun π _ hdom => Dominated_congr ha.1 (BestEq_refl _) hdom) ?_ hcomp
        intro π hleaf hah
        rcases Ahead_cases hah with h1 | ⟨hpre, _⟩
        · exact Or.inr (Ahead_mono ha.1 (fun s hs => (ha.2.2 s hs).1) hgc
            (fun col h1 h2 => by omega) h1)
        · refine Or.inl ?_
          intro imb mt hb
          obtain ⟨e1, e2, e3, e4⟩ := hnode π hleaf hpre hleafd imb mt hb
          rw [e1, e2, e3, e4]
          simpa using hrec
  · rename_i htest
    apply crawlAdvance_exh c hS
    intro π hleaf
    rcases hcomp π hleaf with h1 | h1
    · exact Or.inl h1
    · rcases Ahead_cases h1 with h2 | ⟨hpre, col, hge, hcol, htab⟩
      · exact Or.inr (Ahead_mono rfl (fun _ _ => rfl) (fun _ _ => rfl)
          (fun col h1 h2 => by omega) h2)
      · by_cases ec : col = (bg.state loc.iDepth).iGray
        · exfalso
          rw [ec, hx] at htab
          exact reject_no_leaf hctx hsc hpath hleaf hpre htab.symm htest
        · exact Or.inr (Ahead_at hd2 hpre (by omega) hcol htab)

theorem BestSpan_congr {bg bg1 : CBalaGray} {loc loc1 : CalcLocals}
    (hf : bg1.frame = bg.frame) (hb : BestEq loc loc1) (h : BestSpan bg loc) :
    BestSpan bg1 loc1 := by
  obtain ⟨e1, e2, e3, e4, e5⟩ := hb
  unfold BestSpan at h ⊢
  rw [pathStack_frame hf, e1, e2, e3, e4, e5]
  exact h

theorem lblPrune_best (c : CalcConsts) : ∀ (d : Nat) (bg : CBalaGray) (loc : CalcLocals),
    (lblPrune c d bg loc).1.frame = bg.frame ∧ BestEq loc (lblPrune c d bg loc).2.1 := by
  intro d
  induction d with
  | zero =>
    intro bg loc
    unfold lblPrune
    exact ⟨rfl, BestEq_refl _⟩
  | succ d ih =>
    intro bg loc
    unfold lblPrune
    by_cases hs : d + 1 ≤ c.nStartDepth
    · rw [if_pos hs]
      exact ⟨rfl, BestEq_refl _⟩
    · rw [if_neg hs]
      simp only
      by_cases hg : ((bg.state d).iGray + 1) % 256 ≥ c.nGraySuccessors
      · rw [if_pos hg]
        obtain ⟨h1, h2⟩ := ih (bg.setState d
            { bg.state d with iGray := ((bg.state d).iGray + 1) % 256 })
          (loc.setUsedMask (usedMaskIndex (bg.state d).iNum)
            (loc.usedMask (usedMaskIndex (bg.state d).iNum)
              &&& (0xFFFFFFFFFFFFFFFF ^^^ numeralMask (bg.state d).iNum)))
        exact ⟨h1, BestEq_trans (BestEq_setUsedMask _ _ _) h2⟩
      · rw [if_neg hg]
        exact ⟨rfl, BestEq_setUsedMask _ _ _⟩

theorem crawlAdvance_best (c : CalcConsts) (bg : CBalaGray) (loc : CalcLocals) :
    (crawlAdvance c bg loc).1.frame = bg.frame ∧ BestEq loc (crawlAdvance c bg loc).2.1 := by
  unfold crawlAdvance
  simp only
  by_cases hg : ((bg.state loc.iDepth).iGray + 1) % 256 ≥ c.nGraySuccessors
  · rw [if_pos hg]
    exact lblPrune_best c _ _ _
  · rw [if_neg hg]
    exact ⟨rfl, BestEq_refl _⟩

theorem crawlStep_span (c : CalcConsts) (bg : CBalaGray) (loc : CalcLocals)
    (hctx : CrawlCtx c bg) (htop : LoopTop c bg loc) (hbest : BestOK c bg loc)
    (hspan : BestSpan bg loc) :
    BestSpan (crawlStep c bg loc).1 (crawlStep c bg loc).2.1 := by
  obtain ⟨hpath, hgrayc⟩ := htop
  have hd2 := hpath.hd2
  have hdN := hpath.hdN
  have hN := hctx.hN127
  unfold crawlStep
  simp only
  generalize bg.m_arrGraySuccessor.getD
    (((bg.state (loc.iDepth - 1)).iNum <<< c.nGrayStrideShift) + (bg.state loc.iDepth).iGray) 0
      = x
  split
  · have ha : StatesAgree bg (bg.setState loc.iDepth
        ⟨x, (bg.state loc.iDepth).iGray, (bg.state loc.iDepth).nTrans⟩) loc.iDepth :=
      StatesAgree_setState bg _ _ _ (le_refl _)
    generalize bg.setState loc.iDepth
        ⟨x, (bg.state loc.iDepth).iGray, (bg.state loc.iDepth).nTrans⟩ = bg1 at ha ⊢
    have hctx1 := CrawlCtx_frame ha.1 hctx
    have hpath1 := PathInv_frame hpath ha
    have hspan1 : BestSpan bg1 loc := BestSpan_congr ha.1 (BestEq_refl _) hspan
    have hsmall := balance_small hctx1 hpath1
    generalize bg1.ComputeBalance loc.iDepth = bal at hsmall ⊢
    by_cases hdepth : (loc.iDepth : Int) < (c.nNumerals : Int) - 1
    · rw [if_pos hdepth]
      split
      · obtain ⟨h1, h2⟩ := lblPrune_best c loc.iDepth bg1 loc
        exact BestSpan_congr h1 h2 hspan1
      · exact BestSpan_congr rfl (BestEq_setUsedMask _ _ _) hspan1
    · rw [if_neg hdepth]
      have hleafd : loc.iDepth + 1 = c.nNumerals := by omega
      split
      · obtain ⟨h1, h2⟩ := crawlAdvance_best c bg1
          { loc with nBestMaxTrans := bal.2.1, nBestImbalance := bal.1,
                     nBestMaxSpan := bg1.ComputeMaxSpan loc.iDepth,
                     fBestStdDev := bg1.ComputeStdDev,
                     m_arrBestPerm := (List.range c.nNumerals).foldl
                       (fun arr iNum => arr.set iNum (bg1.state iNum).iNum) loc.m_arrBestPerm }
        refine BestSpan_congr h1 h2 ?_
        have hperm : (List.range c.nNumerals).foldl
            (fun arr iNum => arr.set iNum (bg1.state iNum).iNum) loc.m_arrBestPerm
              = bg1.pathNums c.nNumerals :=
          foldl_set_range (fun i => (bg1.state i).iNum) loc.m_arrBestPerm c.nNumerals hbest.1
        unfold BestSpan
        simp only
        rw [hperm]
        obtain ⟨m1, m2⟩ := leaf_metrics bg1 c.nNumerals loc.iDepth hpath1.hlen hleafd
        refine ⟨fun e => ?_, fun _ => ⟨?_, ?_, m1.symm, m2.symm⟩⟩
        · exfalso
          have := hsmall.2
          omega
        · rw [pathNums_getD bg1 _ 0 (by omega)]; exact hpath1.h0
        · rw [pathNums_getD bg1 _ 1 (by omega)]; exact hpath1.h1
      · obtain ⟨h1, h2⟩ := lblPrune_best c loc.iDepth bg1 loc
        exact BestSpan_congr h1 h2 hspan1
  · obtain ⟨h1, h2⟩ := crawlAdvance_best c bg loc
    exact BestSpan_congr h1 h2 hspan

theorem crawlLoop_span (c : CalcConsts) (cancelAt : Option Nat) :
    ∀ (fuel nReads : Nat) (bg : CBalaGray) (loc : CalcLocals)
      (r : CBalaGray × CalcLocals × Nat),
      CrawlCtx c bg → LoopTop c bg loc → BestOK c bg loc → BestSpan bg loc →
      crawlLoop c cancelAt fuel nReads bg loc = some r → BestSpan r.1 r.2.1 := by
  intro fuel
  induction fuel with
  | zero =>
    intro nReads bg loc r _ _ _ _ h
    simp [crawlLoop] at h
  | succ fuel ih =>
    intro nReads bg loc r hctx htop hbest hspan h
    unfold crawlLoop at h
    by_cases hc : cancelRequested cancelAt nReads = true
    · rw [if_pos hc] at h
      simp only [Option.some.injEq] at h
      subst h
      exact hspan
    · rw [if_neg hc] at h
      have hpost := crawlStep_inv c bg loc hctx htop hbest
      have hsp := crawlStep_span c bg loc hctx htop hbest hspan
      revert h hpost hsp
      generalize crawlStep c bg loc = st
      obtain ⟨bg1, loc1, brk⟩ := st
      intro h hpost hsp
      cases brk with
      | true =>
        simp only [Option.some.injEq] at h
        subst h
        exact hsp
      | false =>
        simp only at h
        exact ih (nReads + 1) bg1 loc1 r (CrawlCtx_frame hpost.1 hctx) (hpost.2.2 rfl)
          hpost.2.1 hsp h

theorem crawlLoop_exh (c : CalcConsts) :
    ∀ (fuel nReads : Nat) (bg : CBalaGray) (loc : CalcLocals)
      (r : CBalaGray × CalcLocals × Nat),
      CrawlCtx c bg → SearchCtx c bg → LoopTop c bg loc → BestOK c bg loc →
      Complete c bg loc loc.iDepth (bg.state loc.iDepth).iGray →
      crawlLoop c none fuel nReads bg loc = some r → Exhausted c r.1 r.2.1 := by
  intro fuel
  induction fuel with
  | zero =>
    intro nReads bg loc r _ _ _ _ _ h
    simp [crawlLoop] at h
  | succ fuel ih =>
    intro nReads bg loc r hctx hsc htop hbest hcomp h
    unfold crawlLoop at h
    have hc : ¬ cancelRequested none nReads = true := by simp [cancelRequested]
    rw [if_neg hc] at h
    have hpost := crawlStep_inv c bg loc hctx htop hbest
    have hex := crawlStep_exh c bg loc hctx hsc htop hcomp
    revert h hpost hex
    generalize crawlStep c bg loc = st
    obtain ⟨bg1, loc1, brk⟩ := st
    intro h hpost hex
    cases brk with
    | true =>
      simp only [Option.some.injEq] at h
      subst h
      exact hex.1 rfl
    | false =>
      simp only at h
      exact ih (nReads + 1) bg1 loc1 r (CrawlCtx_frame hpost.1 hctx)
        (SearchCtx_frame hpost.1 hsc) (hpost.2.2 rfl) hpost.2.1 (hex.2 rfl) h

theorem start_search (bgN : CBalaGray) (hOK : bgN.NumeralsOK) (W : Nat)
    (hW : wrapMaskLoop bgN.MakeGraySuccessorTable.m_arrGraySuccessor
      bgN.MakeGraySuccessorTable.m_nGraySuccessors 0 0 = some W)
    (hmt : bgN.m_nPruneMaxTrans = INT_MAX) (himb : bgN.m_nPruneImbalance = INT_MAX) :
    SearchCtx (crawlConsts bgN.MakeGraySuccessorTable W) bgN.MakeGraySuccessorTable := by
  have hlen : bgN.MakeGraySuccessorTable.GetNumeralCount = bgN.radixProduct :=
    NumeralsOK_length hOK
  have hN4 := NumeralsOK_four_le hOK
  have hnbr : ∀ i < bgN.radixProduct, ∀ j < bgN.radixProduct,
      differInOnePlace bgN.m_nPlaces (bgN.num i) (bgN.num j) →
      ∃ col, col < bgN.MakeGraySuccessorTable.m_nGraySuccessors ∧
        bgN.MakeGraySuccessorTable.m_arrGraySuccessor.getD
          ((i <<< bgN.MakeGraySuccessorTable.m_nGrayStrideShift) + col) 0 = j := by
    intro i hi j hj hdiff
    have hmem := ((tableRow_correct bgN hOK i hi).2.2.2 j hj).mpr hdiff
    unfold CBalaGray.tableRow at hmem
    obtain ⟨col, hcol, e⟩ := List.mem_map.mp hmem
    exact ⟨col, List.mem_range.mp hcol, e⟩
  refine ⟨?_, ?_, hmt, himb⟩
  · intro i hi j hj hdiff
    exact hnbr i (by rw [← hlen]; exact hi) j (by rw [← hlen]; exact hj) hdiff
  · intro j hj hdiff
    obtain ⟨col, hcol, e⟩ := hnbr 0 (by omega) j (by rw [← hlen]; exact hj) hdiff
    simp only [Nat.zero_shiftLeft, Nat.zero_add] at e
    constructor
    · by_contra h64
      have hnone := (wrapMaskLoop_none_iff bgN.MakeGraySuccessorTable.m_arrGraySuccessor
        bgN.MakeGraySuccessorTable.m_nGraySuccessors 0 0).mpr
          ⟨col, Nat.zero_le _, by omega, by rw [e]; omega⟩
      rw [hW] at hnone
      exact absurd hnone (by simp)
    · exact (wrapMaskLoop_bits_iff _ _ _ _ _ hW j).mpr
        (Or.inr ⟨col, Nat.zero_le _, by omega, e⟩)

theorem start_complete (bgN : CBalaGray) (hOK : bgN.NumeralsOK) (hst : bgN.m_arrState = [])
    (W : Nat)
    (hsc : SearchCtx (crawlConsts bgN.MakeGraySuccessorTable W) bgN.MakeGraySuccessorTable) :
    Complete (crawlConsts bgN.MakeGraySuccessorTable W) (crawlStart bgN.MakeGraySuccessorTable)
      (crawlLocals bgN.MakeGraySuccessorTable) 2
      ((crawlStart bgN.MakeGraySuccessorTable).state 2).iGray := by
  have hlen : bgN.MakeGraySuccessorTable.GetNumeralCount = bgN.radixProduct :=
    NumeralsOK_length hOK
  have hN4 := NumeralsOK_four_le hOK
  have hN4' : 4 ≤ bgN.MakeGraySuccessorTable.GetNumeralCount := by omega
  have hs := crawlStart_state bgN.MakeGraySuccessorTable hst hN4'
  intro π hleaf
  have hleaf0 : IsLeaf (crawlConsts bgN.MakeGraySuccessorTable W)
      bgN.MakeGraySuccessorTable π := hleaf
  have hN : (crawlConsts bgN.MakeGraySuccessorTable W).nNumerals
      = bgN.MakeGraySuccessorTable.GetNumeralCount := rfl
  have hstep := IsLeaf_step hleaf0 1 (by rw [hN]; omega)
  obtain ⟨col, hcol, e⟩ := hsc.hnbr _ (IsLeaf_lt hleaf0 1 (by rw [hN]; omega)) _
    (IsLeaf_lt hleaf0 2 (by rw [hN]; omega)) hstep
  refine Or.inr ⟨2, le_refl _, le_refl _, ?_, col, hcol, ?_, ?_⟩
  · intro s hs2
    rw [hs]
    have : s = 0 ∨ s = 1 := by omega
    rcases this with rfl | rfl
    · rw [if_neg (by omega)]; exact hleaf.2.1
    · rw [if_pos rfl]; exact hleaf.2.2.1
  · rw [hs, if_pos rfl]
    rw [hleaf.2.2.1] at e
    exact e
  · rw [if_pos rfl, hs, if_neg (by omega)]
    exact Nat.zero_le _

theorem start_span (bgT : CBalaGray) : BestSpan (crawlStart bgT) (crawlLocals bgT) :=
  ⟨fun _ => ⟨rfl, rfl, rfl⟩, fun h => absurd rfl h⟩

theorem Calc_returned_best (bg : CBalaGray) (fuel : Nat) (cancelAt : Option Nat)
    (nPlaces : Nat) (parrBase : List Nat) (w0 w : CWinner) (bg1 : CBalaGray)
    (hv : ValidRadix nPlaces parrBase)
    (h : bg.Calc fuel cancelAt (nPlaces : Int) parrBase w0 = .returned true bg1 w) :
    ∃ W bgF locF nReads,
      wrapMaskLoop (bg.prepared nPlaces parrBase).m_arrGraySuccessor
        (bg.prepared nPlaces parrBase).m_nGraySuccessors 0 0 = some W ∧
      crawlLoop (crawlConsts (bg.prepared nPlaces parrBase) W) cancelAt fuel 0
        (crawlStart (bg.prepared nPlaces parrBase)) (crawlLocals (bg.prepared nPlaces parrBase))
        = some (bgF, locF, nReads) ∧
      w.m_nImbalance = locF.nBestImbalance ∧ w.m_nMaxTrans = locF.nBestMaxTrans ∧
      w.m_nMaxSpan = locF.nBestMaxSpan ∧ w.m_fStdDev = locF.fBestStdDev := by
  have hout : bg.fOutGood = true := by
    unfold CBalaGray.Calc at h
    have h2 := hv.1
    have h8 := hv.2.1
    rw [if_neg (by unfold MAX_PLACES at *; omega)] at h
    by_cases hout : (!bg.fOutGood) = true
    · rw [if_pos hout] at h
      simp at h
    · simpa using hout
  rw [Calc_valid_eq bg fuel cancelAt nPlaces parrBase w0 hv hout] at h
  revert h
  cases hW : wrapMaskLoop (bg.prepared nPlaces parrBase).m_arrGraySuccessor
      (bg.prepared nPlaces parrBase).m_nGraySuccessors 0 0 with
  | none => intro h; simp at h
  | some W =>
    simp only
    cases hL : crawlLoop (crawlConsts (bg.prepared nPlaces parrBase) W) cancelAt fuel 0
        (crawlStart (bg.prepared nPlaces parrBase))
        (crawlLocals (bg.prepared nPlaces parrBase)) with
    | none => intro h; simp at h
    | some r =>
      obtain ⟨bgF, locF, nReads⟩ := r
      intro h
      simp only [CalcResult.returned.injEq, true_and] at h
      obtain ⟨_, hw⟩ := h
      refine ⟨W, bgF, locF, nReads, rfl, hL, ?_, ?_, ?_, ?_⟩ <;> rw [← hw] <;> rfl

theorem prepared_thresholds (bg : CBalaGray) (nPlaces : Nat) (parrBase : List Nat) :
    (bg.Reset.withNumerals nPlaces parrBase).m_nPruneMaxTrans = bg.m_nPruneMaxTrans ∧
    (bg.Reset.withNumerals nPlaces parrBase).m_nPruneImbalance = bg.m_nPruneImbalance :=
  ⟨rfl, rfl⟩

/-- What a finished call of `Calc` on a valid radix vector leaves: the final
state of its crawl, with the invariants of the best it holds. -/
theorem Calc_run (bg : CBalaGray) (fuel : Nat) (cancelAt : Option Nat)
    (nPlaces : Nat) (parrBase : List Nat) (w0 w : CWinner) (bg1 : CBalaGray)
    (hv : ValidRadix nPlaces parrBase)
    (h : bg.Calc fuel cancelAt (nPlaces : Int) parrBase w0 = .returned true bg1 w) :
    ∃ W bgF locF,
      bgF.frame = (bg.prepared nPlaces parrBase).frame ∧
      BestOK (crawlConsts (bg.prepared nPlaces parrBase) W) bgF locF ∧ BestSpan bgF locF ∧
      w.m_nImbalance = locF.nBestImbalance ∧ w.m_nMaxTrans = locF.nBestMaxTrans ∧
      w.m_nMaxSpan = locF.nBestMaxSpan ∧ w.m_fStdDev = locF.fBestStdDev ∧
      (cancelAt = none → bg.m_nPruneMaxTrans = INT_MAX → bg.m_nPruneImbalance = INT_MAX →
        Exhausted (crawlConsts (bg.prepared nPlaces parrBase) W) bgF locF) := by
  obtain ⟨W, bgF, locF, nReads, hW, hL, e1, e2, e3, e4⟩ :=
    Calc_returned_best bg fuel cancelAt nPlaces parrBase w0 w bg1 hv h
  have hOK := withNumerals_NumeralsOK bg.Reset nPlaces parrBase hv
  have hctxT : CrawlCtx (crawlConsts (bg.prepared nPlaces parrBase) W)
      (bg.prepared nPlaces parrBase) := start_ctx _ hOK W hW
  have hctx : CrawlCtx (crawlConsts (bg.prepared nPlaces parrBase) W)
      (crawlStart (bg.prepared nPlaces parrBase)) :=
    @CrawlCtx_frame _ (bg.prepared nPlaces parrBase) (crawlStart (bg.prepared nPlaces parrBase))
      rfl hctxT
  have htop := start_top _ hOK rfl W
  have hbest0 := start_best (bg.prepared nPlaces parrBase) W
  obtain ⟨hfr, hbest⟩ := crawlLoop_inv _ cancelAt fuel 0 _ _ _ hctx htop hbest0 hL
  have hspan := crawlLoop_span _ cancelAt fuel 0 _ _ _ hctx htop hbest0
    (start_span (bg.prepared nPlaces parrBase)) hL
  refine ⟨W, bgF, locF, hfr, hbest, hspan, e1, e2, e3, e4, ?_⟩
  intro hc hmt himb
  subst hc
  have hscT : SearchCtx (crawlConsts (bg.prepared nPlaces parrBase) W)
      (bg.prepared nPlaces parrBase) :=
    start_search _ hOK W hW ((prepared_thresholds bg nPlaces parrBase).1.trans hmt)
      ((prepared_thresholds bg nPlaces parrBase).2.trans himb)
  have hsc : SearchCtx (crawlConsts (bg.prepared nPlaces parrBase) W)
      (crawlStart (bg.prepared nPlaces parrBase)) :=
    @SearchCtx_frame _ (bg.prepared nPlaces parrBase) (crawlStart (bg.prepared nPlaces parrBase))
      rfl hscT
  have hcomp := start_complete _ hOK rfl W hscT
  exact crawlLoop_exh _ fuel 0 _ _ _ hctx hsc htop hbest0 hcomp hL

theorem balance_le {P : Nat} {s : List NUMERAL} {imb mt : Int} (h : IsBalanceOf P s imb mt) :
    mt ≤ s.length ∧ imb ≤ mt := by
  obtain ⟨_, ⟨p, _, hpe⟩, mn, _, _, hi⟩ := h
  have := transCount_le s p
  omega

theorem pathStack_congr (bg1 bg2 : CBalaGray) (π : List Nat)
    (hP : bg1.m_nPlaces = bg2.m_nPlaces) (hn : bg1.num = bg2.num) (d : Nat) :
    (pathStack bg1 π).ComputeMaxSpan d = (pathStack bg2 π).ComputeMaxSpan d ∧
    (pathStack bg1 π).ComputeStdDev = (pathStack bg2 π).ComputeStdDev := by
  have hs : ∀ t, (pathStack bg1 π).stateNum t = (pathStack bg2 π).stateNum t := by
    intro t
    rw [pathStack_stateNum, pathStack_stateNum, hn]
  exact ⟨ComputeMaxSpan_congr _ _ d hP hs, ComputeStdDev_congr _ _ hP rfl hs⟩

theorem lexLess_accepted {bmt bimb bms : Int} {bsd : StdDev} {mt imb ms : Int} {sd : StdDev}
    (h : lexLess mt imb ms sd bmt bimb bms bsd) (hi : imb ≤ bimb) :
    leafRecords bmt bimb bms bsd mt imb ms sd = true := by
  rw [leafRecords_accepts]
  unfold lexLess StdDev.lt at h
  rcases h with h | ⟨h1, h | ⟨h2, h | ⟨h3, h⟩⟩⟩
  · exact ⟨by omega, hi, Or.inl h⟩
  · exact ⟨by omega, hi, Or.inr (Or.inl h)⟩
  · exact ⟨by omega, hi, Or.inr (Or.inr (Or.inl h))⟩
  · exact ⟨by omega, hi, Or.inr (Or.inr (Or.inr ⟨h3, h⟩))⟩

/-- The unpruned crawl is exhaustive, so no winner of a crawl on the same
radix vector passes the leaf tests against its winner. -/
theorem Calc_unpruned_best (bgU bgV : CBalaGray) (fuelU fuelV : Nat) (nPlaces : Nat)
    (parrBase : List Nat) (wU0 wV0 wU wV : CWinner) (bgU1 bgV1 : CBalaGray)
    (hv : ValidRadix nPlaces parrBase)
    (hmt : bgU.m_nPruneMaxTrans = INT_MAX) (himb : bgU.m_nPruneImbalance = INT_MAX)
    (hU : bgU.Calc fuelU none (nPlaces : Int) parrBase wU0 = .returned true bgU1 wU)
    (hV : bgV.Calc fuelV none (nPlaces : Int) parrBase wV0 = .returned true bgV1 wV) :
    leafRecords wU.m_nMaxTrans wU.m_nImbalance wU.m_nMaxSpan wU.m_fStdDev
      wV.m_nMaxTrans wV.m_nImbalance wV.m_nMaxSpan wV.m_fStdDev = false := by
  obtain ⟨WU, bgF, locF, hfrU, hbestU, hspanU, u1, u2, u3, u4, hexh⟩ :=
    Calc_run bgU fuelU none nPlaces parrBase wU0 wU bgU1 hv hU
  obtain ⟨WV, bgG, locG, hfrV, hbestV, hspanV, v1, v2, v3, v4, _⟩ :=
    Calc_run bgV fuelV none nPlaces parrBase wV0 wV bgV1 hv hV
  have hE := hexh rfl hmt himb
  rw [u1, u2, u3, u4, v1, v2, v3, v4]
  have hNU : (crawlConsts (bgU.prepared nPlaces parrBase) WU).nNumerals
      = placeWeight parrBase nPlaces := prepared_count bgU nPlaces parrBase
  have hNV : (crawlConsts (bgV.prepared nPlaces parrBase) WV).nNumerals
      = placeWeight parrBase nPlaces := prepared_count bgV nPlaces parrBase
  have hN127 := hv.2.2.2
  have hplU : bgF.m_nPlaces = nPlaces := frame_places hfrU
  have hplV : bgG.m_nPlaces = nPlaces := frame_places hfrV
  have hnumU : bgF.num = (bgU.Reset.withNumerals nPlaces parrBase).num :=
    funext (fun i => frame_num hfrU i)
  have hnumV : bgG.num = (bgV.Reset.withNumerals nPlaces parrBase).num :=
    funext (fun i => frame_num hfrV i)
  have hnum : bgG.num = bgF.num := by rw [hnumU, hnumV]; rfl
  by_cases hrec : locG.nBestImbalance = INT_MAX
  · obtain ⟨m1, m2, m3⟩ := hspanV.1 hrec
    rw [hrec, m1, m2, m3]
    cases hres : leafRecords locF.nBestMaxTrans locF.nBestImbalance locF.nBestMaxSpan
        locF.fBestStdDev INT_MAX INT_MAX INT_MAX none
    · rfl
    · exfalso
      obtain ⟨a1, a2, a3⟩ := (leafRecords_accepts _ _ _ _ _ _ _ _).mp hres
      by_cases hrecU : locF.nBestImbalance = INT_MAX
      · obtain ⟨n1, n2, n3⟩ := hspanU.1 hrecU
        rw [hrecU, n1, n2, n3] at a3
        rcases a3 with a3 | a3 | a3 | ⟨_, a3⟩
        · omega
        · omega
        · omega
        · exact absurd a3 (by decide)
      · obtain ⟨_, _, _, hbal⟩ := hbestU.2.2 hrecU
        have hb := balance_le hbal
        rw [List.length_map, hbestU.1, hNU] at hb
        unfold INT_MAX at a2
        omega
  · obtain ⟨hnd, hlt, hcyc, hbal⟩ := hbestV.2.2 hrec
    obtain ⟨p0, p1, pms, psd⟩ := hspanV.2 hrec
    have hleaf : IsLeaf (crawlConsts (bgU.prepared nPlaces parrBase) WU) bgF
        locG.m_arrBestPerm := by
      refine ⟨by rw [hbestV.1, hNV, hNU], p0, p1, hnd, ?_, ?_⟩
      · intro x hx
        have := hlt x hx
        rw [hNV] at this
        rw [hNU]; exact this
      · rw [hplU, ← hnum, ← hplV]; exact hcyc
    have hdom := hE _ hleaf locG.nBestImbalance locG.nBestMaxTrans
      (by rw [hplU, ← hnum, ← hplV]; exact hbal)
    obtain ⟨c1, c2⟩ := pathStack_congr bgG bgF locG.m_arrBestPerm (hplV.trans hplU.symm) hnum
      (locG.m_arrBestPerm.length - 1)
    rw [← c1, ← c2, ← pms, ← psd] at hdom
    exact hdom

theorem differ_two {a b : NUMERAL} (h : differInOnePlace 2 a b) :
    decide (a.b 1 ≠ b.b 1) = !decide (a.b 0 ≠ b.b 0) := by
  unfold differInOnePlace at h
  have e : List.range 2 = [0, 1] := rfl
  rw [e] at h
  by_cases h0 : a.b 0 = b.b 0 <;> by_cases h1 : a.b 1 = b.b 1 <;>
    simp [List.filter, h0, h1] at h ⊢

theorem transCount_two {s : List NUMERAL} (h : IsGrayCycle 2 s) :
    transCount s 0 + transCount s 1 = s.length := by
  unfold transCount
  have e : (List.range s.length).filter
      (fun t => decide ((s.getD t zeroNumeral).b 1 ≠ (s.getD ((t + 1) % s.length) zeroNumeral).b 1))
      = (List.range s.length).filter
      (fun t => !decide ((s.getD t zeroNumeral).b 0
        ≠ (s.getD ((t + 1) % s.length) zeroNumeral).b 0)) := by
    apply List.filter_congr
    intro t ht
    exact differ_two (h t (List.mem_range.mp ht))
  rw [e]
  have := @List.length_eq_length_filter_add _ (List.range s.length)
    (fun t => decide ((s.getD t zeroNumeral).b 0
        ≠ (s.getD ((t + 1) % s.length) zeroNumeral).b 0))
  rw [List.length_range] at this
  exact this.symm

theorem balance_two {s : List NUMERAL} {imb mt : Int} (h : IsGrayCycle 2 s)
    (hb : IsBalanceOf 2 s imb mt) : imb = 2 * mt - s.length := by
  have hsum := transCount_two h
  obtain ⟨hmx, ⟨p, hp, hpe⟩, mn, hmn, ⟨q, hq, hqe⟩, hi⟩ := hb
  have a0 := hmx 0 (by omega)
  have a1 := hmx 1 (by omega)
  have b0 := hmn 0 (by omega)
  have b1 := hmn 1 (by omega)
  have hp' : p = 0 ∨ p = 1 := by omega
  have hq' : q = 0 ∨ q = 1 := by omega
  rcases hp' with rfl | rfl <;> rcases hq' with rfl | rfl <;> omega

theorem Calc_winner_bounds (bg : CBalaGray) (fuel : Nat) (cancelAt : Option Nat)
    (nPlaces : Nat) (parrBase : List Nat) (w0 w : CWinner) (bg1 : CBalaGray)
    (hv : ValidRadix nPlaces parrBase)
    (h : bg.Calc fuel cancelAt (nPlaces : Int) parrBase w0 = .returned true bg1 w) :
    (w.m_nImbalance = INT_MAX → w.m_nMaxTrans = INT_MAX) ∧
    (w.m_nImbalance ≠ INT_MAX → w.m_nMaxTrans ≤ 127 ∧
      (nPlaces = 2 → w.m_nImbalance = 2 * w.m_nMaxTrans - placeWeight parrBase nPlaces)) := by
  obtain ⟨W, bgF, locF, hfr, hbest, hspan, e1, e2, _, _, _⟩ :=
    Calc_run bg fuel cancelAt nPlaces parrBase w0 w bg1 hv h
  have hN : (crawlConsts (bg.prepared nPlaces parrBase) W).nNumerals
      = placeWeight parrBase nPlaces := prepared_count bg nPlaces parrBase
  have hpl : bgF.m_nPlaces = nPlaces := frame_places hfr
  have hN127 := hv.2.2.2
  rw [e1, e2]
  refine ⟨fun hrec => (hspan.1 hrec).1, fun hrec => ?_⟩
  obtain ⟨_, _, hcyc, hbal⟩ := hbest.2.2 hrec
  have hb := balance_le hbal
  rw [List.length_map, hbest.1, hN] at hb
  refine ⟨by omega, fun h2 => ?_⟩
  rw [hpl, h2] at hcyc hbal
  have := balance_two hcyc hbal
  rw [List.length_map, hbest.1, hN] at this
  rw [h2] at this ⊢
  exact this

/-- Pruned against unpruned run, in the order of the leaf tests: for every
valid radix vector, every object for the unpruned run whose two thresholds
are `INT_MAX` and every object for the pruned run (whatever its thresholds),
if both uncancelled calls of `Calc` return true, then the winner V of the
pruned run does not pass the leaf tests of the objective against the winner
U of the unpruned run. For the lexicographic order on (mt, imb, ms, sd) this
leaves one case open: V can be lexicographically smaller than U only with a
smaller max-transition and a larger imbalance; with two places it never
is. -/
theorem Calc_pruning_sound (bgU bgV : CBalaGray) (fuelU fuelV : Nat) (nPlaces : Nat)
    (parrBase : List Nat) (wU0 wV0 wU wV : CWinner) (bgU1 bgV1 : CBalaGray)
    (hv : ValidRadix nPlaces parrBase)
    (hmt : bgU.m_nPruneMaxTrans = INT_MAX) (himb : bgU.m_nPruneImbalance = INT_MAX)
    (hU : bgU.Calc fuelU none (nPlaces : Int) parrBase wU0 = .returned true bgU1 wU)
    (hV : bgV.Calc fuelV none (nPlaces : Int) parrBase wV0 = .returned true bgV1 wV) :
    leafRecords wU.m_nMaxTrans wU.m_nImbalance wU.m_nMaxSpan wU.m_fStdDev
      wV.m_nMaxTrans wV.m_nImbalance wV.m_nMaxSpan wV.m_fStdDev = false ∧
    (lexLess wV.m_nMaxTrans wV.m_nImbalance wV.m_nMaxSpan wV.m_fStdDev
        wU.m_nMaxTrans wU.m_nImbalance wU.m_nMaxSpan wU.m_fStdDev →
      wU.m_nImbalance < wV.m_nImbalance) ∧
    (nPlaces = 2 →
      ¬ lexLess wV.m_nMaxTrans wV.m_nImbalance wV.m_nMaxSpan wV.m_fStdDev
        wU.m_nMaxTrans wU.m_nImbalance wU.m_nMaxSpan wU.m_fStdDev) := by
  have hA := Calc_unpruned_best bgU bgV fuelU fuelV nPlaces parrBase wU0 wV0 wU wV bgU1 bgV1
    hv hmt himb hU hV
  have hlex : lexLess wV.m_nMaxTrans wV.m_nImbalance wV.m_nMaxSpan wV.m_fStdDev
      wU.m_nMaxTrans wU.m_nImbalance wU.m_nMaxSpan wU.m_fStdDev →
      wU.m_nImbalance < wV.m_nImbalance := by
    intro hl
    by_contra hcon
    rw [lexLess_accepted hl (by omega)] at hA
    exact absurd hA (by decide)
  refine ⟨hA, hlex, fun h2 hl => ?_⟩
  have hi := hlex hl
  obtain ⟨bU1, bU2⟩ := Calc_winner_bounds bgU fuelU none nPlaces parrBase wU0 wU bgU1 hv hU
  obtain ⟨bV1, bV2⟩ := Calc_winner_bounds bgV fuelV none nPlaces parrBase wV0 wV bgV1 hv hV
  have hmtle : wV.m_nMaxTrans ≤ wU.m_nMaxTrans := by
    unfold lexLess at hl
    rcases hl with hl | ⟨hl, _⟩ <;> omega
  by_cases hrV : wV.m_nImbalance = INT_MAX
  · have hVm := bV1 hrV
    by_cases hrU : wU.m_nImbalance = INT_MAX
    · omega
    · have := (bU2 hrU).1
      unfold INT_MAX at hVm
      omega
  · obtain ⟨hV127, hV2⟩ := bV2 hrV
    have hVi := hV2 h2
    by_cases hrU : wU.m_nImbalance = INT_MAX
    · have hN := hv.2.2.2
      unfold INT_MAX at hrU
      omega
    · have hUi := (bU2 hrU).2 h2
      omega

/-- The comparison of the pruned with the unpruned run on the radix vector
(2, 2): the unpruned run returns the winner with max-transition 2 and
imbalance 0, the run pruned with `SetPruneMaxTrans(0)` records no winner. -/
theorem Calc_pruning_sound_witness :
    (ValidRadix 2 [2, 2] ∧
      ((CBalaGray.new true).SetPruneImbalance INT_MAX).m_nPruneMaxTrans = INT_MAX ∧
      ((CBalaGray.new true).SetPruneImbalance INT_MAX).m_nPruneImbalance = INT_MAX ∧
      ((CBalaGray.new true).SetPruneImbalance INT_MAX).Calc 64 none ((2 : Nat) : Int) [2, 2]
        CWinner.new = .returned true exampleUnpruned22.object exampleUnpruned22.winner ∧
      ((CBalaGray.new true).SetPruneMaxTrans 0).Calc 64 none ((2 : Nat) : Int) [2, 2]
        CWinner.new = .returned true exampleRunPruned22.object exampleRunPruned22.winner) ∧
    exampleUnpruned22.winner.m_nMaxTrans = 2 ∧ exampleUnpruned22.winner.m_nImbalance = 0 ∧
    exampleRunPruned22.winner.m_nImbalance = INT_MAX ∧
    (leafRecords exampleUnpruned22.winner.m_nMaxTrans exampleUnpruned22.winner.m_nImbalance
        exampleUnpruned22.winner.m_nMaxSpan exampleUnpruned22.winner.m_fStdDev
        exampleRunPruned22.winner.m_nMaxTrans exampleRunPruned22.winner.m_nImbalance
        exampleRunPruned22.winner.m_nMaxSpan exampleRunPruned22.winner.m_fStdDev = false ∧
      (lexLess exampleRunPruned22.winner.m_nMaxTrans exampleRunPruned22.winner.m_nImbalance
          exampleRunPruned22.winner.m_nMaxSpan exampleRunPruned22.winner.m_fStdDev
          exampleUnpruned22.winner.m_nMaxTrans exampleUnpruned22.winner.m_nImbalance
          exampleUnpruned22.winner.m_nMaxSpan exampleUnpruned22.winner.m_fStdDev →
        exampleUnpruned22.winner.m_nImbalance < exampleRunPruned22.winner.m_nImbalance) ∧
      ((2 : Nat) = 2 →
        ¬ lexLess exampleRunPruned22.winner.m_nMaxTrans exampleRunPruned22.winner.m_nImbalance
          exampleRunPruned22.winner.m_nMaxSpan exampleRunPruned22.winner.m_fStdDev
          exampleUnpruned22.winner.m_nMaxTrans exampleUnpruned22.winner.m_nImbalance
          exampleUnpruned22.winner.m_nMaxSpan exampleUnpruned22.winner.m_fStdDev)) :=
  ⟨⟨by decide, by decide, by decide, by decide, by decide⟩, by decide, by decide, by decide,
    Calc_pruning_sound ((CBalaGray.new true).SetPruneImbalance INT_MAX)
      ((CBalaGray.new true).SetPruneMaxTrans 0) 64 64 2 [2, 2] CWinner.new CWinner.new
      exampleUnpruned22.winner exampleRunPruned22.winner exampleUnpruned22.object
      exampleRunPruned22.object (by decide) (by decide) (by decide) (by decide) (by decide)⟩

theorem CalcFromCode_0x23_base :
    (CBalaGray.new true).CalcFromCode 33 none 0x23 CWinner.new
      = .returned true ((CBalaGray.new true).CalcFromCode 33 none 0x23 CWinner.new).object
          { m_nSetCode := 0x23, m_nPlaces := 2, m_nBaseSum := 5, m_nImbalance := 2,
            m_nMaxTrans := 4, m_nMaxSpan := 3, m_fStdDev := some 4, m_bIsProven := true,
            m_arrNum := winnerSeq23 } := by
  decide!

/-- C21: `CalcFromCode(0x23)` on a new object, with the default thresholds
and no cancellation, given at least the 33 crawl iterations it needs, returns
true with proven = true, a sequence of N = 6 numerals, imbalance 2,
max-transition 4 and max-span 3 (and `P = 2`, base sum 5, squared-deviation
sum 4). -/
theorem CalcFromCode_0x23 (fuel : Nat) (hf : 33 ≤ fuel) :
    ∃ bg1 w, (CBalaGray.new true).CalcFromCode fuel none 0x23 CWinner.new
        = .returned true bg1 w ∧
      w.m_bIsProven = true ∧ w.m_arrNum.length = 6 ∧ w.m_nImbalance = 2 ∧
      w.m_nMaxTrans = 4 ∧ w.m_nMaxSpan = 3 ∧ w.m_nPlaces = 2 ∧ w.m_nBaseSum = 5 ∧
      w.m_fStdDev = some 4 ∧ w.m_nSetCode = 0x23 :=
  ⟨_, _, CalcFromCode_fuel_mono _ 33 fuel none _ _ _ _ true CalcFromCode_0x23_base hf,
    rfl, rfl, rfl, rfl, rfl, rfl, rfl, rfl, rfl⟩

/-- Witness of C21 with 64 crawl iterations allowed. -/
theorem CalcFromCode_0x23_witness :
    (33 : Nat) ≤ 64 ∧
    ∃ bg1 w, (CBalaGray.new true).CalcFromCode 64 none 0x23 CWinner.new
        = .returned true bg1 w ∧
      w.m_bIsProven = true ∧ w.m_arrNum.length = 6 ∧ w.m_nImbalance = 2 ∧
      w.m_nMaxTrans = 4 ∧ w.m_nMaxSpan = 3 ∧ w.m_nPlaces = 2 ∧ w.m_nBaseSum = 5 ∧
      w.m_fStdDev = some 4 ∧ w.m_nSetCode = 0x23 :=
  ⟨by decide, CalcFromCode_0x23 64 (by decide)⟩

/-- C22, counterexample to the claim as stated: in the reference sequence the
step from the last numeral (1,2) back to the first numeral (0,0) changes both
places, so `IsGray` rejects it and the sequence is not a Gray cycle; its
count of changes of place 1, the wrap included, is 3 and not 2. -/
theorem referenceSeq23_not_gray :
    exampleObject23.IsGray [1, 2, 0, 0, 0, 0, 0, 0] [0, 0, 0, 0, 0, 0, 0, 0] = false ∧
    referenceSeq23.getD 5 zeroNumeral = [1, 2, 0, 0, 0, 0, 0, 0] ∧
    referenceSeq23.getD 0 zeroNumeral = [0, 0, 0, 0, 0, 0, 0, 0] ∧
    ¬ IsGrayCycle 2 referenceSeq23 ∧
    transCount referenceSeq23 0 = 4 ∧ transCount referenceSeq23 1 = 3 := by
  decide

/-- C22 (amended): for the radix vector (2, 3) the sequence (0,0), (1,0),
(1,1), (1,2), (0,2), (0,1) is a valid winner. It holds each of the six
numerals once, every cyclically consecutive pair, the last (0,1) with the
first (0,0) included, satisfies `IsGray`, its counts of changes with the wrap
included are 2 for place 0 and 4 for place 1, and it is the sequence that
`CalcFromCode(0x23)` returns, with imbalance 2 and max-transition 4. -/
theorem winnerSeq23_valid :
    winnerSeq23.Perm ((List.range 6).map (fun (i : Nat) => exampleObject23.Unpack (i : Int))) ∧
    (∀ t < 6, exampleObject23.IsGray (winnerSeq23.getD t zeroNumeral)
      (winnerSeq23.getD ((t + 1) % 6) zeroNumeral) = true) ∧
    IsGrayCycle 2 winnerSeq23 ∧
    transCount winnerSeq23 0 = 2 ∧ transCount winnerSeq23 1 = 4 ∧
    IsBalanceOf 2 winnerSeq23 2 4 ∧
    ((CBalaGray.new true).CalcFromCode 33 none 0x23 CWinner.new).winner.m_arrNum
      = winnerSeq23 ∧
    ((CBalaGray.new true).CalcFromCode 33 none 0x23 CWinner.new).winner.m_nImbalance = 2 ∧
    ((CBalaGray.new true).CalcFromCode 33 none 0x23 CWinner.new).winner.m_nMaxTrans = 4 := by
  refine ⟨by decide, by decide, by decide, by decide, by decide, ?_, by decide!, by decide!,
    by decide!⟩
  exact ⟨by decide, by decide, 2, by decide, by decide, by decide⟩

theorem CalcFromCode_0x33_base :
    (CBalaGray.new true).CalcFromCode 739 none 0x33 CWinner.new
      = .returned true ((CBalaGray.new true).CalcFromCode 739 none 0x33 CWinner.new).object
          { m_nSetCode := 0x33, m_nPlaces := 2, m_nBaseSum := 6, m_nImbalance := 1,
            m_nMaxTrans := 5, m_nMaxSpan := 3, m_fStdDev := some 6, m_bIsProven := true,
            m_arrNum := winnerSeq33 } := by
  decide!

theorem winnerSeq33_cycle :
    winnerSeq33.Perm ((List.range 9).map
      (fun (i : Nat) => ((CBalaGray.new true).prepared 2 [3, 3]).Unpack (i : Int))) ∧
    IsGrayCycle 2 winnerSeq33 := by
  decide

/-- C23: `CalcFromCode(0x33)` (P = 2, B = (3, 3), N = 9) on a new object, with
the default thresholds and no cancellation, given at least the 739 crawl
iterations it needs, returns true with proven = true, imbalance 1 and
max-transition 5, and its winner is a Hamiltonian Gray cycle of the 9
numerals: it holds each numeral `Unpack i`, `i < 9`, once, and every
numeral differs from its cyclic successor in exactly one place. -/
theorem CalcFromCode_0x33 (fuel : Nat) (hf : 739 ≤ fuel) :
    ∃ bg1 w, (CBalaGray.new true).CalcFromCode fuel none 0x33 CWinner.new
        = .returned true bg1 w ∧
      w.m_bIsProven = true ∧ w.m_nPlaces = 2 ∧ w.m_arrNum.length = 9 ∧
      w.m_nImbalance = 1 ∧ w.m_nMaxTrans = 5 ∧
      w.m_arrNum.Perm ((List.range 9).map (fun (i : Nat) => bg1.Unpack (i : Int))) ∧
      IsGrayCycle 2 w.m_arrNum := by
  have h := CalcFromCode_fuel_mono _ 739 fuel none _ _ _ _ true CalcFromCode_0x33_base hf
  refine ⟨_, _, h, rfl, rfl, rfl, rfl, rfl, ?_, winnerSeq33_cycle.2⟩
  have hv : ValidRadix 2 [3, 3, 0, 0, 0, 0, 0, 0] := by decide
  have hg : GetBases 0x33 = (2, [3, 3, 0, 0, 0, 0, 0, 0]) := by decide
  have hc := CalcFromCode_0x33_base
  unfold CBalaGray.CalcFromCode at hc
  simp only [hg] at hc
  obtain ⟨_, _, _, hun, _, _⟩ := Calc_winner _ 739 none 2 _ _ _ _ hv hc
  have e : (fun (i : Nat) =>
      ((CBalaGray.new true).CalcFromCode 739 none 0x33 CWinner.new).object.Unpack (i : Int))
      = (fun (i : Nat) => ((CBalaGray.new true).prepared 2 [3, 3]).Unpack (i : Int)) := by
    funext i
    unfold CBalaGray.CalcFromCode
    simp only [hg]
    rw [hun]
    rfl
  rw [e]
  exact winnerSeq33_cycle.1

/-- Witness of C23 with 1024 crawl iterations allowed. -/
theorem CalcFromCode_0x33_witness :
    (739 : Nat) ≤ 1024 ∧
    ∃ bg1 w, (CBalaGray.new true).CalcFromCode 1024 none 0x33 CWinner.new
        = .returned true bg1 w ∧
      w.m_bIsProven = true ∧ w.m_nPlaces = 2 ∧ w.m_arrNum.length = 9 ∧
      w.m_nImbalance = 1 ∧ w.m_nMaxTrans = 5 ∧
      w.m_arrNum.Perm ((List.range 9).map (fun (i : Nat) => bg1.Unpack (i : Int))) ∧
      IsGrayCycle 2 w.m_arrNum :=
  ⟨by decide, CalcFromCode_0x33 1024 (by decide)⟩

theorem crawlIter_inv (c : CalcConsts) :
    ∀ (n : Nat) (bg : CBalaGray) (loc : CalcLocals) (bgn : CBalaGray) (locn : CalcLocals),
      CrawlCtx c bg → LoopTop c bg loc → BestOK c bg loc →
      crawlIter c n bg loc = some (bgn, locn) →
      bgn.frame = bg.frame ∧ LoopTop c bgn locn ∧ BestOK c bgn locn := by
  intro n
  induction n with
  | zero =>
    intro bg loc bgn locn _ htop hbest h
    simp only [crawlIter, Option.some.injEq, Prod.mk.injEq] at h
    obtain ⟨rfl, rfl⟩ := h
    exact ⟨rfl, htop, hbest⟩
  | succ n ih =>
    intro bg loc bgn locn hctx htop hbest h
    unfold crawlIter at h
    have hpost := crawlStep_inv c bg loc hctx htop hbest
    revert h hpost
    generalize crawlStep c bg loc = st
    obtain ⟨bg1, loc1, brk⟩ := st
    intro h hpost
    cases brk with
    | true => simp at h
    | false =>
      simp only at h
      obtain ⟨h1, h2, h3⟩ := ih bg1 loc1 bgn locn (CrawlCtx_frame hpost.1 hctx) (hpost.2.2 rfl)
        hpost.2.1 h
      exact ⟨h1.trans hpost.1, h2, h3⟩

theorem crawlTop_inv (bg : CBalaGray) (nPlaces : Nat) (parrBase : List Nat) (n : Nat)
    (c : CalcConsts) (bgn : CBalaGray) (locn : CalcLocals)
    (hv : ValidRadix nPlaces parrBase)
    (h : bg.crawlTop nPlaces parrBase n = some (c, bgn, locn)) :
    ∃ W, wrapMaskLoop (bg.prepared nPlaces parrBase).m_arrGraySuccessor
        (bg.prepared nPlaces parrBase).m_nGraySuccessors 0 0 = some W ∧
      c = crawlConsts (bg.prepared nPlaces parrBase) W ∧
      bgn.frame = (bg.prepared nPlaces parrBase).frame ∧
      CrawlCtx c bgn ∧ LoopTop c bgn locn ∧ BestOK c bgn locn := by
  unfold CBalaGray.crawlTop at h
  revert h
  cases hW : wrapMaskLoop (bg.prepared nPlaces parrBase).m_arrGraySuccessor
      (bg.prepared nPlaces parrBase).m_nGraySuccessors 0 0 with
  | none => intro h; simp at h
  | some W =>
    simp only
    cases hI : crawlIter (crawlConsts (bg.prepared nPlaces parrBase) W) n
        (crawlStart (bg.prepared nPlaces parrBase))
        (crawlLocals (bg.prepared nPlaces parrBase)) with
    | none => intro h; simp at h
    | some r =>
      obtain ⟨b1, l1⟩ := r
      intro h
      simp only [Option.some.injEq, Prod.mk.injEq] at h
      obtain ⟨rfl, rfl, rfl⟩ := h
      have hOK := withNumerals_NumeralsOK bg.Reset nPlaces parrBase hv
      have hctxT : CrawlCtx (crawlConsts (bg.prepared nPlaces parrBase) W)
          (bg.prepared nPlaces parrBase) := start_ctx _ hOK W hW
      have hctx : CrawlCtx (crawlConsts (bg.prepared nPlaces parrBase) W)
          (crawlStart (bg.prepared nPlaces parrBase)) :=
        @CrawlCtx_frame _ (bg.prepared nPlaces parrBase)
          (crawlStart (bg.prepared nPlaces parrBase)) rfl hctxT
      obtain ⟨h1, h2, h3⟩ := crawlIter_inv _ n _ _ _ _ hctx (start_top _ hOK rfl W)
        (start_best (bg.prepared nPlaces parrBase) W) hI
      exact ⟨W, rfl, rfl, h1, CrawlCtx_frame h1 hctx, h2, h3⟩

/-- C30: crawler invariant. For every valid radix vector, at the top of every
iteration of the crawl of `Calc`, with current depth `t` (between 2, the
start depth, and N - 1): bit `k` of the 128-bit used mask is set if and only
if numeral `k` is stored at some depth below `t`; the numerals at the depths
`0 .. t-1` are pairwise distinct; depth 0 holds numeral 0 and depth 1 holds
numeral 1; each of them differs from its predecessor in exactly one place;
and the transition-count vector stored at every depth `s < t`, depth `t - 1`
in particular, holds for each place the number of changes of that place
along the depths `0 .. s`, the wrap excluded. -/
theorem crawl_invariant (bg : CBalaGray) (nPlaces : Nat) (parrBase : List Nat) (n : Nat)
    (c : CalcConsts) (bgn : CBalaGray) (locn : CalcLocals)
    (hv : ValidRadix nPlaces parrBase)
    (h : bg.crawlTop nPlaces parrBase n = some (c, bgn, locn)) :
    c.nStartDepth = 2 ∧ c.nNumerals = placeWeight parrBase nPlaces ∧
    2 ≤ locn.iDepth ∧ locn.iDepth < c.nNumerals ∧
    (∀ k < 128, (locn.usedBit k = true ↔ ∃ s < locn.iDepth, (bgn.state s).iNum = k)) ∧
    (∀ s₁ < locn.iDepth, ∀ s₂ < locn.iDepth,
      (bgn.state s₁).iNum = (bgn.state s₂).iNum → s₁ = s₂) ∧
    (bgn.state 0).iNum = 0 ∧ (bgn.state 1).iNum = 1 ∧
    (∀ s, s + 1 < locn.iDepth →
      differInOnePlace nPlaces (bgn.stateNum s) (bgn.stateNum (s + 1))) ∧
    (∀ s < locn.iDepth, ∀ p < nPlaces,
      (bgn.state s).nTrans.b p = bgn.pathCount s p) := by
  obtain ⟨W, hW, hc, hfr, hctx, ⟨hpath, _⟩, _⟩ :=
    crawlTop_inv bg nPlaces parrBase n c bgn locn hv h
  have hpl : bgn.m_nPlaces = nPlaces := frame_places hfr
  refine ⟨hctx.hStart, by rw [hc]; exact prepared_count bg nPlaces parrBase, hpath.hd2,
    hpath.hdN, ?_, ?_, hpath.h0, hpath.h1, ?_, ?_⟩
  · intro k hk
    rw [hpath.hmask k hk, mem_pathNums]
  · intro s₁ h1 s₂ h2 e
    have hnd := hpath.hnodup
    have := nodup_getD_inj hnd (show s₁ < (bgn.pathNums locn.iDepth).length by
        rw [pathNums_length]; exact h1)
      (show s₂ < (bgn.pathNums locn.iDepth).length by rw [pathNums_length]; exact h2)
      (by rw [pathNums_getD bgn _ s₁ h1, pathNums_getD bgn _ s₂ h2]; exact e)
    exact this
  · intro s hs
    rw [← hpl]
    exact hpath.hgray s hs
  · intro s hs p hp
    exact (hpath.htrans s hs).2 p (by rw [hpl]; exact hp)

/-- Witness of C30 on the radix vector (2, 2), at the top of iteration 3 (the
crawl stands at depth 3, the leaf depth). -/
theorem crawl_invariant_witness :
    (ValidRadix 2 [2, 2] ∧
      (CBalaGray.new true).crawlTop 2 [2, 2] 3
        = some (crawlConsts ((CBalaGray.new true).prepared 2 [2, 2]) 6,
            exampleIter22.1, exampleIter22.2)) ∧
    exampleIter22.2.iDepth = 3 ∧
    ((crawlConsts ((CBalaGray.new true).prepared 2 [2, 2]) 6).nStartDepth = 2 ∧
      (crawlConsts ((CBalaGray.new true).prepared 2 [2, 2]) 6).nNumerals
        = placeWeight [2, 2] 2 ∧
      2 ≤ exampleIter22.2.iDepth ∧
      exampleIter22.2.iDepth
        < (crawlConsts ((CBalaGray.new true).prepared 2 [2, 2]) 6).nNumerals ∧
      (∀ k < 128, (exampleIter22.2.usedBit k = true
        ↔ ∃ s < exampleIter22.2.iDepth, (exampleIter22.1.state s).iNum = k)) ∧
      (∀ s₁ < exampleIter22.2.iDepth, ∀ s₂ < exampleIter22.2.iDepth,
        (exampleIter22.1.state s₁).iNum = (exampleIter22.1.state s₂).iNum → s₁ = s₂) ∧
      (exampleIter22.1.state 0).iNum = 0 ∧ (exampleIter22.1.state 1).iNum = 1 ∧
      (∀ s, s + 1 < exampleIter22.2.iDepth →
        differInOnePlace 2 (exampleIter22.1.stateNum s) (exampleIter22.1.stateNum (s + 1))) ∧
      (∀ s < exampleIter22.2.iDepth, ∀ p < 2,
        (exampleIter22.1.state s).nTrans.b p = exampleIter22.1.pathCount s p)) :=
  ⟨⟨by decide, by decide⟩, by decide,
    crawl_invariant (CBalaGray.new true) 2 [2, 2] 3 _ exampleIter22.1 exampleIter22.2
      (by decide) (by decide)⟩

theorem start_wrap_conv (bgN : CBalaGray) (hOK : bgN.NumeralsOK) (W : Nat)
    (hW : wrapMaskLoop bgN.MakeGraySuccessorTable.m_arrGraySuccessor
      bgN.MakeGraySuccessorTable.m_nGraySuccessors 0 0 = some W) :
    ∀ j < bgN.radixProduct, differInOnePlace bgN.m_nPlaces (bgN.num 0) (bgN.num j) →
      j < 64 ∧ W.testBit j = true := by
  have hN4 := NumeralsOK_four_le hOK
  intro j hj hdiff
  have hmem := ((tableRow_correct bgN hOK 0 (by omega)).2.2.2 j hj).mpr hdiff
  unfold CBalaGray.tableRow at hmem
  obtain ⟨col, hcol, e⟩ := List.mem_map.mp hmem
  have hcol' := List.mem_range.mp hcol
  simp only [Nat.zero_shiftLeft, Nat.zero_add] at e
  constructor
  · by_contra h64
    have hnone := (wrapMaskLoop_none_iff bgN.MakeGraySuccessorTable.m_arrGraySuccessor
      bgN.MakeGraySuccessorTable.m_nGraySuccessors 0 0).mpr
        ⟨col, Nat.zero_le _, by omega, by rw [e]; omega⟩
    rw [hW] at hnone
    exact absurd hnone (by simp)
  · exact (wrapMaskLoop_bits_iff _ _ _ _ _ hW j).mpr
      (Or.inr ⟨col, Nat.zero_le _, by omega, e⟩)

theorem leaf_wrap_test {c : CalcConsts} {bg : CBalaGray} {loc : CalcLocals} {x : Nat}
    (hctx : CrawlCtx c bg) (hpath : PathInv c bg loc.usedBit loc.iDepth)
    (hconv : ∀ j < c.nNumerals, differInOnePlace bg.m_nPlaces (bg.num 0) (bg.num j) →
      j < 64 ∧ c.nGrayWrapMask.testBit j = true)
    (hleaf : loc.iDepth + 1 = c.nNumerals) (hxN : x < c.nNumerals)
    (hun : loc.usedMask (usedMaskIndex x) &&& numeralMask x = 0) :
    (loc.usedMask 0 &&& c.nGrayWrapMask ≠ c.nGrayWrapMask
      ↔ differInOnePlace bg.m_nPlaces (bg.num 0) (bg.num x)) := by
  have hN := hctx.hN127
  have hxu := (usedBit_test loc x).mp hun
  have hxnew : x ∉ bg.pathNums loc.iDepth := by
    intro hm
    have := (hpath.hmask x (by omega)).mpr hm
    rw [hxu] at this
    exact absurd this (by decide)
  constructor
  · intro hne
    obtain ⟨j, hj1, hj2⟩ := (and_ne_self_iff _ _).mp hne
    obtain ⟨hj64, hjN, hjd⟩ := hctx.hwrap j hj1
    have hjnew : j ∉ bg.pathNums loc.iDepth := by
      intro hm
      have h1 := (hpath.hmask j (by omega)).mpr hm
      rw [usedBit_low loc j hj64, hj2] at h1
      exact absurd h1 (by decide)
    have hnd : (bg.pathNums loc.iDepth ++ [x]).Nodup := by
      apply List.Nodup.append hpath.hnodup (List.nodup_singleton _)
      intro a ha1 ha2
      rw [List.mem_singleton] at ha2
      subst ha2
      exact hxnew ha1
    have hm := nodup_full _ c.nNumerals hnd
      (by rw [List.length_append, pathNums_length, List.length_singleton]; exact hleaf)
      (by
        intro y hy
        rw [List.mem_append, List.mem_singleton] at hy
        rcases hy with hy | hy
        · obtain ⟨t, ht, rfl⟩ := (mem_pathNums bg _ y).mp hy
          exact hpath.hlt t ht
        · rw [hy]; exact hxN) j hjN
    rw [List.mem_append, List.mem_singleton] at hm
    rcases hm with hm | hm
    · exact absurd hm hjnew
    · rw [← hm]; exact hjd
  · intro hd
    obtain ⟨h64, hbit⟩ := hconv x hxN hd
    rw [and_ne_self_iff]
    exact ⟨x, hbit, by rw [← usedBit_low loc x h64]; exact hxu⟩

/-- C29: whenever a call of `Calc` on a valid radix vector, finished or
cancelled, returns true with a recorded best (the returned imbalance is not
`INT_MAX`), the returned sequence is a Hamiltonian Gray cycle: it has N
entries, starts with numeral 0 followed by numeral 1, is a permutation of the
N numerals `Unpack i`, and every entry differs from its cyclic successor in
exactly one place. In particular, at the top of an iteration of the crawl at
the leaf depth N - 1, an unused candidate passes the wrap-mask test if and
only if it differs from numeral 0 in exactly one place. -/
theorem Calc_best_hamiltonian (bg : CBalaGray) (fuel : Nat) (cancelAt : Option Nat)
    (nPlaces : Nat) (parrBase : List Nat) (w0 w : CWinner) (bg1 : CBalaGray)
    (hv : ValidRadix nPlaces parrBase)
    (h : bg.Calc fuel cancelAt (nPlaces : Int) parrBase w0 = .returned true bg1 w)
    (hrec : w.m_nImbalance ≠ INT_MAX) :
    (w.m_arrNum.length = placeWeight parrBase nPlaces ∧
      w.m_arrNum.getD 0 zeroNumeral = bg1.Unpack (0 : Nat) ∧
      w.m_arrNum.getD 1 zeroNumeral = bg1.Unpack (1 : Nat) ∧
      w.m_arrNum.Perm ((List.range (placeWeight parrBase nPlaces)).map
        (fun (i : Nat) => bg1.Unpack (i : Int))) ∧
      IsGrayCycle nPlaces w.m_arrNum) ∧
    (∀ (n : Nat) (c : CalcConsts) (bgn : CBalaGray) (locn : CalcLocals),
      bg.crawlTop nPlaces parrBase n = some (c, bgn, locn) →
      locn.iDepth + 1 = c.nNumerals →
      locn.usedMask (usedMaskIndex (candidateNum c bgn locn))
        &&& numeralMask (candidateNum c bgn locn) = 0 →
      (locn.usedMask 0 &&& c.nGrayWrapMask ≠ c.nGrayWrapMask
        ↔ differInOnePlace nPlaces (bgn.num 0) (bgn.num (candidateNum c bgn locn)))) := by
  have hOK := withNumerals_NumeralsOK bg.Reset nPlaces parrBase hv
  have hrp : (bg.Reset.withNumerals nPlaces parrBase).radixProduct
      = placeWeight parrBase nPlaces := by
    rw [← NumeralsOK_length hOK]
    simp [CBalaGray.withNumerals]
  have hN4 := NumeralsOK_four_le hOK
  rw [hrp] at hN4
  constructor
  · obtain ⟨W, bgF, locF, nReads, hW, hL, hb, hw, himb, hmt⟩ :=
      Calc_returned_true bg fuel cancelAt nPlaces parrBase w0 w bg1 hv h
    have hcount := prepared_count bg nPlaces parrBase
    have hctxT : CrawlCtx (crawlConsts (bg.prepared nPlaces parrBase) W)
        (bg.prepared nPlaces parrBase) := start_ctx _ hOK W hW
    have hctx : CrawlCtx (crawlConsts (bg.prepared nPlaces parrBase) W)
        (crawlStart (bg.prepared nPlaces parrBase)) :=
      @CrawlCtx_frame _ (bg.prepared nPlaces parrBase)
        (crawlStart (bg.prepared nPlaces parrBase)) rfl hctxT
    have htop := start_top _ hOK rfl W
    have hbest0 := start_best (bg.prepared nPlaces parrBase) W
    obtain ⟨hfr, hbest⟩ := crawlLoop_inv _ cancelAt fuel 0 _ _ _ hctx htop hbest0 hL
    have hspan := crawlLoop_span _ cancelAt fuel 0 _ _ _ hctx htop hbest0
      (start_span (bg.prepared nPlaces parrBase)) hL
    simp only at hfr hbest hspan
    have hfr' : bgF.frame = (bg.prepared nPlaces parrBase).frame := hfr
    have hnum : bgF.num = (bg.Reset.withNumerals nPlaces parrBase).num :=
      funext (fun i => frame_num hfr' i)
    have hpl : bgF.m_nPlaces = nPlaces := frame_places hfr'
    have hun : ∀ x, bg1.Unpack x = (bg.Reset.withNumerals nPlaces parrBase).Unpack x := by
      intro x
      have e1 : bg1.frame.m_arrBase = bgF.frame.m_arrBase := by rw [hb]
      have e2 : bg1.frame.m_nPlaces = bgF.frame.m_nPlaces := by rw [hb]
      have e3 : bgF.frame.m_arrBase = (bg.prepared nPlaces parrBase).frame.m_arrBase := by
        rw [hfr']
      have e1' : bg1.m_arrBase = (bg.Reset.withNumerals nPlaces parrBase).m_arrBase :=
        e1.trans e3
      have e2' : bg1.m_nPlaces = (bg.Reset.withNumerals nPlaces parrBase).m_nPlaces :=
        e2.trans hpl
      unfold CBalaGray.Unpack
      rw [e1', e2']
    obtain ⟨hlen, _, hsome⟩ := hbest
    have hN : (crawlConsts (bg.prepared nPlaces parrBase) W).nNumerals
        = placeWeight parrBase nPlaces := hcount
    rw [hN] at hlen hsome
    have hrecF : locF.nBestImbalance ≠ INT_MAX := by rw [← himb]; exact hrec
    obtain ⟨hnd, hlt, hcyc, _⟩ := hsome hrecF
    obtain ⟨p0, p1, _, _⟩ := hspan.2 hrecF
    have hwm : w.m_arrNum = locF.m_arrBestPerm.map
        (bg.Reset.withNumerals nPlaces parrBase).num := by
      rw [hw, hcount, foldl_set_range _ _ _ (resize_length _ _ _), hnum, ← hlen]
      exact map_getD_range_gen _ _
    have hnumU : ∀ i < placeWeight parrBase nPlaces,
        (bg.Reset.withNumerals nPlaces parrBase).num i = bg1.Unpack (i : Int) := by
      intro i hi
      rw [hun, NumeralsOK_num hOK i (by rw [hrp]; exact hi)]
    refine ⟨by rw [hwm, List.length_map, hlen], ?_, ?_, ?_, ?_⟩
    · rw [hwm, map_num_getD _ _ 0 (by omega), p0]
      exact hnumU 0 (by omega)
    · rw [hwm, map_num_getD _ _ 1 (by omega), p1]
      exact hnumU 1 (by omega)
    · rw [hwm]
      have hp := (nodup_perm_range locF.m_arrBestPerm _ hnd hlen hlt).map
        (bg.Reset.withNumerals nPlaces parrBase).num
      have he : (List.range (placeWeight parrBase nPlaces)).map
            (bg.Reset.withNumerals nPlaces parrBase).num
          = (List.range (placeWeight parrBase nPlaces)).map
            (fun (i : Nat) => bg1.Unpack (i : Int)) := by
        apply List.map_congr_left
        intro i hi
        exact hnumU i (List.mem_range.mp hi)
      rw [← he]
      exact hp
    · rw [hwm, ← hnum, ← hpl]; exact hcyc
  · intro n c bgn locn htopn hleaf hunused
    obtain ⟨W, hW, hc, hfr, hctx, ⟨hpath, hgrayc⟩, _⟩ :=
      crawlTop_inv bg nPlaces parrBase n c bgn locn hv htopn
    have hpl : bgn.m_nPlaces = nPlaces := frame_places hfr
    have hprev := hpath.hlt (locn.iDepth - 1) (by have := hpath.hd2; omega)
    have hxN := (hctx.hrow _ hprev _ hgrayc).1
    have hconvT := start_wrap_conv _ hOK W hW
    have hNc : c.nNumerals = placeWeight parrBase nPlaces := by
      rw [hc]; exact prepared_count bg nPlaces parrBase
    have hconv : ∀ j < c.nNumerals,
        differInOnePlace bgn.m_nPlaces (bgn.num 0) (bgn.num j) →
        j < 64 ∧ c.nGrayWrapMask.testBit j = true := by
      intro j hj hd
      have hnum : ∀ i, bgn.num i = (bg.Reset.withNumerals nPlaces parrBase).num i :=
        fun i => frame_num hfr i
      rw [hnum, hnum, hpl] at hd
      have := hconvT j (by rw [hrp, ← hNc]; exact hj) hd
      rw [hc]
      exact this
    rw [← hpl]
    exact leaf_wrap_test hctx hpath hconv hleaf hxN hunused

/-- Witness of C29 on the radix vector (2, 2): the uncancelled call records a
winner, and at the top of iteration 2 the crawl stands at the leaf depth 3
with the unused candidate numeral 2, which passes the wrap-mask test. -/
theorem Calc_best_hamiltonian_witness :
    (ValidRadix 2 [2, 2] ∧
      (CBalaGray.new true).Calc 64 none ((2 : Nat) : Int) [2, 2] CWinner.new
        = .returned true exampleRun22.object exampleRun22.winner ∧
      exampleRun22.winner.m_nImbalance ≠ INT_MAX) ∧
    ((CBalaGray.new true).crawlTop 2 [2, 2] 2
        = some (crawlConsts ((CBalaGray.new true).prepared 2 [2, 2]) 6,
            exampleLeaf22.1, exampleLeaf22.2) ∧
      exampleLeaf22.2.iDepth + 1
        = (crawlConsts ((CBalaGray.new true).prepared 2 [2, 2]) 6).nNumerals ∧
      candidateNum (crawlConsts ((CBalaGray.new true).prepared 2 [2, 2]) 6)
        exampleLeaf22.1 exampleLeaf22.2 = 2 ∧
      exampleLeaf22.2.usedMask (usedMaskIndex 2) &&& numeralMask 2 = 0 ∧
      differInOnePlace 2 (exampleLeaf22.1.num 0) (exampleLeaf22.1.num 2)) ∧
    (exampleRun22.winner.m_arrNum.length = placeWeight [2, 2] 2 ∧
      exampleRun22.winner.m_arrNum.getD 0 zeroNumeral = exampleRun22.object.Unpack (0 : Nat) ∧
      exampleRun22.winner.m_arrNum.getD 1 zeroNumeral = exampleRun22.object.Unpack (1 : Nat) ∧
      exampleRun22.winner.m_arrNum.Perm ((List.range (placeWeight [2, 2] 2)).map
        (fun (i : Nat) => exampleRun22.object.Unpack (i : Int))) ∧
      IsGrayCycle 2 exampleRun22.winner.m_arrNum) ∧
    (∀ (n : Nat) (c : CalcConsts) (bgn : CBalaGray) (locn : CalcLocals),
      (CBalaGray.new true).crawlTop 2 [2, 2] n = some (c, bgn, locn) →
      locn.iDepth + 1 = c.nNumerals →
      locn.usedMask (usedMaskIndex (candidateNum c bgn locn))
        &&& numeralMask (candidateNum c bgn locn) = 0 →
      (locn.usedMask 0 &&& c.nGrayWrapMask ≠ c.nGrayWrapMask
        ↔ differInOnePlace 2 (bgn.num 0) (bgn.num (candidateNum c bgn locn)))) :=
  ⟨⟨by decide, by decide, by decide⟩, ⟨by decide, by decide, by decide, by decide, by decide⟩,
    Calc_best_hamiltonian (CBalaGray.new true) 64 none 2 [2, 2] CWinner.new
      exampleRun22.winner exampleRun22.object (by decide) (by decide) (by decide)⟩

theorem lblPrune_depth_le (c : CalcConsts) : ∀ (d : Nat) (bg : CBalaGray) (loc : CalcLocals),
    (lblPrune c d bg loc).2.1.iDepth ≤ d := by
  intro d
  induction d with
  | zero =>
    intro bg loc
    unfold lblPrune
    exact le_refl _
  | succ d ih =>
    intro bg loc
    unfold lblPrune
    by_cases hs : d + 1 ≤ c.nStartDepth
    · rw [if_pos hs]
    · rw [if_neg hs]
      simp only
      by_cases hg : ((bg.state d).iGray + 1) % 256 ≥ c.nGraySuccessors
      · rw [if_pos hg]
        exact le_trans (ih _ _) (Nat.le_succ d)
      · rw [if_neg hg]
        exact Nat.le_succ d

theorem crawlTop_thresholds (bg : CBalaGray) (nPlaces : Nat) (parrBase : List Nat)
    (bgn : CBalaGray) (hfr : bgn.frame = (bg.prepared nPlaces parrBase).frame) :
    bgn.m_nPruneMaxTrans = bg.m_nPruneMaxTrans ∧ bgn.m_nPruneImbalance = bg.m_nPruneImbalance := by
  have e1 : bgn.frame.m_nPruneMaxTrans = (bg.prepared nPlaces parrBase).frame.m_nPruneMaxTrans := by
    rw [hfr]
  have e2 : bgn.frame.m_nPruneImbalance
      = (bg.prepared nPlaces parrBase).frame.m_nPruneImbalance := by
    rw [hfr]
  exact ⟨e1, e2⟩

theorem max_unique {P : Nat} {f : Nat → Nat} {a : Int} {b : Nat}
    (h1 : ∀ p < P, (f p : Int) ≤ a) (h2 : ∃ p < P, (f p : Int) = a)
    (h3 : ∀ p < P, f p ≤ b) (h4 : ∃ p < P, f p = b) : a = (b : Int) := by
  obtain ⟨p, hp, hpe⟩ := h2
  obtain ⟨q, hq, hqe⟩ := h4
  have := h1 q hq
  have := h3 p hp
  omega

theorem min_unique {P : Nat} {f : Nat → Nat} {a b : Nat}
    (h1 : ∀ p < P, a ≤ f p) (h2 : ∃ p < P, f p = a)
    (h3 : ∀ p < P, b ≤ f p) (h4 : ∃ p < P, f p = b) : a = b := by
  obtain ⟨p, hp, hpe⟩ := h2
  obtain ⟨q, hq, hqe⟩ := h4
  have := h1 q hq
  have := h3 p hp
  omega

/-- C27 (amended): at the top of an iteration of the crawl at an interior
depth `t < N - 1`, for an unused candidate `x` that passes the wrap-mask
test, with `mx` and `mn` the greatest and the least of the wrap-adjusted
counts (the vector of depth `t - 1` with the place in which `x` differs from
its predecessor incremented, and then every place in which `x` is not zero
incremented): the iteration descends to depth `t + 1` if and only if
`mx <= PruneMaxTrans` and `mx - mn <= PruneImbalance`, and otherwise the
candidate is pruned (`goto lblPrune`). On descent the frame of depth `t`
holds `x` and the updated counts without the wrap adjustment, and the column
of depth `t + 1` is 0. -/
theorem interior_prune_test (bg : CBalaGray) (nPlaces : Nat) (parrBase : List Nat) (n : Nat)
    (c : CalcConsts) (bgn : CBalaGray) (locn : CalcLocals) (mx mn : Nat)
    (hv : ValidRadix nPlaces parrBase)
    (h : bg.crawlTop nPlaces parrBase n = some (c, bgn, locn))
    (hint : locn.iDepth + 1 < c.nNumerals)
    (hun : locn.usedMask (usedMaskIndex (candidateNum c bgn locn))
      &&& numeralMask (candidateNum c bgn locn) = 0)
    (hwr : locn.usedMask 0 &&& c.nGrayWrapMask ≠ c.nGrayWrapMask)
    (hmx : ∀ p < nPlaces, stepWrapCount bgn locn.iDepth (candidateNum c bgn locn) p ≤ mx)
    (hmxa : ∃ p < nPlaces, stepWrapCount bgn locn.iDepth (candidateNum c bgn locn) p = mx)
    (hmn : ∀ p < nPlaces, mn ≤ stepWrapCount bgn locn.iDepth (candidateNum c bgn locn) p)
    (hmna : ∃ p < nPlaces, stepWrapCount bgn locn.iDepth (candidateNum c bgn locn) p = mn) :
    ((crawlStep c bgn locn).2.1.iDepth = locn.iDepth + 1
      ↔ ((mx : Int) ≤ bg.m_nPruneMaxTrans ∧ (mx : Int) - (mn : Int) ≤ bg.m_nPruneImbalance)) ∧
    ((crawlStep c bgn locn).2.1.iDepth = locn.iDepth + 1 →
      (crawlStep c bgn locn).2.2 = false ∧
      ((crawlStep c bgn locn).1.state locn.iDepth).iNum = candidateNum c bgn locn ∧
      (∀ p < nPlaces, ((crawlStep c bgn locn).1.state locn.iDepth).nTrans.b p
        = stepCount bgn locn.iDepth (candidateNum c bgn locn) p) ∧
      ((crawlStep c bgn locn).1.state (locn.iDepth + 1)).iGray = 0) ∧
    (¬ (crawlStep c bgn locn).2.1.iDepth = locn.iDepth + 1 →
      crawlStep c bgn locn = lblPrune c locn.iDepth
        (bgn.setState locn.iDepth
          { bgn.state locn.iDepth with iNum := candidateNum c bgn locn }) locn) := by
  obtain ⟨W, hW, hc, hfr, hctx, ⟨hpath, hgrayc⟩, _⟩ :=
    crawlTop_inv bg nPlaces parrBase n c bgn locn hv h
  obtain ⟨ht1, ht2⟩ := crawlTop_thresholds bg nPlaces parrBase bgn hfr
  have hpl : bgn.m_nPlaces = nPlaces := frame_places hfr
  have hd2 := hpath.hd2
  have hdN := hpath.hdN
  have hN := hctx.hN127
  unfold candidateNum at hun hmx hmxa hmn hmna ⊢
  unfold crawlStep
  simp only
  generalize bgn.m_arrGraySuccessor.getD
    (((bgn.state (locn.iDepth - 1)).iNum <<< c.nGrayStrideShift)
      + (bgn.state locn.iDepth).iGray) 0 = x at hun hmx hmxa hmn hmna ⊢
  rw [if_pos ⟨hun, hwr⟩]
  have ha : StatesAgree bgn (bgn.setState locn.iDepth
      ⟨x, (bgn.state locn.iDepth).iGray, (bgn.state locn.iDepth).nTrans⟩) locn.iDepth :=
    StatesAgree_setState bgn _ _ _ (le_refl _)
  have hs : (bgn.setState locn.iDepth
      ⟨x, (bgn.state locn.iDepth).iGray, (bgn.state locn.iDepth).nTrans⟩).state locn.iDepth
        = ⟨x, (bgn.state locn.iDepth).iGray, (bgn.state locn.iDepth).nTrans⟩ := by
    rw [state_setState, if_pos ⟨rfl, by rw [hpath.hlen]; exact hdN⟩]
  generalize bgn.setState locn.iDepth
      ⟨x, (bgn.state locn.iDepth).iGray, (bgn.state locn.iDepth).nTrans⟩ = bg1 at ha hs ⊢
  have hctx1 := CrawlCtx_frame ha.1 hctx
  have hpath1 := PathInv_frame hpath ha
  have hlen1 : bg1.m_arrState.length = c.nNumerals := hpath1.hlen
  have hsn : bg1.stateNum locn.iDepth = bgn.num x := by
    unfold CBalaGray.stateNum
    rw [hs, frame_num ha.1]
  have hsp : bg1.stateNum (locn.iDepth - 1) = bgn.stateNum (locn.iDepth - 1) :=
    StatesAgree_stateNum ha _ (by omega)
  have htr := hpath1.htrans (locn.iDepth - 1) (by omega)
  have hcb := ComputeBalance_spec bg1 locn.iDepth hctx1.hP1 hctx1.hP8 htr.1 (by
    intro p hp
    rw [htr.2 p hp]
    have := pathCount_le bg1 (locn.iDepth - 1) p
    omega)
  obtain ⟨hcl, hcc, hbx, hbxa, mn1, hbn, hbna, himb⟩ := hcb
  have hpl1 : bg1.m_nPlaces = nPlaces := (frame_places ha.1).trans hpl
  have hwc : ∀ p, bg1.wrapCount locn.iDepth p = stepWrapCount bgn locn.iDepth x p := by
    intro p
    unfold CBalaGray.wrapCount stepWrapCount stepCount
    rw [hsn, hsp, (ha.2.2 (locn.iDepth - 1) (by omega)).2]
  have hsc : ∀ p < nPlaces, (bg1.ComputeBalance locn.iDepth).2.2.b p
      = stepCount bgn locn.iDepth x p := by
    intro p hp
    rw [hcc p (by rw [hpl1]; exact hp)]
    unfold stepCount
    rw [hsn, hsp, (ha.2.2 (locn.iDepth - 1) (by omega)).2]
  rw [hpl1] at hbx hbxa hbn hbna
  have emx : (bg1.ComputeBalance locn.iDepth).2.1 = (mx : Int) :=
    max_unique (fun p hp => by rw [← hwc]; exact hbx p hp)
      (by obtain ⟨p, hp, e⟩ := hbxa; exact ⟨p, hp, by rw [← hwc]; exact e⟩) hmx hmxa
  have emn : mn1 = mn :=
    min_unique (fun p hp => by rw [← hwc]; exact hbn p hp)
      (by obtain ⟨p, hp, e⟩ := hbna; exact ⟨p, hp, by rw [← hwc]; exact e⟩) hmn hmna
  have ethr1 : bg1.m_nPruneMaxTrans = bg.m_nPruneMaxTrans := by
    have e : bg1.frame.m_nPruneMaxTrans = bgn.frame.m_nPruneMaxTrans := by rw [ha.1]
    exact e.trans ht1
  have ethr2 : bg1.m_nPruneImbalance = bg.m_nPruneImbalance := by
    have e : bg1.frame.m_nPruneImbalance = bgn.frame.m_nPruneImbalance := by rw [ha.1]
    exact e.trans ht2
  rw [emx, emn] at himb
  revert hsc
  rw [ethr1, ethr2, himb, emx]
  generalize (bg1.ComputeBalance locn.iDepth).2.2 = cnt
  intro hsc
  have hint' : (locn.iDepth : Int) < (c.nNumerals : Int) - 1 := by omega
  rw [if_pos hint']
  by_cases hpr : (mx : Int) > bg.m_nPruneMaxTrans ∨ (mx : Int) - (mn : Int) > bg.m_nPruneImbalance
  · rw [if_pos hpr]
    have hle := lblPrune_depth_le c locn.iDepth bg1 locn
    have hne : ¬ (lblPrune c locn.iDepth bg1 locn).2.1.iDepth = locn.iDepth + 1 := by omega
    refine ⟨⟨fun e => absurd e hne, fun e => ?_⟩, fun e => absurd e hne, fun _ => rfl⟩
    exfalso
    rcases hpr with hpr | hpr <;> omega
  · rw [if_neg hpr]
    refine ⟨⟨fun _ => ⟨by omega, by omega⟩, fun _ => rfl⟩, fun _ => ⟨rfl, ?_, ?_, ?_⟩,
      fun e => absurd rfl e⟩
    · show (((bg1.setState locn.iDepth { bg1.state locn.iDepth with nTrans := cnt }).setState
        (locn.iDepth + 1) _).state locn.iDepth).iNum = x
      rw [state_setState, if_neg (by omega), state_setState,
        if_pos ⟨rfl, by rw [hlen1]; omega⟩, hs]
    · intro p hp
      show (((bg1.setState locn.iDepth { bg1.state locn.iDepth with nTrans := cnt }).setState
        (locn.iDepth + 1) _).state locn.iDepth).nTrans.b p = _
      rw [state_setState, if_neg (by omega), state_setState,
        if_pos ⟨rfl, by rw [hlen1]; omega⟩]
      exact hsc p hp
    · show (((bg1.setState locn.iDepth { bg1.state locn.iDepth with nTrans := cnt }).setState
        (locn.iDepth + 1) _).state (locn.iDepth + 1)).iGray = 0
      rw [state_setState, if_pos ⟨rfl, by rw [setState_length, hlen1]; omega⟩]

/-- Witness of C27 (amended) on the radix vector (2, 2) with the default
thresholds, at the top of iteration 1: depth 2, candidate numeral 3 = (1,1)
after the path (0,0), (1,0); the wrap-adjusted counts are 2 and 2, the
counts without the wrap 1 and 1, and the crawl descends. -/
theorem interior_prune_test_witness :
    (ValidRadix 2 [2, 2] ∧
      (CBalaGray.new true).crawlTop 2 [2, 2] 1
        = some ((CBalaGray.new true).crawlTopAt 2 [2, 2] 1) ∧
      ((CBalaGray.new true).crawlTopAt 2 [2, 2] 1).2.2.iDepth + 1
        < ((CBalaGray.new true).crawlTopAt 2 [2, 2] 1).1.nNumerals ∧
      candidateNum ((CBalaGray.new true).crawlTopAt 2 [2, 2] 1).1
        ((CBalaGray.new true).crawlTopAt 2 [2, 2] 1).2.1
        ((CBalaGray.new true).crawlTopAt 2 [2, 2] 1).2.2 = 3) ∧
    (stepCount ((CBalaGray.new true).crawlTopAt 2 [2, 2] 1).2.1 2 3 0 = 1 ∧
      stepCount ((CBalaGray.new true).crawlTopAt 2 [2, 2] 1).2.1 2 3 1 = 1) ∧
    (((crawlStep ((CBalaGray.new true).crawlTopAt 2 [2, 2] 1).1
          ((CBalaGray.new true).crawlTopAt 2 [2, 2] 1).2.1
          ((CBalaGray.new true).crawlTopAt 2 [2, 2] 1).2.2).2.1.iDepth
        = ((CBalaGray.new true).crawlTopAt 2 [2, 2] 1).2.2.iDepth + 1
      ↔ (((2 : Nat) : Int) ≤ (CBalaGray.new true).m_nPruneMaxTrans
        ∧ ((2 : Nat) : Int) - ((2 : Nat) : Int) ≤ (CBalaGray.new true).m_nPruneImbalance)) ∧
    ((crawlStep ((CBalaGray.new true).crawlTopAt 2 [2, 2] 1).1
          ((CBalaGray.new true).crawlTopAt 2 [2, 2] 1).2.1
          ((CBalaGray.new true).crawlTopAt 2 [2, 2] 1).2.2).2.1.iDepth
        = ((CBalaGray.new true).crawlTopAt 2 [2, 2] 1).2.2.iDepth + 1 →
      (crawlStep ((CBalaGray.new true).crawlTopAt 2 [2, 2] 1).1
          ((CBalaGray.new true).crawlTopAt 2 [2, 2] 1).2.1
          ((CBalaGray.new true).crawlTopAt 2 [2, 2] 1).2.2).2.2 = false ∧
      ((crawlStep ((CBalaGray.new true).crawlTopAt 2 [2, 2] 1).1
          ((CBalaGray.new true).crawlTopAt 2 [2, 2] 1).2.1
          ((CBalaGray.new true).crawlTopAt 2 [2, 2] 1).2.2).1.state
            ((CBalaGray.new true).crawlTopAt 2 [2, 2] 1).2.2.iDepth).iNum
        = candidateNum ((CBalaGray.new true).crawlTopAt 2 [2, 2] 1).1
            ((CBalaGray.new true).crawlTopAt 2 [2, 2] 1).2.1
            ((CBalaGray.new true).crawlTopAt 2 [2, 2] 1).2.2 ∧
      (∀ p < 2, ((crawlStep ((CBalaGray.new true).crawlTopAt 2 [2, 2] 1).1
          ((CBalaGray.new true).crawlTopAt 2 [2, 2] 1).2.1
          ((CBalaGray.new true).crawlTopAt 2 [2, 2] 1).2.2).1.state
            ((CBalaGray.new true).crawlTopAt 2 [2, 2] 1).2.2.iDepth).nTrans.b p
        = stepCount ((CBalaGray.new true).crawlTopAt 2 [2, 2] 1).2.1
            ((CBalaGray.new true).crawlTopAt 2 [2, 2] 1).2.2.iDepth
            (candidateNum ((CBalaGray.new true).crawlTopAt 2 [2, 2] 1).1
              ((CBalaGray.new true).crawlTopAt 2 [2, 2] 1).2.1
              ((CBalaGray.new true).crawlTopAt 2 [2, 2] 1).2.2) p) ∧
      ((crawlStep ((CBalaGray.new true).crawlTopAt 2 [2, 2] 1).1
          ((CBalaGray.new true).crawlTopAt 2 [2, 2] 1).2.1
          ((CBalaGray.new true).crawlTopAt 2 [2, 2] 1).2.2).1.state
            (((CBalaGray.new true).crawlTopAt 2 [2, 2] 1).2.2.iDepth + 1)).iGray = 0) ∧
    (¬ (crawlStep ((CBalaGray.new true).crawlTopAt 2 [2, 2] 1).1
          ((CBalaGray.new true).crawlTopAt 2 [2, 2] 1).2.1
          ((CBalaGray.new true).crawlTopAt 2 [2, 2] 1).2.2).2.1.iDepth
        = ((CBalaGray.new true).crawlTopAt 2 [2, 2] 1).2.2.iDepth + 1 →
      crawlStep ((CBalaGray.new true).crawlTopAt 2 [2, 2] 1).1
          ((CBalaGray.new true).crawlTopAt 2 [2, 2] 1).2.1
          ((CBalaGray.new true).crawlTopAt 2 [2, 2] 1).2.2
        = lblPrune ((CBalaGray.new true).crawlTopAt 2 [2, 2] 1).1
            ((CBalaGray.new true).crawlTopAt 2 [2, 2] 1).2.2.iDepth
            (((CBalaGray.new true).crawlTopAt 2 [2, 2] 1).2.1.setState
              ((CBalaGray.new true).crawlTopAt 2 [2, 2] 1).2.2.iDepth
              { ((CBalaGray.new true).crawlTopAt 2 [2, 2] 1).2.1.state
                  ((CBalaGray.new true).crawlTopAt 2 [2, 2] 1).2.2.iDepth with
                iNum := candidateNum ((CBalaGray.new true).crawlTopAt 2 [2, 2] 1).1
                  ((CBalaGray.new true).crawlTopAt 2 [2, 2] 1).2.1
                  ((CBalaGray.new true).crawlTopAt 2 [2, 2] 1).2.2 })
            ((CBalaGray.new true).crawlTopAt 2 [2, 2] 1).2.2)) :=
  ⟨⟨by decide, by decide, by decide, by decide⟩, ⟨by decide, by decide⟩,
    interior_prune_test (CBalaGray.new true) 2 [2, 2] 1 _ _ _ 2 2 (by decide) (by decide)
      (by decide) (by decide) (by decide) (by decide) (by decide) (by decide) (by decide)⟩

/-- C27, counterexample to the claim as stated: on the radix vector (2, 2)
after `SetPruneMaxTrans(1)`, at the top of iteration 1 the crawl stands at the
interior depth 2 with the unused candidate numeral 3 = (1,1), which passes the
wrap-mask test. The updated counts without the wrap are 1 and 1, so their
maximum 1 does not exceed `PruneMaxTrans` = 1 and their imbalance 0 does not
exceed `PruneImbalance` = 3; yet the candidate is pruned (the wrap-adjusted
counts are 2 and 2): the iteration does not descend, the loop is left, and
`Calc` returns without a winner. -/
theorem interior_prune_uses_wrap :
    ((CBalaGray.new true).SetPruneMaxTrans 1).crawlTop 2 [2, 2] 1
      = some (((CBalaGray.new true).SetPruneMaxTrans 1).crawlTopAt 2 [2, 2] 1) ∧
    (((CBalaGray.new true).SetPruneMaxTrans 1).crawlTopAt 2 [2, 2] 1).2.2.iDepth = 2 ∧
    (((CBalaGray.new true).SetPruneMaxTrans 1).crawlTopAt 2 [2, 2] 1).1.nNumerals = 4 ∧
    candidateNum (((CBalaGray.new true).SetPruneMaxTrans 1).crawlTopAt 2 [2, 2] 1).1
      (((CBalaGray.new true).SetPruneMaxTrans 1).crawlTopAt 2 [2, 2] 1).2.1
      (((CBalaGray.new true).SetPruneMaxTrans 1).crawlTopAt 2 [2, 2] 1).2.2 = 3 ∧
    (((CBalaGray.new true).SetPruneMaxTrans 1).crawlTopAt 2 [2, 2] 1).2.2.usedMask
      (usedMaskIndex 3) &&& numeralMask 3 = 0 ∧
    (((CBalaGray.new true).SetPruneMaxTrans 1).crawlTopAt 2 [2, 2] 1).2.2.usedMask 0
      &&& (((CBalaGray.new true).SetPruneMaxTrans 1).crawlTopAt 2 [2, 2] 1).1.nGrayWrapMask
      ≠ (((CBalaGray.new true).SetPruneMaxTrans 1).crawlTopAt 2 [2, 2] 1).1.nGrayWrapMask ∧
    stepCount (((CBalaGray.new true).SetPruneMaxTrans 1).crawlTopAt 2 [2, 2] 1).2.1 2 3 0 = 1 ∧
    stepCount (((CBalaGray.new true).SetPruneMaxTrans 1).crawlTopAt 2 [2, 2] 1).2.1 2 3 1 = 1 ∧
    ((CBalaGray.new true).SetPruneMaxTrans 1).m_nPruneMaxTrans = 1 ∧
    ((CBalaGray.new true).SetPruneMaxTrans 1).m_nPruneImbalance = 3 ∧
    stepWrapCount (((CBalaGray.new true).SetPruneMaxTrans 1).crawlTopAt 2 [2, 2] 1).2.1 2 3 0
      = 2 ∧
    stepWrapCount (((CBalaGray.new true).SetPruneMaxTrans 1).crawlTopAt 2 [2, 2] 1).2.1 2 3 1
      = 2 ∧
    (crawlStep (((CBalaGray.new true).SetPruneMaxTrans 1).crawlTopAt 2 [2, 2] 1).1
      (((CBalaGray.new true).SetPruneMaxTrans 1).crawlTopAt 2 [2, 2] 1).2.1
      (((CBalaGray.new true).SetPruneMaxTrans 1).crawlTopAt 2 [2, 2] 1).2.2).2.1.iDepth = 2 ∧
    (crawlStep (((CBalaGray.new true).SetPruneMaxTrans 1).crawlTopAt 2 [2, 2] 1).1
      (((CBalaGray.new true).SetPruneMaxTrans 1).crawlTopAt 2 [2, 2] 1).2.1
      (((CBalaGray.new true).SetPruneMaxTrans 1).crawlTopAt 2 [2, 2] 1).2.2).2.2 = true ∧
    (((CBalaGray.new true).SetPruneMaxTrans 1).Calc 64 none 2 [2, 2]
      CWinner.new).winner.m_nImbalance = INT_MAX := by
  decide

theorem BacktrackRule_of (c : CalcConsts) (bg : CBalaGray) (loc : CalcLocals)
    (hS : c.nStartDepth = 2) (hg : (bg.state loc.iDepth).iGray + 1 < 256) :
    BacktrackRule c bg loc := by
  have hcast : ((loc.iDepth : Int) < (c.nNumerals : Int) - 1) ↔ loc.iDepth + 1 < c.nNumerals := by
    omega
  refine ⟨?_, ?_, ?_, ?_, ?_, hg, ?_, ?_, ?_⟩
  · intro ht
    unfold candidateTest candidateNum at ht
    unfold crawlStep
    simp only
    rw [if_neg ht]
  · intro ht hint hpr
    unfold candidateTest candidateNum at ht
    unfold thresholdPruned storeCandidate candidateNum at hpr
    unfold crawlStep storeCandidate candidateNum
    simp only
    rw [if_pos ht, if_pos (hcast.mpr hint)]
    split
    · rfl
    · rename_i hn
      exact absurd hpr hn
  · intro ht hint hrej
    unfold candidateTest candidateNum at ht
    unfold leafAccepted storeCandidate candidateNum at hrej
    unfold crawlStep storeCandidate candidateNum
    simp only
    rw [if_pos ht, if_neg (fun e => hint (hcast.mp e))]
    split
    · rename_i hn
      rw [hrej] at hn
      exact absurd hn (by decide)
    · rfl
  · intro ht hint hacc
    unfold candidateTest candidateNum at ht
    unfold leafAccepted storeCandidate candidateNum at hacc
    unfold crawlStep recordBest storeCandidate candidateNum
    simp only
    rw [if_pos ht, if_neg (fun e => hint (hcast.mp e))]
    split
    · rfl
    · rename_i hn
      exact absurd hacc hn
  · intro b l
    unfold crawlAdvance advanceColumn
    rfl
  · intro b l d hd
    cases d with
    | zero => unfold lblPrune; rfl
    | succ d =>
      unfold lblPrune
      rw [if_pos (by omega)]
  · intro b l d hd
    conv_lhs => unfold lblPrune
    rw [if_neg (by omega)]
    rfl
  · intro l i k hi hk
    exact usedBit_set_clear l i k hi hk

theorem lblPrune_state_above (c : CalcConsts) : ∀ (d : Nat) (bg : CBalaGray) (loc : CalcLocals)
    (s : Nat), d ≤ s → (lblPrune c d bg loc).1.state s = bg.state s := by
  intro d
  induction d with
  | zero =>
    intro bg loc s _
    unfold lblPrune
    rfl
  | succ d ih =>
    intro bg loc s hs
    unfold lblPrune
    by_cases h : d + 1 ≤ c.nStartDepth
    · rw [if_pos h]
    · rw [if_neg h]
      simp only
      by_cases hg : ((bg.state d).iGray + 1) % 256 ≥ c.nGraySuccessors
      · rw [if_pos hg, ih _ _ s (by omega), state_setState, if_neg (by omega)]
      · rw [if_neg hg]
        show (bg.setState d _).state s = _
        rw [state_setState, if_neg (by omega)]

theorem lblPrune_pops (c : CalcConsts) (d : Nat) (bg : CBalaGray) (loc : CalcLocals)
    (hd : c.nStartDepth < d) : (lblPrune c d bg loc).2.1.iDepth < d := by
  obtain ⟨e, rfl⟩ : ∃ e, d = e + 1 := ⟨d - 1, by omega⟩
  unfold lblPrune
  rw [if_neg (by omega)]
  simp only
  by_cases hg : ((bg.state e).iGray + 1) % 256 ≥ c.nGraySuccessors
  · rw [if_pos hg]
    exact Nat.lt_succ_of_le (lblPrune_depth_le c e _ _)
  · rw [if_neg hg]
    exact Nat.lt_succ_self e

/-- C26 (amended): at the top of every iteration of the crawl of `Calc` on a
valid radix vector the iteration follows `BacktrackRule`. A candidate that is
already used or fails the wrap-mask test, and a recorded leaf, advance the
column of the current depth `t` and stay at depth `t` if the column is below
`K`, else pop. A candidate rejected by threshold pruning at an interior
depth or by the objective at a leaf does not advance the column of depth `t`:
it goes to `lblPrune` at once, so at the start depth `t = 2` the loop is left,
and at a depth `t > 2` the crawl pops to a depth below `t` with the column of
depth `t` as it was, abandoning the remaining successors of the parent. A pop
to depth `d - 1` clears the used bit of the numeral stored there and advances
its column, and pops again if that column reached `K`. -/
theorem crawl_backtracking (bg : CBalaGray) (nPlaces : Nat) (parrBase : List Nat) (n : Nat)
    (c : CalcConsts) (bgn : CBalaGray) (locn : CalcLocals)
    (hv : ValidRadix nPlaces parrBase)
    (h : bg.crawlTop nPlaces parrBase n = some (c, bgn, locn)) :
    BacktrackRule c bgn locn ∧
    (candidateTest c bgn locn →
      ((locn.iDepth + 1 < c.nNumerals ∧ thresholdPruned c bgn locn) ∨
        (¬ locn.iDepth + 1 < c.nNumerals ∧ leafAccepted c bgn locn = false)) →
      (locn.iDepth = 2 → (crawlStep c bgn locn).2.2 = true) ∧
      (2 < locn.iDepth → (crawlStep c bgn locn).2.1.iDepth < locn.iDepth ∧
        ((crawlStep c bgn locn).1.state locn.iDepth).iGray = (bgn.state locn.iDepth).iGray)) ∧
    (¬ candidateTest c bgn locn → (bgn.state locn.iDepth).iGray + 1 < c.nGraySuccessors →
      crawlStep c bgn locn = (bgn.setState locn.iDepth
        { bgn.state locn.iDepth with iGray := (bgn.state locn.iDepth).iGray + 1 }, locn, false)) := by
  obtain ⟨W, hW, hc, hfr, hctx, ⟨hpath, hgrayc⟩, _⟩ :=
    crawlTop_inv bg nPlaces parrBase n c bgn locn hv h
  have hOK := withNumerals_NumeralsOK bg.Reset nPlaces parrBase hv
  have hK : c.nGraySuccessors + 1 ≤ 127 := by
    have h1 := NumeralsOK_succCount_lt hOK
    have h2 := hOK.2.2.1
    have e : c.nGraySuccessors = graySuccessorCount (bg.Reset.withNumerals nPlaces parrBase) := by
      rw [hc]; rfl
    omega
  have hg : (bgn.state locn.iDepth).iGray + 1 < 256 := by omega
  have hrule := BacktrackRule_of c bgn locn hctx.hStart hg
  refine ⟨hrule, ?_, ?_⟩
  · intro ht hrej
    have hr : crawlStep c bgn locn = lblPrune c locn.iDepth (storeCandidate c bgn locn) locn := by
      rcases hrej with ⟨h1, h2⟩ | ⟨h1, h2⟩
      · exact hrule.2.1 ht h1 h2
      · exact hrule.2.2.1 ht h1 h2
    rw [hr]
    constructor
    · intro e2
      rw [hrule.2.2.2.2.2.2.1 _ _ _ (le_of_eq e2)]
    · intro e2
      refine ⟨lblPrune_pops c _ _ _ (by rw [hctx.hStart]; exact e2), ?_⟩
      rw [lblPrune_state_above c _ _ _ _ (le_refl _)]
      unfold storeCandidate
      rw [state_setState, if_pos ⟨rfl, by rw [hpath.hlen]; exact hpath.hdN⟩]
  · intro ht hlt
    rw [hrule.1 ht, hrule.2.2.2.2.1, if_neg (by rw [Nat.mod_eq_of_lt hg]; omega)]
    unfold advanceColumn
    rw [Nat.mod_eq_of_lt hg]

/-- Witness of C26 (amended) on the radix vector (2, 2), at the top of
iteration 0 (depth 2, column 0, the candidate numeral 0 is used). -/
theorem crawl_backtracking_witness :
    (ValidRadix 2 [2, 2] ∧
      (CBalaGray.new true).crawlTop 2 [2, 2] 0
        = some ((CBalaGray.new true).crawlTopAt 2 [2, 2] 0) ∧
      ¬ candidateTest ((CBalaGray.new true).crawlTopAt 2 [2, 2] 0).1
        ((CBalaGray.new true).crawlTopAt 2 [2, 2] 0).2.1
        ((CBalaGray.new true).crawlTopAt 2 [2, 2] 0).2.2) ∧
    BacktrackRule ((CBalaGray.new true).crawlTopAt 2 [2, 2] 0).1
      ((CBalaGray.new true).crawlTopAt 2 [2, 2] 0).2.1
      ((CBalaGray.new true).crawlTopAt 2 [2, 2] 0).2.2 :=
  ⟨⟨by decide, by decide, by decide⟩,
    (crawl_backtracking (CBalaGray.new true) 2 [2, 2] 0 _ _ _ (by decide) (by decide)).1⟩

/-- C26, counterexample to the claim as stated. On the radix vector (2, 4)
(K = 4, N = 8) after `SetPruneImbalance(0)`, at the top of iteration 5 the
crawl stands at depth 4, column 2, after the path 0, 1, 3, 2; the candidate
numeral 4 is unused and passes the wrap-mask test and is rejected by
threshold pruning. Column 3 of depth 4 remains and holds the unused numeral
6, yet the crawl does not advance the column of depth 4: the next iteration
starts at depth 3. On the radix vector (2, 3) (K = 3) after
`SetPruneMaxTrans(1)`, at the top of iteration 1 the candidate of depth 2,
column 1 is rejected by threshold pruning, and the loop is left although
column 2 of depth 2 has not been tried. -/
theorem threshold_prune_pops :
    (((CBalaGray.new true).SetPruneImbalance 0).crawlTop 2 [2, 4] 5
      = some (((CBalaGray.new true).SetPruneImbalance 0).crawlTopAt 2 [2, 4] 5) ∧
    (((CBalaGray.new true).SetPruneImbalance 0).crawlTopAt 2 [2, 4] 5).1.nGraySuccessors = 4 ∧
    (((CBalaGray.new true).SetPruneImbalance 0).crawlTopAt 2 [2, 4] 5).1.nNumerals = 8 ∧
    (((CBalaGray.new true).SetPruneImbalance 0).crawlTopAt 2 [2, 4] 5).2.2.iDepth = 4 ∧
    ((((CBalaGray.new true).SetPruneImbalance 0).crawlTopAt 2 [2, 4] 5).2.1.state 4).iGray = 2 ∧
    (((CBalaGray.new true).SetPruneImbalance 0).crawlTopAt 2 [2, 4] 5).2.1.pathNums 4
      = [0, 1, 3, 2] ∧
    candidateNum (((CBalaGray.new true).SetPruneImbalance 0).crawlTopAt 2 [2, 4] 5).1
      (((CBalaGray.new true).SetPruneImbalance 0).crawlTopAt 2 [2, 4] 5).2.1
      (((CBalaGray.new true).SetPruneImbalance 0).crawlTopAt 2 [2, 4] 5).2.2 = 4 ∧
    candidateTest (((CBalaGray.new true).SetPruneImbalance 0).crawlTopAt 2 [2, 4] 5).1
      (((CBalaGray.new true).SetPruneImbalance 0).crawlTopAt 2 [2, 4] 5).2.1
      (((CBalaGray.new true).SetPruneImbalance 0).crawlTopAt 2 [2, 4] 5).2.2 ∧
    thresholdPruned (((CBalaGray.new true).SetPruneImbalance 0).crawlTopAt 2 [2, 4] 5).1
      (((CBalaGray.new true).SetPruneImbalance 0).crawlTopAt 2 [2, 4] 5).2.1
      (((CBalaGray.new true).SetPruneImbalance 0).crawlTopAt 2 [2, 4] 5).2.2 ∧
    (((CBalaGray.new true).SetPruneImbalance 0).crawlTopAt 2 [2, 4] 5).2.1.m_arrGraySuccessor.getD
      ((2 <<< (((CBalaGray.new true).SetPruneImbalance 0).crawlTopAt 2 [2, 4]
        5).1.nGrayStrideShift) + 3) 0 = 6 ∧
    (((CBalaGray.new true).SetPruneImbalance 0).crawlTopAt 2 [2, 4] 5).2.2.usedBit 6 = false ∧
    (crawlStep (((CBalaGray.new true).SetPruneImbalance 0).crawlTopAt 2 [2, 4] 5).1
      (((CBalaGray.new true).SetPruneImbalance 0).crawlTopAt 2 [2, 4] 5).2.1
      (((CBalaGray.new true).SetPruneImbalance 0).crawlTopAt 2 [2, 4] 5).2.2).2.1.iDepth = 3 ∧
    (crawlStep (((CBalaGray.new true).SetPruneImbalance 0).crawlTopAt 2 [2, 4] 5).1
      (((CBalaGray.new true).SetPruneImbalance 0).crawlTopAt 2 [2, 4] 5).2.1
      (((CBalaGray.new true).SetPruneImbalance 0).crawlTopAt 2 [2, 4] 5).2.2).2.2 = false ∧
    ((crawlStep (((CBalaGray.new true).SetPruneImbalance 0).crawlTopAt 2 [2, 4] 5).1
      (((CBalaGray.new true).SetPruneImbalance 0).crawlTopAt 2 [2, 4] 5).2.1
      (((CBalaGray.new true).SetPruneImbalance 0).crawlTopAt 2 [2, 4] 5).2.2).1.state 4).iGray
        = 2) ∧
    (((CBalaGray.new true).SetPruneMaxTrans 1).crawlTop 2 [2, 3] 1
      = some (((CBalaGray.new true).SetPruneMaxTrans 1).crawlTopAt 2 [2, 3] 1) ∧
    (((CBalaGray.new true).SetPruneMaxTrans 1).crawlTopAt 2 [2, 3] 1).1.nGraySuccessors = 3 ∧
    (((CBalaGray.new true).SetPruneMaxTrans 1).crawlTopAt 2 [2, 3] 1).2.2.iDepth = 2 ∧
    ((((CBalaGray.new true).SetPruneMaxTrans 1).crawlTopAt 2 [2, 3] 1).2.1.state 2).iGray = 1 ∧
    candidateTest (((CBalaGray.new true).SetPruneMaxTrans 1).crawlTopAt 2 [2, 3] 1).1
      (((CBalaGray.new true).SetPruneMaxTrans 1).crawlTopAt 2 [2, 3] 1).2.1
      (((CBalaGray.new true).SetPruneMaxTrans 1).crawlTopAt 2 [2, 3] 1).2.2 ∧
    thresholdPruned (((CBalaGray.new true).SetPruneMaxTrans 1).crawlTopAt 2 [2, 3] 1).1
      (((CBalaGray.new true).SetPruneMaxTrans 1).crawlTopAt 2 [2, 3] 1).2.1
      (((CBalaGray.new true).SetPruneMaxTrans 1).crawlTopAt 2 [2, 3] 1).2.2 ∧
    (crawlStep (((CBalaGray.new true).SetPruneMaxTrans 1).crawlTopAt 2 [2, 3] 1).1
      (((CBalaGray.new true).SetPruneMaxTrans 1).crawlTopAt 2 [2, 3] 1).2.1
      (((CBalaGray.new true).SetPruneMaxTrans 1).crawlTopAt 2 [2, 3] 1).2.2).2.2 = true ∧
    ((crawlStep (((CBalaGray.new true).SetPruneMaxTrans 1).crawlTopAt 2 [2, 3] 1).1
      (((CBalaGray.new true).SetPruneMaxTrans 1).crawlTopAt 2 [2, 3] 1).2.1
      (((CBalaGray.new true).SetPruneMaxTrans 1).crawlTopAt 2 [2, 3] 1).2.2).1.state 2).iGray
        = 1) := by
  decide!

theorem differ_unique {P : Nat} {a b : NUMERAL} (h : differInOnePlace P a b) :
    ∃ q < P, a.b q ≠ b.b q ∧ ∀ p < P, p ≠ q → a.b p = b.b p := by
  unfold differInOnePlace at h
  obtain ⟨q, hq⟩ := List.length_eq_one.mp h
  have hmem : ∀ p, p ∈ (List.range P).filter (fun p => decide (a.b p ≠ b.b p)) ↔ p = q := by
    intro p; rw [hq]; simp
  have hq1 := (hmem q).mpr rfl
  rw [List.mem_filter, List.mem_range] at hq1
  refine ⟨q, hq1.1, by simpa using hq1.2, ?_⟩
  intro p hp hpq
  by_contra hne
  exact hpq ((hmem p).mp (List.mem_filter.mpr ⟨List.mem_range.mpr hp, by simpa using hne⟩))

theorem ComputeBalance_agree (bg bg1 : CBalaGray) (t : Nat)
    (hP : bg1.m_nPlaces = bg.m_nPlaces)
    (h1 : (bg1.state (t - 1)).nTrans = (bg.state (t - 1)).nTrans)
    (h2 : bg1.stateNum (t - 1) = bg.stateNum (t - 1))
    (h3 : bg1.stateNum t = bg.stateNum t) :
    bg1.ComputeBalance t = bg.ComputeBalance t := by
  unfold CBalaGray.ComputeBalance
  rw [hP, h1, h2, h3]

theorem frame_thresholds {bg bg1 : CBalaGray} (hf : bg1.frame = bg.frame) :
    bg1.m_nPruneMaxTrans = bg.m_nPruneMaxTrans ∧ bg1.m_nPruneImbalance = bg.m_nPruneImbalance := by
  have e1 : bg1.frame.m_nPruneMaxTrans = bg.frame.m_nPruneMaxTrans := by rw [hf]
  have e2 : bg1.frame.m_nPruneImbalance = bg.frame.m_nPruneImbalance := by rw [hf]
  exact ⟨e1, e2⟩

theorem PathThr_agree {bg bg1 : CBalaGray} {d : Nat} (ha : StatesAgree bg bg1 d)
    (h : PathThr bg d) : PathThr bg1 d := by
  intro t h2 htd
  obtain ⟨e1, e2⟩ := frame_thresholds ha.1
  rw [e1, e2, ComputeBalance_agree bg bg1 t (frame_places ha.1)
    (ha.2.2 (t - 1) (by omega)).2 (StatesAgree_stateNum ha _ (by omega))
    (StatesAgree_stateNum ha _ htd)]
  exact h t h2 htd

theorem PathThr_mono {bg : CBalaGray} {d e : Nat} (h : PathThr bg d) (he : e ≤ d) :
    PathThr bg e :=
  fun t h2 hte => h t h2 (by omega)

theorem BestThr_congr {bg bg1 : CBalaGray} {loc loc1 : CalcLocals}
    (hf : bg1.frame = bg.frame) (hb : BestEq loc loc1) (h : BestThr bg loc) :
    BestThr bg1 loc1 := by
  obtain ⟨e1, e2⟩ := frame_thresholds hf
  obtain ⟨b1, b2, _⟩ := hb
  unfold BestThr at h ⊢
  rw [e1, e2, b1, b2]
  exact h

theorem lblPrune_agree (c : CalcConsts) : ∀ (d : Nat) (bg : CBalaGray) (loc : CalcLocals)
    (e : Nat), StatesAgree bg (lblPrune c d bg loc).1 e := by
  intro d
  induction d with
  | zero =>
    intro bg loc e
    unfold lblPrune
    exact ⟨rfl, rfl, fun _ _ => ⟨rfl, rfl⟩⟩
  | succ d ih =>
    intro bg loc e
    unfold lblPrune
    by_cases h : d + 1 ≤ c.nStartDepth
    · rw [if_pos h]
      exact ⟨rfl, rfl, fun _ _ => ⟨rfl, rfl⟩⟩
    · rw [if_neg h]
      simp only
      by_cases hg : ((bg.state d).iGray + 1) % 256 ≥ c.nGraySuccessors
      · rw [if_pos hg]
        exact StatesAgree_trans (StatesAgree_setGray bg d e _) (ih _ _ e)
      · rw [if_neg hg]
        exact StatesAgree_setGray bg d e _

theorem crawlAdvance_agree (c : CalcConsts) (bg : CBalaGray) (loc : CalcLocals) (e : Nat) :
    StatesAgree bg (crawlAdvance c bg loc).1 e ∧ (crawlAdvance c bg loc).2.1.iDepth ≤ loc.iDepth := by
  unfold crawlAdvance
  simp only
  by_cases hg : ((bg.state loc.iDepth).iGray + 1) % 256 ≥ c.nGraySuccessors
  · rw [if_pos hg]
    exact ⟨StatesAgree_trans (StatesAgree_setGray bg _ e _) (lblPrune_agree c _ _ _ e),
      lblPrune_depth_le c _ _ _⟩
  · rw [if_neg hg]
    exact ⟨StatesAgree_setGray bg _ e _, le_refl _⟩

theorem lblPrune_thr (c : CalcConsts) (d : Nat) (bg : CBalaGray) (loc : CalcLocals)
    (hp : PathThr bg d) (hb : BestThr bg loc) :
    BestThr (lblPrune c d bg loc).1 (lblPrune c d bg loc).2.1 ∧
    PathThr (lblPrune c d bg loc).1 (lblPrune c d bg loc).2.1.iDepth := by
  obtain ⟨h1, h2⟩ := lblPrune_best c d bg loc
  exact ⟨BestThr_congr h1 h2 hb,
    PathThr_mono (PathThr_agree (lblPrune_agree c d bg loc d) hp) (lblPrune_depth_le c d bg loc)⟩

theorem crawlAdvance_thr (c : CalcConsts) (bg : CBalaGray) (loc : CalcLocals)
    (hp : PathThr bg loc.iDepth) (hb : BestThr bg loc) :
    BestThr (crawlAdvance c bg loc).1 (crawlAdvance c bg loc).2.1 ∧
    PathThr (crawlAdvance c bg loc).1 (crawlAdvance c bg loc).2.1.iDepth := by
  obtain ⟨h1, h2⟩ := crawlAdvance_best c bg loc
  obtain ⟨h3, h4⟩ := crawlAdvance_agree c bg loc loc.iDepth
  exact ⟨BestThr_congr h1 h2 hb, PathThr_mono (PathThr_agree h3 hp) h4⟩

theorem count_bounds {P : Nat} {f g : Nat → Nat} {a1 a2 : Int} {m1 m2 : Nat}
    (hP : ∀ p < P, g p ≤ f p ∧ f p ≤ g p + 1)
    (h1a : ∃ p < P, (f p : Int) = a1) (h1na : ∃ p < P, f p = m1)
    (h2 : ∀ p < P, (g p : Int) ≤ a2) (h2n : ∀ p < P, m2 ≤ g p) :
    a1 ≤ a2 + 1 ∧ a1 - (m1 : Int) ≤ a2 - (m2 : Int) + 1 := by
  obtain ⟨p, hp, hpe⟩ := h1a
  obtain ⟨q, hq, hqe⟩ := h1na
  have b1 := hP p hp
  have b2 := hP q hq
  have b3 := h2 p hp
  have b4 := h2n q hq
  omega

theorem leaf_balance_bound {c : CalcConsts} {bg : CBalaGray} {used : Nat → Bool} {d : Nat}
    (hctx : CrawlCtx c bg) (hz : ZeroOnly c bg) (hpath : PathInv c bg used d)
    (hd : d + 1 = c.nNumerals)
    (hxN : (bg.state d).iNum < c.nNumerals) (hnew : (bg.state d).iNum ∉ bg.pathNums d)
    (hg : differInOnePlace bg.m_nPlaces (bg.stateNum (d - 1)) (bg.stateNum d))
    (hw : ∃ j, j < c.nNumerals ∧ j ∉ bg.pathNums d ∧
      differInOnePlace bg.m_nPlaces (bg.num 0) (bg.num j)) :
    (bg.ComputeBalance d).2.1 ≤ (bg.ComputeBalance (d - 1)).2.1 + 1 ∧
    (bg.ComputeBalance d).1 ≤ (bg.ComputeBalance (d - 1)).1 + 1 := by
  have hN4 := hctx.hN4
  have hN := hctx.hN127
  have hd3 : 3 ≤ d := by omega
  obtain ⟨_, _, hcyc, _⟩ := leaf_best hctx hpath hd hxN hnew hg hw
  have hwrap : differInOnePlace bg.m_nPlaces (bg.stateNum d) (bg.stateNum 0) := by
    have := hcyc d (by rw [List.length_map, pathNums_length]; omega)
    rw [List.length_map, pathNums_length, seq_getD bg _ d (by omega), hd, Nat.mod_self,
      seq_getD bg _ 0 (by omega)] at this
    exact this
  have h0 : ∀ p, (bg.stateNum 0).b p = 0 := by
    intro p
    unfold CBalaGray.stateNum
    rw [hpath.h0]
    exact hctx.hzero p
  obtain ⟨q, hq, hqne, hqo⟩ := differ_unique hg
  obtain ⟨r, hr, hrne, hro⟩ := differ_unique hwrap
  rw [h0] at hrne
  -- the numeral of depth d - 1 is not numeral 0
  have hxnz : ∃ p < bg.m_nPlaces, (bg.stateNum (d - 1)).b p ≠ 0 := by
    by_contra hcon
    have hall : ∀ p < bg.m_nPlaces, (bg.num (bg.state (d - 1)).iNum).b p = 0 := by
      intro p hp
      by_contra hne
      exact hcon ⟨p, hp, hne⟩
    have e := hz _ (hpath.hlt (d - 1) (by omega)) hall
    have hnd := hpath.hnodup
    have := nodup_getD_inj hnd (show d - 1 < (bg.pathNums d).length by
        rw [pathNums_length]; omega)
      (show 0 < (bg.pathNums d).length by rw [pathNums_length]; omega)
      (by rw [pathNums_getD bg _ (d - 1) (by omega), pathNums_getD bg _ 0 (by omega), e,
            hpath.h0])
    omega
  have htr1 := hpath.htrans (d - 1) (by omega)
  have htr2 := hpath.htrans (d - 1 - 1) (by omega)
  have hpc : ∀ p, bg.pathCount (d - 1) p = bg.pathCount (d - 1 - 1) p
      + (if (bg.stateNum (d - 1)).b p ≠ (bg.stateNum (d - 1 - 1)).b p then 1 else 0) := by
    intro p
    have e : d - 1 = (d - 1 - 1) + 1 := by omega
    conv_lhs => rw [e, pathCount_succ]
    rw [← e]
  have hb1 := ComputeBalance_spec bg d hctx.hP1 hctx.hP8 htr1.1 (by
    intro p hp
    rw [htr1.2 p hp]
    have := pathCount_le bg (d - 1) p
    omega)
  have hb2 := ComputeBalance_spec bg (d - 1) hctx.hP1 hctx.hP8 htr2.1 (by
    intro p hp
    rw [htr2.2 p hp]
    have := pathCount_le bg (d - 1 - 1) p
    omega)
  obtain ⟨_, _, _, h1a, m1, _, h1na, hi1⟩ := hb1
  obtain ⟨_, _, h2, _, m2, h2n, _, hi2⟩ := hb2
  have hP : ∀ p < bg.m_nPlaces, bg.wrapCount (d - 1) p ≤ bg.wrapCount d p
      ∧ bg.wrapCount d p ≤ bg.wrapCount (d - 1) p + 1 := by
    intro p hp
    unfold CBalaGray.wrapCount
    rw [htr1.2 p hp, htr2.2 p hp, hpc p]
    have hy0 : ∀ p' < bg.m_nPlaces, p' ≠ r → (bg.stateNum d).b p' = 0 := by
      intro p' hp' hne
      rw [hro p' hp' hne, h0]
    by_cases hpq : p = q
    · subst hpq
      have e1 : (if (bg.stateNum d).b p ≠ (bg.stateNum (d - 1)).b p then 1 else 0) = 1 :=
        if_pos (fun e => hqne e.symm)
      by_cases hpr : p = r
      · subst hpr
        have hx : (bg.stateNum (d - 1)).b p ≠ 0 := by
          obtain ⟨p0, hp0, hne⟩ := hxnz
          by_cases e : p0 = p
          · rw [← e]; exact hne
          · exfalso
            apply hne
            rw [hqo p0 hp0 e, hy0 p0 hp0 e]
        have e2 : (if (bg.stateNum d).b p ≠ 0 then 1 else 0) = 1 := if_pos hrne
        have e3 : (if (bg.stateNum (d - 1)).b p ≠ 0 then 1 else 0) = 1 := if_pos hx
        rw [e1, e2, e3]
        omega
      · have hy := hy0 p hp hpr
        have hx : (bg.stateNum (d - 1)).b p ≠ 0 := by
          intro e
          exact hqne (by rw [e, hy])
        have e2 : (if (bg.stateNum d).b p ≠ 0 then 1 else 0) = 0 :=
          if_neg (fun h => h hy)
        have e3 : (if (bg.stateNum (d - 1)).b p ≠ 0 then 1 else 0) = 1 := if_pos hx
        rw [e1, e2, e3]
        omega
    · have hxy := hqo p hp hpq
      have e1 : (if (bg.stateNum d).b p ≠ (bg.stateNum (d - 1)).b p then 1 else 0) = 0 :=
        if_neg (fun h => h hxy.symm)
      rw [e1, hxy]
      omega
  have := count_bounds hP h1a h1na h2 h2n
  rw [hi1, hi2]
  exact this

theorem zeroOnly_start (bgN : CBalaGray) (hOK : bgN.NumeralsOK) (W : Nat) :
    ZeroOnly (crawlConsts bgN.MakeGraySuccessorTable W) bgN.MakeGraySuccessorTable := by
  have hlen : bgN.MakeGraySuccessorTable.GetNumeralCount = bgN.radixProduct :=
    NumeralsOK_length hOK
  intro i hi hall
  have hi' : i < bgN.radixProduct := by rw [← hlen]; exact hi
  have hnum : bgN.MakeGraySuccessorTable.num i = bgN.Unpack (i : Int) := NumeralsOK_num hOK i hi'
  have hv := mixedRadixValue_Unpack bgN hOK.2.1 i
  rw [Nat.mod_eq_of_lt hi'] at hv
  rw [← hv]
  unfold mixedRadixValue
  apply Finset.sum_eq_zero
  intro k hk
  have := hall k (Finset.mem_range.mp hk)
  rw [hnum] at this
  rw [this, Nat.zero_mul]

theorem ZeroOnly_frame {c : CalcConsts} {bg bg1 : CBalaGray} (hf : bg1.frame = bg.frame)
    (h : ZeroOnly c bg) : ZeroOnly c bg1 := by
  unfold ZeroOnly at h ⊢
  rw [frame_places hf, frame_numfun hf]
  exact h

theorem crawlStep_thr (c : CalcConsts) (bg : CBalaGray) (loc : CalcLocals)
    (hctx : CrawlCtx c bg) (hz : ZeroOnly c bg) (htop : LoopTop c bg loc)
    (hp : PathThr bg loc.iDepth) (hb : BestThr bg loc) :
    BestThr (crawlStep c bg loc).1 (crawlStep c bg loc).2.1 ∧
    PathThr (crawlStep c bg loc).1 (crawlStep c bg loc).2.1.iDepth := by
  obtain ⟨hpath, hgrayc⟩ := htop
  have hd2 := hpath.hd2
  have hdN := hpath.hdN
  have hN := hctx.hN127
  have hprev := hpath.hlt (loc.iDepth - 1) (by omega)
  obtain ⟨hxN, hxg⟩ := hctx.hrow _ hprev _ hgrayc
  unfold crawlStep
  simp only
  generalize hx : bg.m_arrGraySuccessor.getD
    (((bg.state (loc.iDepth - 1)).iNum <<< c.nGrayStrideShift) + (bg.state loc.iDepth).iGray) 0
      = x at hxN hxg ⊢
  split
  · rename_i htest
    obtain ⟨hunused, hwrapne⟩ := htest
    have hxnew : x ∉ bg.pathNums loc.iDepth := by
      have h1 := (usedBit_test loc x).mp hunused
      intro hm
      have := (hpath.hmask x (by omega)).mpr hm
      rw [h1] at this
      exact absurd this (by decide)
    have hw : ∃ j, j < c.nNumerals ∧ j ∉ bg.pathNums loc.iDepth ∧
        differInOnePlace bg.m_nPlaces (bg.num 0) (bg.num j) := by
      obtain ⟨j, hj1, hj2⟩ := (and_ne_self_iff _ _).mp hwrapne
      obtain ⟨hj64, hjN, hjd⟩ := hctx.hwrap j hj1
      refine ⟨j, hjN, ?_, hjd⟩
      intro hm
      have h1 := (hpath.hmask j (by omega)).mpr hm
      have h2 : loc.usedBit j = (loc.usedMask 0).testBit j := by
        unfold CalcLocals.usedBit
        rw [usedMaskIndex_eq_div j (by omega), Nat.div_eq_of_lt hj64, Nat.mod_eq_of_lt hj64]
      rw [h2, hj2] at h1
      exact absurd h1 (by decide)
    have ha : StatesAgree bg (bg.setState loc.iDepth
        ⟨x, (bg.state loc.iDepth).iGray, (bg.state loc.iDepth).nTrans⟩) loc.iDepth :=
      StatesAgree_setState bg _ _ _ (le_refl _)
    have hs : (bg.setState loc.iDepth
        ⟨x, (bg.state loc.iDepth).iGray, (bg.state loc.iDepth).nTrans⟩).state loc.iDepth
          = ⟨x, (bg.state loc.iDepth).iGray, (bg.state loc.iDepth).nTrans⟩ := by
      rw [state_setState, if_pos ⟨rfl, by rw [hpath.hlen]; exact hdN⟩]
    generalize bg.setState loc.iDepth
        ⟨x, (bg.state loc.iDepth).iGray, (bg.state loc.iDepth).nTrans⟩ = bg1 at ha hs ⊢
    have hctx1 := CrawlCtx_frame ha.1 hctx
    have hpath1 := PathInv_frame hpath ha
    have hz1 : ZeroOnly c bg1 := ZeroOnly_frame ha.1 hz
    have hp1 : PathThr bg1 loc.iDepth := PathThr_agree ha hp
    have hb1 : BestThr bg1 loc := BestThr_congr ha.1 (BestEq_refl _) hb
    have hsn : bg1.stateNum loc.iDepth = bg.num x := by
      unfold CBalaGray.stateNum
      rw [hs, frame_num ha.1]
    have hsp : bg1.stateNum (loc.iDepth - 1) = bg.stateNum (loc.iDepth - 1) :=
      StatesAgree_stateNum ha _ (by omega)
    by_cases hdepth : (loc.iDepth : Int) < (c.nNumerals : Int) - 1
    · rw [if_pos hdepth]
      split
      · exact lblPrune_thr c loc.iDepth bg1 loc hp1 hb1
      · rename_i hpass
        have ha2 : StatesAgree bg1 ((bg1.setState loc.iDepth
            { bg1.state loc.iDepth with nTrans := (bg1.ComputeBalance loc.iDepth).2.2 }).setState
              (loc.iDepth + 1)
              { (bg1.setState loc.iDepth { bg1.state loc.iDepth with
                    nTrans := (bg1.ComputeBalance loc.iDepth).2.2 }).state (loc.iDepth + 1) with
                  iGray := 0, iNum := 0 }) loc.iDepth :=
          StatesAgree_trans (StatesAgree_setState bg1 _ _ _ (le_refl _))
            (StatesAgree_setState _ _ _ _ (by omega))
        have hs2 : ((bg1.setState loc.iDepth
            { bg1.state loc.iDepth with nTrans := (bg1.ComputeBalance loc.iDepth).2.2 }).setState
              (loc.iDepth + 1)
              { (bg1.setState loc.iDepth { bg1.state loc.iDepth with
                    nTrans := (bg1.ComputeBalance loc.iDepth).2.2 }).state (loc.iDepth + 1) with
                  iGray := 0, iNum := 0 }).state loc.iDepth
              = { bg1.state loc.iDepth with nTrans := (bg1.ComputeBalance loc.iDepth).2.2 } := by
          rw [state_setState, if_neg (by omega), state_setState,
            if_pos ⟨rfl, by rw [hpath1.hlen]; exact hdN⟩]
        generalize (bg1.setState loc.iDepth
            { bg1.state loc.iDepth with nTrans := (bg1.ComputeBalance loc.iDepth).2.2 }).setState
              (loc.iDepth + 1)
              { (bg1.setState loc.iDepth { bg1.state loc.iDepth with
                    nTrans := (bg1.ComputeBalance loc.iDepth).2.2 }).state (loc.iDepth + 1) with
                  iGray := 0, iNum := 0 } = bg2 at ha2 hs2 ⊢
        refine ⟨BestThr_congr ha2.1 (BestEq_setUsedMask _ _ _) hb1, ?_⟩
        intro t h2 htd
        simp only at htd
        by_cases e : t = loc.iDepth
        · subst e
          obtain ⟨e1, e2⟩ := frame_thresholds ha2.1
          rw [e1, e2, ComputeBalance_agree bg1 bg2 loc.iDepth (frame_places ha2.1)
            (ha2.2.2 (loc.iDepth - 1) (by omega)).2 (StatesAgree_stateNum ha2 _ (by omega))
            (by unfold CBalaGray.stateNum; rw [hs2, frame_num ha2.1])]
          constructor
          · by_contra hcon
            exact hpass (Or.inl (by omega))
          · by_contra hcon
            exact hpass (Or.inr (by omega))
        · exact PathThr_agree ha2 hp1 t h2 (by omega)
    · rw [if_neg hdepth]
      have hleaf : loc.iDepth + 1 = c.nNumerals := by omega
      split
      · apply crawlAdvance_thr
        · exact hp1
        · intro _
          simp only
          have hbd := leaf_balance_bound hctx1 hz1 hpath1 hleaf
            (by rw [hs]; exact hxN)
            (by rw [hs, StatesAgree_pathNums ha _ (le_refl _)]; exact hxnew)
            (by rw [hsn, hsp, frame_places ha.1]; exact hxg)
            (by
              obtain ⟨j, hj1, hj2, hj3⟩ := hw
              refine ⟨j, hj1, ?_, ?_⟩
              · rw [StatesAgree_pathNums ha _ (le_refl _)]; exact hj2
              · rw [frame_num ha.1, frame_num ha.1, frame_places ha.1]; exact hj3)
          have hN4 := hctx.hN4
          obtain ⟨t1, t2⟩ := hp1 (loc.iDepth - 1) (by omega) (by omega)
          exact ⟨by omega, by omega⟩
      · exact lblPrune_thr c loc.iDepth bg1 loc hp1 hb1
  · exact crawlAdvance_thr c bg loc hp hb

theorem crawlLoop_thr (c : CalcConsts) (cancelAt : Option Nat) :
    ∀ (fuel nReads : Nat) (bg : CBalaGray) (loc : CalcLocals)
      (r : CBalaGray × CalcLocals × Nat),
      CrawlCtx c bg → ZeroOnly c bg → LoopTop c bg loc → BestOK c bg loc →
      PathThr bg loc.iDepth → BestThr bg loc →
      crawlLoop c cancelAt fuel nReads bg loc = some r → BestThr r.1 r.2.1 := by
  intro fuel
  induction fuel with
  | zero =>
    intro nReads bg loc r _ _ _ _ _ _ h
    simp [crawlLoop] at h
  | succ fuel ih =>
    intro nReads bg loc r hctx hz htop hbest hp hb h
    unfold crawlLoop at h
    by_cases hc : cancelRequested cancelAt nReads = true
    · rw [if_pos hc] at h
      simp only [Option.some.injEq] at h
      subst h
      exact hb
    · rw [if_neg hc] at h
      have hpost := crawlStep_inv c bg loc hctx htop hbest
      have hth := crawlStep_thr c bg loc hctx hz htop hp hb
      revert h hpost hth
      generalize crawlStep c bg loc = st
      obtain ⟨bg1, loc1, brk⟩ := st
      intro h hpost hth
      cases brk with
      | true =>
        simp only [Option.some.injEq] at h
        subst h
        exact hth.1
      | false =>
        simp only at h
        exact ih (nReads + 1) bg1 loc1 r (CrawlCtx_frame hpost.1 hctx)
          (ZeroOnly_frame hpost.1 hz) (hpost.2.2 rfl) hpost.2.1 hth.2 hth.1 h

/-- C28 (as the code has it): whenever a call of `Calc` on a valid radix
vector returns true with a recorded winner, cancelled or not, the winner's
imbalance exceeds the threshold `m_nPruneImbalance` by at most one and its
maximum transition count exceeds the threshold `m_nPruneMaxTrans` by at most
one: the thresholds are tested at the interior depths only, and closing the
cycle at the leaf raises each of the two values by at most one over those of
the last interior node. -/
theorem Calc_winner_near_thresholds (bg : CBalaGray) (fuel : Nat) (cancelAt : Option Nat)
    (nPlaces : Nat) (parrBase : List Nat) (w0 w : CWinner) (bg1 : CBalaGray)
    (hv : ValidRadix nPlaces parrBase)
    (h : bg.Calc fuel cancelAt (nPlaces : Int) parrBase w0 = .returned true bg1 w)
    (hrec : w.m_nImbalance ≠ INT_MAX) :
    w.m_nImbalance ≤ bg.m_nPruneImbalance + 1 ∧ w.m_nMaxTrans ≤ bg.m_nPruneMaxTrans + 1 := by
  obtain ⟨W, bgF, locF, nReads, hW, hL, e1, e2, _, _⟩ :=
    Calc_returned_best bg fuel cancelAt nPlaces parrBase w0 w bg1 hv h
  have hOK := withNumerals_NumeralsOK bg.Reset nPlaces parrBase hv
  have hctxT : CrawlCtx (crawlConsts (bg.prepared nPlaces parrBase) W)
      (bg.prepared nPlaces parrBase) := start_ctx _ hOK W hW
  have hctx : CrawlCtx (crawlConsts (bg.prepared nPlaces parrBase) W)
      (crawlStart (bg.prepared nPlaces parrBase)) :=
    @CrawlCtx_frame _ (bg.prepared nPlaces parrBase) (crawlStart (bg.prepared nPlaces parrBase))
      rfl hctxT
  have hzT : ZeroOnly (crawlConsts (bg.prepared nPlaces parrBase) W)
      (bg.prepared nPlaces parrBase) := zeroOnly_start _ hOK W
  have hz : ZeroOnly (crawlConsts (bg.prepared nPlaces parrBase) W)
      (crawlStart (bg.prepared nPlaces parrBase)) :=
    @ZeroOnly_frame _ (bg.prepared nPlaces parrBase) (crawlStart (bg.prepared nPlaces parrBase))
      rfl hzT
  have htop := start_top _ hOK rfl W
  have hbest0 := start_best (bg.prepared nPlaces parrBase) W
  obtain ⟨hfr, _⟩ := crawlLoop_inv _ cancelAt fuel 0 _ _ _ hctx htop hbest0 hL
  have hthr := crawlLoop_thr _ cancelAt fuel 0 _ _ _ hctx hz htop hbest0
    (fun t h2 ht => absurd ht (by
      show ¬ t < 2
      omega))
    (fun hne => absurd rfl hne) hL
  obtain ⟨f1, f2⟩ := frame_thresholds hfr
  have g1 := (prepared_thresholds bg nPlaces parrBase).1
  have g2 := (prepared_thresholds bg nPlaces parrBase).2
  have := hthr (by rw [← e1]; exact hrec)
  simp only at this
  rw [f1, f2] at this
  rw [e1, e2, ← g1, ← g2]
  exact this

theorem Calc_winner_near_thresholds_witness :
    (ValidRadix 2 [2, 2] ∧
      (CBalaGray.new true).Calc 64 none ((2 : Nat) : Int) [2, 2] CWinner.new
        = .returned true exampleRun22.object exampleRun22.winner ∧
      exampleRun22.winner.m_nImbalance ≠ INT_MAX) ∧
    exampleRun22.winner.m_nImbalance ≤ (CBalaGray.new true).m_nPruneImbalance + 1 ∧
    exampleRun22.winner.m_nMaxTrans ≤ (CBalaGray.new true).m_nPruneMaxTrans + 1 :=
  ⟨⟨by decide, by decide, by decide⟩,
    Calc_winner_near_thresholds (CBalaGray.new true) 64 none 2 [2, 2] CWinner.new
      exampleRun22.winner exampleRun22.object (by decide) (by decide) (by decide)⟩

/-- C28, counterexample: on the radix vector (2, 3), after
`SetPruneImbalance(1)`, the call of `Calc` that is not cancelled returns true
with a recorded winner whose imbalance is 2, which exceeds the threshold
`m_nPruneImbalance = 1`; the winner is a Hamiltonian Gray cycle with the
transition counts 2 and 4. -/
theorem winner_exceeds_threshold :
    ValidRadix 2 [2, 3] ∧
    ((CBalaGray.new true).SetPruneImbalance 1).m_nPruneImbalance = 1 ∧
    ((CBalaGray.new true).SetPruneImbalance 1).Calc 64 none ((2 : Nat) : Int) [2, 3] CWinner.new
      = .returned true exampleRunImb23.object exampleRunImb23.winner ∧
    exampleRunImb23.winner.m_nImbalance = 2 ∧
    exampleRunImb23.winner.m_nMaxTrans = 4 ∧
    exampleRunImb23.winner.m_arrNum = winnerSeq23 ∧
    ¬ exampleRunImb23.winner.m_nImbalance
        ≤ ((CBalaGray.new true).SetPruneImbalance 1).m_nPruneImbalance := by
  decide!

theorem arrSetCode_digits :
    arrSetCode.map setCodeDigits =
  [
    [2, 2], [2, 3], [2, 4], [3, 3], [2, 5], [3, 4], [2, 6], [3, 5], [4, 4], [2, 7], [3, 6],
    [4, 5], [2, 8], [3, 7], [4, 6], [5, 5], [2, 9], [3, 8], [4, 7], [5, 6], [2, 10], [3, 9],
    [4, 8], [5, 7], [6, 6], [2, 2, 2], [2, 2, 3], [2, 2, 4], [2, 3, 3], [2, 2, 5], [2, 3, 4],
    [3, 3, 3], [2, 2, 6], [2, 3, 5], [2, 4, 4], [3, 3, 4], [2, 2, 7], [2, 3, 6], [2, 4, 5],
    [3, 3, 5], [3, 4, 4], [2, 2, 8], [2, 3, 7], [2, 4, 6], [2, 5, 5], [3, 3, 6], [3, 4, 5],
    [4, 4, 4], [2, 2, 2, 2], [2, 2, 2, 3], [2, 2, 2, 4], [2, 2, 3, 3], [2, 2, 2, 5],
    [2, 2, 3, 4], [2, 3, 3, 3], [2, 2, 2, 6], [2, 2, 3, 5], [2, 2, 4, 4], [2, 3, 3, 4],
    [3, 3, 3, 3], [2, 2, 2, 2, 2], [2, 2, 2, 2, 3], [2, 2, 2, 2, 4], [2, 2, 2, 3, 3],
    [2, 2, 2, 2, 2, 2]] := by
  simp [arrSetCode, setCodeDigits]

theorem arrSetCode_keys :
    arrSetCode.map setCodeKey =
  [
    (2, 4, 0x22), (2, 5, 0x23), (2, 6, 0x24), (2, 6, 0x33), (2, 7, 0x25), (2, 7, 0x34),
    (2, 8, 0x26), (2, 8, 0x35), (2, 8, 0x44), (2, 9, 0x27), (2, 9, 0x36), (2, 9, 0x45),
    (2, 10, 0x28), (2, 10, 0x37), (2, 10, 0x46), (2, 10, 0x55), (2, 11, 0x29), (2, 11, 0x38),
    (2, 11, 0x47), (2, 11, 0x56), (2, 12, 0x2A), (2, 12, 0x39), (2, 12, 0x48), (2, 12, 0x57),
    (2, 12, 0x66), (3, 6, 0x222), (3, 7, 0x223), (3, 8, 0x224), (3, 8, 0x233), (3, 9, 0x225),
    (3, 9, 0x234), (3, 9, 0x333), (3, 10, 0x226), (3, 10, 0x235), (3, 10, 0x244),
    (3, 10, 0x334), (3, 11, 0x227), (3, 11, 0x236), (3, 11, 0x245), (3, 11, 0x335),
    (3, 11, 0x344), (3, 12, 0x228), (3, 12, 0x237), (3, 12, 0x246), (3, 12, 0x255),
    (3, 12, 0x336), (3, 12, 0x345), (3, 12, 0x444), (4, 8, 0x2222), (4, 9, 0x2223),
    (4, 10, 0x2224), (4, 10, 0x2233), (4, 11, 0x2225), (4, 11, 0x2234), (4, 11, 0x2333),
    (4, 12, 0x2226), (4, 12, 0x2235), (4, 12, 0x2244), (4, 12, 0x2334), (4, 12, 0x3333),
    (5, 10, 0x22222), (5, 11, 0x22223), (5, 12, 0x22224), (5, 12, 0x22233), (6, 12, 0x222222)] := by
  simp [arrSetCode, setCodeKey, setCodeDigits]

theorem arrSetCode_bases :
    arrSetCode.map GetBases =
  [
    (2, [2, 2, 0, 0, 0, 0, 0, 0]), (2, [2, 3, 0, 0, 0, 0, 0, 0]), (2, [2, 4, 0, 0, 0, 0, 0, 0]),
    (2, [3, 3, 0, 0, 0, 0, 0, 0]), (2, [2, 5, 0, 0, 0, 0, 0, 0]), (2, [3, 4, 0, 0, 0, 0, 0, 0]),
    (2, [2, 6, 0, 0, 0, 0, 0, 0]), (2, [3, 5, 0, 0, 0, 0, 0, 0]), (2, [4, 4, 0, 0, 0, 0, 0, 0]),
    (2, [2, 7, 0, 0, 0, 0, 0, 0]), (2, [3, 6, 0, 0, 0, 0, 0, 0]), (2, [4, 5, 0, 0, 0, 0, 0, 0]),
    (2, [2, 8, 0, 0, 0, 0, 0, 0]), (2, [3, 7, 0, 0, 0, 0, 0, 0]), (2, [4, 6, 0, 0, 0, 0, 0, 0]),
    (2, [5, 5, 0, 0, 0, 0, 0, 0]), (2, [2, 9, 0, 0, 0, 0, 0, 0]), (2, [3, 8, 0, 0, 0, 0, 0, 0]),
    (2, [4, 7, 0, 0, 0, 0, 0, 0]), (2, [5, 6, 0, 0, 0, 0, 0, 0]),
    (2, [2, 10, 0, 0, 0, 0, 0, 0]), (2, [3, 9, 0, 0, 0, 0, 0, 0]),
    (2, [4, 8, 0, 0, 0, 0, 0, 0]), (2, [5, 7, 0, 0, 0, 0, 0, 0]), (2, [6, 6, 0, 0, 0, 0, 0, 0]),
    (3, [2, 2, 2, 0, 0, 0, 0, 0]), (3, [2, 2, 3, 0, 0, 0, 0, 0]), (3, [2, 2, 4, 0, 0, 0, 0, 0]),
    (3, [2, 3, 3, 0, 0, 0, 0, 0]), (3, [2, 2, 5, 0, 0, 0, 0, 0]), (3, [2, 3, 4, 0, 0, 0, 0, 0]),
    (3, [3, 3, 3, 0, 0, 0, 0, 0]), (3, [2, 2, 6, 0, 0, 0, 0, 0]), (3, [2, 3, 5, 0, 0, 0, 0, 0]),
    (3, [2, 4, 4, 0, 0, 0, 0, 0]), (3, [3, 3, 4, 0, 0, 0, 0, 0]), (3, [2, 2, 7, 0, 0, 0, 0, 0]),
    (3, [2, 3, 6, 0, 0, 0, 0, 0]), (3, [2, 4, 5, 0, 0, 0, 0, 0]), (3, [3, 3, 5, 0, 0, 0, 0, 0]),
    (3, [3, 4, 4, 0, 0, 0, 0, 0]), (3, [2, 2, 8, 0, 0, 0, 0, 0]), (3, [2, 3, 7, 0, 0, 0, 0, 0]),
    (3, [2, 4, 6, 0, 0, 0, 0, 0]), (3, [2, 5, 5, 0, 0, 0, 0, 0]), (3, [3, 3, 6, 0, 0, 0, 0, 0]),
    (3, [3, 4, 5, 0, 0, 0, 0, 0]), (3, [4, 4, 4, 0, 0, 0, 0, 0]), (4, [2, 2, 2, 2, 0, 0, 0, 0]),
    (4, [2, 2, 2, 3, 0, 0, 0, 0]), (4, [2, 2, 2, 4, 0, 0, 0, 0]), (4, [2, 2, 3, 3, 0, 0, 0, 0]),
    (4, [2, 2, 2, 5, 0, 0, 0, 0]), (4, [2, 2, 3, 4, 0, 0, 0, 0]), (4, [2, 3, 3, 3, 0, 0, 0, 0]),
    (4, [2, 2, 2, 6, 0, 0, 0, 0]), (4, [2, 2, 3, 5, 0, 0, 0, 0]), (4, [2, 2, 4, 4, 0, 0, 0, 0]),
    (4, [2, 3, 3, 4, 0, 0, 0, 0]), (4, [3, 3, 3, 3, 0, 0, 0, 0]), (5, [2, 2, 2, 2, 2, 0, 0, 0]),
    (5, [2, 2, 2, 2, 3, 0, 0, 0]), (5, [2, 2, 2, 2, 4, 0, 0, 0]), (5, [2, 2, 2, 3, 3, 0, 0, 0]),
    (6, [2, 2, 2, 2, 2, 2, 0, 0])] := by
  decide

theorem mem_primeForms : ∀ (k lo s : Nat) (L : List Nat),
    L ∈ primeForms k lo s ↔ L.length = k ∧ L.Chain (fun a b => a ≤ b) lo ∧ L.sum ≤ s := by
  intro k
  induction k with
  | zero =>
    intro lo s L
    unfold primeForms
    constructor
    · intro h
      rw [List.mem_singleton] at h
      subst h
      exact ⟨rfl, List.Chain.nil, Nat.zero_le _⟩
    · intro h
      rw [List.mem_singleton]
      exact List.length_eq_zero.mp h.1
  | succ k ih =>
    intro lo s L
    unfold primeForms
    rw [List.mem_flatMap]
    constructor
    · rintro ⟨d, hd, hL⟩
      rw [List.mem_filter, List.mem_range] at hd
      obtain ⟨T, hT, rfl⟩ := List.mem_map.mp hL
      obtain ⟨h1, h2, h3⟩ := (ih d (s - d) T).mp hT
      refine ⟨by simp [h1], List.Chain.cons (by simpa using hd.2) h2, ?_⟩
      rw [List.sum_cons]
      omega
    · rintro ⟨h1, h2, h3⟩
      cases L with
      | nil => simp at h1
      | cons d T =>
        rw [List.sum_cons] at h3
        rw [List.chain_cons] at h2
        refine ⟨d, ?_, List.mem_map.mpr ⟨T, (ih d (s - d) T).mpr ⟨?_, h2.2, by omega⟩, rfl⟩⟩
        · rw [List.mem_filter, List.mem_range]
          exact ⟨by omega, by simpa using h2.1⟩
        · simpa using h1

theorem sum_ge_two_mul : ∀ (L : List Nat), (∀ d ∈ L, 2 ≤ d) → 2 * L.length ≤ L.sum
  | [], _ => by simp
  | d :: T, h => by
    have h1 := h d (List.mem_cons_self _ _)
    have h2 := sum_ge_two_mul T (fun e he => h e (List.mem_cons_of_mem _ he))
    rw [List.sum_cons, List.length_cons]
    omega

theorem primeForms_listed :
    ∀ L ∈ primeForms 2 2 12 ++ primeForms 3 2 12 ++ primeForms 4 2 12 ++ primeForms 5 2 12
        ++ primeForms 6 2 12, Nat.ofDigits 16 L.reverse ∈ arrSetCode := by
  decide

theorem arrSetCode_prime : ∀ D ∈ arrSetCode.map setCodeDigits,
    2 ≤ D.length ∧ (∀ d ∈ D, 2 ≤ d) ∧ D.sum ≤ 12 ∧ D.Sorted (fun a b => a ≤ b) := by
  rw [arrSetCode_digits]
  decide

theorem map_pair_zip {α β γ : Type} (f : α → β) (g : α → γ) :
    ∀ (l : List α), l.map (fun n => (f n, g n)) = (l.map f).zip (l.map g)
  | [] => rfl
  | a :: l => by
    rw [List.map_cons, List.map_cons, List.map_cons, List.zip_cons_cons, map_pair_zip f g l]

theorem arrSetCode_reads : ∀ D ∈ arrSetCode.map (fun n => (GetBases n, setCodeDigits n)),
    D.1 = (D.2.length, D.2 ++ List.replicate (MAX_PLACES - D.2.length) 0) := by
  rw [map_pair_zip, arrSetCode_bases, arrSetCode_digits]
  decide

/-- C24: the array `arrSetCode` built from `IntervalSetsList.h` is exhaustive
and ordered. A natural number is one of its 65 entries exactly when its
hexadecimal digit string has at least two digits, every digit at least 2, a
digit sum of at most 12 and digits that do not decrease from left to right;
no entry is listed twice; the entries are in strictly increasing order of the
three-level key (number of places, sum of place ranges, set code value); and
`GetBases` reads from each entry exactly its digits, leftmost digit first, as
the place ranges. -/
theorem arrSetCode_exhaustive_sorted :
    (∀ n : Nat, n ∈ arrSetCode ↔ IsPrimeSetCode n) ∧
    arrSetCode.Nodup ∧ arrSetCode.length = 65 ∧
    arrSetCode.Pairwise (fun a b => keyBefore (setCodeKey a) (setCodeKey b)) ∧
    (∀ n ∈ arrSetCode, GetBases n = ((setCodeDigits n).length,
      setCodeDigits n ++ List.replicate (MAX_PLACES - (setCodeDigits n).length) 0)) := by
  refine ⟨fun n => ⟨fun h => ?_, fun h => ?_⟩, by decide, rfl, ?_, ?_⟩
  · exact arrSetCode_prime _ (List.mem_map_of_mem _ h)
  · obtain ⟨h1, h2, h3, h4⟩ := h
    have hlen := sum_ge_two_mul _ h2
    have hch : (setCodeDigits n).Chain (fun a b => a ≤ b) 2 := by
      rw [List.chain_iff_pairwise, List.pairwise_cons]
      exact ⟨h2, h4⟩
    have hmem := (mem_primeForms (setCodeDigits n).length 2 12 (setCodeDigits n)).mpr
      ⟨rfl, hch, h3⟩
    have hin : setCodeDigits n ∈ primeForms 2 2 12 ++ primeForms 3 2 12 ++ primeForms 4 2 12
        ++ primeForms 5 2 12 ++ primeForms 6 2 12 := by
      have hl : (setCodeDigits n).length = 2 ∨ (setCodeDigits n).length = 3
          ∨ (setCodeDigits n).length = 4 ∨ (setCodeDigits n).length = 5
          ∨ (setCodeDigits n).length = 6 := by omega
      simp only [List.mem_append]
      rcases hl with e | e | e | e | e <;> rw [e] at hmem <;> tauto
    have := primeForms_listed _ hin
    unfold setCodeDigits at this
    rw [List.reverse_reverse, Nat.ofDigits_digits] at this
    exact this
  · rw [← List.pairwise_map, arrSetCode_keys]
    decide
  · intro n hn
    exact arrSetCode_reads _ (List.mem_map_of_mem (fun n => (GetBases n, setCodeDigits n)) hn)

theorem swap_perm (l : List Int) (i j : Nat) (hi : i < l.length) (hj : j < l.length) :
    ((l.set i (l.getD j 0)).set j (l.getD i 0)).Perm l := by
  rw [List.getD_eq_getElem l 0 hi, List.getD_eq_getElem l 0 hj]
  rw [List.perm_iff_count]
  intro b
  rw [List.count_set _ _ _ _ (by rw [List.length_set]; exact hj),
    List.count_set _ _ _ _ hi]
  have hj1 : j < (l.set i l[j]).length := by rw [List.length_set]; exact hj
  have e : (l.set i l[j])[j] = l[j] := by
    rw [List.getElem_set]
    split <;> rfl
  rw [e]
  have h1 : (if (l[i] == b) = true then 1 else 0) ≤ l.count b := by
    split
    · rename_i h
      have : l[i] = b := by simpa using h
      rw [← this]
      exact List.count_pos_iff.mpr (List.getElem_mem _)
    · exact Nat.zero_le _
  omega

theorem valuesBelow_length (n : Nat) : (valuesBelow n).length = n := by
  unfold valuesBelow
  rw [List.length_map, List.length_range]

theorem wrapInt_small (n : Nat) (h : (n : Int) ≤ INT_MAX) : wrapInt (n : Int) = n := by
  unfold wrapInt
  unfold INT_MAX at h
  omega

/-- One call of `GetNext` on an object that satisfies the invariant. -/
theorem GetNext_step (n : Nat) (rl : CRandList) (i : Nat) (hn : (n : Int) ≤ INT_MAX)
    (h : RandInv n rl) :
    ∃ v rl1, rl.GetNext i = some (v, rl1) ∧ RandInv n rl1 ∧
      rl1.m_nAvail = (if rl.m_nAvail = 0 then (n : Int) else rl.m_nAvail) - 1 ∧
      rl1.m_arrList.drop rl1.m_nAvail.toNat
        = v :: rl.m_arrList.drop (rl1.m_nAvail.toNat + 1) := by
  obtain ⟨hlen, hperm, ha0, han⟩ := h
  have hsz : rl.GetSize = n := by
    unfold CRandList.GetSize
    rw [hlen]
    exact wrapInt_small n hn
  unfold CRandList.GetNext
  simp only
  rw [hsz]
  generalize hA : (if rl.m_nAvail = 0 then (n : Int) else rl.m_nAvail) = A
  have hA1 : 0 < A := by
    rw [← hA]
    split <;> omega
  have hA2 : A ≤ n := by
    rw [← hA]
    split <;> omega
  rw [if_neg (by omega)]
  have hR0 : 0 ≤ CRandList.Rand A i := by
    unfold CRandList.Rand
    rw [if_neg (by omega)]
    omega
  have hR1 : CRandList.Rand A i ≤ A - 1 := by
    unfold CRandList.Rand
    rw [if_neg (by omega)]
    omega
  generalize CRandList.Rand A i = r at hR0 hR1
  rw [if_neg (by rw [hlen]; omega)]
  have hj : r.toNat < rl.m_arrList.length := by rw [hlen]; omega
  have hk : (A - 1).toNat < rl.m_arrList.length := by rw [hlen]; omega
  refine ⟨_, _, rfl, ⟨?_, ?_, ?_, ?_⟩, rfl, ?_⟩
  · simp only [List.length_set]
    exact hlen
  · exact (swap_perm rl.m_arrList r.toNat (A - 1).toNat hj hk).trans hperm
  · show 0 ≤ A - 1
    omega
  · show A - 1 < n
    omega
  · show ((rl.m_arrList.set r.toNat (rl.m_arrList.getD (A - 1).toNat 0)).set (A - 1).toNat
        (rl.m_arrList.getD r.toNat 0)).drop (A - 1).toNat
      = rl.m_arrList.getD r.toNat 0 :: rl.m_arrList.drop ((A - 1).toNat + 1)
    have hk1 : (A - 1).toNat < ((rl.m_arrList.set r.toNat
        (rl.m_arrList.getD (A - 1).toNat 0)).set (A - 1).toNat
          (rl.m_arrList.getD r.toNat 0)).length := by
      simp only [List.length_set]
      exact hk
    rw [List.drop_eq_getElem_cons hk1, List.getElem_set_self,
      List.drop_set_of_lt _ _ (Nat.lt_succ_self _)]
    rw [List.drop_set_of_lt _ _ (show r.toNat < (A - 1).toNat + 1 by omega)]

theorem calls_cons (rl : CRandList) (i : Nat) (rest : List Nat) (v : Int) (rl1 : CRandList)
    (outs : List Int) (rlF : CRandList) (h1 : rl.GetNext i = some (v, rl1))
    (h2 : rl1.calls rest = some (outs, rlF)) :
    rl.calls (i :: rest) = some (v :: outs, rlF) := by
  unfold CRandList.calls
  rw [h1]
  simp only
  rw [h2]

/-- Calls of `GetNext` that stay inside one block: the elements returned
are, last first, the elements that the calls have moved to the end of the
available part of the array. -/
theorem calls_block (n : Nat) (hn : (n : Int) ≤ INT_MAX) :
    ∀ (rest : List Nat) (i : Nat) (rl : CRandList) (m : Nat), RandInv n rl →
      (m : Int) = (if rl.m_nAvail = 0 then (n : Int) else rl.m_nAvail) →
      (i :: rest).length ≤ m →
      ∃ outs rlF, rl.calls (i :: rest) = some (outs, rlF) ∧ outs.length = (i :: rest).length ∧
        RandInv n rlF ∧ rlF.m_nAvail = ((m - (i :: rest).length : Nat) : Int) ∧
        rlF.m_arrList.drop (m - (i :: rest).length) = outs.reverse ++ rl.m_arrList.drop m := by
  intro rest
  induction rest with
  | nil =>
    intro i rl m hinv hm hle
    obtain ⟨v, rl1, hg, hinv1, ha1, hd1⟩ := GetNext_step n rl i hn hinv
    simp only [List.length_cons, List.length_nil] at hle ⊢
    have e : rl1.m_nAvail.toNat = m - (0 + 1) := by omega
    refine ⟨[v], rl1, calls_cons rl i [] v rl1 [] rl1 hg rfl, rfl, hinv1, by omega, ?_⟩
    rw [← e, hd1, e]
    have : m - (0 + 1) + 1 = m := by omega
    rw [this]
    rfl
  | cons j rest ih =>
    intro i rl m hinv hm hle
    obtain ⟨v, rl1, hg, hinv1, ha1, hd1⟩ := GetNext_step n rl i hn hinv
    simp only [List.length_cons] at hle ⊢
    have hm1 : ((m - 1 : Nat) : Int) = (if rl1.m_nAvail = 0 then (n : Int) else rl1.m_nAvail) := by
      rw [if_neg (by omega)]
      omega
    obtain ⟨outs, rlF, hc, hl, hinvF, haF, hdF⟩ := ih j rl1 (m - 1) hinv1 hm1
      (by simp only [List.length_cons]; omega)
    simp only [List.length_cons] at hl haF hdF
    refine ⟨v :: outs, rlF, calls_cons rl i (j :: rest) v rl1 outs rlF hg hc,
      by simp only [List.length_cons]; omega, hinvF, by omega, ?_⟩
    have e1 : m - (rest.length + 1 + 1) = m - 1 - (rest.length + 1) := by omega
    have e2 : rl1.m_nAvail.toNat = m - 1 := by omega
    rw [e1, hdF, ← e2, hd1, e2]
    have : m - 1 + 1 = m := by omega
    rw [this, List.reverse_cons, List.append_assoc]
    rfl

theorem calls_nil (rl : CRandList) : rl.calls [] = some ([], rl) := rfl

theorem calls_cons_eq (rl : CRandList) (i : Nat) (rest : List Nat) :
    rl.calls (i :: rest) =
      match rl.GetNext i with
      | none => none
      | some (v, rl1) =>
        match rl1.calls rest with
        | none => none
        | some (vs, rl2) => some (v :: vs, rl2) := rfl

theorem calls_append : ∀ (a b : List Nat) (rl : CRandList),
    rl.calls (a ++ b) =
      match rl.calls a with
      | none => none
      | some (o1, rl1) =>
        match rl1.calls b with
        | none => none
        | some (o2, rl2) => some (o1 ++ o2, rl2) := by
  intro a
  induction a with
  | nil =>
    intro b rl
    rw [List.nil_append, calls_nil]
    simp only
    cases rl.calls b with
    | none => rfl
    | some r => rfl
  | cons i a ih =>
    intro b rl
    rw [List.cons_append, calls_cons_eq, calls_cons_eq]
    cases rl.GetNext i with
    | none => rfl
    | some r =>
      obtain ⟨v, rl1⟩ := r
      simp only
      rw [ih b rl1]
      cases rl1.calls a with
      | none => rfl
      | some r1 =>
        obtain ⟨o1, rl2⟩ := r1
        simp only
        cases rl2.calls b with
        | none => rfl
        | some r2 => rfl

/-- Any number of calls of `GetNext`, started at the beginning of a block. -/
theorem calls_blocks (n : Nat) (hn : (n : Int) ≤ INT_MAX) :
    ∀ (len : Nat) (rs : List Nat) (rl : CRandList), rs.length = len → RandInv n rl →
      rl.m_nAvail = 0 →
      ∃ outs rlF, rl.calls rs = some (outs, rlF) ∧ outs.length = rs.length ∧ RandInv n rlF ∧
        ∀ k, (k + 1) * n ≤ rs.length → ((outs.drop (k * n)).take n).Perm (valuesBelow n) := by
  intro len
  induction len using Nat.strong_induction_on with
  | _ len ih =>
    intro rs rl hlen hinv ha
    have hn1 : 1 ≤ n := by
      obtain ⟨_, _, h0, h1⟩ := hinv
      omega
    have hm : (n : Int) = (if rl.m_nAvail = 0 then (n : Int) else rl.m_nAvail) := by
      rw [if_pos ha]
    by_cases hlt : rs.length < n
    · have hvac : ∀ k, ¬ (k + 1) * n ≤ rs.length := by
        intro k hk
        have : n ≤ (k + 1) * n := Nat.le_mul_of_pos_left n (Nat.succ_pos k)
        omega
      cases rs with
      | nil => exact ⟨[], rl, rfl, rfl, hinv, fun k hk => absurd hk (hvac k)⟩
      | cons i rest =>
        obtain ⟨outs, rlF, hc, hl, hinvF, _, _⟩ := calls_block n hn rest i rl n hinv hm
          (Nat.le_of_lt hlt)
        exact ⟨outs, rlF, hc, hl, hinvF, fun k hk => absurd hk (hvac k)⟩
    · have hsplit : rs = rs.take n ++ rs.drop n := (List.take_append_drop n rs).symm
      have htl : (rs.take n).length = n := by rw [List.length_take]; omega
      have hdl : (rs.drop n).length = rs.length - n := List.length_drop n rs
      have hne : ∃ i rest, rs.take n = i :: rest := by
        cases hh : rs.take n with
        | nil => rw [hh] at htl; simp at htl; omega
        | cons i rest => exact ⟨i, rest, rfl⟩
      obtain ⟨i, rest, hir⟩ := hne
      obtain ⟨o1, rl1, hc1, hl1, hinv1, ha1, hd1⟩ := calls_block n hn rest i rl n hinv hm
        (by rw [← hir, htl])
      rw [← hir] at hc1 hl1 ha1 hd1
      rw [htl] at hl1 ha1 hd1
      have ha10 : rl1.m_nAvail = 0 := by rw [ha1]; simp
      have hp1 : o1.Perm (valuesBelow n) := by
        rw [Nat.sub_self, List.drop_zero, List.drop_of_length_le (by rw [hinv.1]),
          List.append_nil] at hd1
        have : o1.reverse.Perm (valuesBelow n) := by rw [← hd1]; exact hinv1.2.1
        exact (List.reverse_perm o1).symm.trans this
      obtain ⟨o2, rlF, hc2, hl2, hinvF, hb2⟩ := ih (rs.length - n) (by omega) (rs.drop n) rl1
        hdl hinv1 ha10
      refine ⟨o1 ++ o2, rlF, ?_, ?_, hinvF, ?_⟩
      · rw [hsplit, calls_append, hc1]
        simp only
        rw [hc2]
      · rw [List.length_append, hl1, hl2, hdl]
        omega
      · intro k hk
        cases k with
        | zero =>
          rw [Nat.zero_mul, List.drop_zero, List.take_append_of_le_length (by omega),
            List.take_of_length_le (by omega)]
          exact hp1
        | succ k =>
          have e : (k + 1) * n = o1.length + k * n := by rw [hl1, Nat.succ_mul]; omega
          rw [e, List.drop_append]
          apply hb2 k
          rw [hdl]
          have : (k + 1 + 1) * n = (k + 1) * n + n := Nat.succ_mul (k + 1) n
          omega

theorem Init_inv (rl0 : CRandList) (nSize : Int) (h1 : 1 ≤ nSize) :
    ∃ rlI, rl0.Init nSize = some rlI ∧ RandInv nSize.toNat rlI ∧ rlI.m_nAvail = 0 := by
  unfold CRandList.Init
  rw [if_neg (by omega)]
  refine ⟨_, rfl, ⟨?_, List.Perm.refl _, le_refl _, ?_⟩, rfl⟩
  · simp only [List.length_map, List.length_range]
  · show (0 : Int) < (nSize.toNat : Int)
    omega

/-- C25: `CRandList` yields a random sequence without duplicates. After
`Init(nSize)` with `1 <= nSize <= INT_MAX`, whatever values the random source
gives, every call of `GetNext` returns; the elements returned by each
successive block of `nSize` calls are a permutation of `0, ..., nSize - 1`;
after the calls the array is a permutation of `0, ..., nSize - 1` and
`GetAvail` lies in `[0, nSize)`. `Rand(k)` with `k > 0` returns a value of
`[0, k)`, and every such value is returned for some value of the random
source. -/
theorem CRandList_no_duplicates (rl0 : CRandList) (nSize : Int) (h1 : 1 ≤ nSize)
    (h2 : nSize ≤ INT_MAX) (rs : List Nat) :
    ∃ rlI outs rlF, rl0.Init nSize = some rlI ∧ rlI.calls rs = some (outs, rlF) ∧
      outs.length = rs.length ∧
      (∀ k, (k + 1) * nSize.toNat ≤ rs.length →
        ((outs.drop (k * nSize.toNat)).take nSize.toNat).Perm (valuesBelow nSize.toNat)) ∧
      rlF.m_arrList.Perm (valuesBelow nSize.toNat) ∧
      0 ≤ rlF.GetAvail ∧ rlF.GetAvail < nSize ∧
      (∀ (k : Int) (i : Nat), 0 < k → 0 ≤ CRandList.Rand k i ∧ CRandList.Rand k i < k) ∧
      (∀ (k v : Int), 0 ≤ v → v < k → CRandList.Rand k v.toNat = v) := by
  obtain ⟨rlI, hI, hinv, ha⟩ := Init_inv rl0 nSize h1
  obtain ⟨outs, rlF, hc, hl, hinvF, hb⟩ := calls_blocks nSize.toNat
    (by rw [Int.toNat_of_nonneg (by omega)]; exact h2) rs.length rs rlI rfl hinv ha
  refine ⟨rlI, outs, rlF, hI, hc, hl, hb, hinvF.2.1, hinvF.2.2.1, ?_, ?_, ?_⟩
  · have := hinvF.2.2.2
    unfold CRandList.GetAvail
    omega
  · intro k i hk
    unfold CRandList.Rand
    rw [if_neg (by omega)]
    omega
  · intro k v hv hvk
    unfold CRandList.Rand
    rw [if_neg (by omega)]
    omega

theorem CRandList_no_duplicates_witness :
    ((1 : Int) ≤ 3 ∧ (3 : Int) ≤ INT_MAX) ∧
    ∃ rlI outs rlF, CRandList.new.Init 3 = some rlI ∧
      rlI.calls [2, 0, 7, 1, 1, 0, 5] = some (outs, rlF) ∧
      outs.length = [2, 0, 7, 1, 1, 0, 5].length ∧
      (∀ k, (k + 1) * (3 : Int).toNat ≤ [2, 0, 7, 1, 1, 0, 5].length →
        ((outs.drop (k * (3 : Int).toNat)).take (3 : Int).toNat).Perm
          (valuesBelow (3 : Int).toNat)) ∧
      rlF.m_arrList.Perm (valuesBelow (3 : Int).toNat) ∧
      0 ≤ rlF.GetAvail ∧ rlF.GetAvail < 3 ∧
      (∀ (k : Int) (i : Nat), 0 < k → 0 ≤ CRandList.Rand k i ∧ CRandList.Rand k i < k) ∧
      (∀ (k v : Int), 0 ≤ v → v < k → CRandList.Rand k v.toNat = v) :=
  ⟨⟨by decide, by decide⟩,
    CRandList_no_duplicates CRandList.new 3 (by decide) (by decide) [2, 0, 7, 1, 1, 0, 5]⟩

theorem colRank_lt (B : Nat) (f : Nat → Nat) (hf : ∀ t, f t + 1 ≤ B) :
    ∀ n, colRank B f n + 1 ≤ B ^ n := by
  intro n
  induction n with
  | zero => simp [colRank]
  | succ n ih =>
    have h1 := hf n
    have h2 : B * (colRank B f n + 1) ≤ B * B ^ n := Nat.mul_le_mul_left B ih
    rw [Nat.mul_add, Nat.mul_one] at h2
    show B * colRank B f n + f n + 1 ≤ B ^ (n + 1)
    rw [pow_succ, Nat.mul_comm (B ^ n) B]
    omega

theorem colRank_congr (B : Nat) (f g : Nat → Nat) :
    ∀ n, (∀ t < n, f t = g t) → colRank B f n = colRank B g n := by
  intro n
  induction n with
  | zero => intro _; rfl
  | succ n ih =>
    intro h
    show B * colRank B f n + f n = B * colRank B g n + g n
    rw [ih (fun t ht => h t (by omega)), h n (by omega)]

theorem colRank_lex (B : Nat) (f g : Nat → Nat) (j : Nat) (hf : ∀ t, f t + 1 ≤ B)
    (heq : ∀ t < j, f t = g t) (hlt : f j < g j) :
    ∀ n, j < n → colRank B f n < colRank B g n := by
  intro n
  induction n with
  | zero => intro h; omega
  | succ n ih =>
    intro hj
    show B * colRank B f n + f n < B * colRank B g n + g n
    by_cases e : j = n
    · subst e
      rw [colRank_congr B f g j heq]
      omega
    · have h1 := ih (by omega)
      have h2 : B * (colRank B f n + 1) ≤ B * colRank B g n := Nat.mul_le_mul_left B h1
      rw [Nat.mul_add, Nat.mul_one] at h2
      have := hf n
      omega

theorem colDigit_le (c : CalcConsts) (bg : CBalaGray) (d : Nat) (h : Cols c bg d) (t : Nat) :
    colDigit bg d t + 1 ≤ c.nGraySuccessors + 1 := by
  unfold colDigit
  split
  · rename_i ht
    have := h t ht
    omega
  · omega

theorem crawlRank_lt (c : CalcConsts) (bg : CBalaGray) (d : Nat) (h : Cols c bg d) :
    crawlRank c bg d + 1 ≤ (c.nGraySuccessors + 1) ^ c.nNumerals :=
  colRank_lt _ _ (colDigit_le c bg d h) _

theorem Progress_rank (c : CalcConsts) (bg bg1 : CBalaGray) (d e : Nat) (hc : Cols c bg d)
    (hp : Progress c bg d bg1 e) (he : e < c.nNumerals) :
    crawlRank c bg d < crawlRank c bg1 e := by
  obtain ⟨h1, h2, h3, _⟩ := hp
  apply colRank_lex _ _ _ e (colDigit_le c bg d hc) _ _ _ he
  · intro t ht
    unfold colDigit
    rw [if_pos (by omega), if_pos (by omega), h2 t ht]
  · unfold colDigit
    rw [if_pos (le_refl e)]
    split
    · rename_i hed
      have := h3 hed
      omega
    · omega

theorem setState_iGray_same (bg : CBalaGray) (i t : Nat) (st : STATE)
    (h : st.iGray = (bg.state i).iGray) :
    ((bg.setState i st).state t).iGray = (bg.state t).iGray := by
  rw [state_setState]
  split
  · rename_i e
    rw [h, e.1]
  · rfl

theorem lblPrune_cols (c : CalcConsts) (hK : c.nGraySuccessors < 256) :
    ∀ (e : Nat) (bg : CBalaGray) (loc : CalcLocals), e ≤ bg.m_arrState.length →
      (∀ t < e, (bg.state t).iGray < c.nGraySuccessors) →
      (lblPrune c e bg loc).2.2 = false →
      (lblPrune c e bg loc).2.1.iDepth < e ∧
      (∀ t < (lblPrune c e bg loc).2.1.iDepth,
        ((lblPrune c e bg loc).1.state t).iGray = (bg.state t).iGray) ∧
      ((lblPrune c e bg loc).1.state (lblPrune c e bg loc).2.1.iDepth).iGray
        = (bg.state (lblPrune c e bg loc).2.1.iDepth).iGray + 1 ∧
      ((lblPrune c e bg loc).1.state (lblPrune c e bg loc).2.1.iDepth).iGray
        < c.nGraySuccessors := by
  intro e
  induction e with
  | zero =>
    intro bg loc _ _ h
    unfold lblPrune at h
    simp at h
  | succ d ih =>
    intro bg loc hlen hcols
    unfold lblPrune
    by_cases hs : d + 1 ≤ c.nStartDepth
    · rw [if_pos hs]
      intro h
      simp at h
    · rw [if_neg hs]
      simp only
      have hg := hcols d (Nat.lt_succ_self d)
      have hmod : ((bg.state d).iGray + 1) % 256 = (bg.state d).iGray + 1 :=
        Nat.mod_eq_of_lt (by omega)
      rw [hmod]
      have hsd : (bg.setState d { bg.state d with iGray := (bg.state d).iGray + 1 }).state d
          = { bg.state d with iGray := (bg.state d).iGray + 1 } := by
        rw [state_setState, if_pos ⟨rfl, by omega⟩]
      have hso : ∀ t, t ≠ d →
          (bg.setState d { bg.state d with iGray := (bg.state d).iGray + 1 }).state t
            = bg.state t := by
        intro t ht
        rw [state_setState, if_neg (fun e => ht e.1.symm)]
      by_cases hge : (bg.state d).iGray + 1 ≥ c.nGraySuccessors
      · rw [if_pos hge]
        intro hb
        obtain ⟨h1, h2, h3, h4⟩ := ih _ _ (by rw [setState_length]; omega)
          (fun t ht => by rw [hso t (by omega)]; exact hcols t (by omega)) hb
        refine ⟨by omega, ?_, ?_, h4⟩
        · intro t ht
          rw [h2 t ht, hso t (by omega)]
        · rw [h3, hso _ (by omega)]
      · rw [if_neg hge]
        intro _
        refine ⟨Nat.lt_succ_self d, ?_, ?_, ?_⟩
        · intro t ht
          exact congrArg STATE.iGray (hso t (Nat.ne_of_lt ht))
        · exact congrArg STATE.iGray hsd
        · show ((bg.setState d { bg.state d with iGray := (bg.state d).iGray + 1 }).state d).iGray
            < c.nGraySuccessors
          rw [hsd]
          show (bg.state d).iGray + 1 < c.nGraySuccessors
          omega

theorem lblPrune_progress (c : CalcConsts) (hK : c.nGraySuccessors < 256) (d : Nat)
    (bg : CBalaGray) (loc : CalcLocals) (hlen : d ≤ bg.m_arrState.length)
    (hc : ∀ t < d, (bg.state t).iGray < c.nGraySuccessors)
    (hb : (lblPrune c d bg loc).2.2 = false) :
    Progress c bg d (lblPrune c d bg loc).1 (lblPrune c d bg loc).2.1.iDepth := by
  obtain ⟨h1, h2, h3, h4⟩ := lblPrune_cols c hK d bg loc hlen hc hb
  refine ⟨by omega, h2, fun _ => by omega, ?_⟩
  intro t ht
  by_cases e : t = (lblPrune c d bg loc).2.1.iDepth
  · rw [e]; exact h4
  · rw [h2 t (by omega)]
    exact hc t (by omega)

theorem crawlAdvance_progress (c : CalcConsts) (hK : c.nGraySuccessors < 256)
    (bg : CBalaGray) (loc : CalcLocals) (hlen : loc.iDepth < bg.m_arrState.length)
    (hc : Cols c bg loc.iDepth)
    (hb : (crawlAdvance c bg loc).2.2 = false) :
    Progress c bg loc.iDepth (crawlAdvance c bg loc).1 (crawlAdvance c bg loc).2.1.iDepth := by
  have hg := hc loc.iDepth (le_refl _)
  have hmod : ((bg.state loc.iDepth).iGray + 1) % 256 = (bg.state loc.iDepth).iGray + 1 :=
    Nat.mod_eq_of_lt (by omega)
  have hsd : ((bg.setState loc.iDepth ⟨(bg.state loc.iDepth).iNum,
      (bg.state loc.iDepth).iGray + 1, (bg.state loc.iDepth).nTrans⟩).state loc.iDepth).iGray
        = (bg.state loc.iDepth).iGray + 1 := by
    rw [state_setState, if_pos ⟨rfl, hlen⟩]
  have hso : ∀ t, t ≠ loc.iDepth →
      (bg.setState loc.iDepth ⟨(bg.state loc.iDepth).iNum,
        (bg.state loc.iDepth).iGray + 1, (bg.state loc.iDepth).nTrans⟩).state t
          = bg.state t := by
    intro t ht
    rw [state_setState, if_neg (fun e => ht e.1.symm)]
  have hl1 : (bg.setState loc.iDepth ⟨(bg.state loc.iDepth).iNum,
      (bg.state loc.iDepth).iGray + 1, (bg.state loc.iDepth).nTrans⟩).m_arrState.length
        = bg.m_arrState.length := setState_length _ _ _
  unfold crawlAdvance at hb ⊢
  simp only at hb ⊢
  rw [hmod] at hb ⊢
  generalize bg.setState loc.iDepth ⟨(bg.state loc.iDepth).iNum,
      (bg.state loc.iDepth).iGray + 1, (bg.state loc.iDepth).nTrans⟩ = bg1 at hb hsd hso hl1 ⊢
  by_cases hge : (bg.state loc.iDepth).iGray + 1 ≥ c.nGraySuccessors
  · rw [if_pos hge] at hb ⊢
    obtain ⟨h1, h2, h3, h4⟩ := lblPrune_cols c hK loc.iDepth bg1 loc
      (by rw [hl1]; omega)
      (fun t ht => by rw [hso t (by omega)]; exact hc t (by omega)) hb
    generalize lblPrune c loc.iDepth bg1 loc = r at h1 h2 h3 h4 ⊢
    refine ⟨by omega, ?_, fun _ => ?_, ?_⟩
    · intro t ht
      rw [h2 t ht, hso t (by omega)]
    · rw [h3, hso _ (by omega)]
      omega
    · intro t ht
      by_cases e : t = r.2.1.iDepth
      · rw [e]; exact h4
      · rw [h2 t (by omega), hso t (by omega)]
        exact hc t (by omega)
  · rw [if_neg hge]
    show Progress c bg loc.iDepth bg1 loc.iDepth
    refine ⟨by omega, ?_, fun _ => ?_, ?_⟩
    · intro t ht
      exact congrArg STATE.iGray (hso t (Nat.ne_of_lt ht))
    · rw [hsd]
      omega
    · intro t ht
      by_cases e : t = loc.iDepth
      · rw [e, hsd]
        omega
      · rw [hso t e]
        exact hc t ht

theorem Progress_sameCols {c : CalcConsts} {bg bg0 bg1 : CBalaGray} {d e : Nat}
    (hs : ∀ t, (bg.state t).iGray = (bg0.state t).iGray) (h : Progress c bg d bg1 e) :
    Progress c bg0 d bg1 e := by
  obtain ⟨h1, h2, h3, h4⟩ := h
  refine ⟨h1, fun t ht => ?_, fun he => ?_, h4⟩
  · rw [h2 t ht, hs]
  · rw [← hs]; exact h3 he

theorem crawlStep_progress (c : CalcConsts) (bg : CBalaGray) (loc : CalcLocals)
    (hK : c.nGraySuccessors < 256) (hlen : bg.m_arrState.length = c.nNumerals)
    (hd : loc.iDepth < c.nNumerals) (hc : Cols c bg loc.iDepth) :
    (crawlStep c bg loc).2.2 = false →
    Progress c bg loc.iDepth (crawlStep c bg loc).1 (crawlStep c bg loc).2.1.iDepth := by
  have hK0 : 0 < c.nGraySuccessors := Nat.lt_of_le_of_lt (Nat.zero_le _) (hc _ (le_refl _))
  unfold crawlStep
  simp only
  generalize bg.m_arrGraySuccessor.getD
    (((bg.state (loc.iDepth - 1)).iNum <<< c.nGrayStrideShift) + (bg.state loc.iDepth).iGray) 0
      = x
  split
  · have hs : ∀ t, ((bg.setState loc.iDepth
        ⟨x, (bg.state loc.iDepth).iGray, (bg.state loc.iDepth).nTrans⟩).state t).iGray
          = (bg.state t).iGray := fun t => setState_iGray_same bg _ t _ rfl
    have hl1 : (bg.setState loc.iDepth
        ⟨x, (bg.state loc.iDepth).iGray, (bg.state loc.iDepth).nTrans⟩).m_arrState.length
          = c.nNumerals := by rw [setState_length]; exact hlen
    generalize bg.setState loc.iDepth
        ⟨x, (bg.state loc.iDepth).iGray, (bg.state loc.iDepth).nTrans⟩ = bg1 at hs hl1 ⊢
    have hc1 : Cols c bg1 loc.iDepth := fun t ht => by rw [hs]; exact hc t ht
    generalize bg1.ComputeBalance loc.iDepth = bal
    by_cases hdepth : (loc.iDepth : Int) < (c.nNumerals : Int) - 1
    · rw [if_pos hdepth]
      split
      · intro hb
        exact Progress_sameCols hs (lblPrune_progress c hK loc.iDepth bg1 loc
          (by rw [hl1]; omega) (fun t ht => hc1 t (by omega)) hb)
      · intro _
        have hs2 : ∀ t, t ≤ loc.iDepth → (((bg1.setState loc.iDepth
            ⟨(bg1.state loc.iDepth).iNum, (bg1.state loc.iDepth).iGray, bal.2.2⟩).setState
              (loc.iDepth + 1) ⟨0, 0, ((bg1.setState loc.iDepth
                ⟨(bg1.state loc.iDepth).iNum, (bg1.state loc.iDepth).iGray, bal.2.2⟩).state
                  (loc.iDepth + 1)).nTrans⟩).state t).iGray = (bg1.state t).iGray := by
          intro t ht
          rw [state_setState, if_neg (by omega)]
          exact setState_iGray_same bg1 _ t _ rfl
        have hs3 : (((bg1.setState loc.iDepth
            ⟨(bg1.state loc.iDepth).iNum, (bg1.state loc.iDepth).iGray, bal.2.2⟩).setState
              (loc.iDepth + 1) ⟨0, 0, ((bg1.setState loc.iDepth
                ⟨(bg1.state loc.iDepth).iNum, (bg1.state loc.iDepth).iGray, bal.2.2⟩).state
                  (loc.iDepth + 1)).nTrans⟩).state (loc.iDepth + 1)).iGray = 0 := by
          rw [state_setState, if_pos ⟨rfl, by rw [setState_length, hl1]; omega⟩]
        show Progress c bg loc.iDepth ((bg1.setState loc.iDepth
            ⟨(bg1.state loc.iDepth).iNum, (bg1.state loc.iDepth).iGray, bal.2.2⟩).setState
              (loc.iDepth + 1) ⟨0, 0, ((bg1.setState loc.iDepth
                ⟨(bg1.state loc.iDepth).iNum, (bg1.state loc.iDepth).iGray, bal.2.2⟩).state
                  (loc.iDepth + 1)).nTrans⟩) (loc.iDepth + 1)
        generalize (bg1.setState loc.iDepth
            ⟨(bg1.state loc.iDepth).iNum, (bg1.state loc.iDepth).iGray, bal.2.2⟩).setState
              (loc.iDepth + 1) ⟨0, 0, ((bg1.setState loc.iDepth
                ⟨(bg1.state loc.iDepth).iNum, (bg1.state loc.iDepth).iGray, bal.2.2⟩).state
                  (loc.iDepth + 1)).nTrans⟩ = bg2 at hs2 hs3 ⊢
        refine ⟨le_refl _, ?_, fun h => absurd h (by omega), ?_⟩
        · intro t ht
          rw [hs2 t (by omega), hs]
        · intro t ht
          by_cases e : t = loc.iDepth + 1
          · rw [e, hs3]; exact hK0
          · rw [hs2 t (by omega)]
            exact hc1 t (by omega)
    · rw [if_neg hdepth]
      split
      · intro hb
        exact Progress_sameCols hs (crawlAdvance_progress c hK bg1 _ (by rw [hl1]; exact hd)
          hc1 hb)
      · intro hb
        exact Progress_sameCols hs (lblPrune_progress c hK loc.iDepth bg1 loc
          (by rw [hl1]; omega) (fun t ht => hc1 t (by omega)) hb)
  · intro hb
    exact crawlAdvance_progress c hK bg loc (by rw [hlen]; exact hd) hc hb

/-- The crawl loop ends: when the fuel covers the distance of the rank of the
crawl from its bound `(K + 1) ^ N`, the loop is left. -/
theorem crawlLoop_terminates (c : CalcConsts) (cancelAt : Option Nat)
    (hK : c.nGraySuccessors < 256) :
    ∀ (m nReads : Nat) (bg : CBalaGray) (loc : CalcLocals),
      CrawlCtx c bg → LoopTop c bg loc → BestOK c bg loc → Cols c bg loc.iDepth →
      (c.nGraySuccessors + 1) ^ c.nNumerals ≤ crawlRank c bg loc.iDepth + 1 + m →
      ∃ r, crawlLoop c cancelAt (m + 1) nReads bg loc = some r := by
  intro m
  induction m with
  | zero =>
    intro nReads bg loc hctx htop hbest hc hm
    unfold crawlLoop
    by_cases hcan : cancelRequested cancelAt nReads = true
    · rw [if_pos hcan]
      exact ⟨_, rfl⟩
    · rw [if_neg hcan]
      have hpost := crawlStep_inv c bg loc hctx htop hbest
      have hprog := crawlStep_progress c bg loc hK htop.1.hlen htop.1.hdN hc
      revert hpost hprog
      generalize crawlStep c bg loc = st
      obtain ⟨bg1, loc1, brk⟩ := st
      intro hpost hprog
      cases brk with
      | true => exact ⟨_, rfl⟩
      | false =>
        exfalso
        have hp := hprog rfl
        have h1 := Progress_rank c bg bg1 loc.iDepth loc1.iDepth hc hp (hpost.2.2 rfl).1.hdN
        have h2 := crawlRank_lt c bg1 loc1.iDepth hp.2.2.2
        simp only at h1 h2
        omega
  | succ m ih =>
    intro nReads bg loc hctx htop hbest hc hm
    unfold crawlLoop
    by_cases hcan : cancelRequested cancelAt nReads = true
    · rw [if_pos hcan]
      exact ⟨_, rfl⟩
    · rw [if_neg hcan]
      have hpost := crawlStep_inv c bg loc hctx htop hbest
      have hprog := crawlStep_progress c bg loc hK htop.1.hlen htop.1.hdN hc
      revert hpost hprog
      generalize crawlStep c bg loc = st
      obtain ⟨bg1, loc1, brk⟩ := st
      intro hpost hprog
      cases brk with
      | true => exact ⟨_, rfl⟩
      | false =>
        have hp := hprog rfl
        have h1 := Progress_rank c bg bg1 loc.iDepth loc1.iDepth hc hp (hpost.2.2 rfl).1.hdN
        simp only at h1
        exact ih (nReads + 1) bg1 loc1 (CrawlCtx_frame hpost.1 hctx) (hpost.2.2 rfl)
          hpost.2.1 hp.2.2.2 (by omega)

theorem start_cols (bgN : CBalaGray) (hOK : bgN.NumeralsOK) (hst : bgN.m_arrState = [])
    (W : Nat) :
    Cols (crawlConsts bgN.MakeGraySuccessorTable W) (crawlStart bgN.MakeGraySuccessorTable)
      (crawlLocals bgN.MakeGraySuccessorTable).iDepth := by
  have hlen : bgN.MakeGraySuccessorTable.GetNumeralCount = bgN.radixProduct :=
    NumeralsOK_length hOK
  have hN4 := NumeralsOK_four_le hOK
  have hK := (start_top bgN hOK hst W).2
  intro t _
  rw [crawlStart_state bgN.MakeGraySuccessorTable hst (by omega)]
  have h2 := crawlStart_state bgN.MakeGraySuccessorTable hst (by omega)
    (crawlLocals bgN.MakeGraySuccessorTable).iDepth
  rw [h2] at hK
  split
  · exact Nat.lt_of_le_of_lt (Nat.zero_le _) hK
  · exact Nat.lt_of_le_of_lt (Nat.zero_le _) hK

/-- On a valid radix vector with a good log stream `Calc` is total: with fuel
for `(K + 1) ^ N` iterations it returns, whatever the thresholds and the
moment of cancellation, and a call that returns true without cancellation
hands back `proven = true`. -/
theorem Calc_total (bg : CBalaGray) (fuel : Nat) (cancelAt : Option Nat)
    (nPlaces : Nat) (parrBase : List Nat) (w0 : CWinner)
    (hv : ValidRadix nPlaces parrBase) (hout : bg.fOutGood = true)
    (hf : ((bg.prepared nPlaces parrBase).m_nGraySuccessors + 1)
      ^ (bg.prepared nPlaces parrBase).GetNumeralCount ≤ fuel) :
    ∃ ok bg1 w, bg.Calc fuel cancelAt (nPlaces : Int) parrBase w0 = .returned ok bg1 w ∧
      (ok = false ↔ wrapMaskLoop (bg.prepared nPlaces parrBase).m_arrGraySuccessor
        (bg.prepared nPlaces parrBase).m_nGraySuccessors 0 0 = none) ∧
      (ok = true → cancelAt = none → w.m_bIsProven = true ∧ bg1.m_bCancel = false) := by
  rw [Calc_valid_eq bg fuel cancelAt nPlaces parrBase w0 hv hout]
  cases hW : wrapMaskLoop (bg.prepared nPlaces parrBase).m_arrGraySuccessor
      (bg.prepared nPlaces parrBase).m_nGraySuccessors 0 0 with
  | none =>
    exact ⟨false, _, _, rfl, by simp, fun h => by simp at h⟩
  | some W =>
    simp only
    have hOK := withNumerals_NumeralsOK bg.Reset nPlaces parrBase hv
    have hctxT : CrawlCtx (crawlConsts (bg.prepared nPlaces parrBase) W)
        (bg.prepared nPlaces parrBase) := start_ctx _ hOK W hW
    have hctx : CrawlCtx (crawlConsts (bg.prepared nPlaces parrBase) W)
        (crawlStart (bg.prepared nPlaces parrBase)) :=
      @CrawlCtx_frame _ (bg.prepared nPlaces parrBase)
        (crawlStart (bg.prepared nPlaces parrBase)) rfl hctxT
    have htop := start_top _ hOK rfl W
    have hbest0 := start_best (bg.prepared nPlaces parrBase) W
    have hcols := start_cols _ hOK rfl W
    have hK : (crawlConsts (bg.prepared nPlaces parrBase) W).nGraySuccessors < 256 := by
      have h1 := NumeralsOK_succCount_lt hOK
      have h2 := hOK.2.2.1
      have e : (crawlConsts (bg.prepared nPlaces parrBase) W).nGraySuccessors
          = graySuccessorCount (bg.Reset.withNumerals nPlaces parrBase) := rfl
      omega
    have hpos : 1 ≤ ((bg.prepared nPlaces parrBase).m_nGraySuccessors + 1)
        ^ (bg.prepared nPlaces parrBase).GetNumeralCount := Nat.one_le_pow _ _ (by omega)
    obtain ⟨r, hr⟩ := crawlLoop_terminates _ cancelAt hK
      (((bg.prepared nPlaces parrBase).m_nGraySuccessors + 1)
        ^ (bg.prepared nPlaces parrBase).GetNumeralCount - 1) 0 _ _ hctx htop hbest0 hcols
      (by
        show ((bg.prepared nPlaces parrBase).m_nGraySuccessors + 1)
          ^ (bg.prepared nPlaces parrBase).GetNumeralCount ≤ _
        omega)
    have hr2 : crawlLoop (crawlConsts (bg.prepared nPlaces parrBase) W) cancelAt fuel 0
        (crawlStart (bg.prepared nPlaces parrBase))
        (crawlLocals (bg.prepared nPlaces parrBase)) = some r :=
      crawlLoop_fuel_mono _ cancelAt _ 0 _ _ r hr fuel (by omega)
    rw [hr2]
    obtain ⟨bgF, locF, nReads⟩ := r
    refine ⟨true, _, _, rfl, by simp, ?_⟩
    intro _ hc
    subst hc
    exact ⟨rfl, rfl⟩

theorem shift_lt_width (K : Nat) (hK : K - 1 < 2 ^ 32) :
    grayStrideShift K < 32 ↔ K ≤ 32 := by
  rw [grayStrideShift_eq K hK]
  have h32 : (32 : Nat) = 2 ^ 5 := by norm_num
  rw [h32, Nat.pow_lt_pow_iff_right (by norm_num : 1 < 2)]
  by_cases h0 : K - 1 = 0
  · rw [h0]
    simp
    omega
  · rw [← Nat.lt_pow_iff_log_lt (by norm_num) h0]
    omega

theorem shift_le_sixteen (K : Nat) (hK : K - 1 < 2 ^ 32) (h : K ≤ 32) :
    grayStrideShift K ≤ 16 := by
  rw [grayStrideShift_eq K hK]
  have h16 : (16 : Nat) = 2 ^ 4 := by norm_num
  rw [h16]
  apply Nat.pow_le_pow_right (by norm_num)
  by_cases h0 : K - 1 = 0
  · rw [h0]; simp
  · have : Nat.log 2 (K - 1) < 5 := by
      rw [← Nat.lt_pow_iff_log_lt (by norm_num) h0]
      omega
    omega

theorem offsets_distinct (S i j a b : Nat) (ha : a < 2 ^ S) (hb : b < 2 ^ S)
    (h : (i <<< S) + a = (j <<< S) + b) : i = j ∧ a = b := by
  rw [Nat.shiftLeft_eq, Nat.shiftLeft_eq] at h
  have hpos : 0 < 2 ^ S := Nat.two_pow_pos S
  have h1 : (i * 2 ^ S + a) / 2 ^ S = i := by
    rw [Nat.mul_comm, Nat.mul_add_div hpos, Nat.div_eq_of_lt ha, Nat.add_zero]
  have h2 : (j * 2 ^ S + b) / 2 ^ S = j := by
    rw [Nat.mul_comm, Nat.mul_add_div hpos, Nat.div_eq_of_lt hb, Nat.add_zero]
  have e : i = j := by rw [← h1, ← h2, h]
  subst e
  exact ⟨rfl, by omega⟩

/-- The table that `MakeGraySuccessorTable` builds on a valid radix vector:
the successor count, the stride and the size. -/
theorem prepared_geometry (bg : CBalaGray) (nPlaces : Nat) (parrBase : List Nat)
    (hv : ValidRadix nPlaces parrBase) :
    (bg.prepared nPlaces parrBase).GetNumeralCount ≤ 127 ∧
    (bg.prepared nPlaces parrBase).m_nGraySuccessors + 1
      ≤ (bg.prepared nPlaces parrBase).GetNumeralCount ∧
    (bg.prepared nPlaces parrBase).m_nGraySuccessors
      ≤ 2 ^ (bg.prepared nPlaces parrBase).m_nGrayStrideShift ∧
    (bg.prepared nPlaces parrBase).m_arrGraySuccessor.length
      = (bg.prepared nPlaces parrBase).GetNumeralCount
        <<< (bg.prepared nPlaces parrBase).m_nGrayStrideShift ∧
    ((bg.prepared nPlaces parrBase).m_nGrayStrideShift < 32
      ↔ (bg.prepared nPlaces parrBase).m_nGraySuccessors ≤ 32) ∧
    ((bg.prepared nPlaces parrBase).m_nGraySuccessors ≤ 32 →
      (bg.prepared nPlaces parrBase).GetNumeralCount
        <<< (bg.prepared nPlaces parrBase).m_nGrayStrideShift < 2 ^ 31) := by
  have hOK := withNumerals_NumeralsOK bg.Reset nPlaces parrBase hv
  have hN : (bg.prepared nPlaces parrBase).GetNumeralCount
      = (bg.Reset.withNumerals nPlaces parrBase).radixProduct := NumeralsOK_length hOK
  have hKe : (bg.prepared nPlaces parrBase).m_nGraySuccessors
      = graySuccessorCount (bg.Reset.withNumerals nPlaces parrBase) := rfl
  have hSe : (bg.prepared nPlaces parrBase).m_nGrayStrideShift
      = grayStrideShift (graySuccessorCount (bg.Reset.withNumerals nPlaces parrBase)) := rfl
  have h1 := NumeralsOK_succCount_lt hOK
  have h2 := hOK.2.2.1
  have hlen : (bg.prepared nPlaces parrBase).m_arrGraySuccessor.length
      = (bg.Reset.withNumerals nPlaces parrBase).radixProduct
        * 2 ^ grayStrideShift (graySuccessorCount (bg.Reset.withNumerals nPlaces parrBase)) :=
    MakeGraySuccessorTable_length _ hOK
  rw [hN, hKe, hSe]
  generalize graySuccessorCount (bg.Reset.withNumerals nPlaces parrBase) = K at h1 hlen ⊢
  generalize (bg.Reset.withNumerals nPlaces parrBase).radixProduct = N at h1 h2 hlen ⊢
  have hK32 : K - 1 < 2 ^ 32 := by
    have : (127 : Nat) < 2 ^ 32 := by norm_num
    omega
  refine ⟨h2, h1, le_two_pow_grayStrideShift K hK32, ?_, shift_lt_width K hK32, ?_⟩
  · rw [hlen, Nat.shiftLeft_eq]
  · intro hk
    have hs := shift_le_sixteen K hK32 hk
    rw [Nat.shiftLeft_eq]
    have hp : 2 ^ grayStrideShift K ≤ 2 ^ 16 := Nat.pow_le_pow_right (by norm_num) hs
    calc N * 2 ^ grayStrideShift K ≤ 127 * 2 ^ 16 := Nat.mul_le_mul h2 hp
      _ < 2 ^ 31 := by norm_num

/-- The wrap mask of `Calc` can be built when the greatest successor of
numeral 0 is below 64. -/
theorem wrap_some_of_small (bg : CBalaGray) (nPlaces : Nat) (parrBase : List Nat)
    (hv : ValidRadix nPlaces parrBase)
    (h : (parrBase.getD (nPlaces - 1) 0 - 1) * placeWeight parrBase (nPlaces - 1) < 64) :
    ∃ W, wrapMaskLoop (bg.prepared nPlaces parrBase).m_arrGraySuccessor
      (bg.prepared nPlaces parrBase).m_nGraySuccessors 0 0 = some W := by
  cases hW : wrapMaskLoop (bg.prepared nPlaces parrBase).m_arrGraySuccessor
      (bg.prepared nPlaces parrBase).m_nGraySuccessors 0 0 with
  | some W => exact ⟨W, rfl⟩
  | none =>
    exfalso
    have hOK := withNumerals_NumeralsOK bg.Reset nPlaces parrBase hv
    have hmax := row0_max parrBase nPlaces (by have := hv.1; omega)
      (fun p hp => (hv.2.2.1 p hp).1)
    have hb : ∀ p < nPlaces, (bg.Reset.withNumerals nPlaces parrBase).m_arrBase.getD p 0
        = parrBase.getD p 0 := fun p hp => firstBases_getD _ _ _ hp
    have hw : ∀ p < nPlaces, placeWeight (bg.Reset.withNumerals nPlaces parrBase).m_arrBase p
        = placeWeight parrBase p := fun p hp =>
      placeWeight_congr _ _ _ (fun q hq => hb q (by omega))
    obtain ⟨j, hj, h64⟩ := (wrap_none_iff_row0 (bg.prepared nPlaces parrBase)).mp hW
    obtain ⟨p, hp, v, hv0, hvb, rfl⟩ := (row0_mem _ hOK j).mp hj
    have hp' : p < nPlaces := hp
    rw [hb p hp'] at hvb
    rw [hw p hp'] at h64
    have := hmax.mp ⟨p, hp', v, hv0, hvb, h64⟩
    omega

theorem frame_cancel {bg bg1 : CBalaGray} (h : bg1.frame = bg.frame) :
    bg1.m_bCancel = bg.m_bCancel := by
  have : bg1.frame.m_bCancel = bg.frame.m_bCancel := by rw [h]
  exact this

theorem crawlStep_frame (c : CalcConsts) (bg : CBalaGray) (loc : CalcLocals) :
    (crawlStep c bg loc).1.frame = bg.frame := by
  unfold crawlStep
  simp only
  split
  · split
    · split
      · exact (lblPrune_best c _ _ _).1
      · rfl
    · split
      · exact (crawlAdvance_best c _ _).1
      · exact (lblPrune_best c _ _ _).1
  · exact (crawlAdvance_best c _ _).1

theorem cancelRequested_mono (cancelAt : Option Nat) (k k1 : Nat) (hk : k ≤ k1)
    (h : cancelRequested cancelAt k = true) : cancelRequested cancelAt k1 = true := by
  unfold cancelRequested at h ⊢
  cases cancelAt with
  | none => simp at h
  | some n =>
    simp only [decide_eq_true_eq] at h ⊢
    omega

theorem setCancel_self (bg : CBalaGray) (b : Bool) (h : bg.m_bCancel = b) :
    { bg with m_bCancel := b } = bg := by
  cases bg
  simp only at h
  subst h
  rfl

/-- The loop that reads the member `m_bCancel`, started with the flag clear,
runs as `crawlLoop` does; the object it leaves holds the flag as the last
read found it. -/
theorem crawlLoopFlag_eq (c : CalcConsts) (cancelAt : Option Nat) :
    ∀ (fuel nReads : Nat) (bg : CBalaGray) (loc : CalcLocals), bg.m_bCancel = false →
      crawlLoopFlag c cancelAt fuel nReads bg loc
        = (crawlLoop c cancelAt fuel nReads bg loc).map
            (fun r => ({ r.1 with m_bCancel := cancelRequested cancelAt (r.2.2 - 1) },
              r.2.1, r.2.2)) := by
  intro fuel
  induction fuel with
  | zero =>
    intro nReads bg loc _
    rfl
  | succ fuel ih =>
    intro nReads bg loc hb
    unfold crawlLoopFlag crawlLoop CBalaGray.atRead
    simp only
    by_cases hc : cancelRequested cancelAt nReads = true
    · rw [if_pos hc, if_pos hc, if_pos (show bg.Cancel.m_bCancel = true from rfl)]
      simp only [Option.map_some', Nat.add_sub_cancel]
      rw [hc]
      rfl
    · rw [if_neg hc, if_neg hc, if_neg (by rw [hb]; decide)]
      have hf := frame_cancel (crawlStep_frame c bg loc)
      rw [hb] at hf
      revert hf
      generalize crawlStep c bg loc = st
      obtain ⟨bg1, loc1, brk⟩ := st
      intro hf
      simp only at hf
      cases brk with
      | true =>
        simp only [Option.map_some', Nat.add_sub_cancel]
        have hcf : cancelRequested cancelAt nReads = false := by
          cases h : cancelRequested cancelAt nReads with
          | true => exact absurd h hc
          | false => rfl
        rw [hcf, setCancel_self bg1 false hf]
      | false =>
        simp only
        exact ih (nReads + 1) bg1 loc1 hf

theorem CalcFlag_valid_eq (bg : CBalaGray) (fuel : Nat) (cancelAt : Option Nat)
    (nPlaces : Nat) (parrBase : List Nat) (w0 : CWinner)
    (hv : ValidRadix nPlaces parrBase) (hout : bg.fOutGood = true) :
    bg.CalcFlag fuel cancelAt (nPlaces : Int) parrBase w0
      = match wrapMaskLoop (bg.prepared nPlaces parrBase).m_arrGraySuccessor
          (bg.prepared nPlaces parrBase).m_nGraySuccessors 0 0 with
        | none => .returned false
            { bg.prepared nPlaces parrBase with
              m_arrState := resize (bg.prepared nPlaces parrBase).m_arrState
                (bg.prepared nPlaces parrBase).GetNumeralCount STATE.zero } w0
        | some W =>
          match crawlLoopFlag (crawlConsts (bg.prepared nPlaces parrBase) W) cancelAt fuel 0
              (crawlStart (bg.prepared nPlaces parrBase))
              (crawlLocals (bg.prepared nPlaces parrBase)) with
          | none => .running
          | some (bgF, locF, nReads) =>
            .returned true (bgF.atRead cancelAt nReads)
              (handBack nPlaces parrBase (bg.prepared nPlaces parrBase).GetNumeralCount
                (bgF.atRead cancelAt nReads) locF (bgF.atRead cancelAt nReads).m_bCancel w0) := by
  unfold CBalaGray.CalcFlag
  have h2 := hv.1
  have h8 := hv.2.1
  rw [if_neg (by unfold MAX_PLACES at *; omega), if_neg (by rw [hout]; decide)]
  simp only [Int.toNat_ofNat]
  rw [MakeNumerals_valid bg.Reset nPlaces parrBase hv]
  rfl

theorem atRead_flag (bgF : CBalaGray) (cancelAt : Option Nat) (n : Nat) :
    CBalaGray.atRead { bgF with m_bCancel := cancelRequested cancelAt (n - 1) } cancelAt n
      = { bgF with m_bCancel := cancelRequested cancelAt n } := by
  unfold CBalaGray.atRead
  cases h : cancelRequested cancelAt n with
  | true =>
    rw [if_pos rfl]
    rfl
  | false =>
    rw [if_neg (by decide)]
    have h1 : cancelRequested cancelAt (n - 1) = false := by
      cases h1 : cancelRequested cancelAt (n - 1) with
      | true =>
        have := cancelRequested_mono cancelAt (n - 1) n (Nat.sub_le n 1) h1
        rw [h] at this
        exact absurd this (by decide)
      | false => rfl
    rw [h1]

/-- On a valid radix vector with a good log stream, `Calc` with the flag
read from the member `m_bCancel` gives what `Calc` gives. -/
theorem CalcFlag_eq_Calc (bg : CBalaGray) (fuel : Nat) (cancelAt : Option Nat)
    (nPlaces : Nat) (parrBase : List Nat) (w0 : CWinner)
    (hv : ValidRadix nPlaces parrBase) (hout : bg.fOutGood = true) :
    bg.CalcFlag fuel cancelAt (nPlaces : Int) parrBase w0
      = bg.Calc fuel cancelAt (nPlaces : Int) parrBase w0 := by
  rw [CalcFlag_valid_eq bg fuel cancelAt nPlaces parrBase w0 hv hout,
    Calc_valid_eq bg fuel cancelAt nPlaces parrBase w0 hv hout]
  cases wrapMaskLoop (bg.prepared nPlaces parrBase).m_arrGraySuccessor
      (bg.prepared nPlaces parrBase).m_nGraySuccessors 0 0 with
  | none => rfl
  | some W =>
    simp only
    rw [crawlLoopFlag_eq _ cancelAt fuel 0 _ _ rfl]
    cases crawlLoop (crawlConsts (bg.prepared nPlaces parrBase) W) cancelAt fuel 0
        (crawlStart (bg.prepared nPlaces parrBase))
        (crawlLocals (bg.prepared nPlaces parrBase)) with
    | none => rfl
    | some r =>
      obtain ⟨bgF, locF, nReads⟩ := r
      simp only [Option.map_some']
      rw [atRead_flag]
      rfl

theorem Cancel_CalcFlag (bg : CBalaGray) (fuel : Nat) (cancelAt : Option Nat)
    (nPlaces : Nat) (parrBase : List Nat) (w0 : CWinner)
    (hv : ValidRadix nPlaces parrBase) (hout : bg.fOutGood = true) :
    bg.Cancel.CalcFlag fuel cancelAt (nPlaces : Int) parrBase w0
      = bg.CalcFlag fuel cancelAt (nPlaces : Int) parrBase w0 := by
  rw [CalcFlag_valid_eq bg.Cancel fuel cancelAt nPlaces parrBase w0 hv hout,
    CalcFlag_valid_eq bg fuel cancelAt nPlaces parrBase w0 hv hout]
  rfl

theorem Calc_keeps_thresholds (bg : CBalaGray) (fuel : Nat) (cancelAt : Option Nat)
    (nPlaces : Nat) (parrBase : List Nat) (w0 w : CWinner) (bg1 : CBalaGray)
    (hv : ValidRadix nPlaces parrBase)
    (h : bg.Calc fuel cancelAt (nPlaces : Int) parrBase w0 = .returned true bg1 w) :
    bg1.m_nPruneMaxTrans = bg.m_nPruneMaxTrans ∧ bg1.m_nPruneImbalance = bg.m_nPruneImbalance := by
  obtain ⟨W, bgF, locF, nReads, hW, hL, hfr1, _, _, _⟩ :=
    Calc_returned_true bg fuel cancelAt nPlaces parrBase w0 w bg1 hv h
  have hOK := withNumerals_NumeralsOK bg.Reset nPlaces parrBase hv
  have hctxT : CrawlCtx (crawlConsts (bg.prepared nPlaces parrBase) W)
      (bg.prepared nPlaces parrBase) := start_ctx _ hOK W hW
  have hctx : CrawlCtx (crawlConsts (bg.prepared nPlaces parrBase) W)
      (crawlStart (bg.prepared nPlaces parrBase)) :=
    @CrawlCtx_frame _ (bg.prepared nPlaces parrBase)
      (crawlStart (bg.prepared nPlaces parrBase)) rfl hctxT
  have htop := start_top _ hOK rfl W
  have hbest0 := start_best (bg.prepared nPlaces parrBase) W
  obtain ⟨hfr, _⟩ := crawlLoop_inv _ cancelAt fuel 0 _ _ _ hctx htop hbest0 hL
  obtain ⟨f1, f2⟩ := frame_thresholds hfr
  have g1 := (prepared_thresholds bg nPlaces parrBase).1
  have g2 := (prepared_thresholds bg nPlaces parrBase).2
  have e1 : bg1.frame.m_nPruneMaxTrans = bgF.m_nPruneMaxTrans := by rw [hfr1]; rfl
  have e2 : bg1.frame.m_nPruneImbalance = bgF.m_nPruneImbalance := by rw [hfr1]; rfl
  constructor
  · exact (e1.trans f1).trans g1
  · exact (e2.trans f2).trans g2

theorem CalcAlloc_valid_eq (bg : CBalaGray) (fuel : Nat) (cancelAt : Option Nat)
    (nPlaces : Nat) (parrBase : List Nat) (w0 : CWinner)
    (hv : ValidRadix nPlaces parrBase) (hout : bg.fOutGood = true) :
    bg.CalcAlloc fuel cancelAt (nPlaces : Int) parrBase w0
      = if 32 ≤ (bg.prepared nPlaces parrBase).m_nGrayStrideShift then .threw
        else bg.Calc fuel cancelAt (nPlaces : Int) parrBase w0 := by
  unfold CBalaGray.CalcAlloc
  have h2 := hv.1
  have h8 := hv.2.1
  rw [if_neg (by unfold MAX_PLACES at *; omega), if_neg (by rw [hout]; decide)]
  simp only [Int.toNat_ofNat]
  rw [MakeNumerals_valid bg.Reset nPlaces parrBase hv]
  simp only [CBalaGray.tableAllocFails, decide_eq_true_eq]
  rfl

theorem CalcFlagAlloc_valid_eq (bg : CBalaGray) (fuel : Nat) (cancelAt : Option Nat)
    (nPlaces : Nat) (parrBase : List Nat) (w0 : CWinner)
    (hv : ValidRadix nPlaces parrBase) (hout : bg.fOutGood = true) :
    bg.CalcFlagAlloc fuel cancelAt (nPlaces : Int) parrBase w0
      = if 32 ≤ (bg.prepared nPlaces parrBase).m_nGrayStrideShift then .threw
        else bg.CalcFlag fuel cancelAt (nPlaces : Int) parrBase w0 := by
  unfold CBalaGray.CalcFlagAlloc
  have h2 := hv.1
  have h8 := hv.2.1
  rw [if_neg (by unfold MAX_PLACES at *; omega), if_neg (by rw [hout]; decide)]
  simp only [Int.toNat_ofNat]
  rw [MakeNumerals_valid bg.Reset nPlaces parrBase hv]
  simp only [CBalaGray.tableAllocFails, decide_eq_true_eq]
  rfl

theorem Calc_valid_ne_threw (bg : CBalaGray) (fuel : Nat) (cancelAt : Option Nat)
    (nPlaces : Nat) (parrBase : List Nat) (w0 : CWinner)
    (hv : ValidRadix nPlaces parrBase) (hout : bg.fOutGood = true) :
    bg.Calc fuel cancelAt (nPlaces : Int) parrBase w0 ≠ .threw := by
  rw [Calc_valid_eq bg fuel cancelAt nPlaces parrBase w0 hv hout]
  split
  · simp
  · split <;> simp

theorem CalcAlloc_threw_iff (bg : CBalaGray) (fuel : Nat) (cancelAt : Option Nat)
    (nPlaces : Nat) (parrBase : List Nat) (w0 : CWinner)
    (hv : ValidRadix nPlaces parrBase) (hout : bg.fOutGood = true) :
    bg.CalcAlloc fuel cancelAt (nPlaces : Int) parrBase w0 = .threw
      ↔ 33 ≤ (bg.prepared nPlaces parrBase).m_nGraySuccessors := by
  obtain ⟨_, _, _, _, g5, _⟩ := prepared_geometry bg nPlaces parrBase hv
  rw [CalcAlloc_valid_eq bg fuel cancelAt nPlaces parrBase w0 hv hout]
  by_cases h : 32 ≤ (bg.prepared nPlaces parrBase).m_nGrayStrideShift
  · rw [if_pos h]
    refine ⟨fun _ => ?_, fun _ => rfl⟩
    by_contra hcon
    have := g5.mpr (by omega)
    omega
  · rw [if_neg h]
    refine ⟨fun hC => absurd hC (Calc_valid_ne_threw bg fuel cancelAt nPlaces parrBase w0 hv hout),
      fun hK => ?_⟩
    have := g5.mp (by omega)
    omega

theorem CalcAlloc_of_small (bg : CBalaGray) (fuel : Nat) (cancelAt : Option Nat)
    (nPlaces : Nat) (parrBase : List Nat) (w0 : CWinner)
    (hv : ValidRadix nPlaces parrBase) (hout : bg.fOutGood = true)
    (hK : (bg.prepared nPlaces parrBase).m_nGraySuccessors ≤ 32) :
    bg.CalcAlloc fuel cancelAt (nPlaces : Int) parrBase w0
      = bg.Calc fuel cancelAt (nPlaces : Int) parrBase w0 := by
  obtain ⟨_, _, _, _, g5, _⟩ := prepared_geometry bg nPlaces parrBase hv
  rw [CalcAlloc_valid_eq bg fuel cancelAt nPlaces parrBase w0 hv hout]
  have := g5.mpr hK
  rw [if_neg (by omega)]

theorem CalcAlloc_returned (bg : CBalaGray) (fuel : Nat) (cancelAt : Option Nat)
    (nPlaces : Nat) (parrBase : List Nat) (w0 w : CWinner) (bg1 : CBalaGray) (ok : Bool)
    (hv : ValidRadix nPlaces parrBase) (hout : bg.fOutGood = true)
    (h : bg.CalcAlloc fuel cancelAt (nPlaces : Int) parrBase w0 = .returned ok bg1 w) :
    (bg.prepared nPlaces parrBase).m_nGraySuccessors ≤ 32 ∧
    bg.Calc fuel cancelAt (nPlaces : Int) parrBase w0 = .returned ok bg1 w := by
  have hK : (bg.prepared nPlaces parrBase).m_nGraySuccessors ≤ 32 := by
    by_contra hcon
    have := (CalcAlloc_threw_iff bg fuel cancelAt nPlaces parrBase w0 hv hout).mpr (by omega)
    rw [this] at h
    simp at h
  refine ⟨hK, ?_⟩
  rw [← CalcAlloc_of_small bg fuel cancelAt nPlaces parrBase w0 hv hout hK]
  exact h

theorem pow_base_le (b : Nat) (h2 : 2 ≤ b) (h15 : b ≤ 15) : 15 ^ (b - 1) ≤ b ^ 14 := by
  interval_cases b <;> norm_num

theorem succCount_pow_le (B : List Nat) (m : Nat)
    (hB : ∀ j < m, 2 ≤ B.getD j 0 ∧ B.getD j 0 ≤ 15) :
    15 ^ ((List.range m).foldl (fun n iPlace => n + (B.getD iPlace 0 - 1)) 0)
      ≤ (placeWeight B m) ^ 14 := by
  induction m with
  | zero => simp [placeWeight_zero]
  | succ m ih =>
    rw [List.range_succ, List.foldl_append, placeWeight_succ]
    simp only [List.foldl_cons, List.foldl_nil]
    have h1 := ih (fun j hj => hB j (by omega))
    have h2 := hB m (by omega)
    rw [pow_add, mul_pow]
    exact Nat.mul_le_mul h1 (pow_base_le _ h2.1 h2.2)

theorem succCount_le_of_small_bases (bg : CBalaGray) (nPlaces : Nat) (parrBase : List Nat)
    (hv : ValidRadix nPlaces parrBase) (h15 : ∀ p < nPlaces, parrBase.getD p 0 ≤ 15) :
    (bg.prepared nPlaces parrBase).m_nGraySuccessors ≤ 32 := by
  have e : (bg.prepared nPlaces parrBase).m_nGraySuccessors
      = (List.range nPlaces).foldl
          (fun n iPlace => n + ((firstBases nPlaces parrBase).getD iPlace 0 - 1)) 0 := rfl
  have hp := succCount_pow_le (firstBases nPlaces parrBase) nPlaces (fun j hj => by
    rw [firstBases_getD _ _ _ hj]
    exact ⟨(hv.2.2.1 j hj).1, h15 j hj⟩)
  rw [← e, placeWeight_congr _ parrBase nPlaces (fun p hp => firstBases_getD _ _ _ hp)] at hp
  have hN : placeWeight parrBase nPlaces ≤ 127 := hv.2.2.2
  have h3 : (placeWeight parrBase nPlaces) ^ 14 ≤ 127 ^ 14 := Nat.pow_le_pow_left hN 14
  by_contra hcon
  have h4 : 15 ^ 33 ≤ 15 ^ (bg.prepared nPlaces parrBase).m_nGraySuccessors :=
    Nat.pow_le_pow_right (by norm_num) (by omega)
  have h5 : (127 : Nat) ^ 14 < 15 ^ 33 := by norm_num
  omega

theorem CalcAlloc_true_small (bg : CBalaGray) (fuel : Nat) (cancelAt : Option Nat)
    (nPlaces : Nat) (parrBase : List Nat) (w0 w : CWinner) (bg1 : CBalaGray)
    (hv : ValidRadix nPlaces parrBase)
    (h : bg.CalcAlloc fuel cancelAt (nPlaces : Int) parrBase w0 = .returned true bg1 w) :
    bg.fOutGood = true ∧ (bg.prepared nPlaces parrBase).m_nGraySuccessors ≤ 32 ∧
    bg.Calc fuel cancelAt (nPlaces : Int) parrBase w0 = .returned true bg1 w := by
  have hout : bg.fOutGood = true := by
    by_contra hcon
    have hf : bg.fOutGood = false := by simpa using hcon
    unfold CBalaGray.CalcAlloc at h
    have h2 := hv.1
    have h8 := hv.2.1
    rw [if_neg (by unfold MAX_PLACES at *; omega), if_pos (by rw [hf]; rfl)] at h
    simp at h
  exact ⟨hout, CalcAlloc_returned bg fuel cancelAt nPlaces parrBase w0 w bg1 true hv hout h⟩

/-- C33: `Reset` clears the cancel flag and leaves the pruning thresholds as
they are, so a `Cancel()` issued before `Calc` starts has no effect. With the
flag read from the member `m_bCancel` (where a flag that is set stops the
loop at its first read), `Calc` on a valid radix vector with a good log
stream gives on the object after `Cancel()` exactly what it gives on the
object itself, for every fuel and every moment of a later cancellation, and
this is the result of the model `Calc`; the same holds with the allocation
of the successor table taken into account (`CalcFlagAlloc`, `CalcAlloc`),
where the call ends by the exception of `resize` exactly when `K >= 33`,
with or without the `Cancel()` before. When `K <= 32` and `Cancel()` is not
called while it runs, then with fuel for `(K + 1) ^ N` iterations the call
after `Cancel()` returns, and if it returns true (the wrap mask could be
built) it hands back `proven = true` and leaves the flag clear and the
thresholds as they were. If no base exceeds 15 then `K <= 32`. -/
theorem Cancel_before_Calc (bg : CBalaGray) (fuel : Nat) (cancelAt : Option Nat)
    (nPlaces : Nat) (parrBase : List Nat) (w0 : CWinner)
    (hv : ValidRadix nPlaces parrBase) (hout : bg.fOutGood = true) :
    (bg.Cancel.m_bCancel = true ∧ bg.Cancel.Reset.m_bCancel = false ∧
      bg.Cancel.Reset.m_nPruneMaxTrans = bg.m_nPruneMaxTrans ∧
      bg.Cancel.Reset.m_nPruneImbalance = bg.m_nPruneImbalance ∧
      bg.Cancel.Reset = bg.Reset) ∧
    (∀ (c : CalcConsts) (loc : CalcLocals) (n : Nat),
      crawlLoopFlag c cancelAt (fuel + 1) n bg.Cancel loc = some (bg.Cancel, loc, n + 1)) ∧
    bg.Cancel.CalcFlag fuel cancelAt (nPlaces : Int) parrBase w0
      = bg.CalcFlag fuel cancelAt (nPlaces : Int) parrBase w0 ∧
    bg.Cancel.CalcFlag fuel cancelAt (nPlaces : Int) parrBase w0
      = bg.Calc fuel cancelAt (nPlaces : Int) parrBase w0 ∧
    bg.Cancel.CalcFlagAlloc fuel cancelAt (nPlaces : Int) parrBase w0
      = bg.CalcFlagAlloc fuel cancelAt (nPlaces : Int) parrBase w0 ∧
    bg.Cancel.CalcFlagAlloc fuel cancelAt (nPlaces : Int) parrBase w0
      = bg.CalcAlloc fuel cancelAt (nPlaces : Int) parrBase w0 ∧
    (bg.Cancel.CalcFlagAlloc fuel cancelAt (nPlaces : Int) parrBase w0 = .threw
      ↔ 33 ≤ (bg.prepared nPlaces parrBase).m_nGraySuccessors) ∧
    ((bg.prepared nPlaces parrBase).m_nGraySuccessors ≤ 32 →
      ((bg.prepared nPlaces parrBase).m_nGraySuccessors + 1)
        ^ (bg.prepared nPlaces parrBase).GetNumeralCount ≤ fuel →
      ∃ ok bg1 w, bg.Cancel.CalcFlagAlloc fuel none (nPlaces : Int) parrBase w0
          = .returned ok bg1 w ∧
        (ok = false ↔ wrapMaskLoop (bg.prepared nPlaces parrBase).m_arrGraySuccessor
          (bg.prepared nPlaces parrBase).m_nGraySuccessors 0 0 = none) ∧
        (ok = true → w.m_bIsProven = true ∧ bg1.m_bCancel = false ∧
          bg1.m_nPruneMaxTrans = bg.m_nPruneMaxTrans ∧
          bg1.m_nPruneImbalance = bg.m_nPruneImbalance)) ∧
    ((∀ p < nPlaces, parrBase.getD p 0 ≤ 15) →
      (bg.prepared nPlaces parrBase).m_nGraySuccessors ≤ 32) := by
  have hC : ∀ ca, bg.Cancel.CalcFlag fuel ca (nPlaces : Int) parrBase w0
      = bg.Calc fuel ca (nPlaces : Int) parrBase w0 := fun ca =>
    (Cancel_CalcFlag bg fuel ca nPlaces parrBase w0 hv hout).trans
      (CalcFlag_eq_Calc bg fuel ca nPlaces parrBase w0 hv hout)
  have hprep : bg.Cancel.prepared nPlaces parrBase = bg.prepared nPlaces parrBase := rfl
  have hA : ∀ ca, bg.Cancel.CalcFlagAlloc fuel ca (nPlaces : Int) parrBase w0
      = bg.CalcAlloc fuel ca (nPlaces : Int) parrBase w0 := by
    intro ca
    rw [CalcFlagAlloc_valid_eq bg.Cancel fuel ca nPlaces parrBase w0 hv hout,
      CalcAlloc_valid_eq bg fuel ca nPlaces parrBase w0 hv hout, hprep, hC ca]
  have hF : bg.CalcFlagAlloc fuel cancelAt (nPlaces : Int) parrBase w0
      = bg.CalcAlloc fuel cancelAt (nPlaces : Int) parrBase w0 := by
    rw [CalcFlagAlloc_valid_eq bg fuel cancelAt nPlaces parrBase w0 hv hout,
      CalcAlloc_valid_eq bg fuel cancelAt nPlaces parrBase w0 hv hout,
      CalcFlag_eq_Calc bg fuel cancelAt nPlaces parrBase w0 hv hout]
  refine ⟨⟨rfl, rfl, rfl, rfl, rfl⟩, ?_, Cancel_CalcFlag bg fuel cancelAt nPlaces parrBase w0 hv hout,
    hC cancelAt, (hA cancelAt).trans hF.symm, hA cancelAt, ?_, ?_,
    succCount_le_of_small_bases bg nPlaces parrBase hv⟩
  · intro c loc n
    unfold crawlLoopFlag CBalaGray.atRead
    simp only
    split
    · rw [if_pos (show bg.Cancel.Cancel.m_bCancel = true from rfl)]
      rfl
    · rw [if_pos (show bg.Cancel.m_bCancel = true from rfl)]
  · rw [hA cancelAt]
    exact CalcAlloc_threw_iff bg fuel cancelAt nPlaces parrBase w0 hv hout
  · intro hK hf
    obtain ⟨ok, bg1, w, h1, h2, h3⟩ := Calc_total bg fuel none nPlaces parrBase w0 hv hout hf
    refine ⟨ok, bg1, w, by
      rw [hA none, CalcAlloc_of_small bg fuel none nPlaces parrBase w0 hv hout hK]; exact h1,
      h2, ?_⟩
    intro hok
    subst hok
    obtain ⟨p1, p2⟩ := h3 rfl rfl
    obtain ⟨t1, t2⟩ := Calc_keeps_thresholds bg fuel none nPlaces parrBase w0 w bg1 hv h1
    exact ⟨p1, p2, t1, t2⟩

/-- Witness of C33 on the radix vector (2, 2) with fuel 81 = 3 ^ 4: the call
on the object after `Cancel()` returns true with `proven = true`, and it
returns what the call on the fresh object returns; and on the radix vector
(34, 2), `K = 34`: the call after `Cancel()` ends by the exception, as the
call on the fresh object does. -/
theorem Cancel_before_Calc_witness :
    (ValidRadix 2 [2, 2] ∧ (CBalaGray.new true).fOutGood = true) ∧
    ((CBalaGray.new true).Cancel.CalcFlag 81 none ((2 : Nat) : Int) [2, 2] CWinner.new
        = (CBalaGray.new true).CalcFlag 81 none ((2 : Nat) : Int) [2, 2] CWinner.new ∧
      (CBalaGray.new true).Cancel.CalcFlag 81 none ((2 : Nat) : Int) [2, 2] CWinner.new
        = (CBalaGray.new true).Calc 81 none ((2 : Nat) : Int) [2, 2] CWinner.new ∧
      (CBalaGray.new true).Cancel.CalcFlagAlloc 81 none ((2 : Nat) : Int) [2, 2] CWinner.new
        = (CBalaGray.new true).CalcFlagAlloc 81 none ((2 : Nat) : Int) [2, 2] CWinner.new ∧
      (CBalaGray.new true).Cancel.CalcFlagAlloc 81 none ((2 : Nat) : Int) [2, 2] CWinner.new
        = (CBalaGray.new true).CalcAlloc 81 none ((2 : Nat) : Int) [2, 2] CWinner.new) ∧
    (exampleRunCancelled22.winner.m_bIsProven = true ∧
      exampleRunCancelled22.object.m_bCancel = false ∧
      exampleRunCancelled22 = exampleRun22) ∧
    (exampleCancelledAlloc22.winner.m_bIsProven = true ∧
      exampleCancelledAlloc22.object.m_bCancel = false ∧
      exampleCancelledAlloc22 = exampleRun22) ∧
    (ValidRadix 2 [34, 2] ∧ exampleCancelled34x2 = .threw ∧
      ((CBalaGray.new true).Cancel.CalcFlagAlloc 0 none ((2 : Nat) : Int) [34, 2] CWinner.new
        = (CBalaGray.new true).CalcAlloc 0 none ((2 : Nat) : Int) [34, 2] CWinner.new)) :=
  ⟨⟨by decide, by decide⟩,
    ⟨(Cancel_before_Calc (CBalaGray.new true) 81 none 2 [2, 2] CWinner.new (by decide)
        (by decide)).2.2.1,
      (Cancel_before_Calc (CBalaGray.new true) 81 none 2 [2, 2] CWinner.new (by decide)
        (by decide)).2.2.2.1,
      (Cancel_before_Calc (CBalaGray.new true) 81 none 2 [2, 2] CWinner.new (by decide)
        (by decide)).2.2.2.2.1,
      (Cancel_before_Calc (CBalaGray.new true) 81 none 2 [2, 2] CWinner.new (by decide)
        (by decide)).2.2.2.2.2.1⟩,
    ⟨by decide, by decide, by decide⟩, ⟨by decide, by decide, by decide⟩,
    ⟨by decide, by decide,
      (Cancel_before_Calc (CBalaGray.new true) 0 none 2 [34, 2] CWinner.new (by decide)
        (by decide)).2.2.2.2.2.1⟩⟩

/-- C31: bounds of the crawl of `Calc` on a valid radix vector. The successor
count `K` is at most `2 ^ nGrayStrideShift`, the table has
`N << nGrayStrideShift` entries and two offsets
`(row << nGrayStrideShift) + column` with columns below `K` coincide only
for the same row and column, so rows do not overlap. At the top of every
iteration of the crawl the depth lies between the start depth and `N - 1`,
the state stack has `N` levels, the column read is below `K` (so the entry
read is a successor entry, not padding, and incrementing the column stays
within 8 bits), the row is below `N`, the offset read is below the table
size, the entry read is below `N`, and the stored and the wrap-adjusted
transition counts are at most `N`, within 8 bits. The shift count is below
32, the width of the `int` that the code shifts, exactly when `K <= 32`,
and then the table size is below `2 ^ 31`. A call reaches the crawl (it
returns true) only when `K <= 32`: then the shift count is at most 16 and
every shift of the code has the value computed here; for `K >= 33` the
allocation of the table fails and no crawl takes place. -/
theorem crawl_accesses_in_bounds (bg : CBalaGray) (nPlaces : Nat) (parrBase : List Nat)
    (hv : ValidRadix nPlaces parrBase) :
    ((bg.prepared nPlaces parrBase).GetNumeralCount ≤ 127 ∧
      (bg.prepared nPlaces parrBase).m_nGraySuccessors + 1
        ≤ (bg.prepared nPlaces parrBase).GetNumeralCount ∧
      (bg.prepared nPlaces parrBase).m_nGraySuccessors
        ≤ 2 ^ (bg.prepared nPlaces parrBase).m_nGrayStrideShift ∧
      (bg.prepared nPlaces parrBase).m_arrGraySuccessor.length
        = (bg.prepared nPlaces parrBase).GetNumeralCount
          <<< (bg.prepared nPlaces parrBase).m_nGrayStrideShift) ∧
    (∀ i j a b, a < (bg.prepared nPlaces parrBase).m_nGraySuccessors →
      b < (bg.prepared nPlaces parrBase).m_nGraySuccessors →
      (i <<< (bg.prepared nPlaces parrBase).m_nGrayStrideShift) + a
        = (j <<< (bg.prepared nPlaces parrBase).m_nGrayStrideShift) + b → i = j ∧ a = b) ∧
    (((bg.prepared nPlaces parrBase).m_nGrayStrideShift < 32
        ↔ (bg.prepared nPlaces parrBase).m_nGraySuccessors ≤ 32) ∧
      ((bg.prepared nPlaces parrBase).m_nGraySuccessors ≤ 32 →
        (bg.prepared nPlaces parrBase).GetNumeralCount
          <<< (bg.prepared nPlaces parrBase).m_nGrayStrideShift < 2 ^ 31) ∧
      (33 ≤ (bg.prepared nPlaces parrBase).m_nGraySuccessors →
        32 ≤ (bg.prepared nPlaces parrBase).m_nGrayStrideShift)) ∧
    (∀ (n : Nat) (c : CalcConsts) (bgn : CBalaGray) (locn : CalcLocals),
      bg.crawlTop nPlaces parrBase n = some (c, bgn, locn) →
      (c.nNumerals = (bg.prepared nPlaces parrBase).GetNumeralCount ∧
        c.nGraySuccessors = (bg.prepared nPlaces parrBase).m_nGraySuccessors ∧
        c.nGrayStrideShift = (bg.prepared nPlaces parrBase).m_nGrayStrideShift ∧
        bgn.m_arrGraySuccessor = (bg.prepared nPlaces parrBase).m_arrGraySuccessor ∧
        bgn.m_arrState.length = c.nNumerals) ∧
      (c.nStartDepth ≤ locn.iDepth ∧ locn.iDepth + 1 ≤ c.nNumerals) ∧
      ((bgn.state locn.iDepth).iGray < c.nGraySuccessors ∧
        (bgn.state locn.iDepth).iGray + 1 < 256 ∧
        (bgn.state (locn.iDepth - 1)).iNum < c.nNumerals ∧
        ((bgn.state (locn.iDepth - 1)).iNum <<< c.nGrayStrideShift)
          + (bgn.state locn.iDepth).iGray < bgn.m_arrGraySuccessor.length ∧
        candidateNum c bgn locn < c.nNumerals) ∧
      ((∀ t < locn.iDepth, ∀ p < nPlaces, (bgn.state t).nTrans.b p ≤ t) ∧
        (∀ p < nPlaces, stepWrapCount bgn locn.iDepth (candidateNum c bgn locn) p
          ≤ locn.iDepth + 1) ∧
        locn.iDepth + 1 < 256)) ∧
    (∀ (fuel : Nat) (cancelAt : Option Nat) (w0 w : CWinner) (bg1 : CBalaGray),
      bg.CalcAlloc fuel cancelAt (nPlaces : Int) parrBase w0 = .returned true bg1 w →
      (bg.prepared nPlaces parrBase).m_nGraySuccessors ≤ 32 ∧
      (bg.prepared nPlaces parrBase).m_nGrayStrideShift ≤ 16 ∧
      (bg.prepared nPlaces parrBase).GetNumeralCount
        <<< (bg.prepared nPlaces parrBase).m_nGrayStrideShift < 2 ^ 31) := by
  obtain ⟨g1, g2, g3, g4, g5, g6⟩ := prepared_geometry bg nPlaces parrBase hv
  refine ⟨⟨g1, g2, g3, g4⟩, ?_, ⟨g5, g6, fun h => ?_⟩, ?_, ?_⟩
  · intro i j a b ha hb h
    exact offsets_distinct _ i j a b (Nat.lt_of_lt_of_le ha g3) (Nat.lt_of_lt_of_le hb g3) h
  · by_contra hcon
    have := g5.mp (by omega)
    omega
  · intro n c bgn locn h
    obtain ⟨W, hW, hc, hfr, hctx, ⟨hpath, hgrayc⟩, _⟩ :=
      crawlTop_inv bg nPlaces parrBase n c bgn locn hv h
    have hpl : bgn.m_nPlaces = nPlaces := frame_places hfr
    have htab : bgn.m_arrGraySuccessor = (bg.prepared nPlaces parrBase).m_arrGraySuccessor :=
      frame_table hfr
    have hN : c.nNumerals = (bg.prepared nPlaces parrBase).GetNumeralCount := by rw [hc]; rfl
    have hK : c.nGraySuccessors = (bg.prepared nPlaces parrBase).m_nGraySuccessors := by
      rw [hc]; rfl
    have hS : c.nGrayStrideShift = (bg.prepared nPlaces parrBase).m_nGrayStrideShift := by
      rw [hc]; rfl
    have hd2 := hpath.hd2
    have hdN := hpath.hdN
    have hprev := hpath.hlt (locn.iDepth - 1) (by omega)
    have hrow := (hctx.hrow _ hprev _ hgrayc).1
    refine ⟨⟨hN, hK, hS, htab, hpath.hlen⟩, ⟨by rw [hctx.hStart]; exact hd2, by omega⟩,
      ⟨hgrayc, by omega, hprev, ?_, hrow⟩, ⟨?_, ?_, by omega⟩⟩
    · rw [htab, g4, hS, Nat.shiftLeft_eq, Nat.shiftLeft_eq]
      have hcol : (bgn.state locn.iDepth).iGray
          < 2 ^ (bg.prepared nPlaces parrBase).m_nGrayStrideShift := by omega
      have hr1 : (bgn.state (locn.iDepth - 1)).iNum + 1
          ≤ (bg.prepared nPlaces parrBase).GetNumeralCount := by omega
      have := Nat.mul_le_mul_right (2 ^ (bg.prepared nPlaces parrBase).m_nGrayStrideShift) hr1
      rw [Nat.add_mul, Nat.one_mul] at this
      omega
    · intro t ht p hp
      rw [(hpath.htrans t ht).2 p (by rw [hpl]; exact hp)]
      exact pathCount_le bgn t p
    · intro p hp
      unfold stepWrapCount stepCount
      rw [(hpath.htrans (locn.iDepth - 1) (by omega)).2 p (by rw [hpl]; exact hp)]
      have := pathCount_le bgn (locn.iDepth - 1) p
      split <;> split <;> omega
  · intro fuel cancelAt w0 w bg1 h
    obtain ⟨_, hK, _⟩ := CalcAlloc_true_small bg fuel cancelAt nPlaces parrBase w0 w bg1 hv h
    refine ⟨hK, ?_, g6 hK⟩
    have e : (bg.prepared nPlaces parrBase).m_nGrayStrideShift
        = grayStrideShift (bg.prepared nPlaces parrBase).m_nGraySuccessors := rfl
    rw [e]
    exact shift_le_sixteen _ (by omega) hK

/-- Witness of C31 on the radix vector (2, 5): `N = 10`, `K = 5`, the shift
count that `MakeGraySuccessorTable` stores is 4, so the rows are 16 entries
apart; and on the radix vector (2, 2) at the top of iteration 3 of the
crawl, the bounds of the access to the table. -/
theorem crawl_accesses_in_bounds_witness :
    (ValidRadix 2 [2, 5] ∧ ValidRadix 2 [2, 2] ∧
      (CBalaGray.new true).crawlTop 2 [2, 2] 3
        = some (crawlConsts ((CBalaGray.new true).prepared 2 [2, 2]) 6,
            exampleIter22.1, exampleIter22.2)) ∧
    (((CBalaGray.new true).prepared 2 [2, 5]).GetNumeralCount = 10 ∧
      ((CBalaGray.new true).prepared 2 [2, 5]).m_nGraySuccessors = 5 ∧
      ((CBalaGray.new true).prepared 2 [2, 5]).m_nGrayStrideShift = 4) ∧
    (((CBalaGray.new true).prepared 2 [2, 5]).GetNumeralCount ≤ 127 ∧
      ((CBalaGray.new true).prepared 2 [2, 5]).m_nGraySuccessors + 1
        ≤ ((CBalaGray.new true).prepared 2 [2, 5]).GetNumeralCount ∧
      ((CBalaGray.new true).prepared 2 [2, 5]).m_nGraySuccessors
        ≤ 2 ^ ((CBalaGray.new true).prepared 2 [2, 5]).m_nGrayStrideShift ∧
      ((CBalaGray.new true).prepared 2 [2, 5]).m_arrGraySuccessor.length
        = ((CBalaGray.new true).prepared 2 [2, 5]).GetNumeralCount
          <<< ((CBalaGray.new true).prepared 2 [2, 5]).m_nGrayStrideShift) ∧
    ((exampleIter22.1.state exampleIter22.2.iDepth).iGray
        < (crawlConsts ((CBalaGray.new true).prepared 2 [2, 2]) 6).nGraySuccessors ∧
      (exampleIter22.1.state exampleIter22.2.iDepth).iGray + 1 < 256 ∧
      (exampleIter22.1.state (exampleIter22.2.iDepth - 1)).iNum
        < (crawlConsts ((CBalaGray.new true).prepared 2 [2, 2]) 6).nNumerals ∧
      ((exampleIter22.1.state (exampleIter22.2.iDepth - 1)).iNum
          <<< (crawlConsts ((CBalaGray.new true).prepared 2 [2, 2]) 6).nGrayStrideShift)
        + (exampleIter22.1.state exampleIter22.2.iDepth).iGray
          < exampleIter22.1.m_arrGraySuccessor.length ∧
      candidateNum (crawlConsts ((CBalaGray.new true).prepared 2 [2, 2]) 6)
        exampleIter22.1 exampleIter22.2
        < (crawlConsts ((CBalaGray.new true).prepared 2 [2, 2]) 6).nNumerals) :=
  ⟨⟨by decide, by decide, by decide⟩, ⟨by decide, by decide, by decide⟩,
    (crawl_accesses_in_bounds (CBalaGray.new true) 2 [2, 5] (by decide)).1,
    ((crawl_accesses_in_bounds (CBalaGray.new true) 2 [2, 2] (by decide)).2.2.2.1 3 _
      exampleIter22.1 exampleIter22.2 (by decide)).2.2.1⟩

end BalaGray
